import Mathlib

/-! TerarkZipTable reader

A shallow embedding of `table/terark_zip_table_reader.cc` and a verification of the
properties its specification states about it.

Conventions of the embedding.

* A byte string (`Slice`, `fstring`, `valvec<byte_t>`) is a `List UInt8`.
* `size_t` and `uint64_t` values are natural numbers; a mask or a shift is written out
  where the source has one.
* A function of the source whose behaviour is undefined on some inputs (a read past the
  end of a buffer, a null pointer that is dereferenced) returns an `Option`, and `none`
  stands for exactly those inputs.
* A callback with side effects (`GetContext::SaveValue`) is a transition function on an
  explicit state; the calls made are also recorded, in order, in a ghost log.
* The embedding is that of a release build: an `assert` is not executed.
* A method of an iterator maps the state of the iterator to the new state, in
  `Except Fault`: a `Fault` is a read out of bounds or a call of `abort()`. A virtual
  method is a function that dispatches on the class of the iterator, `IteratorClass`.
* A loop is a recursion on a fuel argument; the theorems state how much fuel is enough.
-/

namespace TerarkZip

/-- Byte strings. -/
abbrev Bytes := List UInt8

/-! ## Keys, sequence numbers, value types -/

/-- Status codes of `rocksdb::Status` that the reader produces (messages are dropped). -/
inductive Status where
  | OK
  | InvalidArgument
  | Corruption
  | Aborted
deriving DecidableEq, Repr

/-- Modelled from the spec: `kMaxSequenceNumber` of the absent `db/dbformat.h`,
`MAX_SEQ = (1<<56)-1`. -/
def kMaxSequenceNumber : Nat := 2 ^ 56 - 1

/-- Modelled from the spec: the value-type tag `DELETE` of the absent `db/dbformat.h`
(`kTypeDeletion`). -/
def kTypeDeletion : Nat := 0

/-- Modelled from the spec: the value-type tag `PUT` of the absent `db/dbformat.h`
(`kTypeValue`). -/
def kTypeValue : Nat := 1

/-- Modelled from the spec: the value-type tag `MERGE` of the absent `db/dbformat.h`
(`kTypeMerge`). -/
def kTypeMerge : Nat := 2

/-- Modelled from the spec: the sentinel tag `kMaxValue` of the absent `db/dbformat.h`,
stored in the parsed key of an invalid iterator. -/
def kMaxValue : Nat := 0x7F

/-- The struct `ParsedInternalKey`: `(user_key, sequence, type)`. -/
structure ParsedInternalKey where
  user_key : Bytes
  sequence : Nat
  type : Nat
deriving DecidableEq, Repr

/-- Little-endian value of the first `n` bytes of a buffer. A byte that the buffer
does not hold counts as zero. -/
def loadLE : Nat → Bytes → Nat
  | 0, _ => 0
  | _ + 1, [] => 0
  | n + 1, b :: bs => b.toNat + 256 * loadLE n bs

/-- Modelled from the spec: `DecodeFixed64` of the absent `util/coding.h`, also the
load `*(uint64_t*)p` and `unaligned_load<uint64_t>(p)` on the little-endian host the
reader is built for: the little-endian 64-bit word at the start of the buffer. -/
def DecodeFixed64 (b : Bytes) : Nat := loadLE 8 b

/-- Modelled from the spec: `UnPackSequenceAndType` of the absent `db/dbformat.h`:
the low 8 bits of `packed8` hold the value-type tag, the upper 56 bits the sequence
number. The result is `(sequence, type)`. -/
def UnPackSequenceAndType (packed : Nat) : Nat × Nat := (packed / 256, packed % 256)

/-- Modelled from the spec: `ParseInternalKey` of the absent `db/dbformat.h`. An
internal key is `user_key || packed8`; parsing fails when the key is shorter than 8
bytes. The check the real function makes on the parsed type tag is the parameter
`validType` (the spec makes none: `fun _ => true`). -/
def ParseInternalKey (validType : Nat → Bool) (internal_key : Bytes) :
    Option ParsedInternalKey :=
  let n := internal_key.length
  if n < 8 then none
  else
    let num := DecodeFixed64 (internal_key.drop (n - 8))
    let st := UnPackSequenceAndType num
    if validType st.2 then some ⟨internal_key.take (n - 8), st.1, st.2⟩ else none

/-- Modelled from the spec: `Slice::difference_offset` of the absent `rocksdb/slice.h`
(the same function as `fstring::commonPrefixLen`): the length of the longest common
prefix of two byte strings. -/
def difference_offset : Bytes → Bytes → Nat
  | a :: as, b :: bs => if a = b then difference_offset as bs + 1 else 0
  | _, _ => 0

/-- The function `byte_swap` on a 64-bit word held as its 8 bytes in memory order. -/
def byte_swap (w : Bytes) : Bytes := w.reverse

/-! ## The collaborators of a segment -/

/-- Modelled from the spec: the external index (`TerarkIndex`), a sorted set of key
suffixes with an ordered cursor. `entries` lists the keys in cursor order, each with
its record id. -/
structure TerarkIndex where
  entries : List (Bytes × Nat)

/-- Modelled from the spec: `TerarkIndex::Find`, the record id of a key of the set;
`none` is the `size_t(-1)` of a key that is not in the set. -/
def TerarkIndex.Find (index : TerarkIndex) (key : Bytes) : Option Nat :=
  (index.entries.find? (fun e => e.1 == key)).map (fun e => e.2)

/-- Modelled from the spec: `TerarkIndex::NumKeys`. -/
def TerarkIndex.NumKeys (index : TerarkIndex) : Nat := index.entries.length

/-- Modelled from the spec: the external blob store. `get_record_append recId` is the
payload of the record, or `none` when the fetch raises a checksum exception. -/
structure BlobStore where
  get_record_append : Nat → Option Bytes

/-- Modelled from the spec: the `MultiValue` frame (`ZipValueMultiValue` of the absent
`terark_zip_internal.h`). `decode` yields the version records of a payload, newest
first, each one a byte string that starts with its `packed8`: `num` is the length of
the list and `getValueData(i, num)` its `i`-th element. -/
structure ZipValueMultiValue where
  decode : Bytes → List Bytes

/-- Modelled from the spec: the tag `ZeroSeq` of `ZipValueType` (absent
`terark_zip_internal.h`), as stored in the 2-bit type vector. -/
def kZeroSeq : Nat := 0

/-- Modelled from the spec: the tag `Delete` of `ZipValueType`. -/
def kDelete : Nat := 1

/-- Modelled from the spec: the tag `Value` of `ZipValueType`. -/
def kValue : Nat := 2

/-- Modelled from the spec: the tag `Multi` of `ZipValueType`. -/
def kMulti : Nat := 3

/-- The struct `TerarkZipSegment`: one (index, blob store, type vector, common prefix,
partition prefix) unit. `type_` holds one tag per record, or is empty. -/
structure TerarkZipSegment where
  segmentIndex_ : Nat
  prefix_ : Bytes
  commonPrefix_ : Bytes
  index_ : TerarkIndex
  store_ : BlobStore
  type_ : List Nat

/-- The tag of a record: `type_.size() ? ZipValueType(type_[recId]) : kZeroSeq`.
`none` is a read past the end of a non-empty type vector. -/
def TerarkZipSegment.zvType (seg : TerarkZipSegment) (recId : Nat) : Option Nat :=
  if seg.type_.length ≠ 0 then seg.type_[recId]? else some kZeroSeq

/-! ## Point lookup: `TerarkZipSegment::Get` -/

/-- The visitor `GetContext`: `SaveValue` maps the state of the context and a
`(parsed key, value)` pair to the new state and the flag "more values wanted". -/
structure GetContext (σ : Type) where
  SaveValue : σ → ParsedInternalKey → Bytes → σ × Bool

/-- One invocation of `SaveValue`. -/
structure SaveCall where
  key : ParsedInternalKey
  value : Bytes
deriving DecidableEq, Repr

/-- What a `Get` leaves behind: the status returned, the final state of the visitor,
and three ghost logs: the `SaveValue` invocations in order, the keys passed to
`index_->Find`, and the record ids fetched from the blob store. -/
structure GetOutcome (σ : Type) where
  status : Status
  ctx : σ
  calls : List SaveCall
  finds : List Bytes
  fetches : List Nat
deriving DecidableEq, Repr

/-- The loop of the `kMulti` case of `TerarkZipSegment::Get` over the versions
`getValueData(i, num)`, `i = 0 .. num-1`. The result is the visitor state and the
invocations made; `none` is a version record shorter than its `packed8`. -/
def TerarkZipSegment.GetMulti {σ : Type} (get_context : GetContext σ)
    (pikey : ParsedInternalKey) : List Bytes → σ → Option (σ × List SaveCall)
  | [], st => some (st, [])
  | val :: rest, st =>
    if val.length < 8 then none
    else
      let snt := DecodeFixed64 val
      let sn := (UnPackSequenceAndType snt).1
      let valtype := (UnPackSequenceAndType snt).2
      if sn ≤ pikey.sequence then
        let key : ParsedInternalKey := ⟨pikey.user_key, sn, valtype⟩
        let r := get_context.SaveValue st key (val.drop 8)
        if r.2 = false then some (r.1, [⟨key, val.drop 8⟩])
        else
          (TerarkZipSegment.GetMulti get_context pikey rest r.1).map
            (fun o => (o.1, ⟨key, val.drop 8⟩ :: o.2))
      else TerarkZipSegment.GetMulti get_context pikey rest st

/-- The key that `TerarkZipSegment::Get` looks up: the parsed user key, or with
`FlagUint64Comparator` the byte-swapped 64-bit word at the start of the internal key. -/
def TerarkZipSegment.GetUserKey (uint64Comparator : Bool) (ikey : Bytes)
    (pikey : ParsedInternalKey) : Bytes :=
  if uint64Comparator then byte_swap (ikey.take 8) else pikey.user_key

/-- The switch of `TerarkZipSegment::Get` on the tag of the record found, applied to
the payload `g_tbuf` fetched from the store. The result is the status, the visitor
state and the invocations made; `none` is a read past the end of the payload. -/
def TerarkZipSegment.GetDecode {σ : Type} (mv : ZipValueMultiValue) (global_seqno : Nat)
    (get_context : GetContext σ) (pikey : ParsedInternalKey) (zvType : Nat)
    (g_tbuf : Bytes) (st : σ) : Option (Status × σ × List SaveCall) :=
  if zvType = kZeroSeq then
    let key : ParsedInternalKey := ⟨pikey.user_key, global_seqno, kTypeValue⟩
    some (Status.OK, (get_context.SaveValue st key g_tbuf).1, [⟨key, g_tbuf⟩])
  else if zvType = kValue then
    if g_tbuf.length < 7 then none
    else
      let seq := DecodeFixed64 g_tbuf &&& kMaxSequenceNumber
      if seq ≤ pikey.sequence then
        let key : ParsedInternalKey := ⟨pikey.user_key, seq, kTypeValue⟩
        some (Status.OK, (get_context.SaveValue st key (g_tbuf.drop 7)).1,
          [⟨key, g_tbuf.drop 7⟩])
      else some (Status.OK, st, [])
  else if zvType = kDelete then
    if g_tbuf.length < 7 then none
    else
      let seq := DecodeFixed64 g_tbuf &&& kMaxSequenceNumber
      if seq ≤ pikey.sequence then
        let key : ParsedInternalKey := ⟨pikey.user_key, seq, kTypeDeletion⟩
        some (Status.OK, (get_context.SaveValue st key []).1, [⟨key, []⟩])
      else some (Status.OK, st, [])
  else if zvType = kMulti then
    (TerarkZipSegment.GetMulti get_context pikey (mv.decode g_tbuf) st).map
      (fun o => (Status.OK, o.1, o.2))
  else some (Status.Aborted, st, [])

/-- The function `TerarkZipSegment::Get`. `uint64Comparator` is the bit
`flag & FlagUint64Comparator`; `st` is the state of the visitor on entry. `none` is a
read out of bounds: a key shorter than `cplen + prefix_.size()`, a record id past the
end of the type vector, or a payload shorter than its header. The thread-local buffer
`g_tbuf` is emptied before each fetch and has no effect on the result. -/
def TerarkZipSegment.Get {σ : Type} (validType : Nat → Bool) (mv : ZipValueMultiValue)
    (seg : TerarkZipSegment) (global_seqno : Nat) (ikey : Bytes)
    (get_context : GetContext σ) (st : σ) (uint64Comparator : Bool) :
    Option (GetOutcome σ) :=
  match ParseInternalKey validType ikey with
  | none => some ⟨Status.InvalidArgument, st, [], [], []⟩
  | some pikey =>
    let user_key := TerarkZipSegment.GetUserKey uint64Comparator ikey pikey
    let cplen := difference_offset user_key seg.commonPrefix_
    if seg.commonPrefix_.length ≠ cplen then some ⟨Status.OK, st, [], [], []⟩
    else if user_key.length < cplen + seg.prefix_.length then none
    else
      let key := user_key.drop (cplen + seg.prefix_.length)
      match seg.index_.Find key with
      | none => some ⟨Status.OK, st, [], [key], []⟩
      | some recId =>
        match seg.zvType recId with
        | none => none
        | some zvType =>
          match seg.store_.get_record_append recId with
          | none => some ⟨Status.Corruption, st, [], [key], [recId]⟩
          | some g_tbuf =>
            (TerarkZipSegment.GetDecode mv global_seqno get_context pikey zvType g_tbuf st).map
              (fun o => ⟨o.1, o.2.1, o.2.2, [key], [recId]⟩)

/-- The lookup steps of `TerarkZipSegment::Get` (from `ParseInternalKey` to
`index_->Find`) all pass and resolve the internal key to the record `recId`. -/
def TerarkZipSegment.Locates (validType : Nat → Bool) (seg : TerarkZipSegment)
    (ikey : Bytes) (uint64Comparator : Bool) (pikey : ParsedInternalKey) (recId : Nat) :
    Prop :=
  ParseInternalKey validType ikey = some pikey ∧
  seg.commonPrefix_.length =
    difference_offset (TerarkZipSegment.GetUserKey uint64Comparator ikey pikey)
      seg.commonPrefix_ ∧
  seg.commonPrefix_.length + seg.prefix_.length ≤
    (TerarkZipSegment.GetUserKey uint64Comparator ikey pikey).length ∧
  seg.index_.Find ((TerarkZipSegment.GetUserKey uint64Comparator ikey pikey).drop
    (seg.commonPrefix_.length + seg.prefix_.length)) = some recId

instance (validType : Nat → Bool) (seg : TerarkZipSegment) (ikey : Bytes) (u64 : Bool)
    (pikey : ParsedInternalKey) (recId : Nat) :
    Decidable (seg.Locates validType ikey u64 pikey recId) := by
  unfold TerarkZipSegment.Locates
  exact inferInstance

/-- The key handed to `index_->Find` by `TerarkZipSegment::Get`. -/
def TerarkZipSegment.FindKey (seg : TerarkZipSegment) (uint64Comparator : Bool)
    (ikey : Bytes) (pikey : ParsedInternalKey) : Bytes :=
  (TerarkZipSegment.GetUserKey uint64Comparator ikey pikey).drop
    (seg.commonPrefix_.length + seg.prefix_.length)

/-- The invocation of `SaveValue` that the `kMulti` loop of `Get` makes for a version
record `val`: the caller's user key, the sequence and type unpacked from the `packed8`
in front of the record, and the rest of the record as value. -/
def versionCall (user_key : Bytes) (val : Bytes) : SaveCall :=
  ⟨⟨user_key, (UnPackSequenceAndType (DecodeFixed64 val)).1,
    (UnPackSequenceAndType (DecodeFixed64 val)).2⟩, val.drop 8⟩

/-- The embedded sequence number of a version record. -/
def versionSeq (val : Bytes) : Nat := (UnPackSequenceAndType (DecodeFixed64 val)).1

/-- The specification of the `Multi` case, first half: the versions whose embedded
sequence is at most the caller sequence, in index order. -/
def visibleVersions (seq : Nat) (versions : List Bytes) : List Bytes :=
  versions.filter (fun val => decide (versionSeq val ≤ seq))

/-- The specification of the `Multi` case, second half: invoke the visitor on the
candidates in order and stop right after the first invocation that returns
"no more". The result is the final visitor state and the invocations made. -/
def visitUntilNoMore {σ : Type} (get_context : GetContext σ) :
    σ → List SaveCall → σ × List SaveCall
  | st, [] => (st, [])
  | st, c :: cs =>
    if (get_context.SaveValue st c.key c.value).2 = false then
      ((get_context.SaveValue st c.key c.value).1, [c])
    else
      ((visitUntilNoMore get_context (get_context.SaveValue st c.key c.value).1 cs).1,
        c :: (visitUntilNoMore get_context (get_context.SaveValue st c.key c.value).1 cs).2)

/-! ## The iterator: fetching and decoding the record under the cursor -/

/-- What stops an iterator operation short of returning: a read out of bounds, or the
call of `abort()` in the `default` branch of `DecodeCurrKeyValueInternal`. -/
inductive Fault where
  | OutOfBounds
  | Abort
deriving DecidableEq, Repr

/-- The state of a `TerarkZipTableIterator` over one segment. `iter_` is the position
of the index cursor in `index_.entries` (`none`: the cursor is invalid). `valueBuf_`
holds the payload fetched (for a `Multi` record without the 4-byte slot in front of
it). `pinning` is `pinned_iters_mgr_ && pinned_iters_mgr_->PinningEnabled()`.
`segment_` is read and written by the multi-segment iterator only: the index of the
current segment in `segments_`, `none` for `nullptr` (the single-segment iterators keep
the segment they were built on, which is a parameter of their methods). -/
structure TerarkZipTableIterator where
  iter_ : Option Nat
  global_seqno_ : Nat
  pInterKey_ : ParsedInternalKey
  interKeyBuf_xx_ : Bytes
  valueBuf_ : Bytes
  userValue_ : Bytes
  zValtype_ : Nat
  valnum_ : Nat
  validx_ : Nat
  status_ : Status
  pinning : Bool
  pinned_buffer_ : List Bytes
  segment_ : Option Nat := none
deriving DecidableEq, Repr

/-- The method `Valid`: `iter_->Valid()`. -/
def TerarkZipTableIterator.Valid (it : TerarkZipTableIterator) : Bool := it.iter_.isSome

/-- The call `TryPinBuffer(interKeyBuf_xx_)`: with pinning enabled the buffer is moved
to the retained list and an empty one takes its place. -/
def TerarkZipTableIterator.TryPinInterKeyBuf (it : TerarkZipTableIterator) :
    TerarkZipTableIterator :=
  if it.pinning then
    { it with pinned_buffer_ := it.pinned_buffer_ ++ [it.interKeyBuf_xx_], interKeyBuf_xx_ := [] }
  else it

/-- The call `TryPinBuffer(valueBuf_)`. -/
def TerarkZipTableIterator.TryPinValueBuf (it : TerarkZipTableIterator) :
    TerarkZipTableIterator :=
  if it.pinning then
    { it with pinned_buffer_ := it.pinned_buffer_ ++ [it.valueBuf_], valueBuf_ := [] }
  else it

/-- The method `SetIterInvalid` of the single-segment iterator. -/
def TerarkZipTableIterator.SetIterInvalid (it : TerarkZipTableIterator) :
    TerarkZipTableIterator :=
  { it.TryPinInterKeyBuf with
    iter_ := none
    validx_ := 0
    valnum_ := 0
    pInterKey_ := ⟨[], 2 ^ 64 - 1, kMaxValue⟩ }

/-- The method `UnzipIterRecord`: fetch the record under the cursor. The result is the
new state and the flag returned. What a fetch that fails leaves in `valueBuf_` is not
specified; the buffer is empty here. -/
def TerarkZipTableIterator.UnzipIterRecord (mv : ZipValueMultiValue) (seg : TerarkZipSegment)
    (it : TerarkZipTableIterator) (hasRecord : Bool) :
    Except Fault (TerarkZipTableIterator × Bool) :=
  if hasRecord then
    match it.iter_.bind (fun pos => seg.index_.entries[pos]?) with
    | none => Except.error Fault.OutOfBounds
    | some entry =>
      let recId := entry.2
      match seg.zvType recId with
      | none => Except.error Fault.OutOfBounds
      | some zValtype =>
        let it1 := { it with zValtype_ := zValtype }.TryPinValueBuf
        match seg.store_.get_record_append recId with
        | none =>
          Except.ok ({ { it1 with valueBuf_ := [] }.SetIterInvalid with
            status_ := Status.Corruption }, false)
        | some payload =>
          let valnum := if zValtype = kMulti then (mv.decode payload).length else 1
          Except.ok ({ it1 with
            valueBuf_ := payload
            valnum_ := valnum
            validx_ := 0
            pInterKey_ := { it1.pInterKey_ with user_key := entry.1 } }, true)
  else Except.ok (it.SetIterInvalid, false)

/-- The method `DecodeCurrKeyValueInternal`: decode version `validx_` of the payload in
`valueBuf_` into `pInterKey_.sequence`, `pInterKey_.type` and `userValue_`. -/
def TerarkZipTableIterator.DecodeCurrKeyValueInternal (mv : ZipValueMultiValue)
    (it : TerarkZipTableIterator) : Except Fault TerarkZipTableIterator :=
  if it.zValtype_ = kZeroSeq then
    Except.ok { it with
      pInterKey_ := { it.pInterKey_ with sequence := it.global_seqno_, type := kTypeValue }
      userValue_ := it.valueBuf_ }
  else if it.zValtype_ = kValue then
    if it.valueBuf_.length < 7 then Except.error Fault.OutOfBounds
    else
      Except.ok { it with
        pInterKey_ := { it.pInterKey_ with
          sequence := DecodeFixed64 it.valueBuf_ &&& kMaxSequenceNumber, type := kTypeValue }
        userValue_ := it.valueBuf_.drop 7 }
  else if it.zValtype_ = kDelete then
    if it.valueBuf_.length < 7 then Except.error Fault.OutOfBounds
    else
      Except.ok { it with
        pInterKey_ := { it.pInterKey_ with
          sequence := DecodeFixed64 it.valueBuf_ &&& kMaxSequenceNumber, type := kTypeDeletion }
        userValue_ := [] }
  else if it.zValtype_ = kMulti then
    match (mv.decode it.valueBuf_)[it.validx_]? with
    | none => Except.error Fault.OutOfBounds
    | some d =>
      if d.length < 8 then Except.error Fault.OutOfBounds
      else
        let st := UnPackSequenceAndType (DecodeFixed64 d)
        Except.ok { it with
          pInterKey_ := { it.pInterKey_ with sequence := st.1, type := st.2 }
          userValue_ := d.drop 8 }
  else Except.error Fault.Abort

/-- Little-endian bytes of the low `8 * n` bits of a number. -/
def storeLE : Nat → Nat → Bytes
  | 0, _ => []
  | n + 1, v => UInt8.ofNat (v % 256) :: storeLE n (v / 256)

/-- Modelled from the spec: `PackSequenceAndType` of the absent `db/dbformat.h`, the
64-bit word `seq << 8 | type`. -/
def PackSequenceAndType (seq type : Nat) : Nat := (seq <<< 8 ||| type) % 2 ^ 64

/-- Modelled from the spec: `AppendInternalKey` of the absent `db/dbformat.h`: append
`user_key || packed8` to a buffer, `packed8` in little-endian byte order. -/
def AppendInternalKey (result : Bytes) (key : ParsedInternalKey) : Bytes :=
  result ++ key.user_key ++ storeLE 8 (PackSequenceAndType key.sequence key.type)

/-- The method `DecodeCurrKeyValue` of the single-segment iterator: decode the current
version, then assemble `commonPrefix_ || user_key || packed8` in `interKeyBuf_xx_`. -/
def TerarkZipTableIterator.DecodeCurrKeyValue (mv : ZipValueMultiValue)
    (seg : TerarkZipSegment) (it : TerarkZipTableIterator) :
    Except Fault TerarkZipTableIterator :=
  match it.DecodeCurrKeyValueInternal mv with
  | Except.error e => Except.error e
  | Except.ok it1 =>
    Except.ok { it1 with interKeyBuf_xx_ := AppendInternalKey seg.commonPrefix_ it1.pInterKey_ }

/-- The method `key`. -/
def TerarkZipTableIterator.key (it : TerarkZipTableIterator) : Bytes := it.interKeyBuf_xx_

/-- The method `value`. -/
def TerarkZipTableIterator.value (it : TerarkZipTableIterator) : Bytes := it.userValue_

/-- The constructor of `TerarkZipTableIterator`: an invalid iterator with no pinning
manager. The source leaves `zValtype_` uninitialised; it starts as `kZeroSeq` here and
is set by `UnzipIterRecord` before it is read. -/
def TerarkZipTableIterator.new (global_seqno : Nat) : TerarkZipTableIterator :=
  { iter_ := none
    global_seqno_ := global_seqno
    pInterKey_ := ⟨[], 2 ^ 64 - 1, kMaxValue⟩
    interKeyBuf_xx_ := []
    valueBuf_ := []
    userValue_ := []
    zValtype_ := kZeroSeq
    valnum_ := 0
    validx_ := 0
    status_ := Status.OK
    pinning := false
    pinned_buffer_ := [] }

/-! ## The multi-segment reader: `SegmentIndex` and `TerarkZipTableMultiReader::Get` -/

/-- Modelled from the spec: `ReadUint64` and `ReadUint64Aligned` of the absent
`terark_zip_common.h`: the bytes read as a big-endian unsigned integer. -/
def ReadUint64 (b : Bytes) : Nat := b.foldl (fun acc x => acc * 256 + x.toNat) 0

/-- Modelled from the spec: `terark::lower_bound_n(a, low, upp, key)`, the binary search
for the first index in `[low, upp)` whose element is not less than `key`. `fuel` bounds
the number of halvings; `upp - low` is enough. -/
def lower_bound_n {α : Type} (lt : α → α → Bool) (a : Nat → α) (key : α) :
    Nat → Nat → Nat → Nat
  | 0, low, _ => low
  | fuel + 1, low, upp =>
    if low < upp then
      let mid := (low + upp) / 2
      if lt (a mid) key then lower_bound_n lt a key fuel (mid + 1) upp
      else lower_bound_n lt a key fuel low mid
    else low

/-- Modelled from the spec: `terark::upper_bound_n(a, low, upp, key)`, the binary search
for the first index in `[low, upp)` whose element is greater than `key`. -/
def upper_bound_n {α : Type} (lt : α → α → Bool) (a : Nat → α) (key : α) :
    Nat → Nat → Nat → Nat
  | 0, low, _ => low
  | fuel + 1, low, upp =>
    if low < upp then
      let mid := (low + upp) / 2
      if lt key (a mid) then upper_bound_n lt a key fuel low mid
      else upper_bound_n lt a key fuel (mid + 1) upp
    else low

/-- Modelled from the spec: the comparison `operator<` of two `fstring`s, bytewise
(unsigned) and lexicographic, a proper prefix being the smaller. -/
def fstring_lt : Bytes → Bytes → Bool
  | [], [] => false
  | [], _ :: _ => true
  | _ :: _, [] => false
  | a :: as, b :: bs => if a.toNat < b.toNat then true else if b.toNat < a.toNat then false
      else fstring_lt as bs

/-- The five resolution strategies that `get_segment_ptr` can point to. -/
inductive GetSegmentStrategy where
  | U64Sequential
  | U64Binary
  | U64BinaryReverse
  | Bytewise
  | BytewiseReverse
deriving DecidableEq, Repr

/-- The class `TerarkZipTableMultiReader::SegmentIndex` after `Init`. `prefixSet_` holds
one row per partition: for `prefixLen_ ≤ 8` the 64-bit word that `Init` stores, written
as its 8 bytes with the most significant first, else the `prefixLen_` bytes of the
partition prefix. -/
structure SegmentIndex where
  partCount_ : Nat
  prefixLen_ : Nat
  prefixSet_ : List Bytes
  segments_ : List TerarkZipSegment
  get_segment_ptr : GetSegmentStrategy

/-- The word `targetValue` of the integer strategies: the first `prefixLen_` bytes of
the key, copied to offset `8 - prefixLen_` of a zeroed 8-byte buffer and read
big-endian. -/
def SegmentIndex.targetValue (si : SegmentIndex) (key : Bytes) : Nat :=
  let copied := key.take (min si.prefixLen_ key.length)
  ReadUint64 (List.replicate (8 - si.prefixLen_) 0 ++ copied ++
    List.replicate (si.prefixLen_ - copied.length) 0)

/-- The element `ptr[i]` of the integer view of `prefixSet_`. -/
def SegmentIndex.u64At (si : SegmentIndex) (i : Nat) : Nat :=
  ReadUint64 (si.prefixSet_.getD i [])

/-- The element `ptr[i]` of `PartIndexOperator`: row `i` of `prefixSet_`, cut to
`prefixLen_` bytes. -/
def SegmentIndex.PartIndexOperator (si : SegmentIndex) (i : Nat) : Bytes :=
  (si.prefixSet_.getD i []).take si.prefixLen_

/-- The loop of `GetSegmentU64Sequential` from index `i` on, over `count - i` rounds. -/
def SegmentIndex.sequentialFrom (si : SegmentIndex) (targetValue : Nat) :
    Nat → Nat → Option Nat
  | 0, _ => none
  | rounds + 1, i =>
    if si.u64At i ≥ targetValue then some i
    else SegmentIndex.sequentialFrom si targetValue rounds (i + 1)

/-- The method `GetSegmentU64Sequential`; the result is the index of the segment, `none`
for `nullptr`. -/
def SegmentIndex.GetSegmentU64Sequential (si : SegmentIndex) (key : Bytes) : Option Nat :=
  SegmentIndex.sequentialFrom si (si.targetValue key) si.partCount_ 0

/-- The method `GetSegmentU64Binary`. -/
def SegmentIndex.GetSegmentU64Binary (si : SegmentIndex) (key : Bytes) : Option Nat :=
  let index := lower_bound_n (fun (x y : Nat) => decide (x < y)) si.u64At (si.targetValue key)
    si.partCount_ 0 si.partCount_
  if index = si.partCount_ then none else some index

/-- The method `GetSegmentU64BinaryReverse`. -/
def SegmentIndex.GetSegmentU64BinaryReverse (si : SegmentIndex) (key : Bytes) : Option Nat :=
  let index := upper_bound_n (fun (x y : Nat) => decide (x < y)) si.u64At (si.targetValue key)
    si.partCount_ 0 si.partCount_
  if index = 0 then none else some (index - 1)

/-- The method `GetSegmentBytewise`. -/
def SegmentIndex.GetSegmentBytewise (si : SegmentIndex) (key : Bytes) : Option Nat :=
  let key := if key.length > si.prefixLen_ then key.take si.prefixLen_ else key
  let index := lower_bound_n fstring_lt si.PartIndexOperator key
    si.partCount_ 0 si.partCount_
  if index = si.partCount_ then none else some index

/-- The method `GetSegmentBytewiseReverse`. -/
def SegmentIndex.GetSegmentBytewiseReverse (si : SegmentIndex) (key : Bytes) : Option Nat :=
  let key := if key.length > si.prefixLen_ then key.take si.prefixLen_ else key
  let index := upper_bound_n fstring_lt si.PartIndexOperator key
    si.partCount_ 0 si.partCount_
  if index = 0 then none else some (index - 1)

/-- The method `GetSegment(fstring key)`: the call through `get_segment_ptr`. -/
def SegmentIndex.GetSegment (si : SegmentIndex) (key : Bytes) : Option Nat :=
  match si.get_segment_ptr with
  | GetSegmentStrategy.U64Sequential => si.GetSegmentU64Sequential key
  | GetSegmentStrategy.U64Binary => si.GetSegmentU64Binary key
  | GetSegmentStrategy.U64BinaryReverse => si.GetSegmentU64BinaryReverse key
  | GetSegmentStrategy.Bytewise => si.GetSegmentBytewise key
  | GetSegmentStrategy.BytewiseReverse => si.GetSegmentBytewiseReverse key

/-- The big-endian 8-byte row that `Init` stores for a partition prefix of at most 8
bytes: the prefix right-aligned in a zeroed word. -/
def SegmentIndex.u64Row (pfx : Bytes) : Bytes := List.replicate (8 - pfx.length) 0 ++ pfx

/-- The method `SegmentIndex::Init`, from the partition prefixes of the offset block
(`prefixLen` bytes each) and the parts loaded for them: it fills `prefixSet_`, picks
the resolution strategy and gives each segment its index and its partition prefix. -/
def SegmentIndex.Init (prefixLen : Nat) (offsetPrefixSet : List Bytes)
    (parts : List TerarkZipSegment) (reverse : Bool) : SegmentIndex :=
  let partCount := offsetPrefixSet.length
  { partCount_ := partCount
    prefixLen_ := prefixLen
    prefixSet_ :=
      if prefixLen ≤ 8 then offsetPrefixSet.map SegmentIndex.u64Row else offsetPrefixSet
    segments_ :=
      (List.range partCount).zipWith
        (fun i part => { part with segmentIndex_ := i, prefix_ := offsetPrefixSet.getD i [] })
        parts
    get_segment_ptr :=
      if prefixLen ≤ 8 then
        if reverse then GetSegmentStrategy.U64BinaryReverse
        else if partCount < 32 then GetSegmentStrategy.U64Sequential
        else GetSegmentStrategy.U64Binary
      else if reverse then GetSegmentStrategy.BytewiseReverse
      else GetSegmentStrategy.Bytewise }

/-- The function `TerarkZipTableMultiReader::Get`. The statement `Status::OK();` in
the branch `segment == nullptr` builds a status and drops it, so a null `segment` goes
on to `segment->Get`: that dereference is the `none` of the first match. -/
def TerarkZipTableMultiReader.Get {σ : Type} (validType : Nat → Bool)
    (mv : ZipValueMultiValue) (segmentIndex_ : SegmentIndex) (global_seqno_ : Nat)
    (ikey : Bytes) (get_context : GetContext σ) (st : σ) : Option (GetOutcome σ) :=
  if ikey.length < 8 + 0 then some ⟨Status.InvalidArgument, st, [], [], []⟩
  else
    match segmentIndex_.GetSegment (ikey.take (ikey.length - 8)) with
    | none => none
    | some i =>
      match segmentIndex_.segments_[i]? with
      | none => none
      | some segment => segment.Get validType mv global_seqno_ ikey get_context st false

/-! ## The iterator: positioning -/

/-- Modelled from the spec: `TerarkIndex::Iterator::SeekToFirst`, the cursor on the
first key of the index; `none` when the index is empty. -/
def TerarkIndex.Iterator.SeekToFirst (index : TerarkIndex) : Option Nat :=
  if index.entries.length = 0 then none else some 0

/-- Modelled from the spec: `TerarkIndex::Iterator::SeekToLast`. -/
def TerarkIndex.Iterator.SeekToLast (index : TerarkIndex) : Option Nat :=
  if index.entries.length = 0 then none else some (index.entries.length - 1)

/-- Modelled from the spec: `TerarkIndex::Iterator::Next` from a valid position. -/
def TerarkIndex.Iterator.Next (index : TerarkIndex) (pos : Nat) : Option Nat :=
  if pos + 1 < index.entries.length then some (pos + 1) else none

/-- Modelled from the spec: `TerarkIndex::Iterator::Prev` from a valid position. -/
def TerarkIndex.Iterator.Prev (_index : TerarkIndex) (pos : Nat) : Option Nat :=
  if 0 < pos then some (pos - 1) else none

/-- The first position from `i` on whose key is not less than `key`. -/
def TerarkIndex.Iterator.seekFrom (key : Bytes) : List (Bytes × Nat) → Nat → Option Nat
  | [], _ => none
  | e :: es, i =>
    if fstring_lt e.1 key then TerarkIndex.Iterator.seekFrom key es (i + 1) else some i

/-- Modelled from the spec: `TerarkIndex::Iterator::Seek`, the cursor on the first key
that is not less than `key`; `none` when every key is less. -/
def TerarkIndex.Iterator.Seek (index : TerarkIndex) (key : Bytes) : Option Nat :=
  TerarkIndex.Iterator.seekFrom key index.entries 0

/-- The key under the cursor, `iter_->key()`. -/
def TerarkIndex.Iterator.key (index : TerarkIndex) (pos : Nat) : Bytes :=
  (index.entries.getD pos ([], 0)).1

/-- The value of a `char` in a comparison. The member `commonPrefix_` is a
`std::string`, so `commonPrefix_[i]` is a `char`, which is signed on the x86-64
targets the reader is built for: a byte of 0x80 or more reads as a negative number. -/
def charValue (b : UInt8) : Int :=
  if b.toNat < 128 then Int.ofNat b.toNat else Int.ofNat b.toNat - 256

/-- Modelled from the spec: `Slice::compare`, the three-way bytewise comparison. -/
def Slice.compare (a b : Bytes) : Int :=
  if fstring_lt a b then -1 else if fstring_lt b a then 1 else 0

/-- The three iterator classes of the reader: `TerarkZipTableIterator<reverse>` over
one segment, `TerarkZipTableUint64Iterator` over one segment, and
`TerarkZipTableMultiIterator<reverse>` over the segments of a `SegmentIndex`. A
virtual method is a function that dispatches on the class. -/
inductive IteratorClass where
  | Single (reverse : Bool) (segment : TerarkZipSegment)
  | Uint64 (segment : TerarkZipSegment)
  | Multi (reverse : Bool) (segmentIndex : SegmentIndex)

/-- The template argument `reverse` of the class (`false` for the u64 iterator). -/
def IteratorClass.reverse : IteratorClass → Bool
  | IteratorClass.Single reverse _ => reverse
  | IteratorClass.Uint64 _ => false
  | IteratorClass.Multi reverse _ => reverse

/-- The segment that `segment_` points to; `none` for a null pointer. -/
def IteratorClass.segment (cls : IteratorClass) (it : TerarkZipTableIterator) :
    Option TerarkZipSegment :=
  match cls with
  | IteratorClass.Single _ seg => some seg
  | IteratorClass.Uint64 seg => some seg
  | IteratorClass.Multi _ si => it.segment_.bind (fun i => si.segments_[i]?)

/-- The method `SetIterInvalid` of the multi-segment iterator: it also drops the
segment and the cursor. -/
def TerarkZipTableMultiIterator.SetIterInvalid (it : TerarkZipTableIterator) :
    TerarkZipTableIterator :=
  { it.TryPinInterKeyBuf with
    segment_ := none
    iter_ := none
    validx_ := 0
    valnum_ := 0
    pInterKey_ := ⟨[], 2 ^ 64 - 1, kMaxValue⟩ }

/-- The virtual method `SetIterInvalid`. -/
def IteratorClass.SetIterInvalid (cls : IteratorClass) (it : TerarkZipTableIterator) :
    TerarkZipTableIterator :=
  match cls with
  | IteratorClass.Multi _ _ => TerarkZipTableMultiIterator.SetIterInvalid it
  | _ => it.SetIterInvalid

/-- The method `IndexIterSeekToFirst` of the single-segment iterator. -/
def TerarkZipTableIterator.IndexIterSeekToFirst (reverse : Bool) (seg : TerarkZipSegment)
    (it : TerarkZipTableIterator) : TerarkZipTableIterator × Bool :=
  let cursor := if reverse then TerarkIndex.Iterator.SeekToLast seg.index_
    else TerarkIndex.Iterator.SeekToFirst seg.index_
  ({ it.TryPinInterKeyBuf with iter_ := cursor }, cursor.isSome)

/-- The method `IndexIterSeekToLast` of the single-segment iterator. -/
def TerarkZipTableIterator.IndexIterSeekToLast (reverse : Bool) (seg : TerarkZipSegment)
    (it : TerarkZipTableIterator) : TerarkZipTableIterator × Bool :=
  let cursor := if reverse then TerarkIndex.Iterator.SeekToFirst seg.index_
    else TerarkIndex.Iterator.SeekToLast seg.index_
  ({ it.TryPinInterKeyBuf with iter_ := cursor }, cursor.isSome)

/-- The method `IndexIterPrev` of the single-segment iterator. What the index cursor
does when it is moved from an invalid position is not specified: that is the fault. -/
def TerarkZipTableIterator.IndexIterPrev (reverse : Bool) (seg : TerarkZipSegment)
    (it : TerarkZipTableIterator) : Except Fault (TerarkZipTableIterator × Bool) :=
  match it.iter_ with
  | none => Except.error Fault.OutOfBounds
  | some pos =>
    let cursor := if reverse then TerarkIndex.Iterator.Next seg.index_ pos
      else TerarkIndex.Iterator.Prev seg.index_ pos
    Except.ok ({ it.TryPinInterKeyBuf with iter_ := cursor }, cursor.isSome)

/-- The method `IndexIterNext` of the single-segment iterator. -/
def TerarkZipTableIterator.IndexIterNext (reverse : Bool) (seg : TerarkZipSegment)
    (it : TerarkZipTableIterator) : Except Fault (TerarkZipTableIterator × Bool) :=
  match it.iter_ with
  | none => Except.error Fault.OutOfBounds
  | some pos =>
    let cursor := if reverse then TerarkIndex.Iterator.Prev seg.index_ pos
      else TerarkIndex.Iterator.Next seg.index_ pos
    Except.ok ({ it.TryPinInterKeyBuf with iter_ := cursor }, cursor.isSome)

/-- The step of the multi-segment iterator onto segment `i`, `segment_ = GetSegment(i)`
and `iter_.reset(segment_->index_->NewIterator())`, followed by `iter_->SeekToFirst()`
(`toLast = false`) or `iter_->SeekToLast()`. -/
def TerarkZipTableMultiIterator.enterSegment (si : SegmentIndex) (i : Nat) (toLast : Bool)
    (it : TerarkZipTableIterator) : Except Fault (TerarkZipTableIterator × Bool) :=
  match si.segments_[i]? with
  | none => Except.error Fault.OutOfBounds
  | some seg =>
    let cursor := if toLast then TerarkIndex.Iterator.SeekToLast seg.index_
      else TerarkIndex.Iterator.SeekToFirst seg.index_
    Except.ok ({ it with segment_ := some i, iter_ := cursor }, cursor.isSome)

/-- The method `IndexIterSeekToFirst` of the multi-segment iterator. -/
def TerarkZipTableMultiIterator.IndexIterSeekToFirst (reverse : Bool) (si : SegmentIndex)
    (it : TerarkZipTableIterator) : Except Fault (TerarkZipTableIterator × Bool) :=
  if reverse then
    TerarkZipTableMultiIterator.enterSegment si (si.partCount_ - 1) true it.TryPinInterKeyBuf
  else TerarkZipTableMultiIterator.enterSegment si 0 false it.TryPinInterKeyBuf

/-- The method `IndexIterSeekToLast` of the multi-segment iterator. -/
def TerarkZipTableMultiIterator.IndexIterSeekToLast (reverse : Bool) (si : SegmentIndex)
    (it : TerarkZipTableIterator) : Except Fault (TerarkZipTableIterator × Bool) :=
  if reverse then TerarkZipTableMultiIterator.enterSegment si 0 false it.TryPinInterKeyBuf
  else
    TerarkZipTableMultiIterator.enterSegment si (si.partCount_ - 1) true it.TryPinInterKeyBuf

/-- The two branches of `IndexIterPrev` and `IndexIterNext` of the multi-segment
iterator: step the cursor of the current segment towards larger keys (`up = true`,
`iter_->Next()`) or smaller keys (`iter_->Prev()`); at the edge of the segment go on
to the first key of the next segment, or the last key of the previous one, and
return `false` when there is none. -/
def TerarkZipTableMultiIterator.step (si : SegmentIndex) (up : Bool)
    (it : TerarkZipTableIterator) : Except Fault (TerarkZipTableIterator × Bool) :=
  let it1 := it.TryPinInterKeyBuf
  match it1.segment_.bind (fun i => si.segments_[i]?), it1.iter_ with
  | some seg, some pos =>
    let cursor := if up then TerarkIndex.Iterator.Next seg.index_ pos
      else TerarkIndex.Iterator.Prev seg.index_ pos
    if cursor.isSome then Except.ok ({ it1 with iter_ := cursor }, true)
    else if up then
      if seg.segmentIndex_ = si.partCount_ - 1 then Except.ok ({ it1 with iter_ := none }, false)
      else
        TerarkZipTableMultiIterator.enterSegment si (seg.segmentIndex_ + 1) false
          { it1 with iter_ := none }
    else
      if seg.segmentIndex_ = 0 then Except.ok ({ it1 with iter_ := none }, false)
      else
        TerarkZipTableMultiIterator.enterSegment si (seg.segmentIndex_ - 1) true
          { it1 with iter_ := none }
  | _, _ => Except.error Fault.OutOfBounds

/-- The virtual method `IndexIterSeekToFirst`. -/
def IteratorClass.IndexIterSeekToFirst (cls : IteratorClass) (it : TerarkZipTableIterator) :
    Except Fault (TerarkZipTableIterator × Bool) :=
  match cls with
  | IteratorClass.Single reverse seg =>
    Except.ok (TerarkZipTableIterator.IndexIterSeekToFirst reverse seg it)
  | IteratorClass.Uint64 seg =>
    Except.ok (TerarkZipTableIterator.IndexIterSeekToFirst false seg it)
  | IteratorClass.Multi reverse si =>
    TerarkZipTableMultiIterator.IndexIterSeekToFirst reverse si it

/-- The virtual method `IndexIterSeekToLast`. -/
def IteratorClass.IndexIterSeekToLast (cls : IteratorClass) (it : TerarkZipTableIterator) :
    Except Fault (TerarkZipTableIterator × Bool) :=
  match cls with
  | IteratorClass.Single reverse seg =>
    Except.ok (TerarkZipTableIterator.IndexIterSeekToLast reverse seg it)
  | IteratorClass.Uint64 seg =>
    Except.ok (TerarkZipTableIterator.IndexIterSeekToLast false seg it)
  | IteratorClass.Multi reverse si =>
    TerarkZipTableMultiIterator.IndexIterSeekToLast reverse si it

/-- The virtual method `IndexIterPrev`. -/
def IteratorClass.IndexIterPrev (cls : IteratorClass) (it : TerarkZipTableIterator) :
    Except Fault (TerarkZipTableIterator × Bool) :=
  match cls with
  | IteratorClass.Single reverse seg => TerarkZipTableIterator.IndexIterPrev reverse seg it
  | IteratorClass.Uint64 seg => TerarkZipTableIterator.IndexIterPrev false seg it
  | IteratorClass.Multi reverse si => TerarkZipTableMultiIterator.step si reverse it

/-- The virtual method `IndexIterNext`. -/
def IteratorClass.IndexIterNext (cls : IteratorClass) (it : TerarkZipTableIterator) :
    Except Fault (TerarkZipTableIterator × Bool) :=
  match cls with
  | IteratorClass.Single reverse seg => TerarkZipTableIterator.IndexIterNext reverse seg it
  | IteratorClass.Uint64 seg => TerarkZipTableIterator.IndexIterNext false seg it
  | IteratorClass.Multi reverse si => TerarkZipTableMultiIterator.step si (!reverse) it

/-- The method `DecodeCurrKeyValue` of the u64 iterator: the key is assembled as in the
base class, then the 64-bit word at its start is byte-swapped. -/
def TerarkZipTableUint64Iterator.DecodeCurrKeyValue (mv : ZipValueMultiValue)
    (seg : TerarkZipSegment) (it : TerarkZipTableIterator) :
    Except Fault TerarkZipTableIterator :=
  match it.DecodeCurrKeyValueInternal mv with
  | Except.error e => Except.error e
  | Except.ok it1 =>
    let interKeyBuf := AppendInternalKey seg.commonPrefix_ it1.pInterKey_
    Except.ok { it1 with
      interKeyBuf_xx_ := byte_swap (interKeyBuf.take 8) ++ interKeyBuf.drop 8 }

/-- The method `DecodeCurrKeyValue` of the multi-segment iterator: the key is
`prefix_ || commonPrefix_ || user_key || packed8`. -/
def TerarkZipTableMultiIterator.DecodeCurrKeyValue (mv : ZipValueMultiValue)
    (seg : TerarkZipSegment) (it : TerarkZipTableIterator) :
    Except Fault TerarkZipTableIterator :=
  match it.DecodeCurrKeyValueInternal mv with
  | Except.error e => Except.error e
  | Except.ok it1 =>
    Except.ok { it1 with
      interKeyBuf_xx_ := AppendInternalKey (seg.prefix_ ++ seg.commonPrefix_) it1.pInterKey_ }

/-- The virtual method `DecodeCurrKeyValue`. -/
def IteratorClass.DecodeCurrKeyValue (cls : IteratorClass) (mv : ZipValueMultiValue)
    (it : TerarkZipTableIterator) : Except Fault TerarkZipTableIterator :=
  match cls with
  | IteratorClass.Single _ seg => it.DecodeCurrKeyValue mv seg
  | IteratorClass.Uint64 seg => TerarkZipTableUint64Iterator.DecodeCurrKeyValue mv seg it
  | IteratorClass.Multi _ _ =>
    match cls.segment it with
    | none => Except.error Fault.OutOfBounds
    | some seg => TerarkZipTableMultiIterator.DecodeCurrKeyValue mv seg it

/-- The method `UnzipIterRecord` as every class inherits it: the body of
`TerarkZipTableIterator::UnzipIterRecord` with `segment_` and the virtual
`SetIterInvalid` of the class. -/
def IteratorClass.UnzipIterRecord (cls : IteratorClass) (mv : ZipValueMultiValue)
    (it : TerarkZipTableIterator) (hasRecord : Bool) :
    Except Fault (TerarkZipTableIterator × Bool) :=
  if hasRecord then
    match cls.segment it with
    | none => Except.error Fault.OutOfBounds
    | some seg =>
      match it.iter_.bind (fun pos => seg.index_.entries[pos]?) with
      | none => Except.error Fault.OutOfBounds
      | some entry =>
        let recId := entry.2
        match seg.zvType recId with
        | none => Except.error Fault.OutOfBounds
        | some zValtype =>
          let it1 := { it with zValtype_ := zValtype }.TryPinValueBuf
          match seg.store_.get_record_append recId with
          | none =>
            Except.ok ({ cls.SetIterInvalid { it1 with valueBuf_ := [] } with
              status_ := Status.Corruption }, false)
          | some payload =>
            let valnum := if zValtype = kMulti then (mv.decode payload).length else 1
            Except.ok ({ it1 with
              valueBuf_ := payload
              valnum_ := valnum
              validx_ := 0
              pInterKey_ := { it1.pInterKey_ with user_key := entry.1 } }, true)
  else Except.ok (cls.SetIterInvalid it, false)

/-- The tail shared by the positioning methods: `if (UnzipIterRecord(hasRecord))`, then
optionally `validx_ = valnum_ - 1`, then `DecodeCurrKeyValue()`. For `valnum_ = 0` the
source wraps `validx_` around where the model has 0; the decode that follows reads out
of bounds in both. -/
def IteratorClass.unzipAndDecode (cls : IteratorClass) (mv : ZipValueMultiValue)
    (toLastVersion : Bool) (r : TerarkZipTableIterator × Bool) :
    Except Fault TerarkZipTableIterator :=
  match cls.UnzipIterRecord mv r.1 r.2 with
  | Except.error e => Except.error e
  | Except.ok u =>
    if u.2 then
      cls.DecodeCurrKeyValue mv
        (if toLastVersion then { u.1 with validx_ := u.1.valnum_ - 1 } else u.1)
    else Except.ok u.1

/-- The method `SeekToFirst`. -/
def IteratorClass.SeekToFirst (cls : IteratorClass) (mv : ZipValueMultiValue)
    (it : TerarkZipTableIterator) : Except Fault TerarkZipTableIterator :=
  match cls.IndexIterSeekToFirst it with
  | Except.error e => Except.error e
  | Except.ok r => cls.unzipAndDecode mv false r

/-- The method `SeekToLast`. -/
def IteratorClass.SeekToLast (cls : IteratorClass) (mv : ZipValueMultiValue)
    (it : TerarkZipTableIterator) : Except Fault TerarkZipTableIterator :=
  match cls.IndexIterSeekToLast it with
  | Except.error e => Except.error e
  | Except.ok r => cls.unzipAndDecode mv true r

/-- The method `Next`. -/
def IteratorClass.Next (cls : IteratorClass) (mv : ZipValueMultiValue)
    (it : TerarkZipTableIterator) : Except Fault TerarkZipTableIterator :=
  let it1 := { it with validx_ := it.validx_ + 1 }
  if it1.validx_ < it1.valnum_ then cls.DecodeCurrKeyValue mv it1
  else
    match cls.IndexIterNext it1 with
    | Except.error e => Except.error e
    | Except.ok r => cls.unzipAndDecode mv false r

/-- The method `Prev`. -/
def IteratorClass.Prev (cls : IteratorClass) (mv : ZipValueMultiValue)
    (it : TerarkZipTableIterator) : Except Fault TerarkZipTableIterator :=
  if it.validx_ > 0 then cls.DecodeCurrKeyValue mv { it with validx_ := it.validx_ - 1 }
  else
    match cls.IndexIterPrev it with
    | Except.error e => Except.error e
    | Except.ok r => cls.unzipAndDecode mv true r

/-- The index-cursor part of the aligned branch of `SeekInternal`: the cursor after
`iter_->Seek(target)` (in a reverse iterator followed by `SeekToLast` on a miss and by
`Prev` on an inexact hit), and `cmp`. In a forward iterator `cmp` is not set on a miss,
and not read either. -/
def TerarkZipTableIterator.seekCursor (reverse : Bool) (index : TerarkIndex)
    (target : Bytes) : Option Nat × Int :=
  match TerarkIndex.Iterator.Seek index target with
  | none => if reverse then (TerarkIndex.Iterator.SeekToLast index, -1) else (none, 0)
  | some pos =>
    let cmp := Slice.compare (TerarkIndex.Iterator.key index pos) target
    if reverse && cmp != 0 then (TerarkIndex.Iterator.Prev index pos, cmp)
    else (some pos, cmp)

/-- The `do ... while (validx_ + 1 < valnum_)` loop of `SeekInternal`, entered with
`validx_` already incremented: decode the version, return it (flag `true`) when its
sequence is at most the target sequence, else move to the next version. `fuel` bounds
the number of further rounds; `valnum_` is enough. -/
def IteratorClass.seekVersion (cls : IteratorClass) (mv : ZipValueMultiValue)
    (sequence : Nat) : Nat → TerarkZipTableIterator →
    Except Fault (TerarkZipTableIterator × Bool)
  | fuel, it =>
    match cls.DecodeCurrKeyValue mv it with
    | Except.error e => Except.error e
    | Except.ok it1 =>
      if it1.pInterKey_.sequence ≤ sequence then Except.ok (it1, true)
      else if it1.validx_ + 1 < it1.valnum_ then
        match fuel with
        | 0 => Except.ok (it1, false)
        | fuel + 1 =>
          IteratorClass.seekVersion cls mv sequence fuel { it1 with validx_ := it1.validx_ + 1 }
      else Except.ok (it1, false)

/-- The statements `SeekToLast(); this->Next();` of `SeekInternal`. -/
def IteratorClass.seekToEnd (cls : IteratorClass) (mv : ZipValueMultiValue)
    (it : TerarkZipTableIterator) : Except Fault TerarkZipTableIterator :=
  match cls.SeekToLast mv it with
  | Except.error e => Except.error e
  | Except.ok it1 => cls.Next mv it1

/-- The method `SeekInternal`. In the branch of a target that leaves the common prefix,
`byte_t(pikey.user_key[cplen]) < segment_->commonPrefix_[cplen]` compares the byte of the
key, cast to `byte_t`, with a `char` of `commonPrefix_`: both are promoted to `int`, the
first from an unsigned and the second from a signed type. -/
def IteratorClass.SeekInternal (cls : IteratorClass) (mv : ZipValueMultiValue)
    (it : TerarkZipTableIterator) (pikey : ParsedInternalKey) :
    Except Fault TerarkZipTableIterator :=
  let it0 := it.TryPinInterKeyBuf
  match cls.segment it0 with
  | none => Except.error Fault.OutOfBounds
  | some seg =>
    let cplen := difference_offset pikey.user_key seg.commonPrefix_
    if seg.commonPrefix_.length ≠ cplen then
      if pikey.user_key.length = cplen then
        if cls.reverse then cls.seekToEnd mv it0 else cls.SeekToFirst mv it0
      else
        if xor (decide (Int.ofNat (pikey.user_key.getD cplen 0).toNat <
            charValue (seg.commonPrefix_.getD cplen 0))) cls.reverse then
          cls.SeekToFirst mv it0
        else cls.seekToEnd mv it0
    else
      let found := TerarkZipTableIterator.seekCursor cls.reverse seg.index_
        (pikey.user_key.drop cplen)
      match cls.UnzipIterRecord mv { it0 with iter_ := found.1 } found.1.isSome with
      | Except.error e => Except.error e
      | Except.ok u =>
        if u.2 then
          if found.2 = 0 then
            match cls.seekVersion mv pikey.sequence u.1.valnum_ u.1 with
            | Except.error e => Except.error e
            | Except.ok v => if v.2 then Except.ok v.1 else cls.Next mv v.1
          else cls.DecodeCurrKeyValue mv u.1
        else Except.ok u.1

/-- The method `Seek` of the multi-segment iterator. -/
def TerarkZipTableMultiIterator.Seek (validType : Nat → Bool) (mv : ZipValueMultiValue)
    (reverse : Bool) (si : SegmentIndex) (it : TerarkZipTableIterator) (target : Bytes) :
    Except Fault TerarkZipTableIterator :=
  let cls := IteratorClass.Multi reverse si
  match ParseInternalKey validType target with
  | none => Except.ok (cls.SetIterInvalid { it with status_ := Status.InvalidArgument })
  | some pikey =>
    match si.GetSegment pikey.user_key with
    | none => Except.ok (cls.SetIterInvalid it)
    | some i =>
      match si.segments_[i]? with
      | none => Except.error Fault.OutOfBounds
      | some segment =>
        let pikey1 := { pikey with
          user_key := pikey.user_key.drop (min segment.prefix_.length pikey.user_key.length) }
        let it1 := if it.segment_ = some i then it
          else { it with segment_ := some i, iter_ := none }
        match cls.SeekInternal mv it1 pikey1 with
        | Except.error e => Except.error e
        | Except.ok it2 =>
          if it2.Valid then Except.ok it2
          else if reverse then
            if segment.segmentIndex_ ≠ 0 then
              match TerarkZipTableMultiIterator.enterSegment si (segment.segmentIndex_ - 1) true
                  it2 with
              | Except.error e => Except.error e
              | Except.ok r => cls.unzipAndDecode mv true r
            else Except.ok it2
          else
            if segment.segmentIndex_ ≠ si.partCount_ - 1 then
              match TerarkZipTableMultiIterator.enterSegment si (segment.segmentIndex_ + 1) false
                  it2 with
              | Except.error e => Except.error e
              | Except.ok r => cls.unzipAndDecode mv false r
            else Except.ok it2

/-- The method `Seek`: that of `TerarkZipTableIterator`, or its override in the u64 and
the multi-segment iterator. -/
def IteratorClass.Seek (cls : IteratorClass) (validType : Nat → Bool)
    (mv : ZipValueMultiValue) (it : TerarkZipTableIterator) (target : Bytes) :
    Except Fault TerarkZipTableIterator :=
  match cls with
  | IteratorClass.Single _ _ =>
    match ParseInternalKey validType target with
    | none => Except.ok (cls.SetIterInvalid { it with status_ := Status.InvalidArgument })
    | some pikey => cls.SeekInternal mv it pikey
  | IteratorClass.Uint64 _ =>
    match ParseInternalKey validType target with
    | none => Except.ok (cls.SetIterInvalid { it with status_ := Status.InvalidArgument })
    | some pikey =>
      cls.SeekInternal mv it { pikey with user_key := byte_swap (target.take 8) }
  | IteratorClass.Multi reverse si =>
    TerarkZipTableMultiIterator.Seek validType mv reverse si it target

/-- The method `status`. -/
def TerarkZipTableIterator.status (it : TerarkZipTableIterator) : Status := it.status_

/-- The positioning operations of the public interface. -/
inductive IteratorOp where
  | SeekToFirst
  | SeekToLast
  | Seek (target : Bytes)
  | Next
  | Prev
deriving DecidableEq, Repr

/-- One positioning operation on an iterator of the class. -/
def IteratorClass.apply (cls : IteratorClass) (validType : Nat → Bool)
    (mv : ZipValueMultiValue) (it : TerarkZipTableIterator) :
    IteratorOp → Except Fault TerarkZipTableIterator
  | IteratorOp.SeekToFirst => cls.SeekToFirst mv it
  | IteratorOp.SeekToLast => cls.SeekToLast mv it
  | IteratorOp.Seek target => cls.Seek validType mv it target
  | IteratorOp.Next => cls.Next mv it
  | IteratorOp.Prev => cls.Prev mv it

/-- A sequence of positioning operations, applied from left to right. -/
def IteratorClass.run (cls : IteratorClass) (validType : Nat → Bool)
    (mv : ZipValueMultiValue) : TerarkZipTableIterator → List IteratorOp →
    Except Fault TerarkZipTableIterator
  | it, [] => Except.ok it
  | it, op :: ops =>
    match cls.apply validType mv it op with
    | Except.error e => Except.error e
    | Except.ok it1 => IteratorClass.run cls validType mv it1 ops

/-- The option `res` is the least index below `n` with the property `p`, and is `none`
exactly when no index below `n` has it. -/
def IsLeastIndex (n : Nat) (p : Nat → Prop) (res : Option Nat) : Prop :=
  match res with
  | some i => i < n ∧ p i ∧ ∀ j, j < i → ¬ p j
  | none => ∀ i, i < n → ¬ p i

/-- The option `res` is the greatest index below `n` with the property `p`, and is
`none` exactly when no index below `n` has it. -/
def IsGreatestIndex (n : Nat) (p : Nat → Prop) (res : Option Nat) : Prop :=
  match res with
  | some i => i < n ∧ p i ∧ ∀ j, i < j → j < n → ¬ p j
  | none => ∀ i, i < n → ¬ p i

/-- The key as `GetSegment` compares it with the partition prefixes of length
`prefixLen`: cut to `prefixLen` bytes; the integer strategies (`prefixLen ≤ 8`) copy a
shorter key into a zeroed buffer, which pads it with zero bytes to `prefixLen`. -/
def SegmentIndex.targetKey (prefixLen : Nat) (key : Bytes) : Bytes :=
  if prefixLen ≤ 8 then key.take prefixLen ++ List.replicate (prefixLen - key.length) 0
  else key.take prefixLen

/-! ## The contents of a segment, as the iterator reads them

The functions below name what the iterator finds at a position of the index cursor:
they are the reference that the positioning theorems compare the state machine with. -/

/-- The switch of `DecodeCurrKeyValueInternal` as a function of the fields it reads:
the `(sequence, type, value)` of version `validx` of a payload. -/
def decodeVersion (mv : ZipValueMultiValue) (global_seqno zValtype : Nat) (valueBuf : Bytes)
    (validx : Nat) : Except Fault (Nat × Nat × Bytes) :=
  if zValtype = kZeroSeq then Except.ok (global_seqno, kTypeValue, valueBuf)
  else if zValtype = kValue then
    if valueBuf.length < 7 then Except.error Fault.OutOfBounds
    else Except.ok (DecodeFixed64 valueBuf &&& kMaxSequenceNumber, kTypeValue, valueBuf.drop 7)
  else if zValtype = kDelete then
    if valueBuf.length < 7 then Except.error Fault.OutOfBounds
    else Except.ok (DecodeFixed64 valueBuf &&& kMaxSequenceNumber, kTypeDeletion, [])
  else if zValtype = kMulti then
    match (mv.decode valueBuf)[validx]? with
    | none => Except.error Fault.OutOfBounds
    | some d =>
      if d.length < 8 then Except.error Fault.OutOfBounds
      else Except.ok ((UnPackSequenceAndType (DecodeFixed64 d)).1,
        (UnPackSequenceAndType (DecodeFixed64 d)).2, d.drop 8)
  else Except.error Fault.Abort

/-- The key suffix under position `pos` of the index cursor. -/
def TerarkZipSegment.keyAt (seg : TerarkZipSegment) (pos : Nat) : Bytes :=
  (seg.index_.entries.getD pos ([], 0)).1

/-- The record id under position `pos` of the index cursor. -/
def TerarkZipSegment.recIdAt (seg : TerarkZipSegment) (pos : Nat) : Nat :=
  (seg.index_.entries.getD pos ([], 0)).2

/-- The tag of the record under position `pos`. -/
def TerarkZipSegment.typeAt (seg : TerarkZipSegment) (pos : Nat) : Nat :=
  (seg.zvType (seg.recIdAt pos)).getD kZeroSeq

/-- The payload of the record under position `pos`. -/
def TerarkZipSegment.payloadAt (seg : TerarkZipSegment) (pos : Nat) : Bytes :=
  (seg.store_.get_record_append (seg.recIdAt pos)).getD []

/-- The record under position `pos` can be fetched: the position is one of the index,
the tag of its record can be read and the blob store delivers its payload. -/
def TerarkZipSegment.fetchable (seg : TerarkZipSegment) (pos : Nat) : Bool :=
  decide (pos < seg.index_.entries.length) && (seg.zvType (seg.recIdAt pos)).isSome &&
    (seg.store_.get_record_append (seg.recIdAt pos)).isSome

/-- The record under position `pos` fails its checksum: the position is one of the
index, the tag of its record can be read and the fetch raises. -/
def TerarkZipSegment.corruptAt (seg : TerarkZipSegment) (pos : Nat) : Bool :=
  decide (pos < seg.index_.entries.length) && (seg.zvType (seg.recIdAt pos)).isSome &&
    (seg.store_.get_record_append (seg.recIdAt pos)).isNone

/-- The number of versions of the record under position `pos`, `valnum_`. -/
def TerarkZipSegment.valnumAt (mv : ZipValueMultiValue) (seg : TerarkZipSegment)
    (pos : Nat) : Nat :=
  if seg.typeAt pos = kMulti then (mv.decode (seg.payloadAt pos)).length else 1

/-- Version `j` of the record under position `pos`, as `(sequence, type, value)`. -/
def TerarkZipSegment.versionAt (mv : ZipValueMultiValue) (seg : TerarkZipSegment)
    (global_seqno pos j : Nat) : Nat × Nat × Bytes :=
  match decodeVersion mv global_seqno (seg.typeAt pos) (seg.payloadAt pos) j with
  | Except.ok r => r
  | Except.error _ => (0, 0, [])

/-- Version `j` of the record under position `pos` decodes without a fault. -/
def TerarkZipSegment.versionOk (mv : ZipValueMultiValue) (seg : TerarkZipSegment)
    (global_seqno pos j : Nat) : Bool :=
  match decodeVersion mv global_seqno (seg.typeAt pos) (seg.payloadAt pos) j with
  | Except.ok _ => true
  | Except.error _ => false

/-- The record under position `pos` is well formed: it can be fetched and it decodes to
at least one version, each without a fault. -/
def TerarkZipSegment.recordOk (mv : ZipValueMultiValue) (seg : TerarkZipSegment)
    (global_seqno pos : Nat) : Bool :=
  seg.fetchable pos && decide (0 < seg.valnumAt mv pos) &&
    (List.range (seg.valnumAt mv pos)).all (fun j => seg.versionOk mv global_seqno pos j)

/-- Every record of the segment is well formed. -/
def TerarkZipSegment.wellFormed (mv : ZipValueMultiValue) (seg : TerarkZipSegment)
    (global_seqno : Nat) : Bool :=
  (List.range seg.index_.entries.length).all (fun pos => seg.recordOk mv global_seqno pos)

/-- The parsed internal key of version `j` of the record under position `pos`. -/
def TerarkZipSegment.parsedKeyAt (mv : ZipValueMultiValue) (seg : TerarkZipSegment)
    (global_seqno pos j : Nat) : ParsedInternalKey :=
  ⟨seg.keyAt pos, (seg.versionAt mv global_seqno pos j).1,
    (seg.versionAt mv global_seqno pos j).2.1⟩

/-- The entry that the iterator stands on, as `(key(), sequence, type, value())`: the
internal key, the sequence and type that it carries, and the value. -/
def TerarkZipTableIterator.entry (it : TerarkZipTableIterator) : Bytes × Nat × Nat × Bytes :=
  (it.key, it.pInterKey_.sequence, it.pInterKey_.type, it.value)

/-- The entry that a single-segment iterator yields on version `j` of the record under
position `pos`. -/
def TerarkZipSegment.entryAt (mv : ZipValueMultiValue) (seg : TerarkZipSegment)
    (global_seqno pos j : Nat) : Bytes × Nat × Nat × Bytes :=
  (AppendInternalKey seg.commonPrefix_ (seg.parsedKeyAt mv global_seqno pos j),
    (seg.versionAt mv global_seqno pos j).1, (seg.versionAt mv global_seqno pos j).2.1,
    (seg.versionAt mv global_seqno pos j).2.2)

/-- The positions of the index cursor in table order: ascending, or descending under a
reverse comparator. -/
def TerarkZipSegment.positions (seg : TerarkZipSegment) (reverse : Bool) : List Nat :=
  if reverse then (List.range seg.index_.entries.length).reverse
  else List.range seg.index_.entries.length

/-- The entries of the records under the positions `ps`, record after record, the
versions of each record from the newest to the oldest. -/
def TerarkZipSegment.entriesOf (mv : ZipValueMultiValue) (seg : TerarkZipSegment)
    (global_seqno : Nat) (ps : List Nat) : List (Bytes × Nat × Nat × Bytes) :=
  ps.flatMap (fun pos =>
    (List.range (seg.valnumAt mv pos)).map (fun j => seg.entryAt mv global_seqno pos j))

/-- The entries of the segment in table order. -/
def TerarkZipSegment.tableEntries (mv : ZipValueMultiValue) (seg : TerarkZipSegment)
    (global_seqno : Nat) (reverse : Bool) : List (Bytes × Nat × Nat × Bytes) :=
  seg.entriesOf mv global_seqno (seg.positions reverse)

/-- The iterator holds the record under position `pos` of a segment and stands on
version `j` of it: the state that `UnzipIterRecord` leaves, with `validx_ = j`. -/
def TerarkZipTableIterator.Holds (mv : ZipValueMultiValue) (seg : TerarkZipSegment)
    (global_seqno : Nat) (it : TerarkZipTableIterator) (pos j : Nat) : Prop :=
  it.iter_ = some pos ∧ it.validx_ = j ∧ it.global_seqno_ = global_seqno ∧
  seg.fetchable pos = true ∧ it.zValtype_ = seg.typeAt pos ∧
  it.valueBuf_ = seg.payloadAt pos ∧ it.valnum_ = seg.valnumAt mv pos ∧
  it.pInterKey_.user_key = seg.keyAt pos

/-- The iterator is positioned on version `j` of the record under position `pos`: it
holds the record, and the parsed key and the entry are those of the version. -/
def TerarkZipTableIterator.PositionedAt (mv : ZipValueMultiValue) (seg : TerarkZipSegment)
    (global_seqno : Nat) (it : TerarkZipTableIterator) (pos j : Nat) : Prop :=
  it.Holds mv seg global_seqno pos j ∧ j < seg.valnumAt mv pos ∧
  it.pInterKey_ = seg.parsedKeyAt mv global_seqno pos j ∧
  it.entry = seg.entryAt mv global_seqno pos j

/-- The entries that an iterator yields from its current position
on, until it is invalid, when it is moved by `step` (`Next` or `Prev`). `fuel` bounds
the number of entries; the flag returned tells that the iterator ended invalid (and not
that the fuel ran out). -/
def IteratorClass.collect (step : TerarkZipTableIterator → Except Fault TerarkZipTableIterator) :
    Nat → TerarkZipTableIterator → Except Fault (List (Bytes × Nat × Nat × Bytes) × Bool)
  | 0, it => Except.ok ([], !it.Valid)
  | fuel + 1, it =>
    if it.Valid then
      match step it with
      | Except.error e => Except.error e
      | Except.ok it1 =>
        match IteratorClass.collect step fuel it1 with
        | Except.error e => Except.error e
        | Except.ok r => Except.ok (it.entry :: r.1, r.2)
    else Except.ok ([], true)

/-- The forward full scan: `SeekToFirst`, then `Next` until the iterator is invalid. -/
def IteratorClass.scanForward (cls : IteratorClass) (mv : ZipValueMultiValue) (fuel : Nat)
    (it : TerarkZipTableIterator) : Except Fault (List (Bytes × Nat × Nat × Bytes) × Bool) :=
  match cls.SeekToFirst mv it with
  | Except.error e => Except.error e
  | Except.ok it1 => IteratorClass.collect (cls.Next mv) fuel it1

/-- The reverse full scan: `SeekToLast`, then `Prev` until the iterator is invalid. -/
def IteratorClass.scanBackward (cls : IteratorClass) (mv : ZipValueMultiValue) (fuel : Nat)
    (it : TerarkZipTableIterator) : Except Fault (List (Bytes × Nat × Nat × Bytes) × Bool) :=
  match cls.SeekToLast mv it with
  | Except.error e => Except.error e
  | Except.ok it1 => IteratorClass.collect (cls.Prev mv) fuel it1

/-- The position after `pos` in table order: where `IndexIterNext` of a single-segment
iterator moves the index cursor. -/
def TerarkZipSegment.nextPos (seg : TerarkZipSegment) (reverse : Bool) (pos : Nat) :
    Option Nat :=
  if reverse then TerarkIndex.Iterator.Prev seg.index_ pos
  else TerarkIndex.Iterator.Next seg.index_ pos

/-- The position before `pos` in table order: where `IndexIterPrev` of a single-segment
iterator moves the index cursor. -/
def TerarkZipSegment.prevPos (seg : TerarkZipSegment) (reverse : Bool) (pos : Nat) :
    Option Nat :=
  if reverse then TerarkIndex.Iterator.Next seg.index_ pos
  else TerarkIndex.Iterator.Prev seg.index_ pos

/-- The list of positions is a complete walk of the cursor function `next`: each
position leads to the one after it and the last one leads nowhere. -/
def LinkedBy (next : Nat → Option Nat) : List Nat → Prop
  | [] => True
  | [p] => next p = none
  | p :: q :: ps => next p = some q ∧ LinkedBy next (q :: ps)

/-- The keys of the index are in strictly ascending bytewise order, as its cursor
yields them. -/
def TerarkIndex.Sorted (index : TerarkIndex) : Prop :=
  index.entries.Pairwise (fun a b => fstring_lt a.1 b.1 = true)

/-- Sortedness of the keys can be checked. -/
instance (index : TerarkIndex) : Decidable index.Sorted := by
  unfold TerarkIndex.Sorted
  exact inferInstance

/-- The branch of `SeekInternal` for a target that leaves the common prefix ends in
`SeekToFirst()` (and not in `SeekToLast(); Next();`). -/
def TerarkZipTableIterator.seeksToFirst (reverse : Bool) (seg : TerarkZipSegment)
    (user_key : Bytes) : Bool :=
  let cplen := difference_offset user_key seg.commonPrefix_
  if user_key.length = cplen then !reverse
  else xor (decide (Int.ofNat (user_key.getD cplen 0).toNat <
    charValue (seg.commonPrefix_.getD cplen 0))) reverse

/-- Operation `op` on the state `it` of a single-segment iterator positions the iterator
on the record under position `q`: `q` is where the operation leaves the index cursor
before its call of `UnzipIterRecord` that fetches the record the iterator is to stand on.
For `Seek` that is the position found by the index cursor, the first position after a
target that lies before the common prefix, or the position after a key found exactly
none of whose versions is visible. -/
def TerarkZipTableIterator.PositionsOn (reverse : Bool) (validType : Nat → Bool)
    (mv : ZipValueMultiValue) (seg : TerarkZipSegment) (it : TerarkZipTableIterator)
    (op : IteratorOp) (q : Nat) : Prop :=
  match op with
  | IteratorOp.SeekToFirst => (seg.positions reverse).head? = some q
  | IteratorOp.SeekToLast => (seg.positions reverse).getLast? = some q
  | IteratorOp.Next =>
    ¬ it.validx_ + 1 < it.valnum_ ∧ ∃ pos, it.iter_ = some pos ∧ seg.nextPos reverse pos = some q
  | IteratorOp.Prev =>
    it.validx_ = 0 ∧ ∃ pos, it.iter_ = some pos ∧ seg.prevPos reverse pos = some q
  | IteratorOp.Seek target =>
    ∃ pikey, ParseInternalKey validType target = some pikey ∧
      ((difference_offset pikey.user_key seg.commonPrefix_ < seg.commonPrefix_.length ∧
          TerarkZipTableIterator.seeksToFirst reverse seg pikey.user_key = true ∧
          (seg.positions reverse).head? = some q) ∨
        (seg.commonPrefix_.length = difference_offset pikey.user_key seg.commonPrefix_ ∧
          ∃ cmp, TerarkZipTableIterator.seekCursor reverse seg.index_
            (pikey.user_key.drop seg.commonPrefix_.length) = (some q, cmp)) ∨
        (seg.commonPrefix_.length = difference_offset pikey.user_key seg.commonPrefix_ ∧
          ∃ p, TerarkZipTableIterator.seekCursor reverse seg.index_
              (pikey.user_key.drop seg.commonPrefix_.length) = (some p, 0) ∧
            seg.recordOk mv it.global_seqno_ p = true ∧
            (∀ i, i < seg.valnumAt mv p →
              pikey.sequence < (seg.versionAt mv it.global_seqno_ p i).1) ∧
            seg.nextPos reverse p = some q))

/-- Modelled from the spec: `ExtractUserKey` of the absent `db/dbformat.h`, an internal
key without the `packed8` at its end. -/
def ExtractUserKey (internal_key : Bytes) : Bytes :=
  internal_key.take (internal_key.length - 8)

/-- Modelled from the spec: `InternalKeyComparator::Compare` of the absent
`db/dbformat.h`, the order of the table on internal keys. User keys are compared by the
user comparator, bytewise or, for a `"rev:"` table, reverse bytewise; equal user keys by
decreasing `packed8`, so that the higher sequence comes first. -/
def InternalKeyComparator.Compare (reverse : Bool) (akey bkey : Bytes) : Int :=
  let r := if reverse then Slice.compare (ExtractUserKey bkey) (ExtractUserKey akey)
    else Slice.compare (ExtractUserKey akey) (ExtractUserKey bkey)
  if r ≠ 0 then r
  else
    let anum := DecodeFixed64 (akey.drop (akey.length - 8))
    let bnum := DecodeFixed64 (bkey.drop (bkey.length - 8))
    if anum > bnum then -1 else if anum < bnum then 1 else 0

/-- The versions of every record are in strictly decreasing `(sequence, type)` order:
each version is below the ones before it. -/
def TerarkZipSegment.versionsDescend (mv : ZipValueMultiValue) (seg : TerarkZipSegment)
    (global_seqno : Nat) : Bool :=
  (List.range seg.index_.entries.length).all (fun pos =>
    (List.range (seg.valnumAt mv pos)).all (fun j =>
      (List.range j).all (fun i =>
        decide ((seg.versionAt mv global_seqno pos j).1 < (seg.versionAt mv global_seqno pos i).1 ∨
          ((seg.versionAt mv global_seqno pos j).1 = (seg.versionAt mv global_seqno pos i).1 ∧
            (seg.versionAt mv global_seqno pos j).2.1 <
              (seg.versionAt mv global_seqno pos i).2.1)))))

/-- The partition prefix that the class puts in front of a key: `prefix_` of the current
segment in the multi-segment iterator, nothing in the single-segment iterators. -/
def IteratorClass.partitionPrefix (cls : IteratorClass) (seg : TerarkZipSegment) : Bytes :=
  match cls with
  | IteratorClass.Multi _ _ => seg.prefix_
  | _ => []

/-- What the class does to the key it has assembled: the u64 iterator byte-swaps the
64-bit word at its start, the other classes leave the key as it is. -/
def IteratorClass.keyTransform (cls : IteratorClass) (key : Bytes) : Bytes :=
  match cls with
  | IteratorClass.Uint64 _ => byte_swap (key.take 8) ++ key.drop 8
  | _ => key

/-- The iterator stands on a version of the record under its index cursor, and `key()`
is materialised from it: the iterator holds the record under position `pos` of its
segment, the parsed sequence and type and `value()` are those of version `validx_` of
the record, and `key()` is
`partition_prefix || common_prefix || index_key || packed8` after the transformation
of the class. -/
def IteratorClass.Materialized (cls : IteratorClass) (mv : ZipValueMultiValue)
    (it : TerarkZipTableIterator) : Prop :=
  ∃ seg pos, cls.segment it = some seg ∧ it.Holds mv seg it.global_seqno_ pos it.validx_ ∧
    decodeVersion mv it.global_seqno_ (seg.typeAt pos) (seg.payloadAt pos) it.validx_ =
      Except.ok (it.pInterKey_.sequence, it.pInterKey_.type, it.value) ∧
    it.key = cls.keyTransform (cls.partitionPrefix seg ++ seg.commonPrefix_ ++ seg.keyAt pos ++
      storeLE 8 (PackSequenceAndType it.pInterKey_.sequence it.pInterKey_.type))

/-- The internal key that an iterator of the class shows on version `j` of the record
under position `pos` of the segment: `partition_prefix || common_prefix || index_key ||
packed8` after the transformation of the class. -/
def IteratorClass.shownKey (cls : IteratorClass) (mv : ZipValueMultiValue)
    (seg : TerarkZipSegment) (global_seqno pos j : Nat) : Bytes :=
  cls.keyTransform (AppendInternalKey (cls.partitionPrefix seg ++ seg.commonPrefix_)
    (seg.parsedKeyAt mv global_seqno pos j))

/-- An iterator of the class stands on version `j` of the record under position `pos`
of the segment `seg`: `seg` is its current segment, it holds the record, the version is
one of the record and decodes without a fault, and the parsed key, `key()` and
`value()` are those of the version. -/
def IteratorClass.At (cls : IteratorClass) (mv : ZipValueMultiValue)
    (it : TerarkZipTableIterator) (seg : TerarkZipSegment) (pos j : Nat) : Prop :=
  cls.segment it = some seg ∧ it.Holds mv seg it.global_seqno_ pos j ∧
  j < seg.valnumAt mv pos ∧ seg.versionOk mv it.global_seqno_ pos j = true ∧
  it.pInterKey_ = seg.parsedKeyAt mv it.global_seqno_ pos j ∧
  it.key = cls.shownKey mv seg it.global_seqno_ pos j ∧
  it.value = (seg.versionAt mv it.global_seqno_ pos j).2.2

/-- Each segment of the index carries its own index in `segmentIndex_`, and
`partCount_` is the number of segments: what `Init` establishes. -/
def SegmentIndex.WellIndexed (si : SegmentIndex) : Prop :=
  si.partCount_ = si.segments_.length ∧
  ∀ (i : Nat) (seg : TerarkZipSegment), si.segments_[i]? = some seg → seg.segmentIndex_ = i

/-- The segments of the class are well indexed: a condition on the segment index of the
multi-segment iterator, none on the single-segment iterators. -/
def IteratorClass.WellIndexed : IteratorClass → Prop
  | IteratorClass.Multi _ si => si.WellIndexed
  | _ => True

/-! ## Opening a table: `GetGlobalSequenceNumber` and `TerarkZipTableReader::Open` -/

/-- Modelled from the spec: `kDisableGlobalSequenceNumber` of the absent `db/dbformat.h`
(`DISABLED_SEQ`), the largest 64-bit word. -/
def kDisableGlobalSequenceNumber : Nat := 2 ^ 64 - 1

/-- Modelled from the spec: `DecodeFixed32` of the absent `util/coding.h`, the
little-endian 32-bit word at the start of the buffer. -/
def DecodeFixed32 (b : Bytes) : Nat := loadLE 4 b

/-- The part of `TableProperties` that the reader consults: what
`user_collected_properties.find` returns for the keys
`ExternalSstFilePropertyNames::kVersion` and `kGlobalSeqno` (`none`: the key is not in
the map), and `data_size`. -/
structure TableProperties where
  version : Option Bytes
  global_seqno : Option Bytes
  data_size : Nat

/-- The function `GetGlobalSequenceNumber`. The result `none` is undefined behaviour: the
member `seqno_pos->second` read when `seqno_pos` is `props.end()`, or a property value
shorter than the word decoded from it. The asserts are compiled out and the messages
printed are dropped. -/
def GetGlobalSequenceNumber (table_properties : TableProperties) : Option Nat :=
  match table_properties.version with
  | none => some kDisableGlobalSequenceNumber
  | some versionBytes =>
    if versionBytes.length < 4 then none
    else
      let version := DecodeFixed32 versionBytes
      if version < 2 then
        if table_properties.global_seqno.isSome || version != 1 then
          match table_properties.global_seqno with
          | none => none
          | some _ => some kDisableGlobalSequenceNumber
        else some kDisableGlobalSequenceNumber
      else
        match table_properties.global_seqno with
        | none => none
        | some seqnoBytes =>
          if seqnoBytes.length < 8 then none else some (DecodeFixed64 seqnoBytes)

/-- What the framing layer and the file deliver to `Open`: the status and result of
`ReadTableProperties`, of `file->Read(0, file_size, ...)` and of `ReadMetaBlock` for the
value-dictionary, index, common-prefix and value-type blocks, the status of
`LoadTombstone`, and the status and result of `ReadMetaBlock` for the license block
(`kTerarkZipTableExtendedBlock`). -/
structure TableFile where
  properties : Status × TableProperties
  fileData : Status × Bytes
  valueDictBlock : Status × Bytes
  indexBlock : Status × Bytes
  tombstone : Status
  commonPrefixBlock : Status × Bytes
  valueTypeBlock : Status × Bytes
  licenseBlock : Status × Bytes

/-- Modelled from the spec: the loaders that `Open` calls. `load_from_user_memory` is
`BlobStore::load_from_user_memory(data, dict)`, `none` when it throws
`BadCrc32cException`; `LoadMemory` is `TerarkIndex::LoadMemory` as `LoadIndex` wraps it,
with the status that `LoadIndex` makes of an exception; `typeVector` reads the 2-bit
tags of `recNum` records from the value-type block. `licenseCheck` is `none` in a build
without `TerocksPrivateCode`; in a build with it, `licenseCheck block` is the result of
`license.check()` after `license.merge(block)` on the license of the table factory. -/
structure TableLoaders where
  load_from_user_memory : Bytes → Bytes → Option BlobStore
  LoadMemory : Bytes → Except Status TerarkIndex
  typeVector : Bytes → Nat → List Nat
  licenseCheck : Option (Bytes → Bool)

/-- The steps of `Open` that touch the file or build a part of the segment, as they are
taken. -/
inductive OpenStep where
  | ReadLicenseBlock
  | ReadValueDictBlock
  | ReadIndexBlock
  | LoadTombstone
  | ReadCommonPrefixBlock
  | LoadBlobStore (data dict : Bytes)
  | LoadIndex
  | ReadValueTypeBlock
deriving DecidableEq, Repr

/-- The members of `TerarkZipTableReader` that `Open` sets, and the ghost log `steps` of
the steps taken, in order. `store_` and `index_` are `none` until they are loaded. -/
structure TerarkZipTableReader where
  global_seqno_ : Nat
  commonPrefix_ : Bytes
  store_ : Option BlobStore
  index_ : Option TerarkIndex
  type_ : List Nat
  steps : List OpenStep

/-- The constructor of `TerarkZipTableReader`. -/
def TerarkZipTableReader.new : TerarkZipTableReader :=
  ⟨kDisableGlobalSequenceNumber, [], none, none, [], []⟩

/-- The license test of `Open` in a build with `TerocksPrivateCode`: the license block
is read, and when it is there it is merged into the license of the table factory, which
is then checked; the test fails when `license.check()` does. A license block that cannot
be read is no failure, and a build without `TerocksPrivateCode` makes no test. -/
def TerarkZipTableReader.licenseExpired (loaders : TableLoaders) (file : TableFile) : Bool :=
  match loaders.licenseCheck with
  | none => false
  | some check => decide (file.licenseBlock.1 = Status.OK) && !check file.licenseBlock.2

/-- The method `TerarkZipTableReader::Open`: the status returned and the reader it
leaves; `none` when `GetGlobalSequenceNumber` is undefined. A license that fails its
check makes `Open` return `Corruption` (`"License expired"`) before the
value-dictionary block is read. Left out: the comparator flags, logging, warm-up and the
index cache, none of which bears on the status or on the members shown. -/
def TerarkZipTableReader.Open (loaders : TableLoaders) (use_mmap_reads : Bool)
    (file : TableFile) : Option (Status × TerarkZipTableReader) :=
  let r0 := TerarkZipTableReader.new
  if file.properties.1 ≠ Status.OK then some (file.properties.1, r0)
  else if !use_mmap_reads then some (Status.InvalidArgument, r0)
  else if file.fileData.1 ≠ Status.OK then some (file.fileData.1, r0)
  else
    match GetGlobalSequenceNumber file.properties.2 with
    | none => none
    | some global_seqno =>
      let r1 := { r0 with
        global_seqno_ := global_seqno
        steps := if loaders.licenseCheck.isSome then [OpenStep.ReadLicenseBlock] else [] }
      if TerarkZipTableReader.licenseExpired loaders file then some (Status.Corruption, r1)
      else
        let valueDictBlock :=
          if file.valueDictBlock.1 = Status.OK then file.valueDictBlock.2 else []
        let r2 := { r1 with steps := r1.steps ++ [OpenStep.ReadValueDictBlock] }
        let r3 := { r2 with steps := r2.steps ++ [OpenStep.ReadIndexBlock] }
        if file.indexBlock.1 ≠ Status.OK then some (file.indexBlock.1, r3)
        else
          let r4 := { r3 with
            steps := r3.steps ++ [OpenStep.LoadTombstone]
            global_seqno_ :=
              if r3.global_seqno_ = kDisableGlobalSequenceNumber then 0 else r3.global_seqno_ }
          let r5 := { r4 with
            steps := r4.steps ++ [OpenStep.ReadCommonPrefixBlock]
            commonPrefix_ :=
              if file.commonPrefixBlock.1 = Status.OK then file.commonPrefixBlock.2
              else r4.commonPrefix_ }
          let data := file.fileData.2.take file.properties.2.data_size
          let r6 := { r5 with steps := r5.steps ++ [OpenStep.LoadBlobStore data valueDictBlock] }
          match loaders.load_from_user_memory data valueDictBlock with
          | none => some (Status.Corruption, r6)
          | some store =>
            let r7 := { r6 with store_ := some store, steps := r6.steps ++ [OpenStep.LoadIndex] }
            match loaders.LoadMemory file.indexBlock.2 with
            | Except.error s => some (s, r7)
            | Except.ok index =>
              let r8 := { r7 with
                index_ := some index
                steps := r7.steps ++ [OpenStep.ReadValueTypeBlock] }
              let r9 := { r8 with
                type_ :=
                  if file.valueTypeBlock.1 = Status.OK then
                    loaders.typeVector file.valueTypeBlock.2 index.NumKeys
                  else r8.type_ }
              some (Status.OK, r9)

/-! ## Warming up a memory map: `MmapWarmUpBytes` -/

/-- Modelled from the spec: `terark::align_up(x, align)` of the absent terark headers, for
an `align` that is a power of two: `(x + align - 1) & ~(align - 1)` in 64-bit words. -/
def align_up (x align : Nat) : Nat := (x + (align - 1)) % 2 ^ 64 / align * align

/-- The loop `for (size_t i = 0; i < size; i += 4096)` of `MmapWarmUpBytes`: the
addresses `base + i` that it reads, in order. -/
def MmapWarmUpBytes.loop (base size : Nat) : Nat → Nat → List Nat
  | 0, _ => []
  | fuel + 1, i =>
    if i < size then
      (base + i) % 2 ^ 64 :: MmapWarmUpBytes.loop base size fuel ((i + 4096) % 2 ^ 64)
    else []

/-- The function `MmapWarmUpBytes(addr, len)`: the result is the list of the addresses at
which the loop reads a byte. The loop gets `size / 4096` rounds of fuel. -/
def MmapWarmUpBytes (addr len : Nat) : List Nat :=
  let base := addr / 4096 * 4096
  let size := align_up ((addr % 4096 + len) % 2 ^ 64) 4096
  MmapWarmUpBytes.loop base size (size / 4096) 0

/-- The `SegmentIndex` of `Init` with the rows of its bytewise layout, each row of
`prefixSet_` the partition prefix itself, whatever the prefix length. For a prefix
length of at most 8 the method `Init` stores the integer layout; this index is the one
on which the bytewise strategies run when they are compared with the integer
strategies on the same partition prefixes. -/
def SegmentIndex.bytewiseLayout (prefixLen : Nat) (offsetPrefixSet : List Bytes)
    (parts : List TerarkZipSegment) (reverse : Bool) : SegmentIndex :=
  { SegmentIndex.Init prefixLen offsetPrefixSet parts reverse with
    prefixSet_ := offsetPrefixSet }

/-- The state invariant of an iterator of the class: a valid iterator holds a record of
its segment and stands on one of its versions, `validx_ < valnum_`; an invalid iterator
has `validx_ = valnum_ = 0` and the parsed key of `SetIterInvalid`, the empty user key
with the sequence `2^64 - 1` and the type `kMaxValue`. -/
def IteratorClass.Consistent (cls : IteratorClass) (mv : ZipValueMultiValue)
    (it : TerarkZipTableIterator) : Prop :=
  (it.Valid = true → ∃ seg pos, cls.segment it = some seg ∧
    it.Holds mv seg it.global_seqno_ pos it.validx_ ∧ it.validx_ < seg.valnumAt mv pos) ∧
  (it.Valid = false → it.validx_ = 0 ∧ it.valnum_ = 0 ∧
    it.pInterKey_ = ⟨[], 2 ^ 64 - 1, kMaxValue⟩)

/-- The field `zValtype_` holds a 2-bit tag whenever the iterator has a version to
decode: either the version counters are reset (`validx_ = valnum_ = 0`, where no decode
follows before the next fetch sets the tag), or the tag is one of 0..3. -/
def TerarkZipTableIterator.TagKnown (it : TerarkZipTableIterator) : Prop :=
  (it.valnum_ = 0 ∧ it.validx_ = 0) ∨ it.zValtype_ < 4

/-- An operation of the iterator does not end in the call of `abort()`: it returns a
result with the property `P`, or it stops at a read out of bounds. -/
def NoAbort {α : Type} (P : α → Prop) (r : Except Fault α) : Prop :=
  match r with
  | Except.ok a => P a
  | Except.error e => e = Fault.OutOfBounds

/-! ## Sample data

The tables below follow the end-to-end scenarios of the specification: common prefix
`"abc"`, global sequence number 100. -/

/-- A sample frame format for `Multi` payloads: each version record is preceded by one
byte holding its length. -/
def sampleFrames : Nat → Bytes → List Bytes
  | 0, _ => []
  | _ + 1, [] => []
  | fuel + 1, n :: rest => rest.take n.toNat :: sampleFrames fuel (rest.drop n.toNat)

/-- The sample decoder of `Multi` payloads. -/
def sampleMulti : ZipValueMultiValue := ⟨fun b => sampleFrames b.length b⟩

/-- The bytes `"abc"`. -/
def abc : Bytes := [0x61, 0x62, 0x63]

/-- The 8 bytes of `packed8 = seq << 8 | type`, for a sequence below 256. -/
def packed8 (seq type : UInt8) : Bytes := [type, seq, 0, 0, 0, 0, 0, 0]

/-- The payload of a `Value` or `Delete` record as the reader takes it apart: a 7-byte
sequence number (below 256 here), then the user value. -/
def seq7 (seq : UInt8) (value : Bytes) : Bytes := [seq, 0, 0, 0, 0, 0, 0] ++ value

/-- A sample store. Record 0 is the value `(50, PUT, "v50")`, record 1 the zero-sequence
value `"vZ"`, record 2 the versions `[(70, PUT, "n"), (40, PUT, "o")]`, record 3 the
versions `[(70, MERGE, "n"), (40, PUT, "o")]`, record 4 a tombstone of sequence 30;
record 5 fails its checksum. -/
def sampleStore : BlobStore :=
  ⟨fun recId =>
    match recId with
    | 0 => some (seq7 50 [0x76, 0x35, 0x30])
    | 1 => some [0x76, 0x5A]
    | 2 => some ([9] ++ packed8 70 1 ++ [0x6E] ++ [9] ++ packed8 40 1 ++ [0x6F])
    | 3 => some ([9] ++ packed8 70 2 ++ [0x6E] ++ [9] ++ packed8 40 1 ++ [0x6F])
    | 4 => some (seq7 30 [])
    | _ => none⟩

/-- A sample index over the key suffixes `"W" < "X" < "Y" < "Z" < "Zm" < "Zz"`. -/
def sampleIndex : TerarkIndex :=
  ⟨[([0x57], 4), ([0x58], 0), ([0x59], 1), ([0x5A], 2), ([0x5A, 0x6D], 3),
    ([0x5A, 0x7A], 5)]⟩

/-- A sample single-segment table: no partition prefix, common prefix `"abc"`. -/
def sampleSegment : TerarkZipSegment :=
  ⟨0, [], abc, sampleIndex, sampleStore, [kValue, kZeroSeq, kMulti, kMulti, kDelete, kValue]⟩

/-- The sample index without its last key `"Zz"`, whose record fails its checksum. -/
def healthyIndex : TerarkIndex :=
  ⟨[([0x57], 4), ([0x58], 0), ([0x59], 1), ([0x5A], 2), ([0x5A, 0x6D], 3)]⟩

/-- The sample segment without the record that fails its checksum: five keys, seven
entries. -/
def healthySegment : TerarkZipSegment := { sampleSegment with index_ := healthyIndex }

/-- A visitor that keeps the values it is given (newest last) and asks for more only
after a `MERGE` operand. -/
def sampleContext : GetContext (List Bytes) :=
  ⟨fun st key value => (st ++ [value], key.type == kTypeMerge)⟩

/-- A visitor that keeps the values it is given and always asks for more. -/
def greedyContext : GetContext (List Bytes) :=
  ⟨fun st _ value => (st ++ [value], true)⟩

/-- The check of the parsed type tag made by the spec: none. -/
def anyType : Nat → Bool := fun _ => true

/-- The 8 bytes of `packed8` for the sequence `MAX_SEQ`. -/
def packedMax (type : UInt8) : Bytes := [type, 0xFF, 0xFF, 0xFF, 0xFF, 0xFF, 0xFF, 0xFF]

/-- The partition prefixes `"p1" < "p2" < "p3"` of a sample multi-segment table. -/
def samplePrefixes : List Bytes := [[0x70, 0x31], [0x70, 0x32], [0x70, 0x33]]

/-- A sample multi-segment table in forward order: three partitions, each with the
common prefix `"abc"` and the keys and records of the sample segment, so that partition
`"p2"` holds the full keys `"p2abcW"`, `"p2abcX"`, `"p2abcY"` and so on. -/
def sampleSegmentIndex : SegmentIndex :=
  SegmentIndex.Init 2 samplePrefixes [sampleSegment, sampleSegment, sampleSegment] false

/-- The sample multi-segment table under a reverse comparator. -/
def sampleSegmentIndexReverse : SegmentIndex :=
  SegmentIndex.Init 2 samplePrefixes [sampleSegment, sampleSegment, sampleSegment] true

/-- The partition `"p2"` of the sample multi-segment table. -/
def samplePartition : TerarkZipSegment :=
  { sampleSegment with segmentIndex_ := 1, prefix_ := [0x70, 0x32] }

/-- A sample segment for the u64 iterator: the 8-byte big-endian keys 1 and 256, split
into the common prefix `00 00 00 00` and the index keys; no type vector, so that every
record is `ZeroSeq`. -/
def u64Segment : TerarkZipSegment :=
  ⟨0, [], [0, 0, 0, 0], ⟨[([0, 0, 0, 1], 0), ([0, 0, 1, 0], 1)]⟩, ⟨fun _ => some [0x76]⟩, []⟩

/-- The state of a fresh multi-segment iterator over the sample table after
`SeekToFirst`. -/
def sampleMultiFirst : TerarkZipTableIterator :=
  match (IteratorClass.Multi false sampleSegmentIndex).SeekToFirst sampleMulti
      (TerarkZipTableIterator.new 100) with
  | Except.ok it => it
  | Except.error _ => TerarkZipTableIterator.new 100

/-- Loaders that accept every block: the store and the index of `sampleSegment`, no
value-type tags. -/
def sampleLoaders : TableLoaders :=
  ⟨fun _ _ => some sampleStore, fun _ => Except.ok sampleIndex, fun _ _ => [], none⟩

/-- The sample loaders in a build with `TerocksPrivateCode`, with a license that fails its
check. -/
def expiredLicenseLoaders : TableLoaders :=
  { sampleLoaders with licenseCheck := some (fun _ => false) }

/-- A file whose blocks can all be read, with the given properties. -/
def sampleTableFile (props : TableProperties) : TableFile :=
  ⟨(Status.OK, props), (Status.OK, [1, 2, 3]), (Status.OK, [9]), (Status.OK, [8]), Status.OK,
    (Status.OK, abc), (Status.OK, []), (Status.OK, [7])⟩

/-- An iterator over the sample segment with a pinning manager attached and enabled,
after `SeekToFirst` and three `Next`: on version 0 of the key `"abcZ"`, which has two
versions. -/
def samplePinned : TerarkZipTableIterator :=
  match (IteratorClass.Single false sampleSegment).run anyType sampleMulti
      { TerarkZipTableIterator.new 100 with pinning := true }
      [IteratorOp.SeekToFirst, IteratorOp.Next, IteratorOp.Next, IteratorOp.Next] with
  | Except.ok it => it
  | Except.error _ => TerarkZipTableIterator.new 100

/-- A sample multi-segment table in forward order whose three partitions hold the keys
and records of the sample segment without the record that fails its checksum. -/
def healthySegmentIndex : SegmentIndex :=
  SegmentIndex.Init 2 samplePrefixes [healthySegment, healthySegment, healthySegment] false

/-- The partition of index `i` of the healthy sample table. -/
def healthyPartition (i : Nat) : TerarkZipSegment :=
  { healthySegment with segmentIndex_ := i, prefix_ := samplePrefixes.getD i [] }

/-- The iterator over the healthy sample table after `SeekToFirst` and six `Next`: on
the last version of the last key of partition `"p1"`. -/
def sampleMultiEdge : TerarkZipTableIterator :=
  ((IteratorClass.Multi false healthySegmentIndex).run anyType sampleMulti
    (TerarkZipTableIterator.new 100)
    [IteratorOp.SeekToFirst, IteratorOp.Next, IteratorOp.Next, IteratorOp.Next,
      IteratorOp.Next, IteratorOp.Next, IteratorOp.Next]).toOption.getD
    (TerarkZipTableIterator.new 100)

/-- The partition prefixes `"p\0" < "q\0"` of two bytes each: the first is the key `"p"`
padded with a zero byte. -/
def zeroTailPrefixes : List Bytes := [[0x70, 0x00], [0x71, 0x00]]

/-- The single-segment iterator over the healthy sample segment after `SeekToFirst` and
four `Next`: on version 1 of the key `"abcZ"`, a `Multi` record of two versions. -/
def sampleSecondVersion : TerarkZipTableIterator :=
  ((IteratorClass.Single false healthySegment).run anyType sampleMulti
    (TerarkZipTableIterator.new 100)
    [IteratorOp.SeekToFirst, IteratorOp.Next, IteratorOp.Next, IteratorOp.Next,
      IteratorOp.Next]).toOption.getD (TerarkZipTableIterator.new 100)

/-- The sample segment with the tag 4 on record 0, a value that a vector of 2-bit tags
cannot hold. -/
def badTagSegment : TerarkZipSegment :=
  { sampleSegment with type_ := [4, kZeroSeq, kMulti, kMulti, kDelete, kValue] }

/-- A sample segment whose common prefix `C3 A9` (the UTF-8 bytes of `"é"`) has bytes of
0x80 and more: the stored keys are `"é1"` and `"é2"`; no type vector, so that every
record is `ZeroSeq`. -/
def highPrefixSegment : TerarkZipSegment :=
  ⟨0, [], [0xC3, 0xA9], ⟨[([0x31], 0), ([0x32], 1)]⟩, ⟨fun _ => some [0x76]⟩, []⟩

/-! ## Point lookup: no version newer than the caller sequence -/

/-- The `kMulti` loop hands the visitor only versions whose sequence is at most the
caller sequence. -/
theorem GetMulti_calls_le {σ : Type} (gc : GetContext σ) (pikey : ParsedInternalKey) :
    ∀ (vs : List Bytes) (st : σ) (o : σ × List SaveCall),
      TerarkZipSegment.GetMulti gc pikey vs st = some o →
      ∀ c ∈ o.2, c.key.sequence ≤ pikey.sequence := by
  intro vs
  induction vs with
  | nil =>
    intro st o h c hc
    simp [TerarkZipSegment.GetMulti] at h
    subst h
    simp at hc
  | cons val rest ih =>
    intro st o h c hc
    unfold TerarkZipSegment.GetMulti at h
    split at h
    · exact absurd h (by simp)
    · dsimp only at h
      split at h
      · rename_i hle
        split at h
        · simp only [Option.some.injEq] at h
          subst h
          simp only [List.mem_singleton] at hc
          subst hc
          exact hle
        · simp only [Option.map_eq_some'] at h
          obtain ⟨o', ho', rfl⟩ := h
          simp only [List.mem_cons] at hc
          rcases hc with rfl | hc
          · exact hle
          · exact ih _ _ ho' c hc
      · exact ih _ _ h c hc

/-- The switch of `Get` on a tag other than `ZeroSeq` hands the visitor only versions
whose sequence is at most the caller sequence. -/
theorem GetDecode_calls_le {σ : Type} (mv : ZipValueMultiValue) (g : Nat)
    (gc : GetContext σ) (pikey : ParsedInternalKey) (t : Nat) (buf : Bytes) (st : σ)
    (o : Status × σ × List SaveCall) (ht : t ≠ kZeroSeq)
    (h : TerarkZipSegment.GetDecode mv g gc pikey t buf st = some o) :
    ∀ c ∈ o.2.2, c.key.sequence ≤ pikey.sequence := by
  intro c hc
  unfold TerarkZipSegment.GetDecode at h
  rw [if_neg ht] at h
  split at h
  · split at h
    · exact absurd h (by simp)
    · dsimp only at h
      split at h
      · rename_i hle
        simp only [Option.some.injEq] at h
        subst h
        simp only [List.mem_singleton] at hc
        subst hc
        exact hle
      · simp only [Option.some.injEq] at h
        subst h
        simp at hc
  · split at h
    · split at h
      · exact absurd h (by simp)
      · dsimp only at h
        split at h
        · rename_i hle
          simp only [Option.some.injEq] at h
          subst h
          simp only [List.mem_singleton] at hc
          subst hc
          exact hle
        · simp only [Option.some.injEq] at h
          subst h
          simp at hc
    · split at h
      · simp only [Option.map_eq_some'] at h
        obtain ⟨o', ho', rfl⟩ := h
        exact GetMulti_calls_le gc pikey _ _ _ ho' c hc
      · simp only [Option.some.injEq] at h
        subst h
        simp at hc

/-- C1. For every segment, every internal key `k@S` and every visitor, `Get` never passes
to the visitor a version of a `Value`, `Delete` or `Multi` record whose embedded sequence
number is greater than the caller sequence `S`: when the record fetched is not tagged
`ZeroSeq`, every invocation of `SaveValue` carries a sequence `≤ S`. -/
theorem Get_no_newer_version {σ : Type} (validType : Nat → Bool) (mv : ZipValueMultiValue)
    (seg : TerarkZipSegment) (global_seqno : Nat) (ikey : Bytes) (gc : GetContext σ)
    (st : σ) (u64 : Bool) (pikey : ParsedInternalKey) (out : GetOutcome σ)
    (hparse : ParseInternalKey validType ikey = some pikey)
    (hget : seg.Get validType mv global_seqno ikey gc st u64 = some out)
    (hrec : ∀ recId ∈ out.fetches, seg.zvType recId ≠ some kZeroSeq) :
    ∀ c ∈ out.calls, c.key.sequence ≤ pikey.sequence := by
  intro c hc
  unfold TerarkZipSegment.Get at hget
  rw [hparse] at hget
  dsimp only at hget
  split at hget
  · simp only [Option.some.injEq] at hget
    subst hget
    simp at hc
  · split at hget
    · exact absurd hget (by simp)
    · split at hget
      · simp only [Option.some.injEq] at hget
        subst hget
        simp at hc
      · rename_i recId hfind
        split at hget
        · exact absurd hget (by simp)
        · rename_i t htype
          split at hget
          · simp only [Option.some.injEq] at hget
            subst hget
            simp at hc
          · rename_i buf hbuf
            simp only [Option.map_eq_some'] at hget
            obtain ⟨o, ho, rfl⟩ := hget
            have ht : t ≠ kZeroSeq := by
              intro h0
              apply hrec recId (by simp)
              rw [htype, h0]
            exact GetDecode_calls_le mv global_seqno gc pikey t buf st o ht ho c hc

/-- Witness of C1: the sample `Multi` record `[(70, PUT, "n"), (40, PUT, "o")]` read at
sequence 55. -/
theorem Get_no_newer_version_witness :
    ParseInternalKey anyType (abc ++ [0x5A] ++ packed8 55 1) = some ⟨abc ++ [0x5A], 55, 1⟩ ∧
    sampleSegment.Get anyType sampleMulti 100 (abc ++ [0x5A] ++ packed8 55 1)
      sampleContext [] false =
      some ⟨Status.OK, [[0x6F]], [⟨⟨abc ++ [0x5A], 40, 1⟩, [0x6F]⟩], [[0x5A]], [2]⟩ ∧
    ∀ c ∈ [(⟨⟨abc ++ [0x5A], 40, 1⟩, [0x6F]⟩ : SaveCall)], c.key.sequence ≤ 55 :=
  ⟨by decide, by decide,
    Get_no_newer_version anyType sampleMulti sampleSegment 100 (abc ++ [0x5A] ++ packed8 55 1)
      sampleContext [] false ⟨abc ++ [0x5A], 55, 1⟩
      ⟨Status.OK, [[0x6F]], [⟨⟨abc ++ [0x5A], 40, 1⟩, [0x6F]⟩], [[0x5A]], [2]⟩
      (by decide) (by decide) (by decide)⟩

/-! ## Point lookup: the early exits -/

/-- An internal key shorter than 8 bytes does not parse. -/
theorem ParseInternalKey_short (validType : Nat → Bool) (ikey : Bytes)
    (h : ikey.length < 8) : ParseInternalKey validType ikey = none := by
  unfold ParseInternalKey
  simp [h]

/-- C8. For every internal key shorter than 8 bytes, `Get` returns `InvalidArgument` and
does not invoke the visitor, consult the index or fetch from the blob store. -/
theorem Get_short_key_invalid {σ : Type} (validType : Nat → Bool) (mv : ZipValueMultiValue)
    (seg : TerarkZipSegment) (global_seqno : Nat) (ikey : Bytes) (gc : GetContext σ)
    (st : σ) (u64 : Bool) (h : ikey.length < 8) :
    seg.Get validType mv global_seqno ikey gc st u64 =
      some ⟨Status.InvalidArgument, st, [], [], []⟩ := by
  unfold TerarkZipSegment.Get
  rw [ParseInternalKey_short validType ikey h]

/-- Witness of C8: the 4-byte key `"abcX"`. -/
theorem Get_short_key_invalid_witness :
    ([0x61, 0x62, 0x63, 0x58] : Bytes).length < 8 ∧
    sampleSegment.Get anyType sampleMulti 100 [0x61, 0x62, 0x63, 0x58] sampleContext [] false =
      some ⟨Status.InvalidArgument, [], [], [], []⟩ :=
  ⟨by decide, Get_short_key_invalid anyType sampleMulti sampleSegment 100
    [0x61, 0x62, 0x63, 0x58] sampleContext [] false (by decide)⟩

/-- The common prefix length is at most the length of the second string. -/
theorem difference_offset_le_right : ∀ (a b : Bytes), difference_offset a b ≤ b.length := by
  intro a
  induction a with
  | nil => intro b; cases b <;> simp [difference_offset]
  | cons x xs ih =>
    intro b
    cases b with
    | nil => simp [difference_offset]
    | cons y ys =>
      simp only [difference_offset]
      split
      · simp only [List.length_cons]
        have := ih ys
        omega
      · simp

/-- A string whose whole length is common with `a` is a prefix of `a`. -/
theorem prefix_of_difference_offset : ∀ (a b : Bytes),
    b.length = difference_offset a b → b <+: a := by
  intro a
  induction a with
  | nil =>
    intro b h
    cases b with
    | nil => simp
    | cons y ys => simp [difference_offset] at h
  | cons x xs ih =>
    intro b h
    cases b with
    | nil => simp
    | cons y ys =>
      simp only [difference_offset] at h
      split at h
      · rename_i hxy
        subst hxy
        simp only [List.length_cons, Nat.add_right_cancel_iff] at h
        have := ih ys h
        exact (List.prefix_cons_inj x).mpr this
      · simp at h

/-- The common prefix length of a string and one of its prefixes is the length of the
prefix. -/
theorem difference_offset_eq_length : ∀ (a b : Bytes),
    b <+: a → difference_offset a b = b.length := by
  intro a
  induction a with
  | nil =>
    intro b h
    have : b = [] := List.prefix_nil.mp h
    subst this
    simp [difference_offset]
  | cons x xs ih =>
    intro b h
    cases b with
    | nil => simp [difference_offset]
    | cons y ys =>
      rw [List.cons_prefix_cons] at h
      obtain ⟨rfl, h⟩ := h
      simp [difference_offset, ih ys h]

/-- C9. For every well-formed internal key whose user key (as `Get` looks it up: the
parsed user key, byte-swapped under `FlagUint64Comparator`) does not start with the
common prefix of the segment, `Get` returns `OK` without invoking the visitor and without
consulting the index or the blob store. -/
theorem Get_prefix_mismatch {σ : Type} (validType : Nat → Bool) (mv : ZipValueMultiValue)
    (seg : TerarkZipSegment) (global_seqno : Nat) (ikey : Bytes) (gc : GetContext σ)
    (st : σ) (u64 : Bool) (pikey : ParsedInternalKey)
    (hparse : ParseInternalKey validType ikey = some pikey)
    (hcp : ¬ seg.commonPrefix_ <+: TerarkZipSegment.GetUserKey u64 ikey pikey) :
    seg.Get validType mv global_seqno ikey gc st u64 = some ⟨Status.OK, st, [], [], []⟩ := by
  unfold TerarkZipSegment.Get
  rw [hparse]
  dsimp only
  rw [if_pos]
  intro h
  exact hcp (prefix_of_difference_offset _ _ h)

/-- Witness of C9: the key `"abdX"@60` against the common prefix `"abc"`. -/
theorem Get_prefix_mismatch_witness :
    ParseInternalKey anyType ([0x61, 0x62, 0x64, 0x58] ++ packed8 60 1) =
      some ⟨[0x61, 0x62, 0x64, 0x58], 60, 1⟩ ∧
    ¬ sampleSegment.commonPrefix_ <+: TerarkZipSegment.GetUserKey false
      ([0x61, 0x62, 0x64, 0x58] ++ packed8 60 1) ⟨[0x61, 0x62, 0x64, 0x58], 60, 1⟩ ∧
    sampleSegment.Get anyType sampleMulti 100 ([0x61, 0x62, 0x64, 0x58] ++ packed8 60 1)
      sampleContext [] false = some ⟨Status.OK, [], [], [], []⟩ :=
  ⟨by decide, by decide,
    Get_prefix_mismatch anyType sampleMulti sampleSegment 100
      ([0x61, 0x62, 0x64, 0x58] ++ packed8 60 1) sampleContext [] false
      ⟨[0x61, 0x62, 0x64, 0x58], 60, 1⟩ (by decide) (by decide)⟩


/-! ## Point lookup: the `Multi` case -/

/-- The invocations made up to the first "no more" are a prefix of the candidates. -/
theorem visitUntilNoMore_initial {σ : Type} (gc : GetContext σ) :
    ∀ (cs : List SaveCall) (st : σ), (visitUntilNoMore gc st cs).2 <+: cs := by
  intro cs
  induction cs with
  | nil => intro st; simp [visitUntilNoMore]
  | cons c cs ih =>
    intro st
    unfold visitUntilNoMore
    split
    · simp [List.prefix_iff_eq_take]
    · exact (List.prefix_cons_inj c).mpr (ih _)

/-- The `kMulti` loop of `Get` makes the invocations the specification lists: the
versions with sequence at most the caller sequence, in order, up to the first
"no more". -/
theorem GetMulti_eq_visitUntilNoMore {σ : Type} (gc : GetContext σ) (pikey : ParsedInternalKey) :
    ∀ (versions : List Bytes) (st : σ), (∀ val ∈ versions, 8 ≤ val.length) →
      TerarkZipSegment.GetMulti gc pikey versions st =
        some (visitUntilNoMore gc st
          ((visibleVersions pikey.sequence versions).map (versionCall pikey.user_key))) := by
  intro versions
  induction versions with
  | nil => intro st _; simp [TerarkZipSegment.GetMulti, visibleVersions, visitUntilNoMore]
  | cons val rest ih =>
    intro st hlen
    have h8 : ¬ val.length < 8 := by
      have := hlen val (by simp)
      omega
    have hrest : ∀ v ∈ rest, 8 ≤ v.length := fun v hv => hlen v (by simp [hv])
    unfold TerarkZipSegment.GetMulti
    rw [if_neg h8]
    dsimp only
    by_cases hle : (UnPackSequenceAndType (DecodeFixed64 val)).1 ≤ pikey.sequence
    · rw [if_pos hle]
      have hv : visibleVersions pikey.sequence (val :: rest) =
          val :: visibleVersions pikey.sequence rest := by
        simp [visibleVersions, versionSeq, hle]
      rw [hv, List.map_cons]
      unfold visitUntilNoMore
      by_cases hmore : (gc.SaveValue st (versionCall pikey.user_key val).key
          (versionCall pikey.user_key val).value).2 = false
      · rw [if_pos hmore]
        simp only [versionCall] at hmore
        rw [if_pos hmore]
        rfl
      · rw [if_neg hmore]
        simp only [versionCall] at hmore
        rw [if_neg hmore, ih _ hrest]
        rfl
    · rw [if_neg hle]
      have hv : visibleVersions pikey.sequence (val :: rest) =
          visibleVersions pikey.sequence rest := by
        simp [visibleVersions, versionSeq, hle]
      rw [hv]
      exact ih st hrest

/-- Once the lookup steps resolve to a record whose tag and payload can be read, `Get` is
the decode switch on that payload. -/
theorem Get_of_Locates {σ : Type} (validType : Nat → Bool) (mv : ZipValueMultiValue)
    (seg : TerarkZipSegment) (global_seqno : Nat) (ikey : Bytes) (gc : GetContext σ)
    (st : σ) (u64 : Bool) (pikey : ParsedInternalKey) (recId zvType : Nat) (payload : Bytes)
    (hloc : seg.Locates validType ikey u64 pikey recId)
    (htype : seg.zvType recId = some zvType)
    (hstore : seg.store_.get_record_append recId = some payload) :
    seg.Get validType mv global_seqno ikey gc st u64 =
      (TerarkZipSegment.GetDecode mv global_seqno gc pikey zvType payload st).map
        (fun o => ⟨o.1, o.2.1, o.2.2, [seg.FindKey u64 ikey pikey], [recId]⟩) := by
  obtain ⟨hparse, hcp, hlen, hfind⟩ := hloc
  unfold TerarkZipSegment.Get
  rw [hparse]
  dsimp only
  rw [if_neg (by rw [← hcp]; simp), ← hcp, if_neg (by omega), hfind]
  dsimp only
  rw [htype]
  dsimp only
  rw [hstore]
  rfl

/-- C4. For every `Multi` record with versions `v0 .. v(n-1)` (newest first) and every
caller sequence `S`, the invocations of the visitor made by `Get` are exactly the versions
with sequence `≤ S` in index order, cut off right after the first invocation for which the
visitor returns "no more"; so they are a subsequence of the version list, a newer
version always before an older one. -/
theorem Get_multi_visits {σ : Type} (validType : Nat → Bool) (mv : ZipValueMultiValue)
    (seg : TerarkZipSegment) (global_seqno : Nat) (ikey : Bytes) (gc : GetContext σ)
    (st : σ) (u64 : Bool) (pikey : ParsedInternalKey) (recId : Nat) (payload : Bytes)
    (hloc : seg.Locates validType ikey u64 pikey recId)
    (htype : seg.zvType recId = some kMulti)
    (hstore : seg.store_.get_record_append recId = some payload)
    (hlen : ∀ val ∈ mv.decode payload, 8 ≤ val.length) :
    ∃ out, seg.Get validType mv global_seqno ikey gc st u64 = some out ∧
      out.status = Status.OK ∧
      (out.ctx, out.calls) = visitUntilNoMore gc st
        ((visibleVersions pikey.sequence (mv.decode payload)).map
          (versionCall pikey.user_key)) ∧
      out.calls.Sublist ((mv.decode payload).map (versionCall pikey.user_key)) := by
  rw [Get_of_Locates validType mv seg global_seqno ikey gc st u64 pikey recId kMulti payload
    hloc htype hstore]
  have hdec : TerarkZipSegment.GetDecode mv global_seqno gc pikey kMulti payload st =
      (TerarkZipSegment.GetMulti gc pikey (mv.decode payload) st).map
        (fun o => (Status.OK, o.1, o.2)) := by
    unfold TerarkZipSegment.GetDecode
    simp [kMulti, kZeroSeq, kValue, kDelete]
  rw [hdec, GetMulti_eq_visitUntilNoMore gc pikey _ st hlen]
  refine ⟨_, rfl, rfl, rfl, ?_⟩
  dsimp only [Option.map]
  refine (visitUntilNoMore_initial gc _ st).sublist.trans ?_
  exact List.Sublist.map _ (List.filter_sublist _)


/-- Witness of C4: the sample `Multi` record `[(70, PUT, "n"), (40, PUT, "o")]` read at
sequence 55. -/
theorem Get_multi_visits_witness :
    ∃ out, sampleSegment.Get anyType sampleMulti 100 (abc ++ [0x5A] ++ packed8 55 1)
        sampleContext [] false = some out ∧
      out.status = Status.OK ∧
      (out.ctx, out.calls) = visitUntilNoMore sampleContext []
        ((visibleVersions (55 : Nat)
          (sampleMulti.decode ([9] ++ packed8 70 1 ++ [0x6E] ++ [9] ++ packed8 40 1 ++ [0x6F]))).map
          (versionCall (abc ++ [0x5A]))) ∧
      out.calls.Sublist
        ((sampleMulti.decode ([9] ++ packed8 70 1 ++ [0x6E] ++ [9] ++ packed8 40 1 ++ [0x6F])).map
          (versionCall (abc ++ [0x5A]))) :=
  Get_multi_visits anyType sampleMulti sampleSegment 100 (abc ++ [0x5A] ++ packed8 55 1)
    sampleContext [] false ⟨abc ++ [0x5A], 55, 1⟩ 2
    ([9] ++ packed8 70 1 ++ [0x6E] ++ [9] ++ packed8 40 1 ++ [0x6F])
    (by decide) (by decide) (by decide) (by decide)

/-- Counterexample to C5 as stated. The sample record `[(70, MERGE, "n"), (40, PUT, "o")]`
is read at `MAX_SEQ` by a visitor that asks for more after a `MERGE` operand. The first
version whose sequence is `≤` the caller sequence is version 0, and `Get` still passes
version 1 to the visitor after it. -/
theorem Get_multi_continues_after_merge :
    (visibleVersions kMaxSequenceNumber (sampleMulti.decode
      ([9] ++ packed8 70 2 ++ [0x6E] ++ [9] ++ packed8 40 1 ++ [0x6F]))).head? =
      some (packed8 70 2 ++ [0x6E]) ∧
    sampleSegment.Get anyType sampleMulti 100 (abc ++ [0x5A, 0x6D] ++ packedMax 1)
      sampleContext [] false =
      some ⟨Status.OK, [[0x6E], [0x6F]],
        [⟨⟨abc ++ [0x5A, 0x6D], 70, kTypeMerge⟩, [0x6E]⟩,
         ⟨⟨abc ++ [0x5A, 0x6D], 40, kTypeValue⟩, [0x6F]⟩], [[0x5A, 0x6D]], [3]⟩ := by
  decide

/-- C5, amended. For every `Multi` record and every visitor that returns "no more" when
it is given the first version whose sequence is `≤` the caller sequence, `Get` passes
that version and no version after it: the visitor is invoked exactly once (not at all
when no version qualifies). -/
theorem Get_multi_stops_at_no_more {σ : Type} (validType : Nat → Bool)
    (mv : ZipValueMultiValue)
    (seg : TerarkZipSegment) (global_seqno : Nat) (ikey : Bytes) (gc : GetContext σ)
    (st : σ) (u64 : Bool) (pikey : ParsedInternalKey) (recId : Nat) (payload : Bytes)
    (hloc : seg.Locates validType ikey u64 pikey recId)
    (htype : seg.zvType recId = some kMulti)
    (hstore : seg.store_.get_record_append recId = some payload)
    (hlen : ∀ val ∈ mv.decode payload, 8 ≤ val.length)
    (hstop : ∀ val, (mv.decode payload).find? (fun v => decide (versionSeq v ≤ pikey.sequence))
        = some val →
      (gc.SaveValue st (versionCall pikey.user_key val).key
        (versionCall pikey.user_key val).value).2 = false) :
    ∃ out, seg.Get validType mv global_seqno ikey gc st u64 = some out ∧
      out.status = Status.OK ∧
      out.calls = (((mv.decode payload).find?
        (fun v => decide (versionSeq v ≤ pikey.sequence))).map
          (versionCall pikey.user_key)).toList := by
  obtain ⟨out, hget, hst, hcalls, -⟩ := Get_multi_visits validType mv seg global_seqno ikey gc
    st u64 pikey recId payload hloc htype hstore hlen
  refine ⟨out, hget, hst, ?_⟩
  have hc : out.calls = (visitUntilNoMore gc st
      ((visibleVersions pikey.sequence (mv.decode payload)).map
        (versionCall pikey.user_key))).2 := by
    rw [← hcalls]
  rw [hc]
  have hhead : ∀ vs : List Bytes, (visibleVersions pikey.sequence vs).head? =
      vs.find? (fun v => decide (versionSeq v ≤ pikey.sequence)) := by
    intro vs
    induction vs with
    | nil => rfl
    | cons v vs ih =>
      by_cases hv : versionSeq v ≤ pikey.sequence
      · simp [visibleVersions, hv]
      · simp [visibleVersions, hv]
  rw [← hhead] at hstop ⊢
  cases hvis : visibleVersions pikey.sequence (mv.decode payload) with
  | nil => simp [visitUntilNoMore]
  | cons v vs =>
    have := hstop v (by rw [hvis]; rfl)
    simp [visitUntilNoMore, this]

/-- Witness of C5, amended: the sample record `[(70, PUT, "n"), (40, PUT, "o")]` read at
sequence 55 by a visitor that stops after a `PUT`. -/
theorem Get_multi_stops_at_no_more_witness :
    ∃ out, sampleSegment.Get anyType sampleMulti 100 (abc ++ [0x5A] ++ packed8 55 1)
        sampleContext [] false = some out ∧
      out.status = Status.OK ∧
      out.calls = (((sampleMulti.decode
        ([9] ++ packed8 70 1 ++ [0x6E] ++ [9] ++ packed8 40 1 ++ [0x6F])).find?
          (fun v => decide (versionSeq v ≤ (55 : Nat)))).map
            (versionCall (abc ++ [0x5A]))).toList :=
  Get_multi_stops_at_no_more anyType sampleMulti sampleSegment 100
    (abc ++ [0x5A] ++ packed8 55 1)
    sampleContext [] false ⟨abc ++ [0x5A], 55, 1⟩ 2
    ([9] ++ packed8 70 1 ++ [0x6E] ++ [9] ++ packed8 40 1 ++ [0x6F])
    (by decide) (by decide) (by decide) (by decide) (by decide)

/-! ## Little-endian loads -/

/-- A little-endian load of `n` bytes is below `256 ^ n`. -/
theorem loadLE_lt : ∀ (n : Nat) (b : Bytes), loadLE n b < 256 ^ n := by
  intro n
  induction n with
  | zero => intro b; simp [loadLE]
  | succ n ih =>
    intro b
    cases b with
    | nil => simp [loadLE]
    | cons x xs =>
      simp only [loadLE]
      have h1 := ih xs
      have h2 : x.toNat < 256 := x.toNat_lt
      rw [Nat.pow_succ]
      omega

/-- A load of one more byte adds that byte on top. -/
theorem loadLE_succ : ∀ (n : Nat) (b : Bytes),
    loadLE (n + 1) b = loadLE n b + 256 ^ n * loadLE 1 (b.drop n) := by
  intro n
  induction n with
  | zero => intro b; simp [loadLE]
  | succ n ih =>
    intro b
    cases b with
    | nil => simp [loadLE]
    | cons x xs =>
      rw [loadLE, ih xs, loadLE, List.drop_succ_cons, Nat.pow_succ]
      ring

/-- The word `*(uint64_t*)p & kMaxSequenceNumber` is the 7-byte little-endian number at
the start of the buffer: the mask removes the eighth byte. -/
theorem DecodeFixed64_and_kMaxSequenceNumber (b : Bytes) :
    DecodeFixed64 b &&& kMaxSequenceNumber = loadLE 7 b := by
  unfold DecodeFixed64 kMaxSequenceNumber
  rw [Nat.and_pow_two_sub_one_eq_mod, loadLE_succ 7 b]
  have h := loadLE_lt 7 b
  have e : (256 : Nat) ^ 7 = 2 ^ 56 := by norm_num
  rw [e] at h ⊢
  rw [Nat.add_mul_mod_self_left, Nat.mod_eq_of_lt h]

/-! ## Point lookup: `Value` and `ZeroSeq` records, and the iterator on the same records -/

/-- Pinning the value buffer leaves the tag, the global sequence number and the cursor
as they are. -/
theorem TryPinValueBuf_fields (it : TerarkZipTableIterator) :
    it.TryPinValueBuf.zValtype_ = it.zValtype_ ∧
    it.TryPinValueBuf.global_seqno_ = it.global_seqno_ ∧
    it.TryPinValueBuf.iter_ = it.iter_ := by
  unfold TerarkZipTableIterator.TryPinValueBuf
  split <;> simp

/-- C2, the code at the failing input. Partition `"p2"` of the sample multi-segment table
has common prefix `"abc"` and a record under the index key `"Y"`, so the full user key of
that record is `"p2abcY"`. `Get` with that key at `MAX_SEQ` returns `OK` and never
invokes the visitor, on the segment and through `TerarkZipTableMultiReader::Get` alike:
it compares the whole user key, partition prefix included, with the common prefix. -/
theorem Get_partition_key_not_found :
    samplePartition.index_.Find [0x59] = some 1 ∧
    samplePartition.store_.get_record_append 1 = some [0x76, 0x5A] ∧
    samplePartition.Get anyType sampleMulti 100
      (samplePartition.prefix_ ++ samplePartition.commonPrefix_ ++ [0x59] ++ packedMax 1)
      sampleContext [] false = some ⟨Status.OK, [], [], [], []⟩ ∧
    TerarkZipTableMultiReader.Get anyType sampleMulti sampleSegmentIndex 100
      (samplePartition.prefix_ ++ samplePartition.commonPrefix_ ++ [0x59] ++ packedMax 1)
      sampleContext [] = some ⟨Status.OK, [], [], [], []⟩ := by
  decide

/-- C3, the code at the failing input. The user key `"abcqqY"` is the full key
`partition_prefix || common_prefix || index_key` of no record of partition `"p2"`, and
`Get` invokes the visitor for it, with the record stored under `"p2abcY"`; the
multi-segment reader routes the same key to partition `"p1"` and invokes the visitor as
well. -/
theorem Get_foreign_key_visited :
    (∀ e ∈ samplePartition.index_.entries,
      samplePartition.prefix_ ++ samplePartition.commonPrefix_ ++ e.1 ≠
        abc ++ [0x71, 0x71, 0x59]) ∧
    samplePartition.Get anyType sampleMulti 100 (abc ++ [0x71, 0x71, 0x59] ++ packedMax 1)
      sampleContext [] false =
      some ⟨Status.OK, [[0x76, 0x5A]],
        [⟨⟨abc ++ [0x71, 0x71, 0x59], 100, kTypeValue⟩, [0x76, 0x5A]⟩], [[0x59]], [1]⟩ ∧
    TerarkZipTableMultiReader.Get anyType sampleMulti sampleSegmentIndex 100
      (abc ++ [0x71, 0x71, 0x59] ++ packedMax 1) sampleContext [] =
      some ⟨Status.OK, [[0x76, 0x5A]],
        [⟨⟨abc ++ [0x71, 0x71, 0x59], 100, kTypeValue⟩, [0x76, 0x5A]⟩], [[0x59]], [1]⟩ := by
  decide

/-- When `GetSegment` returns null for a key of at least 8 bytes,
`TerarkZipTableMultiReader::Get` goes on to dereference the null segment. -/
theorem MultiReader_Get_null_segment {σ : Type} (validType : Nat → Bool)
    (mv : ZipValueMultiValue) (segmentIndex_ : SegmentIndex) (global_seqno_ : Nat)
    (ikey : Bytes) (gc : GetContext σ) (st : σ) (hlen : 8 ≤ ikey.length)
    (hnull : segmentIndex_.GetSegment (ikey.take (ikey.length - 8)) = none) :
    TerarkZipTableMultiReader.Get validType mv segmentIndex_ global_seqno_ ikey gc st = none := by
  unfold TerarkZipTableMultiReader.Get
  rw [if_neg (by omega), hnull]

/-- C10, the code at the failing input. No partition of the sample table (`"p1"`, `"p2"`,
`"p3"`, forward order) covers the well-formed key `"q2abcY"@MAX_SEQ`: `GetSegment`
returns null, and `TerarkZipTableMultiReader::Get` does not return `OK`, it dereferences
the null segment. -/
theorem MultiReader_Get_no_partition :
    ParseInternalKey anyType ([0x71, 0x32] ++ abc ++ [0x59] ++ packedMax 1) =
      some ⟨[0x71, 0x32] ++ abc ++ [0x59], kMaxSequenceNumber, kTypeValue⟩ ∧
    sampleSegmentIndex.GetSegment ([0x71, 0x32] ++ abc ++ [0x59]) = none ∧
    TerarkZipTableMultiReader.Get anyType sampleMulti sampleSegmentIndex 100
      ([0x71, 0x32] ++ abc ++ [0x59] ++ packedMax 1) sampleContext [] = none := by
  decide

/-! ## Point lookup: the lookup steps on a segment without partition prefix -/

/-- The index finds every key it holds, when its keys are distinct. -/
theorem Find_of_mem (index : TerarkIndex) (k : Bytes) (recId : Nat)
    (hnodup : (index.entries.map Prod.fst).Nodup) (he : (k, recId) ∈ index.entries) :
    index.Find k = some recId := by
  unfold TerarkIndex.Find
  cases index with
  | mk entries =>
    dsimp only at hnodup he ⊢
    induction entries with
    | nil => simp at he
    | cons e es ih =>
      rw [List.map_cons, List.nodup_cons] at hnodup
      rw [List.find?_cons]
      rcases List.mem_cons.mp he with h | h
      · subst h
        simp
      · have hne : e.1 ≠ k := by
          intro heq
          apply hnodup.1
          rw [heq]
          exact List.mem_map_of_mem Prod.fst h
        have hb : (e.1 == k) = false := by simpa using hne
        rw [hb]
        exact ih hnodup.2 h

/-- A key that the index finds is one of its entries. -/
theorem mem_of_Find (index : TerarkIndex) (k : Bytes) (recId : Nat)
    (h : index.Find k = some recId) : (k, recId) ∈ index.entries := by
  unfold TerarkIndex.Find at h
  rw [Option.map_eq_some'] at h
  obtain ⟨e, he, rfl⟩ := h
  have hk : e.1 = k := by simpa using List.find?_some he
  have hm := List.mem_of_find?_eq_some he
  rw [← hk]
  exact hm

/-- On a segment without partition prefix, the lookup steps of `Get` resolve the key
`common_prefix || index_key` of a record to that record. -/
theorem Locates_of_entry (validType : Nat → Bool) (seg : TerarkZipSegment) (ikey : Bytes)
    (pikey : ParsedInternalKey) (k : Bytes) (recId : Nat)
    (hp : seg.prefix_ = [])
    (hnodup : (seg.index_.entries.map Prod.fst).Nodup)
    (he : (k, recId) ∈ seg.index_.entries)
    (hparse : ParseInternalKey validType ikey = some pikey)
    (huk : pikey.user_key = seg.commonPrefix_ ++ k) :
    seg.Locates validType ikey false pikey recId := by
  have hu : TerarkZipSegment.GetUserKey false ikey pikey = seg.commonPrefix_ ++ k := by
    simp [TerarkZipSegment.GetUserKey, huk]
  refine ⟨hparse, ?_, ?_, ?_⟩
  · rw [hu, difference_offset_eq_length _ _ (List.prefix_append _ _)]
  · rw [hu, hp]
    simp
  · rw [hu, hp]
    simp only [List.length_nil, Nat.add_zero, List.drop_left]
    exact Find_of_mem seg.index_ k recId hnodup he

/-- On a segment without partition prefix, `Get` on a well-formed key that is the full key
of no record returns `OK`, invokes no visitor and fetches nothing. -/
theorem Get_absent_key {σ : Type} (validType : Nat → Bool) (mv : ZipValueMultiValue)
    (seg : TerarkZipSegment) (global_seqno : Nat) (ikey : Bytes) (gc : GetContext σ)
    (st : σ) (pikey : ParsedInternalKey)
    (hp : seg.prefix_ = [])
    (hparse : ParseInternalKey validType ikey = some pikey)
    (habs : ∀ e ∈ seg.index_.entries, pikey.user_key ≠ seg.commonPrefix_ ++ e.1) :
    ∃ finds, seg.Get validType mv global_seqno ikey gc st false =
      some ⟨Status.OK, st, [], finds, []⟩ := by
  unfold TerarkZipSegment.Get
  rw [hparse]
  dsimp only
  split
  · exact ⟨_, rfl⟩
  · rename_i hcp
    have hcp' : seg.commonPrefix_.length =
        difference_offset (TerarkZipSegment.GetUserKey false ikey pikey) seg.commonPrefix_ := by
      by_contra hne
      exact hcp hne
    have hpre := prefix_of_difference_offset _ _ hcp'
    obtain ⟨t, ht⟩ := hpre
    have hu : TerarkZipSegment.GetUserKey false ikey pikey = pikey.user_key := by
      simp [TerarkZipSegment.GetUserKey]
    rw [← hcp', hp, ← ht]
    simp only [List.length_nil, Nat.add_zero, List.length_append, List.drop_left]
    rw [if_neg (by omega)]
    cases hf : seg.index_.Find t with
    | none => exact ⟨_, rfl⟩
    | some recId =>
      exfalso
      have hm := mem_of_Find seg.index_ t recId hf
      apply habs _ hm
      rw [← hu, ← ht]

/-- At caller sequence `MAX_SEQ` the `kMulti` loop starts with version 0. -/
theorem GetMulti_head {σ : Type} (gc : GetContext σ) (pikey : ParsedInternalKey)
    (d : Bytes) (rest : List Bytes) (st : σ)
    (hmax : pikey.sequence = kMaxSequenceNumber)
    (hlen : ∀ val ∈ d :: rest, 8 ≤ val.length) :
    ∃ o, TerarkZipSegment.GetMulti gc pikey (d :: rest) st = some o ∧
      o.2.head? = some (versionCall pikey.user_key d) := by
  rw [GetMulti_eq_visitUntilNoMore gc pikey (d :: rest) st hlen]
  refine ⟨_, rfl, ?_⟩
  have hvis : versionSeq d ≤ pikey.sequence := by
    rw [hmax]
    unfold versionSeq UnPackSequenceAndType DecodeFixed64 kMaxSequenceNumber
    have h := loadLE_lt 8 d
    have e : (256 : Nat) ^ 8 = 2 ^ 56 * 256 := by norm_num
    rw [e] at h
    have := Nat.div_lt_of_lt_mul (m := loadLE 8 d) (n := 256) (k := 2 ^ 56) (by omega)
    dsimp only
    omega
  have hv : visibleVersions pikey.sequence (d :: rest) =
      d :: visibleVersions pikey.sequence rest := by
    simp [visibleVersions, hvis]
  rw [hv, List.map_cons]
  unfold visitUntilNoMore
  split <;> rfl

/-- Once the lookup steps of `Get` resolve to a record, `Get` at caller sequence `MAX_SEQ`
invokes the visitor, and its first invocation carries the sequence, type and value that
the iterator decodes for version 0 of that record. -/
theorem Get_max_seq_newest_first {σ : Type} (validType : Nat → Bool)
    (mv : ZipValueMultiValue)
    (seg : TerarkZipSegment) (global_seqno : Nat) (ikey : Bytes) (gc : GetContext σ)
    (st : σ) (u64 : Bool) (pikey : ParsedInternalKey) (recId zvType : Nat) (payload : Bytes)
    (it1 it2 : TerarkZipTableIterator)
    (hloc : seg.Locates validType ikey u64 pikey recId)
    (hmax : pikey.sequence = kMaxSequenceNumber)
    (htype : seg.zvType recId = some zvType)
    (hstore : seg.store_.get_record_append recId = some payload)
    (hlen : ∀ val ∈ mv.decode payload, 8 ≤ val.length)
    (ht : it1.zValtype_ = zvType) (hbuf : it1.valueBuf_ = payload) (hidx : it1.validx_ = 0)
    (hg : it1.global_seqno_ = global_seqno)
    (hdec : it1.DecodeCurrKeyValueInternal mv = Except.ok it2) :
    ∃ out, seg.Get validType mv global_seqno ikey gc st u64 = some out ∧
      out.status = Status.OK ∧
      out.calls.head? = some ⟨⟨pikey.user_key, it2.pInterKey_.sequence, it2.pInterKey_.type⟩,
        it2.userValue_⟩ := by
  rw [Get_of_Locates validType mv seg global_seqno ikey gc st u64 pikey recId zvType payload
    hloc htype hstore]
  have hseq7 : loadLE 7 payload ≤ pikey.sequence := by
    rw [hmax]
    have h := loadLE_lt 7 payload
    have e : (256 : Nat) ^ 7 = 2 ^ 56 := by norm_num
    unfold kMaxSequenceNumber
    omega
  unfold TerarkZipTableIterator.DecodeCurrKeyValueInternal at hdec
  unfold TerarkZipSegment.GetDecode
  rw [ht, hbuf, hidx, hg] at hdec
  split at hdec
  · rename_i h0
    rw [if_pos h0]
    simp only [Except.ok.injEq] at hdec
    subst hdec
    exact ⟨_, rfl, rfl, rfl⟩
  · rename_i h0
    rw [if_neg h0]
    split at hdec
    · rename_i h2
      rw [if_pos h2]
      split at hdec
      · exact absurd hdec (by simp)
      · rename_i h7
        rw [if_neg h7]
        simp only [Except.ok.injEq] at hdec
        subst hdec
        dsimp only
        rw [DecodeFixed64_and_kMaxSequenceNumber, if_pos hseq7]
        exact ⟨_, rfl, rfl, rfl⟩
    · rename_i h2
      rw [if_neg h2]
      split at hdec
      · rename_i h1
        rw [if_pos h1]
        split at hdec
        · exact absurd hdec (by simp)
        · rename_i h7
          rw [if_neg h7]
          simp only [Except.ok.injEq] at hdec
          subst hdec
          dsimp only
          rw [DecodeFixed64_and_kMaxSequenceNumber, if_pos hseq7]
          exact ⟨_, rfl, rfl, rfl⟩
      · rename_i h1
        rw [if_neg h1]
        split at hdec
        · rename_i h3
          rw [if_pos h3]
          split at hdec
          · exact absurd hdec (by simp)
          · rename_i d hd
            split at hdec
            · exact absurd hdec (by simp)
            · simp only [Except.ok.injEq] at hdec
              subst hdec
              cases hv : mv.decode payload with
              | nil => rw [hv] at hd; simp at hd
              | cons v rest =>
                rw [hv] at hd hlen
                simp only [List.getElem?_cons_zero, Option.some.injEq] at hd
                subst hd
                obtain ⟨o, ho, hhead⟩ := GetMulti_head gc pikey v rest st hmax hlen
                rw [ho]
                exact ⟨_, rfl, rfl, hhead⟩
        · exact absurd hdec (by simp)

/-! ## Binary search -/

/-- The binary search `lower_bound_n` on a range whose elements less than the key come
first: it ends on the boundary between them and the rest. -/
theorem lower_bound_n_spec {α : Type} (lt : α → α → Bool) (a : Nat → α) (key : α) (n : Nat)
    (hmono : ∀ i j, i ≤ j → j < n → lt (a j) key = true → lt (a i) key = true) :
    ∀ (fuel low upp : Nat), low ≤ upp → upp ≤ n → upp - low ≤ fuel →
      (∀ i, i < low → lt (a i) key = true) → (upp < n → lt (a upp) key = false) →
      low ≤ lower_bound_n lt a key fuel low upp ∧
      lower_bound_n lt a key fuel low upp ≤ upp ∧
      (∀ i, i < lower_bound_n lt a key fuel low upp → lt (a i) key = true) ∧
      (lower_bound_n lt a key fuel low upp < n →
        lt (a (lower_bound_n lt a key fuel low upp)) key = false) := by
  intro fuel
  induction fuel with
  | zero =>
    intro low upp h1 _ h3 h4 h5
    have : low = upp := by omega
    subst this
    simp only [lower_bound_n]
    exact ⟨Nat.le_refl _, Nat.le_refl _, h4, h5⟩
  | succ fuel ih =>
    intro low upp h1 h2 h3 h4 h5
    unfold lower_bound_n
    by_cases hlt : low < upp
    · rw [if_pos hlt]
      dsimp only
      have hm1 : low ≤ (low + upp) / 2 := by omega
      have hm2 : (low + upp) / 2 < upp := by omega
      by_cases hq : lt (a ((low + upp) / 2)) key = true
      · rw [if_pos hq]
        have := ih ((low + upp) / 2 + 1) upp (by omega) h2 (by omega)
          (fun i hi => hmono i ((low + upp) / 2) (by omega) (by omega) hq) h5
        exact ⟨by omega, this.2.1, this.2.2.1, this.2.2.2⟩
      · rw [if_neg hq]
        have hq' : lt (a ((low + upp) / 2)) key = false := by simpa using hq
        have := ih low ((low + upp) / 2) hm1 (by omega) (by omega) h4 (fun _ => hq')
        exact ⟨this.1, by omega, this.2.2.1, this.2.2.2⟩
    · rw [if_neg hlt]
      have : low = upp := by omega
      subst this
      exact ⟨Nat.le_refl _, Nat.le_refl _, h4, h5⟩

/-- The binary search `upper_bound_n` on a range whose elements greater than the key
come last: it ends on the boundary between them and the rest. -/
theorem upper_bound_n_spec {α : Type} (lt : α → α → Bool) (a : Nat → α) (key : α) (n : Nat)
    (hmono : ∀ i j, i ≤ j → j < n → lt key (a i) = true → lt key (a j) = true) :
    ∀ (fuel low upp : Nat), low ≤ upp → upp ≤ n → upp - low ≤ fuel →
      (∀ i, i < low → lt key (a i) = false) → (upp < n → lt key (a upp) = true) →
      low ≤ upper_bound_n lt a key fuel low upp ∧
      upper_bound_n lt a key fuel low upp ≤ upp ∧
      (∀ i, i < upper_bound_n lt a key fuel low upp → lt key (a i) = false) ∧
      (upper_bound_n lt a key fuel low upp < n →
        lt key (a (upper_bound_n lt a key fuel low upp)) = true) := by
  intro fuel
  induction fuel with
  | zero =>
    intro low upp h1 _ h3 h4 h5
    have : low = upp := by omega
    subst this
    simp only [upper_bound_n]
    exact ⟨Nat.le_refl _, Nat.le_refl _, h4, h5⟩
  | succ fuel ih =>
    intro low upp h1 h2 h3 h4 h5
    unfold upper_bound_n
    by_cases hlt : low < upp
    · rw [if_pos hlt]
      dsimp only
      have hm1 : low ≤ (low + upp) / 2 := by omega
      have hm2 : (low + upp) / 2 < upp := by omega
      by_cases hq : lt key (a ((low + upp) / 2)) = true
      · rw [if_pos hq]
        have := ih low ((low + upp) / 2) hm1 (by omega) (by omega) h4 (fun _ => hq)
        exact ⟨this.1, by omega, this.2.2.1, this.2.2.2⟩
      · rw [if_neg hq]
        have hq' : lt key (a ((low + upp) / 2)) = false := by simpa using hq
        have := ih ((low + upp) / 2 + 1) upp (by omega) h2 (by omega)
          (fun i hi => by
            by_contra hc
            have hc' : lt key (a i) = true := by simpa using hc
            have := hmono i ((low + upp) / 2) (by omega) (by omega) hc'
            rw [this] at hq'
            exact Bool.noConfusion hq') h5
        exact ⟨by omega, this.2.1, this.2.2.1, this.2.2.2⟩
    · rw [if_neg hlt]
      have : low = upp := by omega
      subst this
      exact ⟨Nat.le_refl _, Nat.le_refl _, h4, h5⟩

/-- The index that `lower_bound_n` returns over `[0, n)`, with `n` read as "none", is the
least index whose element is not less than the key. -/
theorem IsLeastIndex_of_lower_bound {α : Type} (lt : α → α → Bool) (a : Nat → α) (key : α)
    (n : Nat)
    (hmono : ∀ i j, i ≤ j → j < n → lt (a j) key = true → lt (a i) key = true) :
    IsLeastIndex n (fun i => lt (a i) key = false)
      (if lower_bound_n lt a key n 0 n = n then none
        else some (lower_bound_n lt a key n 0 n)) := by
  have h := lower_bound_n_spec lt a key n hmono n 0 n (Nat.zero_le _) (Nat.le_refl _)
    (by omega) (fun i hi => absurd hi (Nat.not_lt_zero _)) (fun hn => absurd hn (Nat.lt_irrefl _))
  by_cases he : lower_bound_n lt a key n 0 n = n
  · rw [if_pos he]
    intro i hi
    have := h.2.2.1 i (by omega)
    simp [this]
  · rw [if_neg he]
    have hlt : lower_bound_n lt a key n 0 n < n := by omega
    refine ⟨hlt, h.2.2.2 hlt, ?_⟩
    intro j hj
    simp [h.2.2.1 j hj]

/-- The index before the one that `upper_bound_n` returns over `[0, n)`, with 0 read as
"none", is the greatest index whose element is not greater than the key. -/
theorem IsGreatestIndex_of_upper_bound {α : Type} (lt : α → α → Bool) (a : Nat → α) (key : α)
    (n : Nat)
    (hmono : ∀ i j, i ≤ j → j < n → lt key (a i) = true → lt key (a j) = true) :
    IsGreatestIndex n (fun i => lt key (a i) = false)
      (if upper_bound_n lt a key n 0 n = 0 then none
        else some (upper_bound_n lt a key n 0 n - 1)) := by
  have h := upper_bound_n_spec lt a key n hmono n 0 n (Nat.zero_le _) (Nat.le_refl _)
    (by omega) (fun i hi => absurd hi (Nat.not_lt_zero _)) (fun hn => absurd hn (Nat.lt_irrefl _))
  by_cases he : upper_bound_n lt a key n 0 n = 0
  · rw [if_pos he]
    intro i hi
    by_cases hn : 0 < n
    · have h0 := h.2.2.2 (by omega)
      rw [he] at h0
      have := hmono 0 i (Nat.zero_le _) hi h0
      simp [this]
    · omega
  · rw [if_neg he]
    refine ⟨by omega, h.2.2.1 _ (by omega), ?_⟩
    intro j hj hjn
    have hr : upper_bound_n lt a key n 0 n < n := by omega
    have := hmono _ j (by omega) hjn (h.2.2.2 hr)
    simp [this]

/-- The linear scan returns the first index from `i` on whose word is at least the
target. -/
theorem sequentialFrom_spec (si : SegmentIndex) (targetValue : Nat) :
    ∀ (rounds i : Nat),
      match SegmentIndex.sequentialFrom si targetValue rounds i with
      | some r => i ≤ r ∧ r < i + rounds ∧ si.u64At r ≥ targetValue ∧
          ∀ j, i ≤ j → j < r → ¬ si.u64At j ≥ targetValue
      | none => ∀ j, i ≤ j → j < i + rounds → ¬ si.u64At j ≥ targetValue := by
  intro rounds
  induction rounds with
  | zero =>
    intro i
    simp only [SegmentIndex.sequentialFrom]
    intro j h1 h2
    omega
  | succ rounds ih =>
    intro i
    unfold SegmentIndex.sequentialFrom
    by_cases hge : si.u64At i ≥ targetValue
    · rw [if_pos hge]
      exact ⟨Nat.le_refl _, by omega, hge, fun j h1 h2 => by omega⟩
    · rw [if_neg hge]
      have := ih (i + 1)
      cases hr : SegmentIndex.sequentialFrom si targetValue rounds (i + 1) with
      | none =>
        rw [hr] at this
        intro j h1 h2
        by_cases hj : j = i
        · subst hj; exact hge
        · exact this j (by omega) (by omega)
      | some r =>
        rw [hr] at this
        refine ⟨by omega, by omega, this.2.2.1, ?_⟩
        intro j h1 h2
        by_cases hj : j = i
        · subst hj; exact hge
        · exact this.2.2.2 j (by omega) h2

/-! ## The bytewise order and the big-endian integer order -/

/-- No byte string is less than itself. -/
theorem fstring_lt_irrefl : ∀ (a : Bytes), fstring_lt a a = false := by
  intro a
  induction a with
  | nil => rfl
  | cons x xs ih => simp [fstring_lt, ih]

/-- The bytewise order is transitive. -/
theorem fstring_lt_trans : ∀ (a b c : Bytes),
    fstring_lt a b = true → fstring_lt b c = true → fstring_lt a c = true := by
  intro a
  induction a with
  | nil =>
    intro b c h1 h2
    cases b with
    | nil => simp [fstring_lt] at h1
    | cons y ys =>
      cases c with
      | nil => simp [fstring_lt] at h2
      | cons z zs => simp [fstring_lt]
  | cons x xs ih =>
    intro b c h1 h2
    cases b with
    | nil => simp [fstring_lt] at h1
    | cons y ys =>
      cases c with
      | nil => simp [fstring_lt] at h2
      | cons z zs =>
        simp only [fstring_lt] at h1 h2 ⊢
        by_cases hxy : x.toNat < y.toNat
        · by_cases hyz : y.toNat < z.toNat
          · rw [if_pos (by omega)]
          · rw [if_neg hyz] at h2
            by_cases hzy : z.toNat < y.toNat
            · rw [if_pos hzy] at h2
              exact absurd h2 (by simp)
            · rw [if_pos (by omega)]
        · rw [if_neg hxy] at h1
          by_cases hyx : y.toNat < x.toNat
          · rw [if_pos hyx] at h1
            exact absurd h1 (by simp)
          · rw [if_neg hyx] at h1
            have hxy' : x.toNat = y.toNat := by omega
            by_cases hyz : y.toNat < z.toNat
            · rw [if_pos (by omega)]
            · rw [if_neg hyz] at h2
              by_cases hzy : z.toNat < y.toNat
              · rw [if_pos hzy] at h2
                exact absurd h2 (by simp)
              · rw [if_neg hzy] at h2
                rw [if_neg (by omega), if_neg (by omega)]
                exact ih ys zs h1 h2

/-- Two byte strings neither of which is less than the other are equal. -/
theorem fstring_lt_total : ∀ (a b : Bytes),
    fstring_lt a b = false → fstring_lt b a = false → a = b := by
  intro a
  induction a with
  | nil =>
    intro b h1 _
    cases b with
    | nil => rfl
    | cons y ys => simp [fstring_lt] at h1
  | cons x xs ih =>
    intro b h1 h2
    cases b with
    | nil => simp [fstring_lt] at h2
    | cons y ys =>
      simp only [fstring_lt] at h1 h2
      by_cases hxy : x.toNat < y.toNat
      · rw [if_pos hxy] at h1
        exact absurd h1 (by simp)
      · rw [if_neg hxy] at h1
        by_cases hyx : y.toNat < x.toNat
        · rw [if_pos hyx] at h2
          exact absurd h2 (by simp)
        · rw [if_neg hyx] at h1 h2
          rw [if_neg hxy] at h2
          have hx : x = y := UInt8.toNat.inj (by omega)
          rw [hx, ih ys h1 h2]

/-- The bytewise order is asymmetric. -/
theorem fstring_lt_asymm (a b : Bytes) (h : fstring_lt a b = true) :
    fstring_lt b a = false := by
  cases hba : fstring_lt b a with
  | false => rfl
  | true =>
    have := fstring_lt_trans a b a h hba
    rw [fstring_lt_irrefl] at this
    exact absurd this (by simp)

/-- The lemma `a ≤ b → b < c → a < c`, with `a ≤ b` written `¬ b < a`. -/
theorem fstring_lt_of_ge_of_lt (a b c : Bytes)
    (h1 : fstring_lt b a = false) (h2 : fstring_lt b c = true) : fstring_lt a c = true := by
  cases hab : fstring_lt a b with
  | true => exact fstring_lt_trans a b c hab h2
  | false =>
    have := fstring_lt_total a b hab h1
    rw [this]
    exact h2

/-- The lemma `a < b → b ≤ c → a < c`, with `b ≤ c` written `¬ c < b`. -/
theorem fstring_lt_of_lt_of_ge (a b c : Bytes)
    (h1 : fstring_lt a b = true) (h2 : fstring_lt c b = false) : fstring_lt a c = true := by
  cases hbc : fstring_lt b c with
  | true => exact fstring_lt_trans a b c h1 hbc
  | false =>
    have := fstring_lt_total b c hbc h2
    rw [← this]
    exact h1

/-- The big-endian fold started from an accumulator. -/
theorem ReadUint64_foldl (acc : Nat) : ∀ (b : Bytes),
    b.foldl (fun acc x => acc * 256 + x.toNat) acc = acc * 256 ^ b.length + ReadUint64 b := by
  intro b
  induction b generalizing acc with
  | nil => simp [ReadUint64]
  | cons x xs ih =>
    unfold ReadUint64
    rw [List.foldl_cons, List.foldl_cons, ih, ih (0 * 256 + x.toNat), List.length_cons,
      Nat.pow_succ]
    ring

/-- The first byte of a big-endian number is its most significant one. -/
theorem ReadUint64_cons (x : UInt8) (xs : Bytes) :
    ReadUint64 (x :: xs) = x.toNat * 256 ^ xs.length + ReadUint64 xs := by
  have := ReadUint64_foldl (0 * 256 + x.toNat) xs
  unfold ReadUint64 at this ⊢
  rw [List.foldl_cons, this]
  simp

/-- A big-endian number of `n` bytes is below `256 ^ n`. -/
theorem ReadUint64_lt : ∀ (b : Bytes), ReadUint64 b < 256 ^ b.length := by
  intro b
  induction b with
  | nil => simp [ReadUint64]
  | cons x xs ih =>
    rw [ReadUint64_cons, List.length_cons, Nat.pow_succ]
    have h2 : x.toNat < 256 := x.toNat_lt
    have h3 : x.toNat * 256 ^ xs.length + 256 ^ xs.length ≤ 256 * 256 ^ xs.length := by
      have : (x.toNat + 1) * 256 ^ xs.length ≤ 256 * 256 ^ xs.length :=
        Nat.mul_le_mul_right _ (by omega)
      rw [Nat.add_mul, Nat.one_mul] at this
      exact this
    rw [Nat.mul_comm (256 ^ xs.length) 256]
    omega

/-- Leading zero bytes do not change a big-endian number. -/
theorem ReadUint64_zeros (k : Nat) (b : Bytes) :
    ReadUint64 (List.replicate k 0 ++ b) = ReadUint64 b := by
  induction k with
  | zero => simp
  | succ k ih =>
    rw [List.replicate_succ, List.cons_append, ReadUint64_cons, ih]
    simp

/-- On byte strings of one length the order of the big-endian numbers is the bytewise
order. -/
theorem ReadUint64_lt_iff : ∀ (a b : Bytes), a.length = b.length →
    (ReadUint64 a < ReadUint64 b ↔ fstring_lt a b = true) := by
  intro a
  induction a with
  | nil =>
    intro b h
    cases b with
    | nil => simp [ReadUint64, fstring_lt]
    | cons y ys => simp at h
  | cons x xs ih =>
    intro b h
    cases b with
    | nil => simp at h
    | cons y ys =>
      simp only [List.length_cons, Nat.add_right_cancel_iff] at h
      rw [ReadUint64_cons, ReadUint64_cons, h]
      simp only [fstring_lt]
      have hx := ReadUint64_lt xs
      have hy := ReadUint64_lt ys
      rw [h] at hx
      by_cases hxy : x.toNat < y.toNat
      · rw [if_pos hxy]
        simp only [iff_true]
        have : (x.toNat + 1) * 256 ^ ys.length ≤ y.toNat * 256 ^ ys.length :=
          Nat.mul_le_mul_right _ (by omega)
        rw [Nat.add_mul, Nat.one_mul] at this
        omega
      · rw [if_neg hxy]
        by_cases hyx : y.toNat < x.toNat
        · rw [if_pos hyx]
          simp only [Bool.false_eq_true, iff_false, Nat.not_lt]
          have : (y.toNat + 1) * 256 ^ ys.length ≤ x.toNat * 256 ^ ys.length :=
            Nat.mul_le_mul_right _ (by omega)
          rw [Nat.add_mul, Nat.one_mul] at this
          omega
        · rw [if_neg hyx]
          have hxy' : x.toNat = y.toNat := by omega
          rw [hxy']
          rw [← ih ys h]
          omega

/-! ## `GetSegment`: the five strategies -/

/-- The least index does not change when the property is replaced by an equivalent
one. -/
theorem IsLeastIndex_congr (n : Nat) (p q : Nat → Prop) (res : Option Nat)
    (h : ∀ i, i < n → (p i ↔ q i)) (hp : IsLeastIndex n p res) : IsLeastIndex n q res := by
  cases res with
  | none =>
    intro i hi hq
    exact hp i hi ((h i hi).mpr hq)
  | some r =>
    obtain ⟨h1, h2, h3⟩ := hp
    exact ⟨h1, (h r h1).mp h2, fun j hj hq => h3 j hj ((h j (by omega)).mpr hq)⟩

/-- The greatest index does not change when the property is replaced by an equivalent
one. -/
theorem IsGreatestIndex_congr (n : Nat) (p q : Nat → Prop) (res : Option Nat)
    (h : ∀ i, i < n → (p i ↔ q i)) (hp : IsGreatestIndex n p res) :
    IsGreatestIndex n q res := by
  cases res with
  | none =>
    intro i hi hq
    exact hp i hi ((h i hi).mpr hq)
  | some r =>
    obtain ⟨h1, h2, h3⟩ := hp
    exact ⟨h1, (h r h1).mp h2, fun j hj hjn hq => h3 j hj hjn ((h j hjn).mpr hq)⟩

/-- The method `GetSegmentU64Sequential` returns the least index whose word is at least
the target word. -/
theorem GetSegmentU64Sequential_spec (si : SegmentIndex) (key : Bytes) :
    IsLeastIndex si.partCount_ (fun i => si.u64At i ≥ si.targetValue key)
      (si.GetSegmentU64Sequential key) := by
  unfold SegmentIndex.GetSegmentU64Sequential
  have h := sequentialFrom_spec si (si.targetValue key) si.partCount_ 0
  cases hr : SegmentIndex.sequentialFrom si (si.targetValue key) si.partCount_ 0 with
  | none =>
    rw [hr] at h
    intro i hi
    exact h i (Nat.zero_le _) (by omega)
  | some r =>
    rw [hr] at h
    exact ⟨by omega, h.2.2.1, fun j hj => h.2.2.2 j (Nat.zero_le _) hj⟩

/-- The method `GetSegmentU64Binary` returns the least index whose word is at least the
target word, when the words ascend. -/
theorem GetSegmentU64Binary_spec (si : SegmentIndex) (key : Bytes)
    (hmono : ∀ i j, i ≤ j → j < si.partCount_ → si.u64At i ≤ si.u64At j) :
    IsLeastIndex si.partCount_ (fun i => si.u64At i ≥ si.targetValue key)
      (si.GetSegmentU64Binary key) := by
  unfold SegmentIndex.GetSegmentU64Binary
  have h := IsLeastIndex_of_lower_bound (fun (x y : Nat) => decide (x < y)) si.u64At
    (si.targetValue key) si.partCount_ (by
      intro i j hij hj hlt
      have := hmono i j hij hj
      simp only [decide_eq_true_eq] at hlt ⊢
      omega)
  refine IsLeastIndex_congr _ _ _ _ ?_ h
  intro i _
  simp only [decide_eq_false_iff_not, Nat.not_lt, ge_iff_le]

/-- The method `GetSegmentU64BinaryReverse` returns the greatest index whose word is at
most the target word, when the words ascend. -/
theorem GetSegmentU64BinaryReverse_spec (si : SegmentIndex) (key : Bytes)
    (hmono : ∀ i j, i ≤ j → j < si.partCount_ → si.u64At i ≤ si.u64At j) :
    IsGreatestIndex si.partCount_ (fun i => si.u64At i ≤ si.targetValue key)
      (si.GetSegmentU64BinaryReverse key) := by
  unfold SegmentIndex.GetSegmentU64BinaryReverse
  have h := IsGreatestIndex_of_upper_bound (fun (x y : Nat) => decide (x < y)) si.u64At
    (si.targetValue key) si.partCount_ (by
      intro i j hij hj hlt
      have := hmono i j hij hj
      simp only [decide_eq_true_eq] at hlt ⊢
      omega)
  refine IsGreatestIndex_congr _ _ _ _ ?_ h
  intro i _
  simp only [decide_eq_false_iff_not, Nat.not_lt]

/-- The method `GetSegmentBytewise` returns the least index whose prefix is not less
than the key cut to `prefixLen_` bytes, when the prefixes ascend. -/
theorem GetSegmentBytewise_spec (si : SegmentIndex) (key : Bytes)
    (hmono : ∀ i j, i < j → j < si.partCount_ →
      fstring_lt (si.PartIndexOperator i) (si.PartIndexOperator j) = true) :
    IsLeastIndex si.partCount_
      (fun i => fstring_lt (si.PartIndexOperator i) (key.take si.prefixLen_) = false)
      (si.GetSegmentBytewise key) := by
  unfold SegmentIndex.GetSegmentBytewise
  have hk : (if key.length > si.prefixLen_ then key.take si.prefixLen_ else key) =
      key.take si.prefixLen_ := by
    split
    · rfl
    · rw [List.take_of_length_le (by omega)]
  simp only [hk]
  exact IsLeastIndex_of_lower_bound fstring_lt si.PartIndexOperator
    (key.take si.prefixLen_) si.partCount_ (by
      intro i j hij hj hlt
      by_cases he : i = j
      · rw [he]; exact hlt
      · exact fstring_lt_trans _ _ _ (hmono i j (by omega) hj) hlt)

/-- The method `GetSegmentBytewiseReverse` returns the greatest index whose prefix is not
greater than the key cut to `prefixLen_` bytes, when the prefixes ascend. -/
theorem GetSegmentBytewiseReverse_spec (si : SegmentIndex) (key : Bytes)
    (hmono : ∀ i j, i < j → j < si.partCount_ →
      fstring_lt (si.PartIndexOperator i) (si.PartIndexOperator j) = true) :
    IsGreatestIndex si.partCount_
      (fun i => fstring_lt (key.take si.prefixLen_) (si.PartIndexOperator i) = false)
      (si.GetSegmentBytewiseReverse key) := by
  unfold SegmentIndex.GetSegmentBytewiseReverse
  have hk : (if key.length > si.prefixLen_ then key.take si.prefixLen_ else key) =
      key.take si.prefixLen_ := by
    split
    · rfl
    · rw [List.take_of_length_le (by omega)]
  simp only [hk]
  exact IsGreatestIndex_of_upper_bound fstring_lt si.PartIndexOperator
    (key.take si.prefixLen_) si.partCount_ (by
      intro i j hij hj hlt
      by_cases he : i = j
      · rw [← he]; exact hlt
      · exact fstring_lt_trans _ _ _ hlt (hmono i j (by omega) hj))

/-! ## `GetSegment` after `Init` -/

/-- The word that `Init` stores for partition `i` is its prefix read big-endian. -/
theorem Init_u64At (prefixLen : Nat) (pfx : List Bytes) (parts : List TerarkZipSegment)
    (reverse : Bool) (h8 : prefixLen ≤ 8) (i : Nat) (hi : i < pfx.length) :
    (SegmentIndex.Init prefixLen pfx parts reverse).u64At i = ReadUint64 (pfx.getD i []) := by
  unfold SegmentIndex.u64At SegmentIndex.Init
  simp only [if_pos h8]
  rw [List.getD_eq_getElem _ _ (by simpa using hi), List.getD_eq_getElem _ _ hi,
    List.getElem_map]
  unfold SegmentIndex.u64Row
  rw [ReadUint64_zeros]

/-- The target word of the integer strategies is the target key read big-endian. -/
theorem Init_targetValue (prefixLen : Nat) (pfx : List Bytes) (parts : List TerarkZipSegment)
    (reverse : Bool) (h8 : prefixLen ≤ 8) (key : Bytes) :
    (SegmentIndex.Init prefixLen pfx parts reverse).targetValue key =
      ReadUint64 (SegmentIndex.targetKey prefixLen key) := by
  unfold SegmentIndex.targetValue SegmentIndex.targetKey SegmentIndex.Init
  simp only [if_pos h8]
  rw [List.append_assoc, ReadUint64_zeros]
  congr 2
  · rw [List.take_eq_take]
    simp
  · simp only [List.length_take]
    congr 1
    omega

/-- For the integer strategies the target key has exactly `prefixLen` bytes. -/
theorem targetKey_length (prefixLen : Nat) (key : Bytes) (h8 : prefixLen ≤ 8) :
    (SegmentIndex.targetKey prefixLen key).length = prefixLen := by
  unfold SegmentIndex.targetKey
  simp only [if_pos h8, List.length_append, List.length_take, List.length_replicate]
  omega

/-- The row that `Init` stores for partition `i` under a bytewise strategy is its
prefix. -/
theorem Init_PartIndexOperator (prefixLen : Nat) (pfx : List Bytes)
    (parts : List TerarkZipSegment) (reverse : Bool) (h8 : ¬ prefixLen ≤ 8)
    (hlen : ∀ p ∈ pfx, p.length = prefixLen) (i : Nat) (hi : i < pfx.length) :
    (SegmentIndex.Init prefixLen pfx parts reverse).PartIndexOperator i = pfx.getD i [] := by
  unfold SegmentIndex.PartIndexOperator SegmentIndex.Init
  simp only [if_neg h8]
  rw [List.getD_eq_getElem _ _ hi]
  exact List.take_of_length_le (by rw [hlen _ (List.getElem_mem _)])

/-- In a strictly ascending list an earlier element is less than a later one. -/
theorem sorted_getD (pfx : List Bytes)
    (hsorted : pfx.Pairwise (fun a b => fstring_lt a b = true)) (i j : Nat) (hij : i < j)
    (hj : j < pfx.length) : fstring_lt (pfx.getD i []) (pfx.getD j []) = true := by
  rw [List.getD_eq_getElem _ _ hj, List.getD_eq_getElem _ _ (by omega)]
  exact (List.pairwise_iff_getElem.mp hsorted) i j (by omega) hj hij

/-- After `Init` in forward mode, `GetSegment` returns the least index whose partition
prefix is not less than the target key. -/
theorem Init_GetSegment_forward (prefixLen : Nat) (pfx : List Bytes)
    (parts : List TerarkZipSegment) (key : Bytes)
    (hlen : ∀ p ∈ pfx, p.length = prefixLen)
    (hsorted : pfx.Pairwise (fun a b => fstring_lt a b = true)) :
    IsLeastIndex pfx.length
      (fun i => fstring_lt (pfx.getD i []) (SegmentIndex.targetKey prefixLen key) = false)
      ((SegmentIndex.Init prefixLen pfx parts false).GetSegment key) := by
  have hn : (SegmentIndex.Init prefixLen pfx parts false).partCount_ = pfx.length := rfl
  have hL : (SegmentIndex.Init prefixLen pfx parts false).prefixLen_ = prefixLen := rfl
  by_cases h8 : prefixLen ≤ 8
  · have hmono : ∀ i j, i ≤ j →
        j < (SegmentIndex.Init prefixLen pfx parts false).partCount_ →
        (SegmentIndex.Init prefixLen pfx parts false).u64At i ≤
          (SegmentIndex.Init prefixLen pfx parts false).u64At j := by
      intro i j hij hj
      rw [hn] at hj
      rw [Init_u64At _ _ _ _ h8 i (by omega), Init_u64At _ _ _ _ h8 j hj]
      by_cases he : i = j
      · rw [he]
      · have hl : (pfx.getD i []).length = (pfx.getD j []).length := by
          rw [List.getD_eq_getElem _ _ hj, List.getD_eq_getElem _ _ (by omega),
            hlen _ (List.getElem_mem _), hlen _ (List.getElem_mem _)]
        exact Nat.le_of_lt ((ReadUint64_lt_iff _ _ hl).mpr
          (sorted_getD pfx hsorted i j (by omega) hj))
    have hconv : ∀ i, i < pfx.length →
        ((SegmentIndex.Init prefixLen pfx parts false).u64At i ≥
          (SegmentIndex.Init prefixLen pfx parts false).targetValue key ↔
          fstring_lt (pfx.getD i []) (SegmentIndex.targetKey prefixLen key) = false) := by
      intro i hi
      rw [Init_u64At _ _ _ _ h8 i hi, Init_targetValue _ _ _ _ h8]
      have hl : (pfx.getD i []).length = (SegmentIndex.targetKey prefixLen key).length := by
        rw [List.getD_eq_getElem _ _ hi, hlen _ (List.getElem_mem _), targetKey_length _ _ h8]
      have := ReadUint64_lt_iff _ _ hl
      constructor
      · intro hge
        cases hf : fstring_lt (pfx.getD i []) (SegmentIndex.targetKey prefixLen key) with
        | false => rfl
        | true => have := this.mpr hf; omega
      · intro hf
        by_contra hc
        have := this.mp (by omega)
        rw [hf] at this
        exact Bool.noConfusion this
    have hstrat : (SegmentIndex.Init prefixLen pfx parts false).GetSegment key =
        if pfx.length < 32 then
          (SegmentIndex.Init prefixLen pfx parts false).GetSegmentU64Sequential key
        else (SegmentIndex.Init prefixLen pfx parts false).GetSegmentU64Binary key := by
      unfold SegmentIndex.GetSegment
      by_cases h32 : pfx.length < 32
      · have : (SegmentIndex.Init prefixLen pfx parts false).get_segment_ptr =
            GetSegmentStrategy.U64Sequential := by
          simp [SegmentIndex.Init, h8, h32]
        rw [this, if_pos h32]
      · have : (SegmentIndex.Init prefixLen pfx parts false).get_segment_ptr =
            GetSegmentStrategy.U64Binary := by
          simp [SegmentIndex.Init, h8, h32]
        rw [this, if_neg h32]
    rw [hstrat]
    refine IsLeastIndex_congr _ _ _ _ hconv ?_
    split
    · exact GetSegmentU64Sequential_spec _ key
    · exact GetSegmentU64Binary_spec _ key hmono
  · have hstrat : (SegmentIndex.Init prefixLen pfx parts false).GetSegment key =
        (SegmentIndex.Init prefixLen pfx parts false).GetSegmentBytewise key := by
      unfold SegmentIndex.GetSegment
      have : (SegmentIndex.Init prefixLen pfx parts false).get_segment_ptr =
          GetSegmentStrategy.Bytewise := by
        simp [SegmentIndex.Init, h8]
      rw [this]
    rw [hstrat]
    have hmono : ∀ i j, i < j →
        j < (SegmentIndex.Init prefixLen pfx parts false).partCount_ →
        fstring_lt ((SegmentIndex.Init prefixLen pfx parts false).PartIndexOperator i)
          ((SegmentIndex.Init prefixLen pfx parts false).PartIndexOperator j) = true := by
      intro i j hij hj
      rw [hn] at hj
      rw [Init_PartIndexOperator _ _ _ _ h8 hlen i (by omega),
        Init_PartIndexOperator _ _ _ _ h8 hlen j hj]
      exact sorted_getD pfx hsorted i j hij hj
    have h := GetSegmentBytewise_spec _ key hmono
    rw [hn, hL] at h
    refine IsLeastIndex_congr _ _ _ _ ?_ h
    intro i hi
    rw [Init_PartIndexOperator _ _ _ _ h8 hlen i hi]
    unfold SegmentIndex.targetKey
    rw [if_neg h8]

/-- After `Init` in reverse mode, `GetSegment` returns the greatest index whose partition
prefix is not greater than the target key. -/
theorem Init_GetSegment_reverse (prefixLen : Nat) (pfx : List Bytes)
    (parts : List TerarkZipSegment) (key : Bytes)
    (hlen : ∀ p ∈ pfx, p.length = prefixLen)
    (hsorted : pfx.Pairwise (fun a b => fstring_lt a b = true)) :
    IsGreatestIndex pfx.length
      (fun i => fstring_lt (SegmentIndex.targetKey prefixLen key) (pfx.getD i []) = false)
      ((SegmentIndex.Init prefixLen pfx parts true).GetSegment key) := by
  have hn : (SegmentIndex.Init prefixLen pfx parts true).partCount_ = pfx.length := rfl
  have hL : (SegmentIndex.Init prefixLen pfx parts true).prefixLen_ = prefixLen := rfl
  by_cases h8 : prefixLen ≤ 8
  · have hmono : ∀ i j, i ≤ j →
        j < (SegmentIndex.Init prefixLen pfx parts true).partCount_ →
        (SegmentIndex.Init prefixLen pfx parts true).u64At i ≤
          (SegmentIndex.Init prefixLen pfx parts true).u64At j := by
      intro i j hij hj
      rw [hn] at hj
      rw [Init_u64At _ _ _ _ h8 i (by omega), Init_u64At _ _ _ _ h8 j hj]
      by_cases he : i = j
      · rw [he]
      · have hl : (pfx.getD i []).length = (pfx.getD j []).length := by
          rw [List.getD_eq_getElem _ _ hj, List.getD_eq_getElem _ _ (by omega),
            hlen _ (List.getElem_mem _), hlen _ (List.getElem_mem _)]
        exact Nat.le_of_lt ((ReadUint64_lt_iff _ _ hl).mpr
          (sorted_getD pfx hsorted i j (by omega) hj))
    have hconv : ∀ i, i < pfx.length →
        ((SegmentIndex.Init prefixLen pfx parts true).u64At i ≤
          (SegmentIndex.Init prefixLen pfx parts true).targetValue key ↔
          fstring_lt (SegmentIndex.targetKey prefixLen key) (pfx.getD i []) = false) := by
      intro i hi
      rw [Init_u64At _ _ _ _ h8 i hi, Init_targetValue _ _ _ _ h8]
      have hl : (SegmentIndex.targetKey prefixLen key).length = (pfx.getD i []).length := by
        rw [List.getD_eq_getElem _ _ hi, hlen _ (List.getElem_mem _), targetKey_length _ _ h8]
      have := ReadUint64_lt_iff _ _ hl
      constructor
      · intro hge
        cases hf : fstring_lt (SegmentIndex.targetKey prefixLen key) (pfx.getD i []) with
        | false => rfl
        | true => have := this.mpr hf; omega
      · intro hf
        by_contra hc
        have := this.mp (by omega)
        rw [hf] at this
        exact Bool.noConfusion this
    have hstrat : (SegmentIndex.Init prefixLen pfx parts true).GetSegment key =
        (SegmentIndex.Init prefixLen pfx parts true).GetSegmentU64BinaryReverse key := by
      unfold SegmentIndex.GetSegment
      have : (SegmentIndex.Init prefixLen pfx parts true).get_segment_ptr =
          GetSegmentStrategy.U64BinaryReverse := by
        simp [SegmentIndex.Init, h8]
      rw [this]
    rw [hstrat]
    exact IsGreatestIndex_congr _ _ _ _ hconv (GetSegmentU64BinaryReverse_spec _ key hmono)
  · have hstrat : (SegmentIndex.Init prefixLen pfx parts true).GetSegment key =
        (SegmentIndex.Init prefixLen pfx parts true).GetSegmentBytewiseReverse key := by
      unfold SegmentIndex.GetSegment
      have : (SegmentIndex.Init prefixLen pfx parts true).get_segment_ptr =
          GetSegmentStrategy.BytewiseReverse := by
        simp [SegmentIndex.Init, h8]
      rw [this]
    rw [hstrat]
    have hmono : ∀ i j, i < j →
        j < (SegmentIndex.Init prefixLen pfx parts true).partCount_ →
        fstring_lt ((SegmentIndex.Init prefixLen pfx parts true).PartIndexOperator i)
          ((SegmentIndex.Init prefixLen pfx parts true).PartIndexOperator j) = true := by
      intro i j hij hj
      rw [hn] at hj
      rw [Init_PartIndexOperator _ _ _ _ h8 hlen i (by omega),
        Init_PartIndexOperator _ _ _ _ h8 hlen j hj]
      exact sorted_getD pfx hsorted i j hij hj
    have h := GetSegmentBytewiseReverse_spec _ key hmono
    rw [hn, hL] at h
    refine IsGreatestIndex_congr _ _ _ _ ?_ h
    intro i hi
    rw [Init_PartIndexOperator _ _ _ _ h8 hlen i hi]
    unfold SegmentIndex.targetKey
    rw [if_neg h8]

/-! ## The iterator over one segment: the steps of the state machine -/

/-- The method `DecodeCurrKeyValueInternal` stores what `decodeVersion` makes of the
fields it reads, and faults where it does. -/
theorem DecodeCurrKeyValueInternal_eq (mv : ZipValueMultiValue) (it : TerarkZipTableIterator) :
    it.DecodeCurrKeyValueInternal mv =
      match decodeVersion mv it.global_seqno_ it.zValtype_ it.valueBuf_ it.validx_ with
      | Except.ok r =>
        Except.ok { it with
          pInterKey_ := { it.pInterKey_ with sequence := r.1, type := r.2.1 }
          userValue_ := r.2.2 }
      | Except.error e => Except.error e := by
  unfold TerarkZipTableIterator.DecodeCurrKeyValueInternal decodeVersion
  split
  · rfl
  · split
    · split <;> rfl
    · split
      · split <;> rfl
      · split
        · split
          · rfl
          · split <;> rfl
        · rfl

/-- Pinning the key buffer changes the key buffer and the retained list only. -/
theorem TryPinInterKeyBuf_fields (it : TerarkZipTableIterator) :
    it.TryPinInterKeyBuf.iter_ = it.iter_ ∧
    it.TryPinInterKeyBuf.global_seqno_ = it.global_seqno_ ∧
    it.TryPinInterKeyBuf.pInterKey_ = it.pInterKey_ ∧
    it.TryPinInterKeyBuf.valueBuf_ = it.valueBuf_ ∧
    it.TryPinInterKeyBuf.userValue_ = it.userValue_ ∧
    it.TryPinInterKeyBuf.zValtype_ = it.zValtype_ ∧
    it.TryPinInterKeyBuf.valnum_ = it.valnum_ ∧
    it.TryPinInterKeyBuf.validx_ = it.validx_ ∧
    it.TryPinInterKeyBuf.status_ = it.status_ ∧
    it.TryPinInterKeyBuf.pinning = it.pinning ∧
    it.TryPinInterKeyBuf.segment_ = it.segment_ := by
  unfold TerarkZipTableIterator.TryPinInterKeyBuf
  split <;> simp

/-- Pinning the value buffer leaves the parsed key, the version index, the status and
the key buffer alone. -/
theorem TryPinValueBuf_more (it : TerarkZipTableIterator) :
    it.TryPinValueBuf.pInterKey_ = it.pInterKey_ ∧
    it.TryPinValueBuf.validx_ = it.validx_ ∧
    it.TryPinValueBuf.status_ = it.status_ ∧
    it.TryPinValueBuf.pinning = it.pinning ∧
    it.TryPinValueBuf.segment_ = it.segment_ ∧
    it.TryPinValueBuf.interKeyBuf_xx_ = it.interKeyBuf_xx_ := by
  unfold TerarkZipTableIterator.TryPinValueBuf
  split <;> simp

/-- A record that can be fetched: its index entry, tag and payload are there. -/
theorem fetchable_iff (seg : TerarkZipSegment) (pos : Nat) :
    seg.fetchable pos = true ↔
      seg.index_.entries[pos]? = some (seg.keyAt pos, seg.recIdAt pos) ∧
      seg.zvType (seg.recIdAt pos) = some (seg.typeAt pos) ∧
      seg.store_.get_record_append (seg.recIdAt pos) = some (seg.payloadAt pos) := by
  unfold TerarkZipSegment.fetchable TerarkZipSegment.typeAt TerarkZipSegment.payloadAt
    TerarkZipSegment.keyAt TerarkZipSegment.recIdAt
  constructor
  · intro h
    simp only [Bool.and_eq_true, decide_eq_true_eq] at h
    obtain ⟨⟨h1, h2⟩, h3⟩ := h
    rw [List.getD_eq_getElem _ _ h1] at h2 h3 ⊢
    obtain ⟨t, ht⟩ := Option.isSome_iff_exists.mp h2
    obtain ⟨p, hp⟩ := Option.isSome_iff_exists.mp h3
    refine ⟨by rw [List.getElem?_eq_getElem h1], ?_, ?_⟩
    · rw [ht]; rfl
    · rw [hp]; rfl
  · intro ⟨h1, h2, h3⟩
    have hlt : pos < seg.index_.entries.length := by
      by_contra hc
      rw [List.getElem?_eq_none (by omega)] at h1
      exact absurd h1 (by simp)
    simp only [Bool.and_eq_true, decide_eq_true_eq]
    exact ⟨⟨hlt, by rw [h2]; rfl⟩, by rw [h3]; rfl⟩

/-- On a record that can be fetched `UnzipIterRecord` returns `true` and leaves the
iterator holding the record, on version 0. -/
theorem Single_UnzipIterRecord_fetchable (reverse : Bool) (mv : ZipValueMultiValue)
    (seg : TerarkZipSegment) (g : Nat) (it : TerarkZipTableIterator) (pos : Nat)
    (hcur : it.iter_ = some pos) (hg : it.global_seqno_ = g)
    (hf : seg.fetchable pos = true) :
    ∃ it1, (IteratorClass.Single reverse seg).UnzipIterRecord mv it true =
        Except.ok (it1, true) ∧
      it1.Holds mv seg g pos 0 ∧ it1.status_ = it.status_ ∧ it1.pinning = it.pinning := by
  obtain ⟨h1, h2, h3⟩ := (fetchable_iff seg pos).mp hf
  unfold IteratorClass.UnzipIterRecord
  have hb : (it.iter_.bind fun pos => seg.index_.entries[pos]?) =
      some (seg.keyAt pos, seg.recIdAt pos) := by
    rw [hcur]
    exact h1
  simp only [if_true, IteratorClass.segment, hb, h2, h3]
  refine ⟨_, rfl, ?_, ?_, ?_⟩
  · refine ⟨?_, rfl, ?_, hf, ?_, rfl, ?_, rfl⟩
    · exact (TryPinValueBuf_fields _).2.2.trans hcur
    · exact (TryPinValueBuf_fields _).2.1.trans hg
    · exact (TryPinValueBuf_fields _).1
    · rfl
  · exact (TryPinValueBuf_more _).2.2.1
  · exact (TryPinValueBuf_more _).2.2.2.1

/-- On a record whose fetch raises `UnzipIterRecord` returns `false` and leaves the
iterator invalid with the status `Corruption`. -/
theorem Single_UnzipIterRecord_corrupt (reverse : Bool) (mv : ZipValueMultiValue)
    (seg : TerarkZipSegment) (it : TerarkZipTableIterator) (pos : Nat)
    (hcur : it.iter_ = some pos) (hc : seg.corruptAt pos = true) :
    ∃ it1, (IteratorClass.Single reverse seg).UnzipIterRecord mv it true =
        Except.ok (it1, false) ∧
      it1.Valid = false ∧ it1.status_ = Status.Corruption ∧
      it1.valnum_ = 0 ∧ it1.validx_ = 0 ∧ it1.global_seqno_ = it.global_seqno_ ∧
      it1.pInterKey_ = ⟨[], 2 ^ 64 - 1, kMaxValue⟩ := by
  unfold TerarkZipSegment.corruptAt at hc
  simp only [Bool.and_eq_true, decide_eq_true_eq] at hc
  obtain ⟨⟨h1, h2⟩, h3⟩ := hc
  obtain ⟨t, ht⟩ := Option.isSome_iff_exists.mp h2
  have hnone : seg.store_.get_record_append (seg.recIdAt pos) = none := by
    simpa using h3
  unfold IteratorClass.UnzipIterRecord
  have hb : (it.iter_.bind fun pos => seg.index_.entries[pos]?) =
      some (seg.keyAt pos, seg.recIdAt pos) := by
    rw [hcur]
    simp only [Option.some_bind, TerarkZipSegment.keyAt, TerarkZipSegment.recIdAt]
    rw [List.getElem?_eq_getElem h1, List.getD_eq_getElem _ _ h1]
  simp only [if_true, IteratorClass.segment, hb, ht, hnone]
  refine ⟨_, rfl, rfl, rfl, rfl, rfl, ?_, rfl⟩
  simp only [IteratorClass.SetIterInvalid, TerarkZipTableIterator.SetIterInvalid]
  exact ((TryPinInterKeyBuf_fields _).2.1).trans (TryPinValueBuf_fields _).2.1

/-- Without a record `UnzipIterRecord` invalidates the iterator and keeps the status. -/
theorem Single_UnzipIterRecord_none (reverse : Bool) (mv : ZipValueMultiValue)
    (seg : TerarkZipSegment) (it : TerarkZipTableIterator) :
    ∃ it1, (IteratorClass.Single reverse seg).UnzipIterRecord mv it false =
        Except.ok (it1, false) ∧
      it1.Valid = false ∧ it1.status_ = it.status_ ∧
      it1.valnum_ = 0 ∧ it1.validx_ = 0 ∧ it1.global_seqno_ = it.global_seqno_ ∧
      it1.pInterKey_ = ⟨[], 2 ^ 64 - 1, kMaxValue⟩ := by
  unfold IteratorClass.UnzipIterRecord
  simp only [Bool.false_eq_true, if_false]
  refine ⟨_, rfl, rfl, ?_, rfl, rfl, ?_, rfl⟩
  · exact (TryPinInterKeyBuf_fields _).2.2.2.2.2.2.2.2.1
  · exact (TryPinInterKeyBuf_fields _).2.1

/-- Holding a record does not depend on the version index. -/
theorem Holds_set_validx (mv : ZipValueMultiValue) (seg : TerarkZipSegment) (g : Nat)
    (it : TerarkZipTableIterator) (pos j j1 : Nat) (h : it.Holds mv seg g pos j) :
    TerarkZipTableIterator.Holds mv seg g { it with validx_ := j1 } pos j1 := by
  obtain ⟨h1, _, h3, h4, h5, h6, h7, h8⟩ := h
  exact ⟨h1, rfl, h3, h4, h5, h6, h7, h8⟩

/-- A version that decodes without a fault decodes to `versionAt`. -/
theorem versionOk_iff (mv : ZipValueMultiValue) (seg : TerarkZipSegment) (g pos j : Nat) :
    seg.versionOk mv g pos j = true ↔
      decodeVersion mv g (seg.typeAt pos) (seg.payloadAt pos) j =
        Except.ok (seg.versionAt mv g pos j) := by
  unfold TerarkZipSegment.versionOk TerarkZipSegment.versionAt
  cases decodeVersion mv g (seg.typeAt pos) (seg.payloadAt pos) j with
  | ok r => simp
  | error e => simp

/-- Decoding a version that is there and well formed positions the iterator on it. -/
theorem Single_DecodeCurrKeyValue_ok (reverse : Bool) (mv : ZipValueMultiValue)
    (seg : TerarkZipSegment) (g : Nat) (it : TerarkZipTableIterator) (pos j : Nat)
    (h : it.Holds mv seg g pos j) (hj : j < seg.valnumAt mv pos)
    (hok : seg.versionOk mv g pos j = true) :
    ∃ it1, (IteratorClass.Single reverse seg).DecodeCurrKeyValue mv it = Except.ok it1 ∧
      it1.PositionedAt mv seg g pos j ∧ it1.status_ = it.status_ ∧
      it1.pinning = it.pinning := by
  have hd := (versionOk_iff mv seg g pos j).mp hok
  obtain ⟨h1, h2, h3, h4, h5, h6, h7, h8⟩ := h
  have hd1 : decodeVersion mv it.global_seqno_ it.zValtype_ it.valueBuf_ it.validx_ =
      Except.ok (seg.versionAt mv g pos j) := by
    rw [h3, h5, h6, h2]
    exact hd
  simp only [IteratorClass.DecodeCurrKeyValue, TerarkZipTableIterator.DecodeCurrKeyValue]
  rw [DecodeCurrKeyValueInternal_eq, hd1]
  refine ⟨_, rfl, ⟨⟨h1, h2, h3, h4, h5, h6, h7, h8⟩, hj, ?_, ?_⟩, rfl, rfl⟩
  · simp only [TerarkZipSegment.parsedKeyAt]
    rw [← h8]
  · simp only [TerarkZipTableIterator.entry, TerarkZipTableIterator.key,
      TerarkZipTableIterator.value, TerarkZipSegment.entryAt, TerarkZipSegment.parsedKeyAt]
    rw [← h8]

/-- A well-formed record, spelt out. -/
theorem recordOk_iff (mv : ZipValueMultiValue) (seg : TerarkZipSegment) (g pos : Nat) :
    seg.recordOk mv g pos = true ↔
      seg.fetchable pos = true ∧ 0 < seg.valnumAt mv pos ∧
      ∀ j, j < seg.valnumAt mv pos → seg.versionOk mv g pos j = true := by
  unfold TerarkZipSegment.recordOk
  simp only [Bool.and_eq_true, decide_eq_true_eq, List.all_eq_true, List.mem_range]
  constructor
  · intro ⟨⟨h1, h2⟩, h3⟩
    exact ⟨h1, h2, h3⟩
  · intro ⟨h1, h2, h3⟩
    exact ⟨⟨h1, h2⟩, h3⟩

/-- A well-formed segment, spelt out. -/
theorem wellFormed_iff (mv : ZipValueMultiValue) (seg : TerarkZipSegment) (g : Nat) :
    seg.wellFormed mv g = true ↔
      ∀ pos, pos < seg.index_.entries.length → seg.recordOk mv g pos = true := by
  unfold TerarkZipSegment.wellFormed
  simp only [List.all_eq_true, List.mem_range]

/-- The tail of `SeekToFirst`, `Next` and the like on a well-formed record: the iterator
ends on version 0 of it. -/
theorem Single_unzipAndDecode_first (reverse : Bool) (mv : ZipValueMultiValue)
    (seg : TerarkZipSegment) (g : Nat) (it : TerarkZipTableIterator) (pos : Nat)
    (hcur : it.iter_ = some pos) (hg : it.global_seqno_ = g)
    (hok : seg.recordOk mv g pos = true) :
    ∃ it1, (IteratorClass.Single reverse seg).unzipAndDecode mv false (it, true) =
        Except.ok it1 ∧
      it1.PositionedAt mv seg g pos 0 ∧ it1.status_ = it.status_ ∧
      it1.pinning = it.pinning := by
  obtain ⟨hf, hv, hall⟩ := (recordOk_iff mv seg g pos).mp hok
  obtain ⟨u, hu, hh, hs, hp⟩ :=
    Single_UnzipIterRecord_fetchable reverse mv seg g it pos hcur hg hf
  obtain ⟨d, hd, hpos, hs2, hp2⟩ :=
    Single_DecodeCurrKeyValue_ok reverse mv seg g u pos 0 hh hv (hall 0 hv)
  unfold IteratorClass.unzipAndDecode
  simp only [hu, if_true, Bool.false_eq_true, if_false]
  exact ⟨d, hd, hpos, hs2.trans hs, hp2.trans hp⟩

/-- The tail of `SeekToLast` and `Prev` on a well-formed record: the iterator ends on the
last version of it. -/
theorem Single_unzipAndDecode_last (reverse : Bool) (mv : ZipValueMultiValue)
    (seg : TerarkZipSegment) (g : Nat) (it : TerarkZipTableIterator) (pos : Nat)
    (hcur : it.iter_ = some pos) (hg : it.global_seqno_ = g)
    (hok : seg.recordOk mv g pos = true) :
    ∃ it1, (IteratorClass.Single reverse seg).unzipAndDecode mv true (it, true) =
        Except.ok it1 ∧
      it1.PositionedAt mv seg g pos (seg.valnumAt mv pos - 1) ∧ it1.status_ = it.status_ ∧
      it1.pinning = it.pinning := by
  obtain ⟨hf, hv, hall⟩ := (recordOk_iff mv seg g pos).mp hok
  obtain ⟨u, hu, hh, hs, hp⟩ :=
    Single_UnzipIterRecord_fetchable reverse mv seg g it pos hcur hg hf
  have hn : u.valnum_ = seg.valnumAt mv pos := hh.2.2.2.2.2.2.1
  obtain ⟨d, hd, hpos, hs2, hp2⟩ :=
    Single_DecodeCurrKeyValue_ok reverse mv seg g { u with validx_ := u.valnum_ - 1 } pos
      (seg.valnumAt mv pos - 1) (by rw [← hn]; exact Holds_set_validx mv seg g u pos 0 _ hh)
      (by omega) (hall _ (by omega))
  unfold IteratorClass.unzipAndDecode
  simp only [hu, if_true]
  exact ⟨d, hd, hpos, hs2.trans hs, hp2.trans hp⟩

/-- The tail of a positioning method when the index cursor found no key: the iterator
ends invalid, the status is kept. -/
theorem Single_unzipAndDecode_none (reverse : Bool) (mv : ZipValueMultiValue)
    (seg : TerarkZipSegment) (toLast : Bool) (it : TerarkZipTableIterator) :
    ∃ it1, (IteratorClass.Single reverse seg).unzipAndDecode mv toLast (it, false) =
        Except.ok it1 ∧
      it1.Valid = false ∧ it1.status_ = it.status_ ∧
      it1.valnum_ = 0 ∧ it1.validx_ = 0 ∧ it1.global_seqno_ = it.global_seqno_ ∧
      it1.pInterKey_ = ⟨[], 2 ^ 64 - 1, kMaxValue⟩ := by
  obtain ⟨u, hu, h⟩ := Single_UnzipIterRecord_none reverse mv seg it
  unfold IteratorClass.unzipAndDecode
  simp only [hu, Bool.false_eq_true, if_false]
  exact ⟨u, rfl, h⟩

/-- The tail of a positioning method on a record whose fetch raises: the iterator ends
invalid with the status `Corruption`. -/
theorem Single_unzipAndDecode_corrupt (reverse : Bool) (mv : ZipValueMultiValue)
    (seg : TerarkZipSegment) (toLast : Bool) (it : TerarkZipTableIterator) (pos : Nat)
    (hcur : it.iter_ = some pos) (hc : seg.corruptAt pos = true) :
    ∃ it1, (IteratorClass.Single reverse seg).unzipAndDecode mv toLast (it, true) =
        Except.ok it1 ∧
      it1.Valid = false ∧ it1.status_ = Status.Corruption ∧
      it1.valnum_ = 0 ∧ it1.validx_ = 0 ∧ it1.global_seqno_ = it.global_seqno_ ∧
      it1.pInterKey_ = ⟨[], 2 ^ 64 - 1, kMaxValue⟩ := by
  obtain ⟨u, hu, h⟩ := Single_UnzipIterRecord_corrupt reverse mv seg it pos hcur hc
  unfold IteratorClass.unzipAndDecode
  simp only [hu, Bool.false_eq_true, if_false]
  exact ⟨u, rfl, h⟩

/-- The method `IndexIterSeekToFirst` puts the cursor on the first position in table
order. -/
theorem Single_IndexIterSeekToFirst_eq (reverse : Bool) (seg : TerarkZipSegment)
    (it : TerarkZipTableIterator) :
    (IteratorClass.Single reverse seg).IndexIterSeekToFirst it =
      Except.ok ({ it.TryPinInterKeyBuf with iter_ := (seg.positions reverse).head? },
        ((seg.positions reverse).head?).isSome) := by
  have h : (if reverse then TerarkIndex.Iterator.SeekToLast seg.index_
      else TerarkIndex.Iterator.SeekToFirst seg.index_) = (seg.positions reverse).head? := by
    unfold TerarkZipSegment.positions TerarkIndex.Iterator.SeekToLast
      TerarkIndex.Iterator.SeekToFirst
    cases reverse
    · cases hn : seg.index_.entries.length with
      | zero => simp
      | succ n => simp [List.range_succ_eq_map]
    · cases hn : seg.index_.entries.length with
      | zero => simp
      | succ n => simp [List.range_succ]
  simp only [IteratorClass.IndexIterSeekToFirst, TerarkZipTableIterator.IndexIterSeekToFirst, h]

/-- The method `IndexIterSeekToLast` puts the cursor on the last position in table
order. -/
theorem Single_IndexIterSeekToLast_eq (reverse : Bool) (seg : TerarkZipSegment)
    (it : TerarkZipTableIterator) :
    (IteratorClass.Single reverse seg).IndexIterSeekToLast it =
      Except.ok ({ it.TryPinInterKeyBuf with iter_ := (seg.positions reverse).getLast? },
        ((seg.positions reverse).getLast?).isSome) := by
  have h : (if reverse then TerarkIndex.Iterator.SeekToFirst seg.index_
      else TerarkIndex.Iterator.SeekToLast seg.index_) = (seg.positions reverse).getLast? := by
    unfold TerarkZipSegment.positions TerarkIndex.Iterator.SeekToLast
      TerarkIndex.Iterator.SeekToFirst
    cases reverse
    · cases hn : seg.index_.entries.length with
      | zero => simp
      | succ n => simp [List.range_succ]
    · cases hn : seg.index_.entries.length with
      | zero => simp
      | succ n => simp [List.range_succ_eq_map]
  simp only [IteratorClass.IndexIterSeekToLast, TerarkZipTableIterator.IndexIterSeekToLast, h]

/-- The method `IndexIterNext` from a valid cursor moves it to the next position in
table order. -/
theorem Single_IndexIterNext_eq (reverse : Bool) (seg : TerarkZipSegment)
    (it : TerarkZipTableIterator) (pos : Nat) (hcur : it.iter_ = some pos) :
    (IteratorClass.Single reverse seg).IndexIterNext it =
      Except.ok ({ it.TryPinInterKeyBuf with iter_ := seg.nextPos reverse pos },
        (seg.nextPos reverse pos).isSome) := by
  simp only [IteratorClass.IndexIterNext, TerarkZipTableIterator.IndexIterNext, hcur,
    TerarkZipSegment.nextPos]

/-- The method `IndexIterPrev` from a valid cursor moves it to the previous position in
table order. -/
theorem Single_IndexIterPrev_eq (reverse : Bool) (seg : TerarkZipSegment)
    (it : TerarkZipTableIterator) (pos : Nat) (hcur : it.iter_ = some pos) :
    (IteratorClass.Single reverse seg).IndexIterPrev it =
      Except.ok ({ it.TryPinInterKeyBuf with iter_ := seg.prevPos reverse pos },
        (seg.prevPos reverse pos).isSome) := by
  simp only [IteratorClass.IndexIterPrev, TerarkZipTableIterator.IndexIterPrev, hcur,
    TerarkZipSegment.prevPos]

/-- The method `Next` inside a record: the iterator ends on the next version. -/
theorem Single_Next_within (reverse : Bool) (mv : ZipValueMultiValue)
    (seg : TerarkZipSegment) (g : Nat) (it : TerarkZipTableIterator) (pos j : Nat)
    (h : it.Holds mv seg g pos j) (hj : j + 1 < seg.valnumAt mv pos)
    (hok : seg.versionOk mv g pos (j + 1) = true) :
    ∃ it1, (IteratorClass.Single reverse seg).Next mv it = Except.ok it1 ∧
      it1.PositionedAt mv seg g pos (j + 1) ∧ it1.status_ = it.status_ ∧
      it1.pinning = it.pinning := by
  have hn : it.valnum_ = seg.valnumAt mv pos := h.2.2.2.2.2.2.1
  have hi : it.validx_ = j := h.2.1
  subst hi
  unfold IteratorClass.Next
  dsimp only
  rw [if_pos (by rw [hn]; exact hj)]
  exact Single_DecodeCurrKeyValue_ok reverse mv seg g { it with validx_ := it.validx_ + 1 } pos
    (it.validx_ + 1) (Holds_set_validx mv seg g it pos _ _ h) hj hok

/-- The method `Next` from the last version of a record: the iterator ends on version 0
of the record under the next position. -/
theorem Single_Next_record (reverse : Bool) (mv : ZipValueMultiValue)
    (seg : TerarkZipSegment) (g : Nat) (it : TerarkZipTableIterator) (pos j q : Nat)
    (h : it.Holds mv seg g pos j) (hj : ¬ j + 1 < seg.valnumAt mv pos)
    (hq : seg.nextPos reverse pos = some q) (hok : seg.recordOk mv g q = true) :
    ∃ it1, (IteratorClass.Single reverse seg).Next mv it = Except.ok it1 ∧
      it1.PositionedAt mv seg g q 0 ∧ it1.status_ = it.status_ ∧
      it1.pinning = it.pinning := by
  have hn : it.valnum_ = seg.valnumAt mv pos := h.2.2.2.2.2.2.1
  have hi : it.validx_ = j := h.2.1
  subst hi
  unfold IteratorClass.Next
  dsimp only
  rw [if_neg (by rw [hn]; exact hj)]
  rw [Single_IndexIterNext_eq reverse seg { it with validx_ := it.validx_ + 1 } pos h.1, hq]
  simp only [Option.isSome_some]
  obtain ⟨it1, h1, h2, h3, h4⟩ := Single_unzipAndDecode_first reverse mv seg g
    { ({ it with validx_ := it.validx_ + 1 } : TerarkZipTableIterator).TryPinInterKeyBuf with
      iter_ := some q } q rfl
    (((TryPinInterKeyBuf_fields _).2.1).trans h.2.2.1) hok
  exact ⟨it1, h1, h2, h3.trans (TryPinInterKeyBuf_fields _).2.2.2.2.2.2.2.2.1,
    h4.trans (TryPinInterKeyBuf_fields _).2.2.2.2.2.2.2.2.2.1⟩

/-- The method `Next` from the last version of the last record: the iterator ends
invalid, with the status it had. -/
theorem Single_Next_end (reverse : Bool) (mv : ZipValueMultiValue)
    (seg : TerarkZipSegment) (g : Nat) (it : TerarkZipTableIterator) (pos j : Nat)
    (h : it.Holds mv seg g pos j) (hj : ¬ j + 1 < seg.valnumAt mv pos)
    (hq : seg.nextPos reverse pos = none) :
    ∃ it1, (IteratorClass.Single reverse seg).Next mv it = Except.ok it1 ∧
      it1.Valid = false ∧ it1.status_ = it.status_ ∧ it1.valnum_ = 0 ∧ it1.validx_ = 0 ∧
      it1.global_seqno_ = g ∧ it1.pInterKey_ = ⟨[], 2 ^ 64 - 1, kMaxValue⟩ := by
  have hn : it.valnum_ = seg.valnumAt mv pos := h.2.2.2.2.2.2.1
  have hi : it.validx_ = j := h.2.1
  subst hi
  unfold IteratorClass.Next
  dsimp only
  rw [if_neg (by rw [hn]; exact hj)]
  rw [Single_IndexIterNext_eq reverse seg { it with validx_ := it.validx_ + 1 } pos h.1, hq]
  simp only [Option.isSome_none]
  obtain ⟨it1, h1, h2, h3, h4, h5, h6, h7⟩ := Single_unzipAndDecode_none reverse mv seg false
    { ({ it with validx_ := it.validx_ + 1 } : TerarkZipTableIterator).TryPinInterKeyBuf with
      iter_ := none }
  exact ⟨it1, h1, h2, h3.trans (TryPinInterKeyBuf_fields _).2.2.2.2.2.2.2.2.1, h4, h5,
    (h6.trans (TryPinInterKeyBuf_fields _).2.1).trans h.2.2.1, h7⟩

/-- The method `Prev` inside a record: the iterator ends on the version before. -/
theorem Single_Prev_within (reverse : Bool) (mv : ZipValueMultiValue)
    (seg : TerarkZipSegment) (g : Nat) (it : TerarkZipTableIterator) (pos j : Nat)
    (h : it.Holds mv seg g pos j) (hj : 0 < j) (hjv : j < seg.valnumAt mv pos)
    (hok : seg.versionOk mv g pos (j - 1) = true) :
    ∃ it1, (IteratorClass.Single reverse seg).Prev mv it = Except.ok it1 ∧
      it1.PositionedAt mv seg g pos (j - 1) ∧ it1.status_ = it.status_ ∧
      it1.pinning = it.pinning := by
  have hi : it.validx_ = j := h.2.1
  subst hi
  unfold IteratorClass.Prev
  rw [if_pos hj]
  exact Single_DecodeCurrKeyValue_ok reverse mv seg g { it with validx_ := it.validx_ - 1 } pos
    (it.validx_ - 1) (Holds_set_validx mv seg g it pos _ _ h) (by omega) hok

/-- The method `Prev` from version 0 of a record: the iterator ends on the last version
of the record under the previous position. -/
theorem Single_Prev_record (reverse : Bool) (mv : ZipValueMultiValue)
    (seg : TerarkZipSegment) (g : Nat) (it : TerarkZipTableIterator) (pos q : Nat)
    (h : it.Holds mv seg g pos 0)
    (hq : seg.prevPos reverse pos = some q) (hok : seg.recordOk mv g q = true) :
    ∃ it1, (IteratorClass.Single reverse seg).Prev mv it = Except.ok it1 ∧
      it1.PositionedAt mv seg g q (seg.valnumAt mv q - 1) ∧ it1.status_ = it.status_ ∧
      it1.pinning = it.pinning := by
  have hi : it.validx_ = 0 := h.2.1
  unfold IteratorClass.Prev
  rw [if_neg (by omega)]
  rw [Single_IndexIterPrev_eq reverse seg it pos h.1, hq]
  simp only [Option.isSome_some]
  obtain ⟨it1, h1, h2, h3, h4⟩ := Single_unzipAndDecode_last reverse mv seg g
    { it.TryPinInterKeyBuf with iter_ := some q } q rfl
    (((TryPinInterKeyBuf_fields _).2.1).trans h.2.2.1) hok
  exact ⟨it1, h1, h2, h3.trans (TryPinInterKeyBuf_fields _).2.2.2.2.2.2.2.2.1,
    h4.trans (TryPinInterKeyBuf_fields _).2.2.2.2.2.2.2.2.2.1⟩

/-- The method `Prev` from version 0 of the first record: the iterator ends invalid, with
the status it had. -/
theorem Single_Prev_end (reverse : Bool) (mv : ZipValueMultiValue)
    (seg : TerarkZipSegment) (g : Nat) (it : TerarkZipTableIterator) (pos : Nat)
    (h : it.Holds mv seg g pos 0) (hq : seg.prevPos reverse pos = none) :
    ∃ it1, (IteratorClass.Single reverse seg).Prev mv it = Except.ok it1 ∧
      it1.Valid = false ∧ it1.status_ = it.status_ := by
  have hi : it.validx_ = 0 := h.2.1
  unfold IteratorClass.Prev
  rw [if_neg (by omega)]
  rw [Single_IndexIterPrev_eq reverse seg it pos h.1, hq]
  simp only [Option.isSome_none]
  obtain ⟨it1, h1, h2, h3, _⟩ := Single_unzipAndDecode_none reverse mv seg true
    { it.TryPinInterKeyBuf with iter_ := none }
  exact ⟨it1, h1, h2, h3.trans (TryPinInterKeyBuf_fields _).2.2.2.2.2.2.2.2.1⟩

/-- The method `SeekToFirst` on a segment whose first record in table order is well
formed: the iterator ends on version 0 of it. -/
theorem Single_SeekToFirst_some (reverse : Bool) (mv : ZipValueMultiValue)
    (seg : TerarkZipSegment) (g : Nat) (it : TerarkZipTableIterator) (pos : Nat)
    (hg : it.global_seqno_ = g) (hp : (seg.positions reverse).head? = some pos)
    (hok : seg.recordOk mv g pos = true) :
    ∃ it1, (IteratorClass.Single reverse seg).SeekToFirst mv it = Except.ok it1 ∧
      it1.PositionedAt mv seg g pos 0 ∧ it1.status_ = it.status_ ∧
      it1.pinning = it.pinning := by
  unfold IteratorClass.SeekToFirst
  rw [Single_IndexIterSeekToFirst_eq, hp]
  simp only [Option.isSome_some]
  obtain ⟨it1, h1, h2, h3, h4⟩ := Single_unzipAndDecode_first reverse mv seg g
    { it.TryPinInterKeyBuf with iter_ := some pos } pos rfl
    (((TryPinInterKeyBuf_fields _).2.1).trans hg) hok
  exact ⟨it1, h1, h2, h3.trans (TryPinInterKeyBuf_fields _).2.2.2.2.2.2.2.2.1,
    h4.trans (TryPinInterKeyBuf_fields _).2.2.2.2.2.2.2.2.2.1⟩

/-- The method `SeekToFirst` when the fetch of the first record raises: the iterator ends
invalid with the status `Corruption`. -/
theorem Single_SeekToFirst_corrupt (reverse : Bool) (mv : ZipValueMultiValue)
    (seg : TerarkZipSegment) (it : TerarkZipTableIterator) (pos : Nat)
    (hp : (seg.positions reverse).head? = some pos) (hc : seg.corruptAt pos = true) :
    ∃ it1, (IteratorClass.Single reverse seg).SeekToFirst mv it = Except.ok it1 ∧
      it1.Valid = false ∧ it1.status_ = Status.Corruption := by
  unfold IteratorClass.SeekToFirst
  rw [Single_IndexIterSeekToFirst_eq, hp]
  simp only [Option.isSome_some]
  obtain ⟨it1, h1, h2, h3, _⟩ := Single_unzipAndDecode_corrupt reverse mv seg false
    { it.TryPinInterKeyBuf with iter_ := some pos } pos rfl hc
  exact ⟨it1, h1, h2, h3⟩

/-- The method `SeekToFirst` on an empty segment: the iterator ends invalid. -/
theorem Single_SeekToFirst_none (reverse : Bool) (mv : ZipValueMultiValue)
    (seg : TerarkZipSegment) (it : TerarkZipTableIterator)
    (hp : (seg.positions reverse).head? = none) :
    ∃ it1, (IteratorClass.Single reverse seg).SeekToFirst mv it = Except.ok it1 ∧
      it1.Valid = false ∧ it1.status_ = it.status_ := by
  unfold IteratorClass.SeekToFirst
  rw [Single_IndexIterSeekToFirst_eq, hp]
  simp only [Option.isSome_none]
  obtain ⟨it1, h1, h2, h3, _⟩ := Single_unzipAndDecode_none reverse mv seg false
    { it.TryPinInterKeyBuf with iter_ := none }
  exact ⟨it1, h1, h2, h3.trans (TryPinInterKeyBuf_fields _).2.2.2.2.2.2.2.2.1⟩

/-- The method `SeekToLast` on a segment whose last record in table order is well formed:
the iterator ends on the last version of it. -/
theorem Single_SeekToLast_some (reverse : Bool) (mv : ZipValueMultiValue)
    (seg : TerarkZipSegment) (g : Nat) (it : TerarkZipTableIterator) (pos : Nat)
    (hg : it.global_seqno_ = g) (hp : (seg.positions reverse).getLast? = some pos)
    (hok : seg.recordOk mv g pos = true) :
    ∃ it1, (IteratorClass.Single reverse seg).SeekToLast mv it = Except.ok it1 ∧
      it1.PositionedAt mv seg g pos (seg.valnumAt mv pos - 1) ∧ it1.status_ = it.status_ ∧
      it1.pinning = it.pinning := by
  unfold IteratorClass.SeekToLast
  rw [Single_IndexIterSeekToLast_eq, hp]
  simp only [Option.isSome_some]
  obtain ⟨it1, h1, h2, h3, h4⟩ := Single_unzipAndDecode_last reverse mv seg g
    { it.TryPinInterKeyBuf with iter_ := some pos } pos rfl
    (((TryPinInterKeyBuf_fields _).2.1).trans hg) hok
  exact ⟨it1, h1, h2, h3.trans (TryPinInterKeyBuf_fields _).2.2.2.2.2.2.2.2.1,
    h4.trans (TryPinInterKeyBuf_fields _).2.2.2.2.2.2.2.2.2.1⟩

/-- The method `SeekToLast` when the fetch of the last record raises: the iterator ends
invalid with the status `Corruption`. -/
theorem Single_SeekToLast_corrupt (reverse : Bool) (mv : ZipValueMultiValue)
    (seg : TerarkZipSegment) (it : TerarkZipTableIterator) (pos : Nat)
    (hp : (seg.positions reverse).getLast? = some pos) (hc : seg.corruptAt pos = true) :
    ∃ it1, (IteratorClass.Single reverse seg).SeekToLast mv it = Except.ok it1 ∧
      it1.Valid = false ∧ it1.status_ = Status.Corruption := by
  unfold IteratorClass.SeekToLast
  rw [Single_IndexIterSeekToLast_eq, hp]
  simp only [Option.isSome_some]
  obtain ⟨it1, h1, h2, h3, _⟩ := Single_unzipAndDecode_corrupt reverse mv seg true
    { it.TryPinInterKeyBuf with iter_ := some pos } pos rfl hc
  exact ⟨it1, h1, h2, h3⟩

/-- The method `SeekToLast` on an empty segment: the iterator ends invalid. -/
theorem Single_SeekToLast_none (reverse : Bool) (mv : ZipValueMultiValue)
    (seg : TerarkZipSegment) (it : TerarkZipTableIterator)
    (hp : (seg.positions reverse).getLast? = none) :
    ∃ it1, (IteratorClass.Single reverse seg).SeekToLast mv it = Except.ok it1 ∧
      it1.Valid = false ∧ it1.status_ = it.status_ := by
  unfold IteratorClass.SeekToLast
  rw [Single_IndexIterSeekToLast_eq, hp]
  simp only [Option.isSome_none]
  obtain ⟨it1, h1, h2, h3, _⟩ := Single_unzipAndDecode_none reverse mv seg true
    { it.TryPinInterKeyBuf with iter_ := none }
  exact ⟨it1, h1, h2, h3.trans (TryPinInterKeyBuf_fields _).2.2.2.2.2.2.2.2.1⟩

/-! ## The iterator over one segment: full scans -/

/-- The positions `s, s + 1, ..., n - 1` are a complete walk of the ascending cursor. -/
theorem LinkedBy_range' (n : Nat) : ∀ k s, s + k = n →
    LinkedBy (fun p => if p + 1 < n then some (p + 1) else none) (List.range' s k) := by
  intro k
  induction k with
  | zero => intro s _; simp [LinkedBy]
  | succ k ih =>
    intro s hs
    cases k with
    | zero =>
      simp only [List.range', LinkedBy]
      rw [if_neg (by omega)]
    | succ k =>
      have := ih (s + 1) (by omega)
      simp only [List.range', LinkedBy] at this ⊢
      exact ⟨by rw [if_pos (by omega)], this⟩

/-- The positions `n - 1, ..., 1, 0` are a complete walk of the descending cursor. -/
theorem LinkedBy_range_reverse (n : Nat) :
    LinkedBy (fun p => if 0 < p then some (p - 1) else none) (List.range n).reverse := by
  induction n with
  | zero => simp [LinkedBy]
  | succ n ih =>
    cases n with
    | zero => simp [LinkedBy]
    | succ n =>
      rw [List.range_succ, List.reverse_append, List.reverse_singleton, List.singleton_append]
      rw [List.range_succ, List.reverse_append, List.reverse_singleton,
        List.singleton_append] at ih ⊢
      simp only [LinkedBy]
      exact ⟨by simp, ih⟩

/-- The positions of a segment in table order are a complete walk of `nextPos`. -/
theorem positions_LinkedBy_nextPos (seg : TerarkZipSegment) (reverse : Bool) :
    LinkedBy (seg.nextPos reverse) (seg.positions reverse) := by
  cases reverse
  · have h : seg.nextPos false =
        fun p => if p + 1 < seg.index_.entries.length then some (p + 1) else none := by
      funext p
      simp [TerarkZipSegment.nextPos, TerarkIndex.Iterator.Next]
    rw [h]
    simp only [TerarkZipSegment.positions, Bool.false_eq_true, if_false, List.range_eq_range']
    exact LinkedBy_range' _ _ 0 (by omega)
  · have h : seg.nextPos true = fun p => if 0 < p then some (p - 1) else none := by
      funext p
      simp [TerarkZipSegment.nextPos, TerarkIndex.Iterator.Prev]
    rw [h]
    simp only [TerarkZipSegment.positions, if_true]
    exact LinkedBy_range_reverse _

/-- The positions of a segment against table order are a complete walk of `prevPos`. -/
theorem positions_reverse_LinkedBy_prevPos (seg : TerarkZipSegment) (reverse : Bool) :
    LinkedBy (seg.prevPos reverse) (seg.positions reverse).reverse := by
  cases reverse
  · have h : seg.prevPos false = fun p => if 0 < p then some (p - 1) else none := by
      funext p
      simp [TerarkZipSegment.prevPos, TerarkIndex.Iterator.Prev]
    rw [h]
    simp only [TerarkZipSegment.positions, Bool.false_eq_true, if_false]
    exact LinkedBy_range_reverse _
  · have h : seg.prevPos true =
        fun p => if p + 1 < seg.index_.entries.length then some (p + 1) else none := by
      funext p
      simp [TerarkZipSegment.prevPos, TerarkIndex.Iterator.Next]
    rw [h]
    simp only [TerarkZipSegment.positions, if_true, List.reverse_reverse,
      List.range_eq_range']
    exact LinkedBy_range' _ _ 0 (by omega)

/-- The positions of a segment are the positions of its index. -/
theorem mem_positions (seg : TerarkZipSegment) (reverse : Bool) (p : Nat) :
    p ∈ seg.positions reverse ↔ p < seg.index_.entries.length := by
  cases reverse <;> simp [TerarkZipSegment.positions]

/-- An invalid iterator yields no entry. -/
theorem collect_invalid (step : TerarkZipTableIterator → Except Fault TerarkZipTableIterator)
    (fuel : Nat) (it : TerarkZipTableIterator) (h : it.Valid = false) :
    IteratorClass.collect step fuel it = Except.ok ([], true) := by
  cases fuel with
  | zero => simp [IteratorClass.collect, h]
  | succ n => simp [IteratorClass.collect, h]

/-- A valid iterator yields its entry, then those of the iterator after one step. -/
theorem collect_step (step : TerarkZipTableIterator → Except Fault TerarkZipTableIterator)
    (fuel : Nat) (it it1 : TerarkZipTableIterator) (es : List (Bytes × Nat × Nat × Bytes))
    (b : Bool) (hv : it.Valid = true) (hs : step it = Except.ok it1)
    (hc : IteratorClass.collect step fuel it1 = Except.ok (es, b)) :
    IteratorClass.collect step (fuel + 1) it = Except.ok (it.entry :: es, b) := by
  simp [IteratorClass.collect, hv, hs, hc]

/-- An iterator that is positioned on a version is valid. -/
theorem PositionedAt_Valid (mv : ZipValueMultiValue) (seg : TerarkZipSegment) (g : Nat)
    (it : TerarkZipTableIterator) (pos j : Nat) (h : it.PositionedAt mv seg g pos j) :
    it.Valid = true := by
  unfold TerarkZipTableIterator.Valid
  rw [h.1.1]
  rfl

/-- The entries of a list of positions: those of the first record, then the rest. -/
theorem entriesOf_cons (mv : ZipValueMultiValue) (seg : TerarkZipSegment) (g : Nat)
    (pos : Nat) (ps : List Nat) :
    seg.entriesOf mv g (pos :: ps) =
      (List.range (seg.valnumAt mv pos)).map (fun j => seg.entryAt mv g pos j) ++
        seg.entriesOf mv g ps := by
  simp [TerarkZipSegment.entriesOf]

/-- The entries of two lists of positions, one after the other. -/
theorem entriesOf_append (mv : ZipValueMultiValue) (seg : TerarkZipSegment) (g : Nat)
    (ps qs : List Nat) :
    seg.entriesOf mv g (ps ++ qs) = seg.entriesOf mv g ps ++ seg.entriesOf mv g qs := by
  simp [TerarkZipSegment.entriesOf]

/-- The forward walk over the versions of one record, from version `j` on, followed by
whatever `Next` yields from the last version. -/
theorem Single_collect_Next_record (reverse : Bool) (mv : ZipValueMultiValue)
    (seg : TerarkZipSegment) (g pos : Nat) (tail : List (Bytes × Nat × Nat × Bytes))
    (hok : ∀ j, j < seg.valnumAt mv pos → seg.versionOk mv g pos j = true)
    (hcont : ∀ (it : TerarkZipTableIterator) (j fuel : Nat), it.Holds mv seg g pos j →
      j + 1 = seg.valnumAt mv pos → tail.length ≤ fuel →
      ∃ it1, (IteratorClass.Single reverse seg).Next mv it = Except.ok it1 ∧
        IteratorClass.collect ((IteratorClass.Single reverse seg).Next mv) fuel it1 =
          Except.ok (tail, true)) :
    ∀ (k j : Nat) (it : TerarkZipTableIterator) (fuel : Nat),
      it.PositionedAt mv seg g pos j → j + k = seg.valnumAt mv pos →
      k + tail.length ≤ fuel →
      IteratorClass.collect ((IteratorClass.Single reverse seg).Next mv) fuel it =
        Except.ok ((List.range' j k).map (fun i => seg.entryAt mv g pos i) ++ tail, true) := by
  intro k
  induction k with
  | zero =>
    intro j it fuel hp hk _
    have := hp.2.1
    omega
  | succ k ih =>
    intro j it fuel hp hk hfuel
    obtain ⟨fuel, rfl⟩ : ∃ f, fuel = f + 1 := ⟨fuel - 1, by omega⟩
    have hv := PositionedAt_Valid mv seg g it pos j hp
    have he : it.entry = seg.entryAt mv g pos j := hp.2.2.2
    cases k with
    | zero =>
      obtain ⟨it1, h1, h2⟩ := hcont it j fuel hp.1 (by omega) (by omega)
      rw [collect_step _ fuel it it1 tail true hv h1 h2, he]
      rfl
    | succ k =>
      obtain ⟨it1, h1, h2, _⟩ := Single_Next_within reverse mv seg g it pos j hp.1 (by omega)
        (hok _ (by omega))
      have h3 := ih (j + 1) it1 fuel h2 (by omega) (by omega)
      rw [collect_step _ fuel it it1 _ true hv h1 h3, he]
      rfl

/-- The forward walk from version `j` of the record under `pos` to the end of the table:
the remaining versions of the record, then the records under the positions that follow. -/
theorem Single_collect_Next (reverse : Bool) (mv : ZipValueMultiValue)
    (seg : TerarkZipSegment) (g : Nat) :
    ∀ (ps : List Nat) (pos k j : Nat) (it : TerarkZipTableIterator) (fuel : Nat),
      LinkedBy (seg.nextPos reverse) (pos :: ps) →
      (∀ p, p ∈ pos :: ps → seg.recordOk mv g p = true) →
      it.PositionedAt mv seg g pos j → j + k = seg.valnumAt mv pos →
      k + (seg.entriesOf mv g ps).length ≤ fuel →
      IteratorClass.collect ((IteratorClass.Single reverse seg).Next mv) fuel it =
        Except.ok ((List.range' j k).map (fun i => seg.entryAt mv g pos i) ++
          seg.entriesOf mv g ps, true) := by
  intro ps
  induction ps with
  | nil =>
    intro pos k j it fuel hl hrec hp hk hfuel
    have hr := (recordOk_iff mv seg g pos).mp (hrec pos (List.mem_cons_self _ _))
    refine Single_collect_Next_record reverse mv seg g pos _ hr.2.2 ?_ k j it fuel hp hk hfuel
    intro it0 j0 fuel0 h0 hj0 _
    obtain ⟨it1, h1, h2, _⟩ := Single_Next_end reverse mv seg g it0 pos j0 h0 (by omega) hl
    exact ⟨it1, h1, collect_invalid _ _ _ h2⟩
  | cons q rest ih =>
    intro pos k j it fuel hl hrec hp hk hfuel
    have hr := (recordOk_iff mv seg g pos).mp (hrec pos (List.mem_cons_self _ _))
    have hq : seg.recordOk mv g q = true :=
      hrec q (List.mem_cons_of_mem _ (List.mem_cons_self _ _))
    refine Single_collect_Next_record reverse mv seg g pos _ hr.2.2 ?_ k j it fuel hp hk hfuel
    intro it0 j0 fuel0 h0 hj0 hf0
    obtain ⟨it1, h1, h2, _⟩ := Single_Next_record reverse mv seg g it0 pos j0 q h0 (by omega)
      hl.1 hq
    refine ⟨it1, h1, ?_⟩
    rw [entriesOf_cons, List.length_append, List.length_map, List.length_range] at hf0
    have := ih q (seg.valnumAt mv q) 0 it1 fuel0 hl.2
      (fun p hp => hrec p (List.mem_cons_of_mem _ hp)) h2 (by omega) hf0
    rw [this, entriesOf_cons, List.range_eq_range']

/-- The backward walk over the versions of one record, from version `j` down, followed
by whatever `Prev` yields from version 0. -/
theorem Single_collect_Prev_record (reverse : Bool) (mv : ZipValueMultiValue)
    (seg : TerarkZipSegment) (g pos : Nat) (tail : List (Bytes × Nat × Nat × Bytes))
    (hok : ∀ j, j < seg.valnumAt mv pos → seg.versionOk mv g pos j = true)
    (hcont : ∀ (it : TerarkZipTableIterator) (fuel : Nat), it.Holds mv seg g pos 0 →
      tail.length ≤ fuel →
      ∃ it1, (IteratorClass.Single reverse seg).Prev mv it = Except.ok it1 ∧
        IteratorClass.collect ((IteratorClass.Single reverse seg).Prev mv) fuel it1 =
          Except.ok (tail, true)) :
    ∀ (j : Nat) (it : TerarkZipTableIterator) (fuel : Nat),
      it.PositionedAt mv seg g pos j → j + 1 + tail.length ≤ fuel →
      IteratorClass.collect ((IteratorClass.Single reverse seg).Prev mv) fuel it =
        Except.ok (((List.range (j + 1)).map (fun i => seg.entryAt mv g pos i)).reverse ++ tail,
          true) := by
  intro j
  induction j with
  | zero =>
    intro it fuel hp hfuel
    obtain ⟨fuel, rfl⟩ : ∃ f, fuel = f + 1 := ⟨fuel - 1, by omega⟩
    have hv := PositionedAt_Valid mv seg g it pos 0 hp
    have he : it.entry = seg.entryAt mv g pos 0 := hp.2.2.2
    obtain ⟨it1, h1, h2⟩ := hcont it fuel hp.1 (by omega)
    rw [collect_step _ fuel it it1 tail true hv h1 h2, he]
    rfl
  | succ j ih =>
    intro it fuel hp hfuel
    obtain ⟨fuel, rfl⟩ : ∃ f, fuel = f + 1 := ⟨fuel - 1, by omega⟩
    have hv := PositionedAt_Valid mv seg g it pos (j + 1) hp
    have he : it.entry = seg.entryAt mv g pos (j + 1) := hp.2.2.2
    have hjv := hp.2.1
    obtain ⟨it1, h1, h2, _⟩ := Single_Prev_within reverse mv seg g it pos (j + 1) hp.1
      (by omega) hjv (hok _ (by omega))
    have h3 := ih it1 fuel h2 (by omega)
    rw [collect_step _ fuel it it1 _ true hv h1 h3, he, List.range_succ (j + 1)]
    simp

/-- The backward walk from version `j` of the record under `pos` to the start of the
table; `qs` lists the positions that precede `pos`, the nearest first. -/
theorem Single_collect_Prev (reverse : Bool) (mv : ZipValueMultiValue)
    (seg : TerarkZipSegment) (g : Nat) :
    ∀ (qs : List Nat) (pos j : Nat) (it : TerarkZipTableIterator) (fuel : Nat),
      LinkedBy (seg.prevPos reverse) (pos :: qs) →
      (∀ p, p ∈ pos :: qs → seg.recordOk mv g p = true) →
      it.PositionedAt mv seg g pos j →
      j + 1 + (seg.entriesOf mv g qs.reverse).length ≤ fuel →
      IteratorClass.collect ((IteratorClass.Single reverse seg).Prev mv) fuel it =
        Except.ok (((List.range (j + 1)).map (fun i => seg.entryAt mv g pos i)).reverse ++
          (seg.entriesOf mv g qs.reverse).reverse, true) := by
  intro qs
  induction qs with
  | nil =>
    intro pos j it fuel hl hrec hp hfuel
    have hr := (recordOk_iff mv seg g pos).mp (hrec pos (List.mem_cons_self _ _))
    refine Single_collect_Prev_record reverse mv seg g pos _ hr.2.2 ?_ j it fuel hp
      (by simpa using hfuel)
    intro it0 fuel0 h0 _
    obtain ⟨it1, h1, h2, _⟩ := Single_Prev_end reverse mv seg g it0 pos h0 hl
    exact ⟨it1, h1, collect_invalid _ _ _ h2⟩
  | cons q rest ih =>
    intro pos j it fuel hl hrec hp hfuel
    have hr := (recordOk_iff mv seg g pos).mp (hrec pos (List.mem_cons_self _ _))
    have hq : seg.recordOk mv g q = true :=
      hrec q (List.mem_cons_of_mem _ (List.mem_cons_self _ _))
    have hqv := ((recordOk_iff mv seg g q).mp hq).2.1
    refine Single_collect_Prev_record reverse mv seg g pos _ hr.2.2 ?_ j it fuel hp
      (by simpa using hfuel)
    intro it0 fuel0 h0 hf0
    obtain ⟨it1, h1, h2, _⟩ := Single_Prev_record reverse mv seg g it0 pos q h0 hl.1 hq
    refine ⟨it1, h1, ?_⟩
    have hlen : (seg.entriesOf mv g (q :: rest).reverse).length =
        (seg.entriesOf mv g rest.reverse).length + seg.valnumAt mv q := by
      rw [List.reverse_cons, entriesOf_append, entriesOf_cons]
      simp [TerarkZipSegment.entriesOf]
    rw [List.length_reverse, hlen] at hf0
    have := ih q (seg.valnumAt mv q - 1) it1 fuel0 hl.2
      (fun p hp => hrec p (List.mem_cons_of_mem _ hp)) h2 (by omega)
    rw [this, List.reverse_cons, entriesOf_append, entriesOf_cons, List.reverse_append,
      Nat.sub_add_cancel hqv]
    simp [TerarkZipSegment.entriesOf]

/-- On a well-formed segment the forward full scan of a single-segment iterator, given
enough fuel, yields the entries of the segment in table order and ends invalid. -/
theorem Single_scanForward (reverse : Bool) (mv : ZipValueMultiValue)
    (seg : TerarkZipSegment) (it : TerarkZipTableIterator) (fuel : Nat)
    (hw : seg.wellFormed mv it.global_seqno_ = true)
    (hfuel : (seg.tableEntries mv it.global_seqno_ reverse).length ≤ fuel) :
    (IteratorClass.Single reverse seg).scanForward mv fuel it =
      Except.ok (seg.tableEntries mv it.global_seqno_ reverse, true) := by
  have hrec : ∀ p, p ∈ seg.positions reverse → seg.recordOk mv it.global_seqno_ p = true :=
    fun p hp => (wellFormed_iff mv seg _).mp hw p ((mem_positions seg reverse p).mp hp)
  have hl := positions_LinkedBy_nextPos seg reverse
  unfold TerarkZipSegment.tableEntries at hfuel ⊢
  unfold IteratorClass.scanForward
  cases hps : seg.positions reverse with
  | nil =>
    obtain ⟨it1, h1, h2, _⟩ := Single_SeekToFirst_none reverse mv seg it (by rw [hps]; rfl)
    rw [h1]
    exact collect_invalid _ _ _ h2
  | cons pos ps =>
    rw [hps] at hrec hl hfuel
    obtain ⟨it1, h1, h2, _⟩ := Single_SeekToFirst_some reverse mv seg it.global_seqno_ it pos
      rfl (by rw [hps]; rfl) (hrec pos (List.mem_cons_self _ _))
    rw [h1]
    rw [entriesOf_cons, List.length_append, List.length_map, List.length_range] at hfuel
    have := Single_collect_Next reverse mv seg it.global_seqno_ ps pos (seg.valnumAt mv pos) 0
      it1 fuel hl hrec h2 (by omega) hfuel
    rw [entriesOf_cons, List.range_eq_range']
    exact this

/-- On a well-formed segment the reverse full scan of a single-segment iterator, given
enough fuel, yields the entries of the segment in the opposite of table order and ends
invalid. -/
theorem Single_scanBackward (reverse : Bool) (mv : ZipValueMultiValue)
    (seg : TerarkZipSegment) (it : TerarkZipTableIterator) (fuel : Nat)
    (hw : seg.wellFormed mv it.global_seqno_ = true)
    (hfuel : (seg.tableEntries mv it.global_seqno_ reverse).length ≤ fuel) :
    (IteratorClass.Single reverse seg).scanBackward mv fuel it =
      Except.ok ((seg.tableEntries mv it.global_seqno_ reverse).reverse, true) := by
  have hrec : ∀ p, p ∈ (seg.positions reverse).reverse →
      seg.recordOk mv it.global_seqno_ p = true :=
    fun p hp => (wellFormed_iff mv seg _).mp hw p
      ((mem_positions seg reverse p).mp (List.mem_reverse.mp hp))
  have hl := positions_reverse_LinkedBy_prevPos seg reverse
  unfold TerarkZipSegment.tableEntries at hfuel ⊢
  unfold IteratorClass.scanBackward
  cases hqs : (seg.positions reverse).reverse with
  | nil =>
    have hps : seg.positions reverse = [] := List.reverse_eq_nil_iff.mp hqs
    obtain ⟨it1, h1, h2, _⟩ := Single_SeekToLast_none reverse mv seg it (by rw [hps]; rfl)
    rw [h1, hps]
    exact collect_invalid _ _ _ h2
  | cons pos qs =>
    have hps : seg.positions reverse = qs.reverse ++ [pos] := by
      rw [← List.reverse_reverse (seg.positions reverse), hqs, List.reverse_cons]
    rw [hqs] at hrec hl
    rw [hps] at hfuel ⊢
    have hq := hrec pos (List.mem_cons_self _ _)
    have hqv := ((recordOk_iff mv seg _ pos).mp hq).2.1
    obtain ⟨it1, h1, h2, _⟩ := Single_SeekToLast_some reverse mv seg it.global_seqno_ it pos
      rfl (by rw [hps]; simp) hq
    rw [h1]
    have hlen : (seg.entriesOf mv it.global_seqno_ (qs.reverse ++ [pos])).length =
        (seg.entriesOf mv it.global_seqno_ qs.reverse).length + seg.valnumAt mv pos := by
      rw [entriesOf_append, entriesOf_cons]
      simp [TerarkZipSegment.entriesOf]
    rw [hlen] at hfuel
    have := Single_collect_Prev reverse mv seg it.global_seqno_ qs pos
      (seg.valnumAt mv pos - 1) it1 fuel hl hrec h2 (by omega)
    rw [Nat.sub_add_cancel hqv] at this
    rw [entriesOf_append, entriesOf_cons, List.reverse_append]
    simp only [TerarkZipSegment.entriesOf, List.flatMap_nil, List.append_nil]
    exact this

/-- C14: on a segment whose blob store raises no fault (every record is fetched and
decodes to at least one version), the entries `(key, seq, type, value)` that `SeekToFirst`
followed by `Next` until the iterator is invalid produces are the entries of the segment in
table order, and `SeekToLast` followed by `Prev` until the iterator is invalid produces
exactly the reverse of that list. Both scans end invalid for every fuel that is at least
the number of entries. -/
theorem scanBackward_eq_reverse_scanForward (reverse : Bool) (mv : ZipValueMultiValue)
    (seg : TerarkZipSegment) (it : TerarkZipTableIterator) (fuel : Nat)
    (hw : seg.wellFormed mv it.global_seqno_ = true)
    (hfuel : (seg.tableEntries mv it.global_seqno_ reverse).length ≤ fuel) :
    ∃ es, (IteratorClass.Single reverse seg).scanForward mv fuel it = Except.ok (es, true) ∧
      (IteratorClass.Single reverse seg).scanBackward mv fuel it =
        Except.ok (es.reverse, true) ∧
      es = seg.tableEntries mv it.global_seqno_ reverse :=
  ⟨_, Single_scanForward reverse mv seg it fuel hw hfuel,
    Single_scanBackward reverse mv seg it fuel hw hfuel, rfl⟩

/-- Witness of C14: the two full scans of the sample segment of five keys and seven
entries, under a reverse comparator. -/
theorem scanBackward_eq_reverse_scanForward_witness :
    healthySegment.wellFormed sampleMulti (TerarkZipTableIterator.new 100).global_seqno_ =
      true ∧
    ∃ es, (IteratorClass.Single true healthySegment).scanForward sampleMulti 7
        (TerarkZipTableIterator.new 100) = Except.ok (es, true) ∧
      (IteratorClass.Single true healthySegment).scanBackward sampleMulti 7
        (TerarkZipTableIterator.new 100) = Except.ok (es.reverse, true) ∧
      es = healthySegment.tableEntries sampleMulti
        (TerarkZipTableIterator.new 100).global_seqno_ true :=
  ⟨by decide, scanBackward_eq_reverse_scanForward true sampleMulti healthySegment
    (TerarkZipTableIterator.new 100) 7 (by decide) (by decide)⟩

/-! ## The iterator over one segment: `Seek` -/

/-- The version walk of `SeekInternal` stops on the first version from `validx_` on whose
sequence is at most the target sequence. -/
theorem Single_seekVersion_found (reverse : Bool) (mv : ZipValueMultiValue)
    (seg : TerarkZipSegment) (g pos s j1 : Nat)
    (hok : ∀ i, i < seg.valnumAt mv pos → seg.versionOk mv g pos i = true)
    (hj1 : j1 < seg.valnumAt mv pos) (hs : (seg.versionAt mv g pos j1).1 ≤ s) :
    ∀ (k j fuel : Nat) (it : TerarkZipTableIterator), it.Holds mv seg g pos j →
      j1 = j + k → k ≤ fuel → (∀ i, j ≤ i → i < j1 → s < (seg.versionAt mv g pos i).1) →
      ∃ it1, (IteratorClass.Single reverse seg).seekVersion mv s fuel it =
          Except.ok (it1, true) ∧
        it1.PositionedAt mv seg g pos j1 ∧ it1.status_ = it.status_ ∧
        it1.pinning = it.pinning := by
  intro k
  induction k with
  | zero =>
    intro j fuel it hh hj _ _
    obtain rfl : j1 = j := hj
    obtain ⟨it1, h1, h2, h3, h4⟩ :=
      Single_DecodeCurrKeyValue_ok reverse mv seg g it pos j1 hh hj1 (hok _ hj1)
    have hseq : it1.pInterKey_.sequence ≤ s := by
      rw [h2.2.2.1]
      exact hs
    unfold IteratorClass.seekVersion
    rw [h1]
    dsimp only
    rw [if_pos hseq]
    exact ⟨it1, rfl, h2, h3, h4⟩
  | succ k ih =>
    intro j fuel it hh hj hfuel hnot
    obtain ⟨fuel, rfl⟩ : ∃ f, fuel = f + 1 := ⟨fuel - 1, by omega⟩
    obtain ⟨it1, h1, h2, h3, h4⟩ :=
      Single_DecodeCurrKeyValue_ok reverse mv seg g it pos j hh (by omega) (hok _ (by omega))
    have hseq : ¬ it1.pInterKey_.sequence ≤ s := by
      rw [h2.2.2.1]
      exact Nat.not_le.mpr (hnot j (Nat.le_refl _) (by omega))
    have hidx : it1.validx_ = j := h2.1.2.1
    have hnum : it1.valnum_ = seg.valnumAt mv pos := h2.1.2.2.2.2.2.2.1
    obtain ⟨it2, h5, h6, h7, h8⟩ := ih (j + 1) fuel { it1 with validx_ := it1.validx_ + 1 }
      (by rw [hidx]; exact Holds_set_validx mv seg g it1 pos j _ h2.1) (by omega) (by omega)
      (fun i hi hi1 => hnot i (by omega) hi1)
    unfold IteratorClass.seekVersion
    rw [h1]
    dsimp only
    rw [if_neg hseq, if_pos (by rw [hidx, hnum]; omega)]
    exact ⟨it2, h5, h6, h7.trans h3, h8.trans h4⟩

/-- The version walk of `SeekInternal` over a record none of whose versions from `validx_`
on has a sequence at most the target sequence: it ends on the last version and returns
`false`. -/
theorem Single_seekVersion_none (reverse : Bool) (mv : ZipValueMultiValue)
    (seg : TerarkZipSegment) (g pos s : Nat)
    (hok : ∀ i, i < seg.valnumAt mv pos → seg.versionOk mv g pos i = true) :
    ∀ (k j fuel : Nat) (it : TerarkZipTableIterator), it.Holds mv seg g pos j →
      j + k + 1 = seg.valnumAt mv pos → k ≤ fuel →
      (∀ i, j ≤ i → i < seg.valnumAt mv pos → s < (seg.versionAt mv g pos i).1) →
      ∃ it1, (IteratorClass.Single reverse seg).seekVersion mv s fuel it =
          Except.ok (it1, false) ∧
        it1.PositionedAt mv seg g pos (seg.valnumAt mv pos - 1) ∧ it1.status_ = it.status_ ∧
        it1.pinning = it.pinning := by
  intro k
  induction k with
  | zero =>
    intro j fuel it hh hj _ hnot
    obtain ⟨it1, h1, h2, h3, h4⟩ :=
      Single_DecodeCurrKeyValue_ok reverse mv seg g it pos j hh (by omega) (hok _ (by omega))
    have hseq : ¬ it1.pInterKey_.sequence ≤ s := by
      rw [h2.2.2.1]
      exact Nat.not_le.mpr (hnot j (Nat.le_refl _) (by omega))
    have hidx : it1.validx_ = j := h2.1.2.1
    have hnum : it1.valnum_ = seg.valnumAt mv pos := h2.1.2.2.2.2.2.2.1
    have hj' : seg.valnumAt mv pos - 1 = j := by omega
    unfold IteratorClass.seekVersion
    rw [h1]
    dsimp only
    rw [if_neg hseq, if_neg (by rw [hidx, hnum]; omega), hj']
    exact ⟨it1, rfl, h2, h3, h4⟩
  | succ k ih =>
    intro j fuel it hh hj hfuel hnot
    obtain ⟨fuel, rfl⟩ : ∃ f, fuel = f + 1 := ⟨fuel - 1, by omega⟩
    obtain ⟨it1, h1, h2, h3, h4⟩ :=
      Single_DecodeCurrKeyValue_ok reverse mv seg g it pos j hh (by omega) (hok _ (by omega))
    have hseq : ¬ it1.pInterKey_.sequence ≤ s := by
      rw [h2.2.2.1]
      exact Nat.not_le.mpr (hnot j (Nat.le_refl _) (by omega))
    have hidx : it1.validx_ = j := h2.1.2.1
    have hnum : it1.valnum_ = seg.valnumAt mv pos := h2.1.2.2.2.2.2.2.1
    obtain ⟨it2, h5, h6, h7, h8⟩ := ih (j + 1) fuel { it1 with validx_ := it1.validx_ + 1 }
      (by rw [hidx]; exact Holds_set_validx mv seg g it1 pos j _ h2.1) (by omega) (by omega)
      (fun i hi hi1 => hnot i (by omega) hi1)
    unfold IteratorClass.seekVersion
    rw [h1]
    dsimp only
    rw [if_neg hseq, if_pos (by rw [hidx, hnum]; omega)]
    exact ⟨it2, h5, h6, h7.trans h3, h8.trans h4⟩

/-- The method `Seek` of the single-segment iterator on a target that parses. -/
theorem Single_Seek_eq (reverse : Bool) (validType : Nat → Bool) (mv : ZipValueMultiValue)
    (seg : TerarkZipSegment) (it : TerarkZipTableIterator) (target : Bytes)
    (pikey : ParsedInternalKey) (hparse : ParseInternalKey validType target = some pikey) :
    (IteratorClass.Single reverse seg).Seek validType mv it target =
      (IteratorClass.Single reverse seg).SeekInternal mv it pikey := by
  simp only [IteratorClass.Seek, hparse]

/-- The branch of `SeekInternal` for a target that carries the whole common prefix. -/
theorem Single_SeekInternal_aligned (reverse : Bool) (mv : ZipValueMultiValue)
    (seg : TerarkZipSegment) (it : TerarkZipTableIterator) (pikey : ParsedInternalKey)
    (found : Option Nat × Int)
    (h : seg.commonPrefix_.length = difference_offset pikey.user_key seg.commonPrefix_)
    (hfound : TerarkZipTableIterator.seekCursor reverse seg.index_
      (pikey.user_key.drop seg.commonPrefix_.length) = found) :
    (IteratorClass.Single reverse seg).SeekInternal mv it pikey =
      match (IteratorClass.Single reverse seg).UnzipIterRecord mv
          { it.TryPinInterKeyBuf with iter_ := found.1 } found.1.isSome with
      | Except.error e => Except.error e
      | Except.ok u =>
        if u.2 then
          if found.2 = 0 then
            match (IteratorClass.Single reverse seg).seekVersion mv pikey.sequence
                u.1.valnum_ u.1 with
            | Except.error e => Except.error e
            | Except.ok v =>
              if v.2 then Except.ok v.1 else (IteratorClass.Single reverse seg).Next mv v.1
          else (IteratorClass.Single reverse seg).DecodeCurrKeyValue mv u.1
        else Except.ok u.1 := by
  subst hfound
  unfold IteratorClass.SeekInternal
  simp only [IteratorClass.segment, IteratorClass.reverse]
  rw [← h, if_neg (fun hne => hne rfl)]

/-- A byte below 0x80 reads the same as a `char` and as a `byte_t`. -/
theorem charValue_ascii (b : UInt8) (h : b.toNat < 128) : charValue b = Int.ofNat b.toNat := by
  unfold charValue
  rw [if_pos h]

/-- A byte of 0x80 or more reads as a negative `char`. -/
theorem charValue_high (b : UInt8) (h : 128 ≤ b.toNat) : charValue b < 0 := by
  unfold charValue
  rw [if_neg (by omega)]
  have := b.toNat_lt
  simp only [Int.ofNat_eq_coe]
  omega

/-- Against a common prefix of bytes below 0x80, the comparison of `SeekInternal` is the
comparison of unsigned bytes. -/
theorem diverging_compare_ascii (u cp : Bytes) (d : Nat) (hd : d < cp.length)
    (hascii : ∀ b ∈ cp, b.toNat < 128) :
    decide (Int.ofNat (u.getD d 0).toNat < charValue (cp.getD d 0)) =
      decide ((u.getD d 0).toNat < (cp.getD d 0).toNat) := by
  have hb : (cp.getD d 0).toNat < 128 := by
    rw [List.getD_eq_getElem _ _ hd]
    exact hascii _ (List.getElem_mem _)
  rw [charValue_ascii _ hb]
  simp only [Int.ofNat_eq_coe, Int.ofNat_lt]

/-- Against a byte of 0x80 or more of the common prefix, the comparison of
`SeekInternal` fails whatever the byte of the key. -/
theorem diverging_compare_high (u cp : Bytes) (d : Nat)
    (hb : 128 ≤ (cp.getD d 0).toNat) :
    decide (Int.ofNat (u.getD d 0).toNat < charValue (cp.getD d 0)) = false := by
  have := charValue_high _ hb
  simp only [Int.ofNat_eq_coe, decide_eq_false_iff_not]
  omega

/-- The branch of `SeekInternal` for a target that leaves the common prefix. -/
theorem Single_SeekInternal_diverging (reverse : Bool) (mv : ZipValueMultiValue)
    (seg : TerarkZipSegment) (it : TerarkZipTableIterator) (pikey : ParsedInternalKey)
    (h : difference_offset pikey.user_key seg.commonPrefix_ < seg.commonPrefix_.length) :
    (IteratorClass.Single reverse seg).SeekInternal mv it pikey =
      if (if pikey.user_key.length = difference_offset pikey.user_key seg.commonPrefix_ then
            !reverse
          else xor (decide (Int.ofNat (pikey.user_key.getD
              (difference_offset pikey.user_key seg.commonPrefix_) 0).toNat <
            charValue (seg.commonPrefix_.getD
              (difference_offset pikey.user_key seg.commonPrefix_) 0))) reverse) = true
      then (IteratorClass.Single reverse seg).SeekToFirst mv it.TryPinInterKeyBuf
      else (IteratorClass.Single reverse seg).seekToEnd mv it.TryPinInterKeyBuf := by
  unfold IteratorClass.SeekInternal
  simp only [IteratorClass.segment, IteratorClass.reverse]
  rw [if_pos (by omega)]
  by_cases hlen : pikey.user_key.length = difference_offset pikey.user_key seg.commonPrefix_
  · rw [if_pos hlen, if_pos hlen]
    cases reverse <;> simp
  · rw [if_neg hlen, if_neg hlen]

/-- A target that carries the whole common prefix and is found inexactly (`cmp != 0`) on
a well-formed record: the iterator ends on version 0 of it. -/
theorem Single_SeekInternal_inexact (reverse : Bool) (mv : ZipValueMultiValue)
    (seg : TerarkZipSegment) (g : Nat) (it : TerarkZipTableIterator)
    (pikey : ParsedInternalKey) (q : Nat) (c : Int) (hg : it.global_seqno_ = g)
    (h : seg.commonPrefix_.length = difference_offset pikey.user_key seg.commonPrefix_)
    (hfound : TerarkZipTableIterator.seekCursor reverse seg.index_
      (pikey.user_key.drop seg.commonPrefix_.length) = (some q, c))
    (hc : c ≠ 0) (hok : seg.recordOk mv g q = true) :
    ∃ it1, (IteratorClass.Single reverse seg).SeekInternal mv it pikey = Except.ok it1 ∧
      it1.PositionedAt mv seg g q 0 ∧ it1.status_ = it.status_ ∧
      it1.pinning = it.pinning := by
  rw [Single_SeekInternal_aligned reverse mv seg it pikey _ h hfound]
  obtain ⟨hf, hv, hall⟩ := (recordOk_iff mv seg g q).mp hok
  obtain ⟨u, hu, hh, hs, hp⟩ := Single_UnzipIterRecord_fetchable reverse mv seg g
    { it.TryPinInterKeyBuf with iter_ := some q } q rfl
    (((TryPinInterKeyBuf_fields _).2.1).trans hg) hf
  obtain ⟨d, hd, hpos, hs2, hp2⟩ :=
    Single_DecodeCurrKeyValue_ok reverse mv seg g u q 0 hh hv (hall 0 hv)
  simp only [Option.isSome_some, hu, if_true, if_neg hc]
  exact ⟨d, hd, hpos, (hs2.trans hs).trans (TryPinInterKeyBuf_fields _).2.2.2.2.2.2.2.2.1,
    (hp2.trans hp).trans (TryPinInterKeyBuf_fields _).2.2.2.2.2.2.2.2.2.1⟩

/-- A target that carries the whole common prefix and for which the index cursor ends
invalid: the iterator ends invalid and keeps its status. -/
theorem Single_SeekInternal_miss (reverse : Bool) (mv : ZipValueMultiValue)
    (seg : TerarkZipSegment) (it : TerarkZipTableIterator)
    (pikey : ParsedInternalKey) (c : Int)
    (h : seg.commonPrefix_.length = difference_offset pikey.user_key seg.commonPrefix_)
    (hfound : TerarkZipTableIterator.seekCursor reverse seg.index_
      (pikey.user_key.drop seg.commonPrefix_.length) = (none, c)) :
    ∃ it1, (IteratorClass.Single reverse seg).SeekInternal mv it pikey = Except.ok it1 ∧
      it1.Valid = false ∧ it1.status_ = it.status_ := by
  rw [Single_SeekInternal_aligned reverse mv seg it pikey _ h hfound]
  obtain ⟨u, hu, h1, h2, _⟩ := Single_UnzipIterRecord_none reverse mv seg
    { it.TryPinInterKeyBuf with iter_ := none }
  simp only [Option.isSome_none, hu, Bool.false_eq_true, if_false]
  exact ⟨u, rfl, h1, h2.trans (TryPinInterKeyBuf_fields _).2.2.2.2.2.2.2.2.1⟩

/-- A target that carries the whole common prefix and for which the index cursor stops
on a record whose fetch raises: the iterator ends invalid with the status `Corruption`. -/
theorem Single_SeekInternal_corrupt (reverse : Bool) (mv : ZipValueMultiValue)
    (seg : TerarkZipSegment) (it : TerarkZipTableIterator)
    (pikey : ParsedInternalKey) (q : Nat) (c : Int)
    (h : seg.commonPrefix_.length = difference_offset pikey.user_key seg.commonPrefix_)
    (hfound : TerarkZipTableIterator.seekCursor reverse seg.index_
      (pikey.user_key.drop seg.commonPrefix_.length) = (some q, c))
    (hc : seg.corruptAt q = true) :
    ∃ it1, (IteratorClass.Single reverse seg).SeekInternal mv it pikey = Except.ok it1 ∧
      it1.Valid = false ∧ it1.status_ = Status.Corruption := by
  rw [Single_SeekInternal_aligned reverse mv seg it pikey _ h hfound]
  obtain ⟨u, hu, h1, h2, _⟩ := Single_UnzipIterRecord_corrupt reverse mv seg
    { it.TryPinInterKeyBuf with iter_ := some q } q rfl hc
  simp only [Option.isSome_some, hu, Bool.false_eq_true, if_false]
  exact ⟨u, rfl, h1, h2⟩

/-- A target that carries the whole common prefix and is found exactly, on a well-formed
record with a version whose sequence is at most the target sequence: the iterator ends
on the first such version. -/
theorem Single_SeekInternal_exact_found (reverse : Bool) (mv : ZipValueMultiValue)
    (seg : TerarkZipSegment) (g : Nat) (it : TerarkZipTableIterator)
    (pikey : ParsedInternalKey) (p j : Nat) (hg : it.global_seqno_ = g)
    (h : seg.commonPrefix_.length = difference_offset pikey.user_key seg.commonPrefix_)
    (hfound : TerarkZipTableIterator.seekCursor reverse seg.index_
      (pikey.user_key.drop seg.commonPrefix_.length) = (some p, 0))
    (hok : seg.recordOk mv g p = true) (hj : j < seg.valnumAt mv p)
    (hs : (seg.versionAt mv g p j).1 ≤ pikey.sequence)
    (hnot : ∀ i, i < j → pikey.sequence < (seg.versionAt mv g p i).1) :
    ∃ it1, (IteratorClass.Single reverse seg).SeekInternal mv it pikey = Except.ok it1 ∧
      it1.PositionedAt mv seg g p j ∧ it1.status_ = it.status_ ∧
      it1.pinning = it.pinning := by
  rw [Single_SeekInternal_aligned reverse mv seg it pikey _ h hfound]
  obtain ⟨hf, hv, hall⟩ := (recordOk_iff mv seg g p).mp hok
  obtain ⟨u, hu, hh, hs1, hp1⟩ := Single_UnzipIterRecord_fetchable reverse mv seg g
    { it.TryPinInterKeyBuf with iter_ := some p } p rfl
    (((TryPinInterKeyBuf_fields _).2.1).trans hg) hf
  have hnum : u.valnum_ = seg.valnumAt mv p := hh.2.2.2.2.2.2.1
  obtain ⟨v, hv1, hv2, hv3, hv4⟩ := Single_seekVersion_found reverse mv seg g p pikey.sequence
    j hall hj hs j 0 u.valnum_ u hh (by omega) (by omega) (fun i _ hi => hnot i hi)
  simp only [Option.isSome_some, hu, if_true, hv1]
  exact ⟨v, rfl, hv2, (hv3.trans hs1).trans (TryPinInterKeyBuf_fields _).2.2.2.2.2.2.2.2.1,
    (hv4.trans hp1).trans (TryPinInterKeyBuf_fields _).2.2.2.2.2.2.2.2.2.1⟩

/-- A target that carries the whole common prefix and is found exactly, on a well-formed
record none of whose versions has a sequence at most the target sequence: `SeekInternal`
ends as `Next` does from a state that holds the record on its last version. -/
theorem Single_SeekInternal_exact_none (reverse : Bool) (mv : ZipValueMultiValue)
    (seg : TerarkZipSegment) (g : Nat) (it : TerarkZipTableIterator)
    (pikey : ParsedInternalKey) (p : Nat) (hg : it.global_seqno_ = g)
    (h : seg.commonPrefix_.length = difference_offset pikey.user_key seg.commonPrefix_)
    (hfound : TerarkZipTableIterator.seekCursor reverse seg.index_
      (pikey.user_key.drop seg.commonPrefix_.length) = (some p, 0))
    (hok : seg.recordOk mv g p = true)
    (hnot : ∀ i, i < seg.valnumAt mv p → pikey.sequence < (seg.versionAt mv g p i).1) :
    ∃ v, (IteratorClass.Single reverse seg).SeekInternal mv it pikey =
        (IteratorClass.Single reverse seg).Next mv v ∧
      v.PositionedAt mv seg g p (seg.valnumAt mv p - 1) ∧ v.status_ = it.status_ ∧
      v.pinning = it.pinning := by
  rw [Single_SeekInternal_aligned reverse mv seg it pikey _ h hfound]
  obtain ⟨hf, hv, hall⟩ := (recordOk_iff mv seg g p).mp hok
  obtain ⟨u, hu, hh, hs1, hp1⟩ := Single_UnzipIterRecord_fetchable reverse mv seg g
    { it.TryPinInterKeyBuf with iter_ := some p } p rfl
    (((TryPinInterKeyBuf_fields _).2.1).trans hg) hf
  have hnum : u.valnum_ = seg.valnumAt mv p := hh.2.2.2.2.2.2.1
  obtain ⟨v, hv1, hv2, hv3, hv4⟩ := Single_seekVersion_none reverse mv seg g p pikey.sequence
    hall (seg.valnumAt mv p - 1) 0 u.valnum_ u hh (by omega) (by omega)
    (fun i _ hi => hnot i hi)
  simp only [Option.isSome_some, hu, if_true, hv1, Bool.false_eq_true, if_false]
  exact ⟨v, rfl, hv2, (hv3.trans hs1).trans (TryPinInterKeyBuf_fields _).2.2.2.2.2.2.2.2.1,
    (hv4.trans hp1).trans (TryPinInterKeyBuf_fields _).2.2.2.2.2.2.2.2.2.1⟩

/-- The last position of a complete walk leads nowhere. -/
theorem LinkedBy_getLast (next : Nat → Option Nat) : ∀ (ps : List Nat) (p : Nat),
    LinkedBy next ps → ps.getLast? = some p → next p = none := by
  intro ps
  induction ps with
  | nil => intro p _ h; simp at h
  | cons a rest ih =>
    intro p hl hlast
    cases rest with
    | nil =>
      simp only [List.getLast?_singleton, Option.some.injEq] at hlast
      subst hlast
      exact hl
    | cons b rest =>
      rw [List.getLast?_cons_cons] at hlast
      exact ih p hl.2 hlast

/-- The statements `SeekToLast(); Next();` on a segment whose last record in table order
is well formed leave the iterator invalid, with the status it had. -/
theorem Single_seekToEnd (reverse : Bool) (mv : ZipValueMultiValue)
    (seg : TerarkZipSegment) (g : Nat) (it : TerarkZipTableIterator) (pos : Nat)
    (hg : it.global_seqno_ = g) (hp : (seg.positions reverse).getLast? = some pos)
    (hok : seg.recordOk mv g pos = true) :
    ∃ it1, (IteratorClass.Single reverse seg).seekToEnd mv it = Except.ok it1 ∧
      it1.Valid = false ∧ it1.status_ = it.status_ := by
  obtain ⟨it1, h1, h2, h3, _⟩ := Single_SeekToLast_some reverse mv seg g it pos hg hp hok
  have hv := ((recordOk_iff mv seg g pos).mp hok).2.1
  obtain ⟨it2, h4, h5, h6, _⟩ := Single_Next_end reverse mv seg g it1 pos
    (seg.valnumAt mv pos - 1) h2.1 (by omega)
    (LinkedBy_getLast _ _ pos (positions_LinkedBy_nextPos seg reverse) hp)
  unfold IteratorClass.seekToEnd
  rw [h1]
  exact ⟨it2, h4, h5, h6.trans h3⟩

/-- The cursor function `seekFrom` finds the first key that is not less than the
target. -/
theorem seekFrom_some (key : Bytes) : ∀ (es : List (Bytes × Nat)) (i k : Nat),
    k < es.length → fstring_lt (es.getD k ([], 0)).1 key = false →
    (∀ m, m < k → fstring_lt (es.getD m ([], 0)).1 key = true) →
    TerarkIndex.Iterator.seekFrom key es i = some (i + k) := by
  intro es
  induction es with
  | nil => intro i k hk; simp at hk
  | cons e rest ih =>
    intro i k hk hge hlt
    cases k with
    | zero =>
      simp only [List.getD_cons_zero] at hge
      simp [TerarkIndex.Iterator.seekFrom, hge]
    | succ k =>
      have h0 := hlt 0 (by omega)
      simp only [List.getD_cons_zero] at h0
      simp only [TerarkIndex.Iterator.seekFrom, h0, if_true]
      rw [ih (i + 1) k (by simpa using hk) (by simpa using hge)
        (fun m hm => by simpa using hlt (m + 1) (by omega))]
      congr 1
      omega

/-- The cursor function `seekFrom` finds nothing when every key is less than the
target. -/
theorem seekFrom_none (key : Bytes) : ∀ (es : List (Bytes × Nat)) (i : Nat),
    (∀ m, m < es.length → fstring_lt (es.getD m ([], 0)).1 key = true) →
    TerarkIndex.Iterator.seekFrom key es i = none := by
  intro es
  induction es with
  | nil => intro i _; rfl
  | cons e rest ih =>
    intro i hlt
    have h0 := hlt 0 (by simp)
    simp only [List.getD_cons_zero] at h0
    simp only [TerarkIndex.Iterator.seekFrom, h0, if_true]
    exact ih (i + 1) (fun m hm => by simpa using hlt (m + 1) (by simpa using hm))

/-- The keys of a sorted index ascend with the position. -/
theorem Sorted_keyAt (seg : TerarkZipSegment) (hs : seg.index_.Sorted) (i j : Nat)
    (hij : i < j) (hj : j < seg.index_.entries.length) :
    fstring_lt (seg.keyAt i) (seg.keyAt j) = true := by
  unfold TerarkZipSegment.keyAt
  rw [List.getD_eq_getElem _ _ hj, List.getD_eq_getElem _ _ (by omega)]
  exact (List.pairwise_iff_getElem.mp hs) i j (by omega) hj hij

/-- On a sorted index the cursor of `SeekInternal` stops exactly on a stored key, with
`cmp = 0`, in both directions. -/
theorem seekCursor_exact (reverse : Bool) (seg : TerarkZipSegment) (hs : seg.index_.Sorted)
    (pos : Nat) (hpos : pos < seg.index_.entries.length) :
    TerarkZipTableIterator.seekCursor reverse seg.index_ (seg.keyAt pos) = (some pos, 0) := by
  have hseek : TerarkIndex.Iterator.Seek seg.index_ (seg.keyAt pos) = some pos := by
    unfold TerarkIndex.Iterator.Seek
    have := seekFrom_some (seg.keyAt pos) seg.index_.entries 0 pos hpos
      (fstring_lt_irrefl _) (fun m hm => Sorted_keyAt seg hs m pos hm hpos)
    simpa using this
  have hkey : TerarkIndex.Iterator.key seg.index_ pos = seg.keyAt pos := rfl
  unfold TerarkZipTableIterator.seekCursor
  rw [hseek]
  simp [hkey, Slice.compare, fstring_lt_irrefl]

/-- A target less than every key: the cursor of `SeekInternal` stops on the first key
with `cmp != 0` in a forward iterator, and ends invalid in a reverse one. -/
theorem seekCursor_before_all (reverse : Bool) (seg : TerarkZipSegment) (t : Bytes)
    (hne : 0 < seg.index_.entries.length)
    (hall : ∀ pos, pos < seg.index_.entries.length → fstring_lt t (seg.keyAt pos) = true) :
    TerarkZipTableIterator.seekCursor reverse seg.index_ t =
      (if reverse then none else some 0, 1) := by
  have h0 := hall 0 hne
  have h0' := fstring_lt_asymm _ _ h0
  have hseek : TerarkIndex.Iterator.Seek seg.index_ t = some 0 := by
    unfold TerarkIndex.Iterator.Seek
    have := seekFrom_some t seg.index_.entries 0 0 hne h0' (fun m hm => absurd hm (by omega))
    simpa using this
  have hkey : TerarkIndex.Iterator.key seg.index_ 0 = seg.keyAt 0 := rfl
  unfold TerarkZipTableIterator.seekCursor
  rw [hseek]
  cases reverse <;> simp [hkey, Slice.compare, h0, h0', TerarkIndex.Iterator.Prev]

/-- A target greater than every key: the cursor of `SeekInternal` ends invalid in a
forward iterator, and stops on the last key with `cmp != 0` in a reverse one. -/
theorem seekCursor_after_all (reverse : Bool) (seg : TerarkZipSegment) (t : Bytes)
    (hne : 0 < seg.index_.entries.length)
    (hall : ∀ pos, pos < seg.index_.entries.length → fstring_lt (seg.keyAt pos) t = true) :
    TerarkZipTableIterator.seekCursor reverse seg.index_ t =
      if reverse then (some (seg.index_.entries.length - 1), -1) else (none, 0) := by
  have hseek : TerarkIndex.Iterator.Seek seg.index_ t = none := by
    unfold TerarkIndex.Iterator.Seek
    exact seekFrom_none t seg.index_.entries 0 hall
  unfold TerarkZipTableIterator.seekCursor
  rw [hseek]
  cases reverse
  · simp
  · simp [TerarkIndex.Iterator.SeekToLast, Nat.ne_of_gt hne]

/-- A user key below `cp ++ k` either carries all of `cp` and has a suffix below `k`, or
leaves `cp` at offset `c`: by ending there, or with a smaller byte. -/
theorem fstring_lt_append_right_cases : ∀ (u cp k : Bytes), fstring_lt u (cp ++ k) = true →
    (difference_offset u cp = cp.length ∧ fstring_lt (u.drop cp.length) k = true) ∨
    (difference_offset u cp < cp.length ∧
      (u.length = difference_offset u cp ∨
        (u.length ≠ difference_offset u cp ∧
          (u.getD (difference_offset u cp) 0).toNat <
            (cp.getD (difference_offset u cp) 0).toNat))) := by
  intro u
  induction u with
  | nil =>
    intro cp k h
    cases cp with
    | nil => exact Or.inl ⟨by simp [difference_offset], by simpa using h⟩
    | cons b bs => exact Or.inr ⟨by simp [difference_offset], Or.inl (by simp [difference_offset])⟩
  | cons a as ih =>
    intro cp k h
    cases cp with
    | nil => exact Or.inl ⟨by simp [difference_offset], by simpa using h⟩
    | cons b bs =>
      simp only [List.cons_append, fstring_lt] at h
      by_cases hab : a.toNat < b.toNat
      · have hne : a ≠ b := fun e => by rw [e] at hab; omega
        refine Or.inr ⟨by simp [difference_offset, hne], Or.inr ⟨by simp [difference_offset, hne], ?_⟩⟩
        simpa [difference_offset, hne] using hab
      · rw [if_neg hab] at h
        by_cases hba : b.toNat < a.toNat
        · rw [if_pos hba] at h
          exact absurd h (by simp)
        · rw [if_neg hba] at h
          have he : a = b := UInt8.toNat.inj (by omega)
          subst he
          have hd : difference_offset (a :: as) (a :: bs) = difference_offset as bs + 1 := by
            simp [difference_offset]
          rw [hd]
          rcases ih bs k h with ⟨h1, h2⟩ | ⟨h1, h2⟩
          · exact Or.inl ⟨by simp [h1], by simpa using h2⟩
          · refine Or.inr ⟨by simpa using h1, ?_⟩
            rcases h2 with h2 | ⟨h2, h3⟩
            · exact Or.inl (by simp [h2])
            · exact Or.inr ⟨by simpa using h2, by simpa using h3⟩

/-- A user key above `cp ++ k` either carries all of `cp` and has a suffix above `k`, or
leaves `cp` at offset `c` with a greater byte. -/
theorem fstring_lt_append_left_cases : ∀ (u cp k : Bytes), fstring_lt (cp ++ k) u = true →
    (difference_offset u cp = cp.length ∧ fstring_lt k (u.drop cp.length) = true) ∨
    (difference_offset u cp < cp.length ∧ u.length ≠ difference_offset u cp ∧
      (cp.getD (difference_offset u cp) 0).toNat <
        (u.getD (difference_offset u cp) 0).toNat) := by
  intro u
  induction u with
  | nil =>
    intro cp k h
    cases cp with
    | nil =>
      cases k <;> simp [fstring_lt] at h
    | cons b bs => simp [fstring_lt] at h
  | cons a as ih =>
    intro cp k h
    cases cp with
    | nil => exact Or.inl ⟨by simp [difference_offset], by simpa using h⟩
    | cons b bs =>
      simp only [List.cons_append, fstring_lt] at h
      by_cases hba : b.toNat < a.toNat
      · have hne : a ≠ b := fun e => by rw [e] at hba; omega
        refine Or.inr ⟨by simp [difference_offset, hne], by simp [difference_offset, hne], ?_⟩
        simpa [difference_offset, hne] using hba
      · rw [if_neg hba] at h
        by_cases hab : a.toNat < b.toNat
        · rw [if_pos hab] at h
          exact absurd h (by simp)
        · rw [if_neg hab] at h
          have he : a = b := UInt8.toNat.inj (by omega)
          subst he
          have hd : difference_offset (a :: as) (a :: bs) = difference_offset as bs + 1 := by
            simp [difference_offset]
          rw [hd]
          rcases ih bs k h with ⟨h1, h2⟩ | ⟨h1, h2, h3⟩
          · exact Or.inl ⟨by simp [h1], by simpa using h2⟩
          · exact Or.inr ⟨by simpa using h1, by simpa using h2, by simpa using h3⟩

/-- The first position of a non-empty segment in table order. -/
theorem positions_head (seg : TerarkZipSegment) (reverse : Bool)
    (hne : 0 < seg.index_.entries.length) :
    (seg.positions reverse).head? =
      some (if reverse then seg.index_.entries.length - 1 else 0) := by
  obtain ⟨n, hn⟩ : ∃ n, seg.index_.entries.length = n + 1 := ⟨_, (Nat.succ_pred_eq_of_pos hne).symm⟩
  cases reverse
  · simp [TerarkZipSegment.positions, hn, List.range_succ_eq_map]
  · simp [TerarkZipSegment.positions, hn, List.range_succ]

/-- The last position of a non-empty segment in table order. -/
theorem positions_getLast (seg : TerarkZipSegment) (reverse : Bool)
    (hne : 0 < seg.index_.entries.length) :
    (seg.positions reverse).getLast? =
      some (if reverse then 0 else seg.index_.entries.length - 1) := by
  obtain ⟨n, hn⟩ : ∃ n, seg.index_.entries.length = n + 1 := ⟨_, (Nat.succ_pred_eq_of_pos hne).symm⟩
  cases reverse
  · simp [TerarkZipSegment.positions, hn, List.range_succ]
  · simp [TerarkZipSegment.positions, hn, List.range_succ_eq_map]

/-- The position that `nextPos` yields is one of the index. -/
theorem nextPos_lt (seg : TerarkZipSegment) (reverse : Bool) (pos q : Nat)
    (hpos : pos < seg.index_.entries.length) (h : seg.nextPos reverse pos = some q) :
    q < seg.index_.entries.length := by
  unfold TerarkZipSegment.nextPos TerarkIndex.Iterator.Prev TerarkIndex.Iterator.Next at h
  cases reverse
  · simp only [Bool.false_eq_true, if_false] at h
    split at h
    · cases h; assumption
    · cases h
  · simp only [if_true] at h
    split at h
    · cases h; omega
    · cases h

/-- C16: `Seek(u@s)` of a single-segment iterator, where `u` is the common prefix
followed by the key stored under position `pos` of a sorted index of a well-formed
segment. The iterator ends on the first version of that key, from the newest to the
oldest, whose sequence is at most `s`. When no version qualifies it ends where `Next`
lands from the last version: on version 0 of the key that follows in table order, or
invalid when there is none. -/
theorem Seek_stored_key (reverse : Bool) (validType : Nat → Bool) (mv : ZipValueMultiValue)
    (seg : TerarkZipSegment) (it : TerarkZipTableIterator) (target : Bytes)
    (pikey : ParsedInternalKey) (pos : Nat)
    (hparse : ParseInternalKey validType target = some pikey)
    (hsorted : seg.index_.Sorted)
    (hw : seg.wellFormed mv it.global_seqno_ = true)
    (hpos : pos < seg.index_.entries.length)
    (hkey : pikey.user_key = seg.commonPrefix_ ++ seg.keyAt pos) :
    ∃ it1, (IteratorClass.Single reverse seg).Seek validType mv it target = Except.ok it1 ∧
      (∀ j, j < seg.valnumAt mv pos →
        (seg.versionAt mv it.global_seqno_ pos j).1 ≤ pikey.sequence →
        (∀ i, i < j → pikey.sequence < (seg.versionAt mv it.global_seqno_ pos i).1) →
        it1.PositionedAt mv seg it.global_seqno_ pos j) ∧
      ((∀ i, i < seg.valnumAt mv pos →
          pikey.sequence < (seg.versionAt mv it.global_seqno_ pos i).1) →
        match seg.nextPos reverse pos with
        | some q => it1.PositionedAt mv seg it.global_seqno_ q 0
        | none => it1.Valid = false) := by
  have hwf := (wellFormed_iff mv seg _).mp hw
  have hok := hwf pos hpos
  have halign : seg.commonPrefix_.length =
      difference_offset pikey.user_key seg.commonPrefix_ := by
    rw [hkey]
    exact (difference_offset_eq_length _ _ (List.prefix_append _ _)).symm
  have hfound : TerarkZipTableIterator.seekCursor reverse seg.index_
      (pikey.user_key.drop seg.commonPrefix_.length) = (some pos, 0) := by
    rw [hkey, List.drop_left]
    exact seekCursor_exact reverse seg hsorted pos hpos
  rw [Single_Seek_eq reverse validType mv seg it target pikey hparse]
  by_cases hall : ∀ i, i < seg.valnumAt mv pos →
      pikey.sequence < (seg.versionAt mv it.global_seqno_ pos i).1
  · obtain ⟨v, hv1, hv2, _⟩ := Single_SeekInternal_exact_none reverse mv seg _ it pikey pos rfl
      halign hfound hok hall
    have hvn := ((recordOk_iff mv seg _ pos).mp hok).2.1
    rw [hv1]
    cases hq : seg.nextPos reverse pos with
    | none =>
      obtain ⟨it1, h1, h2, _⟩ := Single_Next_end reverse mv seg _ v pos _ hv2.1 (by omega) hq
      refine ⟨it1, h1, ?_, fun _ => h2⟩
      intro j hj hle _
      exact absurd hle (Nat.not_le.mpr (hall j hj))
    | some q =>
      obtain ⟨it1, h1, h2, _⟩ := Single_Next_record reverse mv seg _ v pos _ q hv2.1
        (by omega) hq (hwf q (nextPos_lt seg reverse pos q hpos hq))
      refine ⟨it1, h1, ?_, fun _ => h2⟩
      intro j hj hle _
      exact absurd hle (Nat.not_le.mpr (hall j hj))
  · have hex : ∃ j, j < seg.valnumAt mv pos ∧
        (seg.versionAt mv it.global_seqno_ pos j).1 ≤ pikey.sequence := by
      by_contra hno
      exact hall (fun i hi => Nat.lt_of_not_le (fun hle => hno ⟨i, hi, hle⟩))
    classical
    let j0 := Nat.find hex
    have hj0 : j0 < seg.valnumAt mv pos ∧
        (seg.versionAt mv it.global_seqno_ pos j0).1 ≤ pikey.sequence := Nat.find_spec hex
    have hmin : ∀ i, i < j0 → pikey.sequence < (seg.versionAt mv it.global_seqno_ pos i).1 := by
      intro i hi
      have := Nat.find_min hex hi
      exact Nat.lt_of_not_le (fun hle => this ⟨by omega, hle⟩)
    obtain ⟨it1, h1, h2, _⟩ := Single_SeekInternal_exact_found reverse mv seg _ it pikey pos j0
      rfl halign hfound hok hj0.1 hj0.2 hmin
    refine ⟨it1, h1, ?_, fun h => absurd h hall⟩
    intro j hj hle hlt
    have hjj : j = j0 := by
      rcases Nat.lt_trichotomy j j0 with hlt1 | heq | hgt
      · exact absurd hle (Nat.not_le.mpr (hmin j hlt1))
      · exact heq
      · exact absurd hj0.2 (Nat.not_le.mpr (hlt j0 hgt))
    rw [hjj]
    exact h2

/-- Witness of C16: `Seek("abcZ"@55)` in the sample segment, where `"abcZ"` (position 3)
has the versions 70 and 40: the iterator ends on version 1. -/
theorem Seek_stored_key_witness :
    ∃ it1, (IteratorClass.Single false healthySegment).Seek anyType sampleMulti
        (TerarkZipTableIterator.new 100) (abc ++ [0x5A] ++ packed8 55 1) = Except.ok it1 ∧
      it1.PositionedAt sampleMulti healthySegment 100 3 1 := by
  obtain ⟨it1, h1, h2, _⟩ := Seek_stored_key false anyType sampleMulti healthySegment
    (TerarkZipTableIterator.new 100) (abc ++ [0x5A] ++ packed8 55 1) ⟨abc ++ [0x5A], 55, 1⟩ 3
    (by decide) (by decide) (by decide) (by decide) (by decide)
  exact ⟨it1, h1, h2 1 (by decide) (by decide) (by decide)⟩

/-- The method `Seek` of a single-segment iterator over a non-empty well-formed segment,
with a target whose user key `u` leaves the common prefix `cp` at offset `clen < |cp|`.
When `|u| = clen` a forward iterator ends on the first entry of the table and a reverse
one ends invalid. Otherwise the iterator ends on the first entry of the table when
`(u[clen] < cp[clen]) XOR reverse` holds, and ends invalid when it does not; in the
comparison the byte of the key is read as a `byte_t` and the byte of the common prefix
as a `char`. -/
theorem Seek_diverging (reverse : Bool) (validType : Nat → Bool) (mv : ZipValueMultiValue)
    (seg : TerarkZipSegment) (it : TerarkZipTableIterator) (target : Bytes)
    (pikey : ParsedInternalKey)
    (hparse : ParseInternalKey validType target = some pikey)
    (hne : 0 < seg.index_.entries.length)
    (hw : seg.wellFormed mv it.global_seqno_ = true)
    (hdiv : difference_offset pikey.user_key seg.commonPrefix_ < seg.commonPrefix_.length) :
    ∃ it1 first, (IteratorClass.Single reverse seg).Seek validType mv it target =
        Except.ok it1 ∧
      (seg.positions reverse).head? = some first ∧
      if pikey.user_key.length = difference_offset pikey.user_key seg.commonPrefix_ then
        if reverse then it1.Valid = false
        else it1.PositionedAt mv seg it.global_seqno_ first 0
      else
        if xor (decide (Int.ofNat (pikey.user_key.getD
            (difference_offset pikey.user_key seg.commonPrefix_) 0).toNat <
          charValue (seg.commonPrefix_.getD
            (difference_offset pikey.user_key seg.commonPrefix_) 0))) reverse = true
        then it1.PositionedAt mv seg it.global_seqno_ first 0
        else it1.Valid = false := by
  have hwf := (wellFormed_iff mv seg _).mp hw
  have hhead := positions_head seg reverse hne
  have hlast := positions_getLast seg reverse hne
  have hg : it.TryPinInterKeyBuf.global_seqno_ = it.global_seqno_ :=
    (TryPinInterKeyBuf_fields it).2.1
  rw [Single_Seek_eq reverse validType mv seg it target pikey hparse,
    Single_SeekInternal_diverging reverse mv seg it pikey hdiv]
  obtain ⟨f, hf1, hf2, _⟩ := Single_SeekToFirst_some reverse mv seg it.global_seqno_
    it.TryPinInterKeyBuf _ hg hhead (hwf _ (by split <;> omega))
  obtain ⟨e, he1, he2, _⟩ := Single_seekToEnd reverse mv seg it.global_seqno_
    it.TryPinInterKeyBuf _ hg hlast (hwf _ (by split <;> omega))
  by_cases hlen : pikey.user_key.length = difference_offset pikey.user_key seg.commonPrefix_
  · simp only [if_pos hlen]
    cases reverse
    · exact ⟨f, _, by simpa using hf1, hhead, by simpa using hf2⟩
    · exact ⟨e, _, by simpa using he1, hhead, by simpa using he2⟩
  · simp only [if_neg hlen]
    by_cases hx : xor (decide (Int.ofNat (pikey.user_key.getD
        (difference_offset pikey.user_key seg.commonPrefix_) 0).toNat <
        charValue (seg.commonPrefix_.getD
          (difference_offset pikey.user_key seg.commonPrefix_) 0))) reverse = true
    · simp only [if_pos hx]
      exact ⟨f, _, hf1, hhead, hf2⟩
    · simp only [if_neg hx]
      exact ⟨e, _, he1, hhead, he2⟩

/-- An instance: `Seek("ac"@30)` in the sample segment with the common prefix `"abc"`,
under a reverse comparator: `"ac"` leaves `"abc"` at offset 1 with the greater byte, and
the iterator ends on the first entry of the reverse order, that of `"abcZm"`. -/
theorem Seek_diverging_witness :
    ∃ it1, (IteratorClass.Single true healthySegment).Seek anyType sampleMulti
        (TerarkZipTableIterator.new 100) ([0x61, 0x63] ++ packed8 30 1) = Except.ok it1 ∧
      it1.PositionedAt sampleMulti healthySegment 100 4 0 := by
  obtain ⟨it1, first, h1, h2, h3⟩ := Seek_diverging true anyType sampleMulti healthySegment
    (TerarkZipTableIterator.new 100) ([0x61, 0x63] ++ packed8 30 1) ⟨[0x61, 0x63], 30, 1⟩
    (by decide) (by decide) (by decide) (by decide)
  have hfirst : first = 4 := by
    have h4 : (healthySegment.positions true).head? = some 4 := by decide
    rw [h4] at h2
    exact (Option.some.inj h2).symm
  subst hfirst
  rw [if_neg (by decide), if_pos (by decide)] at h3
  exact ⟨it1, h1, h3⟩

/-- The method `Seek` of a single-segment iterator over a non-empty well-formed segment
whose common prefix `cp` has no byte of 0x80 or more. A target whose user key is
bytewise strictly before every stored key (`cp` followed by a key of the index) leaves a
forward iterator on the first entry and a reverse-comparator iterator invalid; a target
whose user key is bytewise strictly after every stored key leaves a forward iterator
invalid and a reverse-comparator iterator on the last key of the index, the
bytewise-last one. -/
theorem Seek_outside_keys (reverse : Bool) (validType : Nat → Bool) (mv : ZipValueMultiValue)
    (seg : TerarkZipSegment) (it : TerarkZipTableIterator) (target : Bytes)
    (pikey : ParsedInternalKey)
    (hparse : ParseInternalKey validType target = some pikey)
    (hne : 0 < seg.index_.entries.length)
    (hw : seg.wellFormed mv it.global_seqno_ = true)
    (hascii : ∀ b ∈ seg.commonPrefix_, b.toNat < 128) :
    ((∀ pos, pos < seg.index_.entries.length →
        fstring_lt pikey.user_key (seg.commonPrefix_ ++ seg.keyAt pos) = true) →
      ∃ it1, (IteratorClass.Single reverse seg).Seek validType mv it target = Except.ok it1 ∧
        if reverse then it1.Valid = false
        else it1.PositionedAt mv seg it.global_seqno_ 0 0) ∧
    ((∀ pos, pos < seg.index_.entries.length →
        fstring_lt (seg.commonPrefix_ ++ seg.keyAt pos) pikey.user_key = true) →
      ∃ it1, (IteratorClass.Single reverse seg).Seek validType mv it target = Except.ok it1 ∧
        if reverse then
          it1.PositionedAt mv seg it.global_seqno_ (seg.index_.entries.length - 1) 0
        else it1.Valid = false) := by
  have hwf := (wellFormed_iff mv seg _).mp hw
  have hhead := positions_head seg reverse hne
  have hlast := positions_getLast seg reverse hne
  have hg : it.TryPinInterKeyBuf.global_seqno_ = it.global_seqno_ :=
    (TryPinInterKeyBuf_fields it).2.1
  obtain ⟨f, hf1, hf2, _⟩ := Single_SeekToFirst_some reverse mv seg it.global_seqno_
    it.TryPinInterKeyBuf _ hg hhead (hwf _ (by split <;> omega))
  obtain ⟨e, he1, he2, _⟩ := Single_seekToEnd reverse mv seg it.global_seqno_
    it.TryPinInterKeyBuf _ hg hlast (hwf _ (by split <;> omega))
  rw [Single_Seek_eq reverse validType mv seg it target pikey hparse]
  constructor
  · intro hall
    rcases fstring_lt_append_right_cases _ _ _ (hall 0 hne) with ⟨hc, _⟩ | ⟨hc, hcase⟩
    · have hall1 : ∀ pos, pos < seg.index_.entries.length →
          fstring_lt (pikey.user_key.drop seg.commonPrefix_.length) (seg.keyAt pos) = true := by
        intro pos hpos
        rcases fstring_lt_append_right_cases _ _ _ (hall pos hpos) with ⟨_, h2⟩ | ⟨h1, _⟩
        · exact h2
        · omega
      have hfound := seekCursor_before_all reverse seg _ hne hall1
      cases reverse
      · obtain ⟨it1, h1, h2, _⟩ := Single_SeekInternal_inexact false mv seg _ it pikey 0 1 rfl
          hc.symm hfound (by decide) (hwf 0 hne)
        exact ⟨it1, h1, by simpa using h2⟩
      · obtain ⟨it1, h1, h2, _⟩ := Single_SeekInternal_miss true mv seg it pikey 1
          hc.symm hfound
        exact ⟨it1, h1, by simpa using h2⟩
    · rw [Single_SeekInternal_diverging reverse mv seg it pikey hc]
      have hcond : (if pikey.user_key.length =
            difference_offset pikey.user_key seg.commonPrefix_ then !reverse
          else xor (decide (Int.ofNat (pikey.user_key.getD
              (difference_offset pikey.user_key seg.commonPrefix_) 0).toNat <
            charValue (seg.commonPrefix_.getD
              (difference_offset pikey.user_key seg.commonPrefix_) 0))) reverse) =
          !reverse := by
        rcases hcase with hlen | ⟨hlen, hlt⟩
        · rw [if_pos hlen]
        · rw [if_neg hlen, diverging_compare_ascii _ _ _ hc hascii, decide_eq_true hlt]
          cases reverse <;> rfl
      rw [hcond]
      cases reverse
      · exact ⟨f, by simpa using hf1, by simpa using hf2⟩
      · exact ⟨e, by simpa using he1, by simpa using he2⟩
  · intro hall
    rcases fstring_lt_append_left_cases _ _ _ (hall 0 hne) with ⟨hc, _⟩ | ⟨hc, hlen, hlt⟩
    · have hall1 : ∀ pos, pos < seg.index_.entries.length →
          fstring_lt (seg.keyAt pos) (pikey.user_key.drop seg.commonPrefix_.length) = true := by
        intro pos hpos
        rcases fstring_lt_append_left_cases _ _ _ (hall pos hpos) with ⟨_, h2⟩ | ⟨h1, _⟩
        · exact h2
        · omega
      have hfound := seekCursor_after_all reverse seg _ hne hall1
      cases reverse
      · obtain ⟨it1, h1, h2, _⟩ := Single_SeekInternal_miss false mv seg it pikey 0
          hc.symm hfound
        exact ⟨it1, h1, by simpa using h2⟩
      · obtain ⟨it1, h1, h2, _⟩ := Single_SeekInternal_inexact true mv seg _ it pikey
          (seg.index_.entries.length - 1) (-1) rfl hc.symm hfound (by decide)
          (hwf _ (by omega))
        exact ⟨it1, h1, by simpa using h2⟩
    · rw [Single_SeekInternal_diverging reverse mv seg it pikey hc]
      have hcond : (if pikey.user_key.length =
            difference_offset pikey.user_key seg.commonPrefix_ then !reverse
          else xor (decide (Int.ofNat (pikey.user_key.getD
              (difference_offset pikey.user_key seg.commonPrefix_) 0).toNat <
            charValue (seg.commonPrefix_.getD
              (difference_offset pikey.user_key seg.commonPrefix_) 0))) reverse) =
          reverse := by
        rw [if_neg hlen, diverging_compare_ascii _ _ _ hc hascii,
          decide_eq_false (by omega)]
        cases reverse <;> rfl
      rw [hcond]
      cases reverse
      · exact ⟨e, by simpa using he1, by simpa using he2⟩
      · exact ⟨f, by simpa using hf1, by simpa using hf2⟩

/-- An instance: in the sample segment with the keys `"abcW"` to `"abcZm"`, a forward
`Seek("abcA"@30)` ends on the first entry, and a forward `Seek("abd"@30)` ends invalid. -/
theorem Seek_outside_keys_witness :
    (∃ it1, (IteratorClass.Single false healthySegment).Seek anyType sampleMulti
        (TerarkZipTableIterator.new 100) (abc ++ [0x41] ++ packed8 30 1) = Except.ok it1 ∧
      it1.PositionedAt sampleMulti healthySegment 100 0 0) ∧
    (∃ it1, (IteratorClass.Single false healthySegment).Seek anyType sampleMulti
        (TerarkZipTableIterator.new 100) ([0x61, 0x62, 0x64] ++ packed8 30 1) =
          Except.ok it1 ∧
      it1.Valid = false) :=
  ⟨(Seek_outside_keys false anyType sampleMulti healthySegment (TerarkZipTableIterator.new 100)
      (abc ++ [0x41] ++ packed8 30 1) ⟨abc ++ [0x41], 30, 1⟩ (by decide) (by decide)
      (by decide) (by decide)).1 (by decide),
    (Seek_outside_keys false anyType sampleMulti healthySegment (TerarkZipTableIterator.new 100)
      ([0x61, 0x62, 0x64] ++ packed8 30 1) ⟨[0x61, 0x62, 0x64], 30, 1⟩ (by decide) (by decide)
      (by decide) (by decide)).2 (by decide)⟩

/-! ## The iterator over one segment: corruption -/

/-- The method `Next` from the last version of a record, when the fetch of the record
under the next position raises: the iterator ends invalid with the status
`Corruption`. -/
theorem Single_Next_corrupt (reverse : Bool) (mv : ZipValueMultiValue)
    (seg : TerarkZipSegment) (it : TerarkZipTableIterator) (pos q : Nat)
    (hcur : it.iter_ = some pos) (hj : ¬ it.validx_ + 1 < it.valnum_)
    (hq : seg.nextPos reverse pos = some q) (hc : seg.corruptAt q = true) :
    ∃ it1, (IteratorClass.Single reverse seg).Next mv it = Except.ok it1 ∧
      it1.Valid = false ∧ it1.status_ = Status.Corruption := by
  unfold IteratorClass.Next
  dsimp only
  rw [if_neg hj, Single_IndexIterNext_eq reverse seg { it with validx_ := it.validx_ + 1 } pos
    hcur, hq]
  simp only [Option.isSome_some]
  obtain ⟨it1, h1, h2, h3, _⟩ := Single_unzipAndDecode_corrupt reverse mv seg false
    { ({ it with validx_ := it.validx_ + 1 } : TerarkZipTableIterator).TryPinInterKeyBuf with
      iter_ := some q } q rfl hc
  exact ⟨it1, h1, h2, h3⟩

/-- The method `Prev` from version 0 of a record, when the fetch of the record under the
previous position raises: the iterator ends invalid with the status `Corruption`. -/
theorem Single_Prev_corrupt (reverse : Bool) (mv : ZipValueMultiValue)
    (seg : TerarkZipSegment) (it : TerarkZipTableIterator) (pos q : Nat)
    (hcur : it.iter_ = some pos) (hi : it.validx_ = 0)
    (hq : seg.prevPos reverse pos = some q) (hc : seg.corruptAt q = true) :
    ∃ it1, (IteratorClass.Single reverse seg).Prev mv it = Except.ok it1 ∧
      it1.Valid = false ∧ it1.status_ = Status.Corruption := by
  unfold IteratorClass.Prev
  rw [if_neg (by omega), Single_IndexIterPrev_eq reverse seg it pos hcur, hq]
  simp only [Option.isSome_some]
  obtain ⟨it1, h1, h2, h3, _⟩ := Single_unzipAndDecode_corrupt reverse mv seg true
    { it.TryPinInterKeyBuf with iter_ := some q } q rfl hc
  exact ⟨it1, h1, h2, h3⟩

/-- An operation (`SeekToFirst`, `SeekToLast`, `Seek`, `Next`, `Prev`) of a
single-segment iterator that positions the iterator on a record whose fetch from the blob
store raises the checksum exception ends with `Valid() = false` and
`status() = Corruption`. -/
theorem corruption_invalidates (reverse : Bool) (validType : Nat → Bool)
    (mv : ZipValueMultiValue) (seg : TerarkZipSegment) (it : TerarkZipTableIterator)
    (op : IteratorOp) (q : Nat)
    (hpos : it.PositionsOn reverse validType mv seg op q)
    (hc : seg.corruptAt q = true) :
    ∃ it1, (IteratorClass.Single reverse seg).apply validType mv it op = Except.ok it1 ∧
      it1.Valid = false ∧ it1.status = Status.Corruption := by
  cases op with
  | SeekToFirst => exact Single_SeekToFirst_corrupt reverse mv seg it q hpos hc
  | SeekToLast => exact Single_SeekToLast_corrupt reverse mv seg it q hpos hc
  | Next =>
    obtain ⟨hj, pos, hcur, hq⟩ := hpos
    exact Single_Next_corrupt reverse mv seg it pos q hcur hj hq hc
  | Prev =>
    obtain ⟨hi, pos, hcur, hq⟩ := hpos
    exact Single_Prev_corrupt reverse mv seg it pos q hcur hi hq hc
  | Seek target =>
    obtain ⟨pikey, hparse, hcase⟩ := hpos
    show ∃ it1, (IteratorClass.Single reverse seg).Seek validType mv it target =
      Except.ok it1 ∧ _
    rw [Single_Seek_eq reverse validType mv seg it target pikey hparse]
    rcases hcase with ⟨hdiv, hfirst, hhead⟩ | ⟨halign, cmp, hfound⟩ |
      ⟨halign, p, hfound, hok, hall, hq⟩
    · rw [Single_SeekInternal_diverging reverse mv seg it pikey hdiv]
      unfold TerarkZipTableIterator.seeksToFirst at hfirst
      rw [if_pos hfirst]
      exact Single_SeekToFirst_corrupt reverse mv seg _ q hhead hc
    · exact Single_SeekInternal_corrupt reverse mv seg it pikey q cmp halign hfound hc
    · obtain ⟨v, hv1, hv2, _⟩ := Single_SeekInternal_exact_none reverse mv seg _ it pikey p
        rfl halign hfound hok hall
      rw [hv1]
      have hvn := ((recordOk_iff mv seg _ p).mp hok).2.1
      exact Single_Next_corrupt reverse mv seg v p q hv2.1.1
        (by rw [hv2.1.2.1, hv2.1.2.2.2.2.2.2.1]; omega) hq hc

/-- An instance: in the sample segment the record of the last key `"abcZz"`
(position 5) fails its checksum, and `SeekToLast` positions on it. -/
theorem corruption_invalidates_witness :
    ∃ it1, (IteratorClass.Single false sampleSegment).apply anyType sampleMulti
        (TerarkZipTableIterator.new 100) IteratorOp.SeekToLast = Except.ok it1 ∧
      it1.Valid = false ∧ it1.status = Status.Corruption :=
  corruption_invalidates false anyType sampleMulti sampleSegment
    (TerarkZipTableIterator.new 100) IteratorOp.SeekToLast 5
    (show (sampleSegment.positions false).getLast? = some 5 by decide) (by decide)

/-- C20, the code at the failing input. In the sample segment the record of the last key
`"abcZz"` fails its checksum, so `SeekToLast` leaves a fresh iterator invalid with the
status `Corruption`. A `SeekToFirst` after it positions the iterator on the first entry
`"abcW"`: `Valid()` returns `true` while `status()` still reports `Corruption`. A `Seek`
with a target shorter than 8 bytes replaces the status by `InvalidArgument`. -/
theorem SeekToFirst_after_corruption_valid :
    (((IteratorClass.Single false sampleSegment).run anyType sampleMulti
        (TerarkZipTableIterator.new 100) [IteratorOp.SeekToLast]).toOption.map
      (fun it => (it.Valid, it.status))) = some (false, Status.Corruption) ∧
    (((IteratorClass.Single false sampleSegment).run anyType sampleMulti
        (TerarkZipTableIterator.new 100)
        [IteratorOp.SeekToLast, IteratorOp.SeekToFirst]).toOption.map
      (fun it => (it.Valid, it.status, it.key))) =
        some (true, Status.Corruption, abc ++ [0x57] ++ packed8 30 0) ∧
    (((IteratorClass.Single false sampleSegment).run anyType sampleMulti
        (TerarkZipTableIterator.new 100)
        [IteratorOp.SeekToLast, IteratorOp.Seek []]).toOption.map
      (fun it => (it.Valid, it.status))) = some (false, Status.InvalidArgument) := by
  decide

/-! ## The order of the entries that a scan yields -/

/-- A little-endian store of `n` bytes has `n` bytes. -/
theorem storeLE_length : ∀ (n v : Nat), (storeLE n v).length = n := by
  intro n
  induction n with
  | zero => intro v; rfl
  | succ n ih => intro v; simp [storeLE, ih]

/-- Loading what was stored gives the value back, cut to `n` bytes. -/
theorem loadLE_storeLE : ∀ (n v : Nat), loadLE n (storeLE n v) = v % 256 ^ n := by
  intro n
  induction n with
  | zero => intro v; simp [loadLE, Nat.mod_one]
  | succ n ih =>
    intro v
    simp only [storeLE, loadLE, ih]
    have hb : (UInt8.ofNat (v % 256)).toNat = v % 256 := by
      show (v % 256) % 256 = v % 256
      exact Nat.mod_mod _ _
    rw [hb, pow_succ', Nat.mod_mul]

/-- The 64-bit word `seq << 8 | type` built from the two halves of a word is that word. -/
theorem PackSequenceAndType_div_mod (num : Nat) (h : num < 2 ^ 64) :
    PackSequenceAndType (num / 256) (num % 256) = num := by
  unfold PackSequenceAndType
  have h1 : (num / 256) <<< 8 ||| num % 256 = num := by
    rw [Nat.shiftLeft_eq, Nat.mul_comm]
    have := Nat.mul_add_lt_is_or (show num % 256 < 2 ^ 8 by omega) (num / 256)
    rw [← this]
    omega
  rw [h1, Nat.mod_eq_of_lt h]

/-- The user key of `user_key || packed8`. -/
theorem ExtractUserKey_append (u : Bytes) (p : Nat) :
    ExtractUserKey (u ++ storeLE 8 p) = u := by
  unfold ExtractUserKey
  rw [List.length_append, storeLE_length, Nat.add_sub_cancel, List.take_left]

/-- The word `packed8` at the end of `user_key || packed8`. -/
theorem DecodeFixed64_packed8 (u : Bytes) (p : Nat) (hp : p < 2 ^ 64) :
    DecodeFixed64 ((u ++ storeLE 8 p).drop ((u ++ storeLE 8 p).length - 8)) = p := by
  rw [List.length_append, storeLE_length, Nat.add_sub_cancel, List.drop_left]
  unfold DecodeFixed64
  rw [loadLE_storeLE]
  exact Nat.mod_eq_of_lt (by norm_num; exact hp)

/-- Internal keys whose user keys ascend in the order of the table compare less-than. -/
theorem Compare_lt_of_user_key_lt (reverse : Bool) (u1 u2 : Bytes) (p1 p2 : Nat)
    (h : (if reverse then fstring_lt u2 u1 else fstring_lt u1 u2) = true) :
    InternalKeyComparator.Compare reverse (u1 ++ storeLE 8 p1) (u2 ++ storeLE 8 p2) < 0 := by
  unfold InternalKeyComparator.Compare
  rw [ExtractUserKey_append, ExtractUserKey_append]
  cases reverse
  · simp only [Bool.false_eq_true, if_false] at h
    simp [Slice.compare, h]
  · simp only [if_true] at h
    simp [Slice.compare, h]

/-- Internal keys with one user key compare less-than when `packed8` descends. -/
theorem Compare_lt_of_packed_gt (reverse : Bool) (u : Bytes) (p1 p2 : Nat)
    (h1 : p1 < 2 ^ 64) (h2 : p2 < 2 ^ 64) (h : p2 < p1) :
    InternalKeyComparator.Compare reverse (u ++ storeLE 8 p1) (u ++ storeLE 8 p2) < 0 := by
  unfold InternalKeyComparator.Compare
  rw [ExtractUserKey_append, ExtractUserKey_append, DecodeFixed64_packed8 u p1 h1,
    DecodeFixed64_packed8 u p2 h2]
  simp [Slice.compare, fstring_lt_irrefl, h]

/-- The bytewise order of two strings with a common front is that of what follows. -/
theorem fstring_lt_append_left : ∀ (cp a b : Bytes),
    fstring_lt (cp ++ a) (cp ++ b) = fstring_lt a b := by
  intro cp
  induction cp with
  | nil => intro a b; rfl
  | cons x xs ih => intro a b; simp [fstring_lt, ih]

/-- The key of an entry: `commonPrefix_ || index key || packed8`. -/
theorem entryAt_key (mv : ZipValueMultiValue) (seg : TerarkZipSegment) (g pos j : Nat) :
    (seg.entryAt mv g pos j).1 = (seg.commonPrefix_ ++ seg.keyAt pos) ++
      storeLE 8 (PackSequenceAndType (seg.versionAt mv g pos j).1
        (seg.versionAt mv g pos j).2.1) := by
  simp [TerarkZipSegment.entryAt, TerarkZipSegment.parsedKeyAt, AppendInternalKey]

/-- A version of a `Multi` record that decodes is the two halves of a 64-bit word. -/
theorem versionAt_multi (mv : ZipValueMultiValue) (seg : TerarkZipSegment) (g pos j : Nat)
    (ht : seg.typeAt pos = kMulti) (hok : seg.versionOk mv g pos j = true) :
    ∃ num, num < 2 ^ 64 ∧ (seg.versionAt mv g pos j).1 = num / 256 ∧
      (seg.versionAt mv g pos j).2.1 = num % 256 := by
  unfold TerarkZipSegment.versionOk at hok
  unfold TerarkZipSegment.versionAt
  unfold decodeVersion at hok ⊢
  rw [ht] at hok ⊢
  simp only [show kMulti ≠ kZeroSeq by decide, show kMulti ≠ kValue by decide,
    show kMulti ≠ kDelete by decide, if_false, if_true] at hok ⊢
  cases hd : (mv.decode (seg.payloadAt pos))[j]? with
  | none => simp [hd] at hok
  | some d =>
    simp only [hd] at hok ⊢
    by_cases hlen : d.length < 8
    · simp [hlen] at hok
    · simp only [if_neg hlen]
      refine ⟨DecodeFixed64 d, ?_, rfl, rfl⟩
      have := loadLE_lt 8 d
      unfold DecodeFixed64
      norm_num at this ⊢
      exact this

/-- The word `packed8` is below `2 ^ 64`. -/
theorem PackSequenceAndType_lt (seq type : Nat) : PackSequenceAndType seq type < 2 ^ 64 :=
  Nat.mod_lt _ (by norm_num)

/-- The entries of one record, from the newest version to the oldest, ascend under the
internal-key comparator when the versions descend. -/
theorem entries_of_record_pairwise (reverse : Bool) (mv : ZipValueMultiValue)
    (seg : TerarkZipSegment) (g pos : Nat) (hpos : pos < seg.index_.entries.length)
    (hok : seg.recordOk mv g pos = true) (hdesc : seg.versionsDescend mv g = true) :
    ((List.range (seg.valnumAt mv pos)).map (fun j => seg.entryAt mv g pos j)).Pairwise
      (fun a b => InternalKeyComparator.Compare reverse a.1 b.1 < 0) := by
  rw [List.pairwise_map]
  refine List.Pairwise.imp_of_mem ?_ (List.pairwise_lt_range _)
  intro i j hi hj hij
  rw [List.mem_range] at hi hj
  have hvok := ((recordOk_iff mv seg g pos).mp hok).2.2
  have ht : seg.typeAt pos = kMulti := by
    by_contra hne
    have : seg.valnumAt mv pos = 1 := by
      unfold TerarkZipSegment.valnumAt
      rw [if_neg hne]
    omega
  obtain ⟨ni, hni, hi1, hi2⟩ := versionAt_multi mv seg g pos i ht (hvok i hi)
  obtain ⟨nj, hnj, hj1, hj2⟩ := versionAt_multi mv seg g pos j ht (hvok j hj)
  have hd : (seg.versionAt mv g pos j).1 < (seg.versionAt mv g pos i).1 ∨
      ((seg.versionAt mv g pos j).1 = (seg.versionAt mv g pos i).1 ∧
        (seg.versionAt mv g pos j).2.1 < (seg.versionAt mv g pos i).2.1) := by
    unfold TerarkZipSegment.versionsDescend at hdesc
    simp only [List.all_eq_true, List.mem_range, decide_eq_true_eq] at hdesc
    exact hdesc pos hpos j hj i hij
  rw [entryAt_key, entryAt_key, hi1, hi2, hj1, hj2, PackSequenceAndType_div_mod ni hni,
    PackSequenceAndType_div_mod nj hnj]
  rw [hi1, hi2, hj1, hj2] at hd
  exact Compare_lt_of_packed_gt reverse _ ni nj hni hnj (by omega)

/-- The positions of a sorted index in table order: the keys ascend in the order of the
user comparator. -/
theorem positions_pairwise (seg : TerarkZipSegment) (reverse : Bool)
    (hsorted : seg.index_.Sorted) :
    (seg.positions reverse).Pairwise (fun a b =>
      (if reverse then fstring_lt (seg.keyAt b) (seg.keyAt a)
        else fstring_lt (seg.keyAt a) (seg.keyAt b)) = true) := by
  cases reverse
  · simp only [TerarkZipSegment.positions, Bool.false_eq_true, if_false]
    refine List.Pairwise.imp_of_mem ?_ (List.pairwise_lt_range _)
    intro a b _ hb hab
    exact Sorted_keyAt seg hsorted a b hab (List.mem_range.mp hb)
  · simp only [TerarkZipSegment.positions, if_true]
    rw [List.pairwise_reverse]
    refine List.Pairwise.imp_of_mem ?_ (List.pairwise_lt_range _)
    intro a b _ hb hab
    exact Sorted_keyAt seg hsorted a b hab (List.mem_range.mp hb)

/-- The entries of a sorted, well-formed segment whose versions descend ascend, in table
order, under the internal-key comparator. -/
theorem tableEntries_pairwise (reverse : Bool) (mv : ZipValueMultiValue)
    (seg : TerarkZipSegment) (g : Nat) (hsorted : seg.index_.Sorted)
    (hw : seg.wellFormed mv g = true) (hdesc : seg.versionsDescend mv g = true) :
    (seg.tableEntries mv g reverse).Pairwise
      (fun a b => InternalKeyComparator.Compare reverse a.1 b.1 < 0) := by
  have hwf := (wellFormed_iff mv seg g).mp hw
  unfold TerarkZipSegment.tableEntries TerarkZipSegment.entriesOf
  rw [List.pairwise_flatMap]
  constructor
  · intro pos hpos
    have hp := (mem_positions seg reverse pos).mp hpos
    exact entries_of_record_pairwise reverse mv seg g pos hp (hwf pos hp) hdesc
  · refine List.Pairwise.imp ?_ (positions_pairwise seg reverse hsorted)
    intro a b hab x hx y hy
    obtain ⟨i, _, rfl⟩ := List.mem_map.mp hx
    obtain ⟨j, _, rfl⟩ := List.mem_map.mp hy
    rw [entryAt_key, entryAt_key]
    refine Compare_lt_of_user_key_lt reverse _ _ _ _ ?_
    rw [fstring_lt_append_left, fstring_lt_append_left]
    exact hab

/-- C13: a single-segment iterator over a well-formed segment whose index yields its keys
in strictly ascending bytewise order and whose records hold their versions in strictly
decreasing `(sequence, type)` order. Every two adjacent internal keys that `SeekToFirst`
followed by `Next` until the iterator is invalid yields compare strictly less-than under
the internal-key comparator of the table: user keys bytewise, or reverse bytewise for a
`"rev:"` table, and within one user key the higher sequence first. -/
theorem scanForward_keys_ascend (reverse : Bool) (mv : ZipValueMultiValue)
    (seg : TerarkZipSegment) (it : TerarkZipTableIterator) (fuel : Nat)
    (hsorted : seg.index_.Sorted)
    (hdesc : seg.versionsDescend mv it.global_seqno_ = true)
    (hw : seg.wellFormed mv it.global_seqno_ = true)
    (hfuel : (seg.tableEntries mv it.global_seqno_ reverse).length ≤ fuel) :
    ∃ es, (IteratorClass.Single reverse seg).scanForward mv fuel it = Except.ok (es, true) ∧
      es.Chain' (fun a b => InternalKeyComparator.Compare reverse a.1 b.1 < 0) :=
  ⟨_, Single_scanForward reverse mv seg it fuel hw hfuel,
    (tableEntries_pairwise reverse mv seg _ hsorted hw hdesc).chain'⟩

/-- Witness of C13: the forward scan of the sample segment of five keys and seven
entries, under a reverse comparator. -/
theorem scanForward_keys_ascend_witness :
    ∃ es, (IteratorClass.Single true healthySegment).scanForward sampleMulti 7
        (TerarkZipTableIterator.new 100) = Except.ok (es, true) ∧
      es.Chain' (fun a b => InternalKeyComparator.Compare true a.1 b.1 < 0) :=
  scanForward_keys_ascend true sampleMulti healthySegment (TerarkZipTableIterator.new 100) 7
    (by decide) (by decide) (by decide) (by decide)

/-! ## Every class of iterator: what a valid iterator shows -/

/-- The method `SetIterInvalid` of every class leaves the iterator invalid. -/
theorem SetIterInvalid_Valid (cls : IteratorClass) (it : TerarkZipTableIterator) :
    (cls.SetIterInvalid it).Valid = false := by
  cases cls <;> rfl

/-- What `DecodeCurrKeyValueInternal` returns when it returns. -/
theorem DecodeCurrKeyValueInternal_ok (mv : ZipValueMultiValue)
    (it it1 : TerarkZipTableIterator) (h : it.DecodeCurrKeyValueInternal mv = Except.ok it1) :
    ∃ r, decodeVersion mv it.global_seqno_ it.zValtype_ it.valueBuf_ it.validx_ =
        Except.ok r ∧
      it1 = { it with
        pInterKey_ := { it.pInterKey_ with sequence := r.1, type := r.2.1 }
        userValue_ := r.2.2 } := by
  rw [DecodeCurrKeyValueInternal_eq] at h
  cases hd : decodeVersion mv it.global_seqno_ it.zValtype_ it.valueBuf_ it.validx_ with
  | error e => rw [hd] at h; cases h
  | ok r =>
    rw [hd] at h
    exact ⟨r, rfl, (Except.ok.inj h).symm⟩

/-- The method `DecodeCurrKeyValue` of every class keeps the cursor and the segment, and
on an iterator that holds a record it materialises the key of the current version. -/
theorem DecodeCurrKeyValue_Materialized (cls : IteratorClass) (mv : ZipValueMultiValue)
    (it it1 : TerarkZipTableIterator) (h : cls.DecodeCurrKeyValue mv it = Except.ok it1) :
    it1.iter_ = it.iter_ ∧
    ∀ seg pos, cls.segment it = some seg → it.Holds mv seg it.global_seqno_ pos it.validx_ →
      cls.Materialized mv it1 := by
  have key : ∀ (seg : TerarkZipSegment) (f : Bytes → Bytes) (pfx : Bytes),
      (match it.DecodeCurrKeyValueInternal mv with
        | Except.error e => Except.error e
        | Except.ok it2 =>
          Except.ok { it2 with
            interKeyBuf_xx_ := f (AppendInternalKey pfx it2.pInterKey_) }) = Except.ok it1 →
      it1.iter_ = it.iter_ ∧ it1.segment_ = it.segment_ ∧
      ∀ pos, it.Holds mv seg it.global_seqno_ pos it.validx_ →
        it1.Holds mv seg it1.global_seqno_ pos it1.validx_ ∧
        decodeVersion mv it1.global_seqno_ (seg.typeAt pos) (seg.payloadAt pos) it1.validx_ =
          Except.ok (it1.pInterKey_.sequence, it1.pInterKey_.type, it1.value) ∧
        it1.key = f (pfx ++ seg.keyAt pos ++
          storeLE 8 (PackSequenceAndType it1.pInterKey_.sequence it1.pInterKey_.type)) := by
    intro seg f pfx hm
    cases hi : it.DecodeCurrKeyValueInternal mv with
    | error e => rw [hi] at hm; cases hm
    | ok it2 =>
      rw [hi] at hm
      obtain ⟨r, hr, rfl⟩ := DecodeCurrKeyValueInternal_ok mv it it2 hi
      have e1 := (Except.ok.inj hm).symm
      subst e1
      refine ⟨rfl, rfl, ?_⟩
      intro pos hh
      obtain ⟨h1, h2, h3, h4, h5, h6, h7, h8⟩ := hh
      refine ⟨⟨h1, rfl, rfl, h4, h5, h6, h7, h8⟩, ?_, ?_⟩
      · rw [← h5, ← h6]
        exact hr
      · show f (AppendInternalKey pfx _) = _
        simp only [AppendInternalKey]
        rw [← h8]
  cases cls with
  | Single reverse seg0 =>
    have := key seg0 id seg0.commonPrefix_ h
    refine ⟨this.1, ?_⟩
    intro seg pos hseg hh
    obtain rfl : seg0 = seg := Option.some.inj hseg
    obtain ⟨a, b, c⟩ := this.2.2 pos hh
    exact ⟨seg0, pos, rfl, a, b, by
      simpa [IteratorClass.keyTransform, IteratorClass.partitionPrefix] using c⟩
  | Uint64 seg0 =>
    have := key seg0 (fun k => byte_swap (k.take 8) ++ k.drop 8) seg0.commonPrefix_ h
    refine ⟨this.1, ?_⟩
    intro seg pos hseg hh
    obtain rfl : seg0 = seg := Option.some.inj hseg
    obtain ⟨a, b, c⟩ := this.2.2 pos hh
    exact ⟨seg0, pos, rfl, a, b, by
      simpa [IteratorClass.keyTransform, IteratorClass.partitionPrefix] using c⟩
  | Multi reverse si =>
    simp only [IteratorClass.DecodeCurrKeyValue] at h
    cases hs : (IteratorClass.Multi reverse si).segment it with
    | none => rw [hs] at h; cases h
    | some seg0 =>
      rw [hs] at h
      have := key seg0 id (seg0.prefix_ ++ seg0.commonPrefix_) h
      refine ⟨this.1, ?_⟩
      intro seg pos hseg hh
      obtain rfl : seg0 = seg := Option.some.inj hseg
      obtain ⟨a, b, c⟩ := this.2.2 pos hh
      refine ⟨seg0, pos, ?_, a, b, by
        simpa [IteratorClass.keyTransform, IteratorClass.partitionPrefix] using c⟩
      simp only [IteratorClass.segment] at hs ⊢
      rw [this.2.1]
      exact hs

/-- The segment of an iterator depends on its field `segment_` only. -/
theorem segment_congr (cls : IteratorClass) (a b : TerarkZipTableIterator)
    (h : a.segment_ = b.segment_) : cls.segment a = cls.segment b := by
  cases cls with
  | Single reverse seg => rfl
  | Uint64 seg => rfl
  | Multi reverse si => simp only [IteratorClass.segment, h]

/-- In every class, `UnzipIterRecord` on a record that can be fetched returns `true` and
leaves the iterator holding the record, on version 0. -/
theorem UnzipIterRecord_fetchable (cls : IteratorClass) (mv : ZipValueMultiValue)
    (seg : TerarkZipSegment) (it : TerarkZipTableIterator) (pos : Nat)
    (hseg : cls.segment it = some seg) (hcur : it.iter_ = some pos)
    (hf : seg.fetchable pos = true) :
    ∃ it1, cls.UnzipIterRecord mv it true = Except.ok (it1, true) ∧
      it1.Holds mv seg it.global_seqno_ pos 0 ∧ it1.segment_ = it.segment_ ∧
      it1.global_seqno_ = it.global_seqno_ := by
  obtain ⟨h1, h2, h3⟩ := (fetchable_iff seg pos).mp hf
  unfold IteratorClass.UnzipIterRecord
  have hb : (it.iter_.bind fun pos => seg.index_.entries[pos]?) =
      some (seg.keyAt pos, seg.recIdAt pos) := by
    rw [hcur]
    exact h1
  simp only [if_true, hseg, hb, h2, h3]
  refine ⟨_, rfl, ?_, ?_, ?_⟩
  · refine ⟨?_, rfl, ?_, hf, ?_, rfl, ?_, rfl⟩
    · exact (TryPinValueBuf_fields _).2.2.trans hcur
    · exact (TryPinValueBuf_fields _).2.1
    · exact (TryPinValueBuf_fields _).1
    · rfl
  · exact (TryPinValueBuf_more _).2.2.2.2.1
  · exact (TryPinValueBuf_fields _).2.1

/-- In every class, what `UnzipIterRecord` leaves when it returns: an invalid iterator
with the flag `false`, or an iterator that holds a record of its segment, on version 0,
with the flag `true`. -/
theorem UnzipIterRecord_result (cls : IteratorClass) (mv : ZipValueMultiValue)
    (it u : TerarkZipTableIterator) (b flag : Bool)
    (h : cls.UnzipIterRecord mv it b = Except.ok (u, flag)) :
    (flag = false → u.Valid = false) ∧
    (flag = true → ∃ seg pos, cls.segment u = some seg ∧
      u.Holds mv seg u.global_seqno_ pos 0 ∧ u.validx_ = 0) := by
  cases b with
  | false =>
    unfold IteratorClass.UnzipIterRecord at h
    simp only [Bool.false_eq_true, if_false] at h
    obtain ⟨rfl, rfl⟩ := Prod.mk.inj (Except.ok.inj h)
    exact ⟨fun _ => SetIterInvalid_Valid cls it, fun hf => absurd hf (by decide)⟩
  | true =>
    cases hseg : cls.segment it with
    | none =>
      unfold IteratorClass.UnzipIterRecord at h
      simp only [if_true, hseg] at h
      cases h
    | some seg =>
      cases hcur : it.iter_ with
      | none =>
        unfold IteratorClass.UnzipIterRecord at h
        simp only [if_true, hseg, hcur, Option.none_bind] at h
        cases h
      | some pos =>
        cases hent : seg.index_.entries[pos]? with
        | none =>
          unfold IteratorClass.UnzipIterRecord at h
          simp only [if_true, hseg, hcur, Option.some_bind, hent] at h
          cases h
        | some entry =>
          have hlen : pos < seg.index_.entries.length := by
            by_contra hge
            rw [List.getElem?_eq_none (by omega)] at hent
            cases hent
          have hentry : seg.index_.entries.getD pos ([], 0) = entry := by
            rw [List.getD_eq_getElem?_getD, hent]
            rfl
          cases hz : seg.zvType entry.2 with
          | none =>
            unfold IteratorClass.UnzipIterRecord at h
            simp only [if_true, hseg, hcur, Option.some_bind, hent, hz] at h
            cases h
          | some z =>
            cases hst : seg.store_.get_record_append entry.2 with
            | none =>
              unfold IteratorClass.UnzipIterRecord at h
              simp only [if_true, hseg, hcur, Option.some_bind, hent, hz, hst] at h
              obtain ⟨rfl, rfl⟩ := Prod.mk.inj (Except.ok.inj h)
              refine ⟨fun _ => ?_, fun hf => absurd hf (by decide)⟩
              exact SetIterInvalid_Valid cls _
            | some payload =>
              have hf : seg.fetchable pos = true := by
                unfold TerarkZipSegment.fetchable TerarkZipSegment.recIdAt
                rw [hentry, hz, hst]
                simp [hlen]
              obtain ⟨it1, h1, h2, h3, h4⟩ :=
                UnzipIterRecord_fetchable cls mv seg it pos hseg hcur hf
              rw [h1] at h
              obtain ⟨rfl, rfl⟩ := Prod.mk.inj (Except.ok.inj h)
              refine ⟨fun hf => absurd hf (by decide), fun _ => ⟨seg, pos, ?_, ?_, h2.2.1⟩⟩
              · rw [segment_congr cls it1 it h3]
                exact hseg
              · rw [h4]
                exact h2

/-- In every class, the tail of a positioning method leaves the iterator invalid or
with its key materialised. -/
theorem unzipAndDecode_Materialized (cls : IteratorClass) (mv : ZipValueMultiValue)
    (toLast : Bool) (r : TerarkZipTableIterator × Bool) (it1 : TerarkZipTableIterator)
    (h : cls.unzipAndDecode mv toLast r = Except.ok it1) (hv : it1.Valid = true) :
    cls.Materialized mv it1 := by
  unfold IteratorClass.unzipAndDecode at h
  cases hu : cls.UnzipIterRecord mv r.1 r.2 with
  | error e => rw [hu] at h; cases h
  | ok u =>
    rw [hu] at h
    obtain ⟨u1, flag⟩ := u
    have hres := UnzipIterRecord_result cls mv r.1 u1 r.2 flag hu
    cases flag with
    | false =>
      simp only [Bool.false_eq_true, if_false] at h
      obtain rfl := Except.ok.inj h
      rw [hres.1 rfl] at hv
      cases hv
    | true =>
      simp only [if_true] at h
      obtain ⟨seg, pos, hseg, hh, _⟩ := hres.2 rfl
      cases toLast with
      | false =>
        simp only [Bool.false_eq_true, if_false] at h
        exact (DecodeCurrKeyValue_Materialized cls mv u1 it1 h).2 seg pos hseg
          (Holds_set_validx mv seg _ u1 pos 0 _ hh)
      | true =>
        simp only [if_true] at h
        exact (DecodeCurrKeyValue_Materialized cls mv _ it1 h).2 seg pos hseg
          (Holds_set_validx mv seg _ u1 pos 0 _ hh)

/-- In every class, `SeekToFirst` leaves the iterator invalid or with its key
materialised. -/
theorem SeekToFirst_Materialized (cls : IteratorClass) (mv : ZipValueMultiValue)
    (it it1 : TerarkZipTableIterator) (h : cls.SeekToFirst mv it = Except.ok it1)
    (hv : it1.Valid = true) : cls.Materialized mv it1 := by
  unfold IteratorClass.SeekToFirst at h
  cases hr : cls.IndexIterSeekToFirst it with
  | error e => rw [hr] at h; cases h
  | ok r =>
    rw [hr] at h
    exact unzipAndDecode_Materialized cls mv false r it1 h hv

/-- In every class, `SeekToLast` leaves the iterator invalid or with its key
materialised. -/
theorem SeekToLast_Materialized (cls : IteratorClass) (mv : ZipValueMultiValue)
    (it it1 : TerarkZipTableIterator) (h : cls.SeekToLast mv it = Except.ok it1)
    (hv : it1.Valid = true) : cls.Materialized mv it1 := by
  unfold IteratorClass.SeekToLast at h
  cases hr : cls.IndexIterSeekToLast it with
  | error e => rw [hr] at h; cases h
  | ok r =>
    rw [hr] at h
    exact unzipAndDecode_Materialized cls mv true r it1 h hv

/-- Decoding another version of the record that a materialised iterator holds. -/
theorem DecodeCurrKeyValue_of_Materialized (cls : IteratorClass) (mv : ZipValueMultiValue)
    (it it1 : TerarkZipTableIterator) (j : Nat)
    (hinv : it.Valid = true → cls.Materialized mv it)
    (h : cls.DecodeCurrKeyValue mv { it with validx_ := j } = Except.ok it1)
    (hv : it1.Valid = true) : cls.Materialized mv it1 := by
  obtain ⟨hcur, hm⟩ := DecodeCurrKeyValue_Materialized cls mv _ it1 h
  have hvalid : it.Valid = true := by
    unfold TerarkZipTableIterator.Valid at hv ⊢
    rw [hcur] at hv
    exact hv
  obtain ⟨seg, pos, hseg, hh, _⟩ := hinv hvalid
  exact hm seg pos ((segment_congr cls _ it rfl).trans hseg)
    (Holds_set_validx mv seg _ it pos _ j hh)

/-- In every class, `Next` keeps the property that a valid iterator has its key
materialised. -/
theorem Next_Materialized (cls : IteratorClass) (mv : ZipValueMultiValue)
    (it it1 : TerarkZipTableIterator) (hinv : it.Valid = true → cls.Materialized mv it)
    (h : cls.Next mv it = Except.ok it1) (hv : it1.Valid = true) :
    cls.Materialized mv it1 := by
  unfold IteratorClass.Next at h
  dsimp only at h
  by_cases hlt : it.validx_ + 1 < it.valnum_
  · rw [if_pos hlt] at h
    exact DecodeCurrKeyValue_of_Materialized cls mv it it1 _ hinv h hv
  · rw [if_neg hlt] at h
    cases hr : cls.IndexIterNext { it with validx_ := it.validx_ + 1 } with
    | error e => rw [hr] at h; cases h
    | ok r =>
      rw [hr] at h
      exact unzipAndDecode_Materialized cls mv false r it1 h hv

/-- In every class, `Prev` keeps the property that a valid iterator has its key
materialised. -/
theorem Prev_Materialized (cls : IteratorClass) (mv : ZipValueMultiValue)
    (it it1 : TerarkZipTableIterator) (hinv : it.Valid = true → cls.Materialized mv it)
    (h : cls.Prev mv it = Except.ok it1) (hv : it1.Valid = true) :
    cls.Materialized mv it1 := by
  unfold IteratorClass.Prev at h
  by_cases hlt : it.validx_ > 0
  · rw [if_pos hlt] at h
    exact DecodeCurrKeyValue_of_Materialized cls mv it it1 _ hinv h hv
  · rw [if_neg hlt] at h
    cases hr : cls.IndexIterPrev it with
    | error e => rw [hr] at h; cases h
    | ok r =>
      rw [hr] at h
      exact unzipAndDecode_Materialized cls mv true r it1 h hv

/-- In every class, the version walk of `SeekInternal` over a record that the iterator
holds ends with the key of a version of that record materialised. -/
theorem seekVersion_Materialized (cls : IteratorClass) (mv : ZipValueMultiValue)
    (sequence : Nat) : ∀ (fuel : Nat) (it v : TerarkZipTableIterator) (b : Bool)
      (seg : TerarkZipSegment) (pos : Nat),
      cls.seekVersion mv sequence fuel it = Except.ok (v, b) →
      cls.segment it = some seg → it.Holds mv seg it.global_seqno_ pos it.validx_ →
      cls.Materialized mv v := by
  intro fuel
  induction fuel with
  | zero =>
    intro it v b seg pos h hseg hh
    unfold IteratorClass.seekVersion at h
    cases hd : cls.DecodeCurrKeyValue mv it with
    | error e => rw [hd] at h; cases h
    | ok it1 =>
      rw [hd] at h
      have hm := (DecodeCurrKeyValue_Materialized cls mv it it1 hd).2 seg pos hseg hh
      dsimp only at h
      split at h
      · obtain ⟨rfl, _⟩ := Prod.mk.inj (Except.ok.inj h)
        exact hm
      · split at h
        · obtain ⟨rfl, _⟩ := Prod.mk.inj (Except.ok.inj h)
          exact hm
        · obtain ⟨rfl, _⟩ := Prod.mk.inj (Except.ok.inj h)
          exact hm
  | succ fuel ih =>
    intro it v b seg pos h hseg hh
    unfold IteratorClass.seekVersion at h
    cases hd : cls.DecodeCurrKeyValue mv it with
    | error e => rw [hd] at h; cases h
    | ok it1 =>
      rw [hd] at h
      have hm := (DecodeCurrKeyValue_Materialized cls mv it it1 hd).2 seg pos hseg hh
      dsimp only at h
      split at h
      · obtain ⟨rfl, _⟩ := Prod.mk.inj (Except.ok.inj h)
        exact hm
      · split at h
        · obtain ⟨seg1, pos1, hseg1, hh1, _⟩ := hm
          exact ih { it1 with validx_ := it1.validx_ + 1 } v b seg1 pos1 h
            ((segment_congr cls _ it1 rfl).trans hseg1)
            (Holds_set_validx mv seg1 _ it1 pos1 _ _ hh1)
        · obtain ⟨rfl, _⟩ := Prod.mk.inj (Except.ok.inj h)
          exact hm

/-- In every class, `SeekToLast(); Next();` leaves the iterator invalid or with its key
materialised. -/
theorem seekToEnd_Materialized (cls : IteratorClass) (mv : ZipValueMultiValue)
    (it it1 : TerarkZipTableIterator) (h : cls.seekToEnd mv it = Except.ok it1)
    (hv : it1.Valid = true) : cls.Materialized mv it1 := by
  unfold IteratorClass.seekToEnd at h
  cases hl : cls.SeekToLast mv it with
  | error e => rw [hl] at h; cases h
  | ok l =>
    rw [hl] at h
    exact Next_Materialized cls mv l it1 (SeekToLast_Materialized cls mv it l hl) h hv

/-- In every class, `SeekInternal` leaves the iterator invalid or with its key
materialised. -/
theorem SeekInternal_Materialized (cls : IteratorClass) (mv : ZipValueMultiValue)
    (it it1 : TerarkZipTableIterator) (pikey : ParsedInternalKey)
    (h : cls.SeekInternal mv it pikey = Except.ok it1) (hv : it1.Valid = true) :
    cls.Materialized mv it1 := by
  unfold IteratorClass.SeekInternal at h
  dsimp only at h
  cases hseg : cls.segment it.TryPinInterKeyBuf with
  | none => rw [hseg] at h; cases h
  | some seg =>
    rw [hseg] at h
    dsimp only at h
    split at h
    · split at h
      · split at h
        · exact seekToEnd_Materialized cls mv _ it1 h hv
        · exact SeekToFirst_Materialized cls mv _ it1 h hv
      · split at h
        · exact SeekToFirst_Materialized cls mv _ it1 h hv
        · exact seekToEnd_Materialized cls mv _ it1 h hv
    · split at h
      · cases h
      · rename_i u hu
        obtain ⟨u1, flag⟩ := u
        have hres := UnzipIterRecord_result cls mv _ u1 _ flag hu
        cases flag with
        | false =>
          simp only [Bool.false_eq_true, if_false] at h
          obtain rfl := Except.ok.inj h
          rw [hres.1 rfl] at hv
          cases hv
        | true =>
          simp only [if_true] at h
          obtain ⟨seg1, pos1, hseg1, hh1, hidx⟩ := hres.2 rfl
          split at h
          · split at h
            · cases h
            · rename_i v hsv
              obtain ⟨v1, vflag⟩ := v
              have hm := seekVersion_Materialized cls mv pikey.sequence _ u1 v1 vflag seg1 pos1
                hsv hseg1 (by rw [hidx]; exact hh1)
              cases vflag with
              | true =>
                simp only [if_true] at h
                obtain rfl := Except.ok.inj h
                exact hm
              | false =>
                simp only [Bool.false_eq_true, if_false] at h
                exact Next_Materialized cls mv v1 it1 (fun _ => hm) h hv
          · exact (DecodeCurrKeyValue_Materialized cls mv u1 it1 h).2 seg1 pos1 hseg1
              (by rw [hidx]; exact hh1)

/-- In every class, `Seek` leaves the iterator invalid or with its key materialised. -/
theorem Seek_Materialized (cls : IteratorClass) (validType : Nat → Bool)
    (mv : ZipValueMultiValue) (it it1 : TerarkZipTableIterator) (target : Bytes)
    (h : cls.Seek validType mv it target = Except.ok it1) (hv : it1.Valid = true) :
    cls.Materialized mv it1 := by
  cases cls with
  | Single reverse seg =>
    simp only [IteratorClass.Seek] at h
    split at h
    · obtain rfl := Except.ok.inj h
      rw [SetIterInvalid_Valid] at hv
      cases hv
    · exact SeekInternal_Materialized _ mv it it1 _ h hv
  | Uint64 seg =>
    simp only [IteratorClass.Seek] at h
    split at h
    · obtain rfl := Except.ok.inj h
      rw [SetIterInvalid_Valid] at hv
      cases hv
    · exact SeekInternal_Materialized _ mv it it1 _ h hv
  | Multi reverse si =>
    simp only [IteratorClass.Seek, TerarkZipTableMultiIterator.Seek] at h
    split at h
    · obtain rfl := Except.ok.inj h
      rw [SetIterInvalid_Valid] at hv
      cases hv
    · split at h
      · obtain rfl := Except.ok.inj h
        rw [SetIterInvalid_Valid] at hv
        cases hv
      · split at h
        · cases h
        · split at h
          · cases h
          · rename_i it2 hsi
            by_cases hv2 : it2.Valid = true
            · rw [if_pos hv2] at h
              obtain rfl := Except.ok.inj h
              exact SeekInternal_Materialized _ mv _ it2 _ hsi hv2
            · rw [if_neg hv2] at h
              split at h
              · split at h
                · split at h
                  · cases h
                  · exact unzipAndDecode_Materialized _ mv true _ it1 h hv
                · obtain rfl := Except.ok.inj h
                  exact absurd hv hv2
              · split at h
                · split at h
                  · cases h
                  · exact unzipAndDecode_Materialized _ mv false _ it1 h hv
                · obtain rfl := Except.ok.inj h
                  exact absurd hv hv2

/-- In every class, every positioning operation keeps the property that a valid
iterator has its key materialised. -/
theorem apply_Materialized (cls : IteratorClass) (validType : Nat → Bool)
    (mv : ZipValueMultiValue) (it it1 : TerarkZipTableIterator) (op : IteratorOp)
    (hinv : it.Valid = true → cls.Materialized mv it)
    (h : cls.apply validType mv it op = Except.ok it1) (hv : it1.Valid = true) :
    cls.Materialized mv it1 := by
  cases op with
  | SeekToFirst => exact SeekToFirst_Materialized cls mv it it1 h hv
  | SeekToLast => exact SeekToLast_Materialized cls mv it it1 h hv
  | Seek target => exact Seek_Materialized cls validType mv it it1 target h hv
  | Next => exact Next_Materialized cls mv it it1 hinv h hv
  | Prev => exact Prev_Materialized cls mv it it1 hinv h hv

/-- In every class, a sequence of positioning operations keeps the property that a valid
iterator has its key materialised. -/
theorem run_Materialized (cls : IteratorClass) (validType : Nat → Bool)
    (mv : ZipValueMultiValue) : ∀ (ops : List IteratorOp) (it it1 : TerarkZipTableIterator),
      (it.Valid = true → cls.Materialized mv it) →
      cls.run validType mv it ops = Except.ok it1 → it1.Valid = true →
      cls.Materialized mv it1 := by
  intro ops
  induction ops with
  | nil =>
    intro it it1 hinv h hv
    obtain rfl := Except.ok.inj h
    exact hinv hv
  | cons op ops ih =>
    intro it it1 hinv h hv
    simp only [IteratorClass.run] at h
    split at h
    · cases h
    · rename_i it2 hop
      exact ih it2 it1 (apply_Materialized cls validType mv it it2 op hinv hop) h hv

/-- C15, counterexample: a u64 iterator over the sample segment with the common prefix
`00 00 00 00` and the index keys `00 00 00 01` and `00 00 01 00`. After `SeekToFirst` it
is valid on the first index key, and `key()` starts with `01 00 00 00 00 00 00 00`: it
is not `common_prefix || index_key || packed8`, and does not begin with the common
prefix followed by the index key. -/
theorem Uint64_key_byte_swapped :
    (((IteratorClass.Uint64 u64Segment).run anyType sampleMulti
        (TerarkZipTableIterator.new 100) [IteratorOp.SeekToFirst]).toOption.map
      (fun it => (it.Valid, it.iter_, it.pInterKey_.sequence, it.pInterKey_.type, it.key))) =
        some (true, some 0, 100, kTypeValue,
          [1, 0, 0, 0, 0, 0, 0, 0] ++ storeLE 8 (PackSequenceAndType 100 kTypeValue)) ∧
    u64Segment.commonPrefix_ ++ u64Segment.keyAt 0 ++
        storeLE 8 (PackSequenceAndType 100 kTypeValue) =
      [0, 0, 0, 0, 0, 0, 0, 1] ++ storeLE 8 (PackSequenceAndType 100 kTypeValue) := by
  decide

/-- C15, amended: in every class of iterator (single-segment forward and reverse, u64,
multi-segment), whenever a fresh iterator is valid after a sequence of positioning
operations, it stands on a position `pos` of the index of its segment, the parsed
sequence and type and `value()` are those of version `validx_` of the record under
`pos`, and `key()` is `partition_prefix || common_prefix || index_key || packed8` with
`packed8` the 8-byte little-endian word `seq << 8 | type`, with the partition prefix
empty in the single-segment iterators, and with the first 8 bytes byte-swapped in the
u64 iterator. Outside the u64 iterator `key()` begins with
`partition_prefix || common_prefix`. -/
theorem key_materialized (cls : IteratorClass) (validType : Nat → Bool)
    (mv : ZipValueMultiValue) (global_seqno : Nat) (ops : List IteratorOp)
    (it : TerarkZipTableIterator)
    (h : cls.run validType mv (TerarkZipTableIterator.new global_seqno) ops = Except.ok it)
    (hv : it.Valid = true) :
    ∃ seg pos, cls.segment it = some seg ∧ it.iter_ = some pos ∧
      pos < seg.index_.entries.length ∧
      decodeVersion mv it.global_seqno_ (seg.typeAt pos) (seg.payloadAt pos) it.validx_ =
        Except.ok (it.pInterKey_.sequence, it.pInterKey_.type, it.value) ∧
      it.key = cls.keyTransform (cls.partitionPrefix seg ++ seg.commonPrefix_ ++
        seg.keyAt pos ++
        storeLE 8 (PackSequenceAndType it.pInterKey_.sequence it.pInterKey_.type)) ∧
      ((∀ s, cls ≠ IteratorClass.Uint64 s) →
        (cls.partitionPrefix seg ++ seg.commonPrefix_) <+: it.key) := by
  obtain ⟨seg, pos, hseg, hh, hd, hk⟩ := run_Materialized cls validType mv ops
    (TerarkZipTableIterator.new global_seqno) it (fun hn => by cases hn) h hv
  have hlen : pos < seg.index_.entries.length := by
    have hf := hh.2.2.2.1
    unfold TerarkZipSegment.fetchable at hf
    simp only [Bool.and_eq_true, decide_eq_true_eq] at hf
    exact hf.1.1
  refine ⟨seg, pos, hseg, hh.1, hlen, hd, hk, ?_⟩
  intro hne
  rw [hk]
  cases cls with
  | Uint64 s => exact absurd rfl (hne s)
  | Single reverse s =>
    simp only [IteratorClass.keyTransform]
    exact (List.prefix_append _ _).trans (List.prefix_append _ _)
  | Multi reverse si =>
    simp only [IteratorClass.keyTransform]
    exact (List.prefix_append _ _).trans (List.prefix_append _ _)

/-- Witness of C15, amended: the multi-segment iterator over the sample table after
`SeekToFirst`, on the first key of partition `"p1"`. -/
theorem key_materialized_witness :
    ∃ seg pos, (IteratorClass.Multi false sampleSegmentIndex).segment sampleMultiFirst =
        some seg ∧ sampleMultiFirst.iter_ = some pos ∧
      pos < seg.index_.entries.length ∧
      decodeVersion sampleMulti sampleMultiFirst.global_seqno_ (seg.typeAt pos)
          (seg.payloadAt pos) sampleMultiFirst.validx_ =
        Except.ok (sampleMultiFirst.pInterKey_.sequence, sampleMultiFirst.pInterKey_.type,
          sampleMultiFirst.value) ∧
      sampleMultiFirst.key = (IteratorClass.Multi false sampleSegmentIndex).keyTransform
        ((IteratorClass.Multi false sampleSegmentIndex).partitionPrefix seg ++
          seg.commonPrefix_ ++ seg.keyAt pos ++
          storeLE 8 (PackSequenceAndType sampleMultiFirst.pInterKey_.sequence
            sampleMultiFirst.pInterKey_.type)) ∧
      ((∀ s, IteratorClass.Multi false sampleSegmentIndex ≠ IteratorClass.Uint64 s) →
        ((IteratorClass.Multi false sampleSegmentIndex).partitionPrefix seg ++
          seg.commonPrefix_) <+: sampleMultiFirst.key) :=
  key_materialized (IteratorClass.Multi false sampleSegmentIndex) anyType sampleMulti 100
    [IteratorOp.SeekToFirst] sampleMultiFirst (by rfl) (by decide)

/-! ## `GetSegment`: the linear scan and the binary search agree -/

/-- The least index with a property, `none` when there is none, is unique. -/
theorem IsLeastIndex_unique (n : Nat) (p : Nat → Prop) (r1 r2 : Option Nat)
    (h1 : IsLeastIndex n p r1) (h2 : IsLeastIndex n p r2) : r1 = r2 := by
  cases r1 with
  | none =>
    cases r2 with
    | none => rfl
    | some j => exact absurd h2.2.1 (h1 j h2.1)
  | some i =>
    cases r2 with
    | none => exact absurd h1.2.1 (h2 i h1.1)
    | some j =>
      have hij : ¬ i < j := fun h => h2.2.2 i h h1.2.1
      have hji : ¬ j < i := fun h => h1.2.2 j h h2.2.1
      have : i = j := by omega
      rw [this]

/-- C27: on an array of partition prefix words in strictly ascending order,
`GetSegmentU64Sequential` (the linear scan for the first word at least the target) and
`GetSegmentU64Binary` (`lower_bound`) return the same segment for every key, or both
return null. So the `SegmentIndex` that `Init` builds in forward mode for a prefix length
of at most 8 resolves every key as either of the two does, whatever side of the
threshold `partCount < 32` the number of partitions is on. -/
theorem GetSegmentU64Sequential_eq_Binary (si : SegmentIndex) (key : Bytes)
    (hasc : ∀ j, j < si.partCount_ → ∀ i, i < j → si.u64At i < si.u64At j) :
    si.GetSegmentU64Sequential key = si.GetSegmentU64Binary key ∧
    ∀ (offsetPrefixSet : List Bytes) (parts : List TerarkZipSegment),
      si = SegmentIndex.Init si.prefixLen_ offsetPrefixSet parts false →
      si.prefixLen_ ≤ 8 →
      si.GetSegment key = si.GetSegmentU64Sequential key ∧
      si.GetSegment key = si.GetSegmentU64Binary key := by
  have hmono : ∀ i j, i ≤ j → j < si.partCount_ → si.u64At i ≤ si.u64At j := by
    intro i j hij hj
    rcases Nat.lt_or_ge i j with h | h
    · exact Nat.le_of_lt (hasc j hj i h)
    · have : i = j := by omega
      rw [this]
  have heq : si.GetSegmentU64Sequential key = si.GetSegmentU64Binary key :=
    IsLeastIndex_unique _ _ _ _ (GetSegmentU64Sequential_spec si key)
      (GetSegmentU64Binary_spec si key hmono)
  refine ⟨heq, ?_⟩
  intro pfx parts hinit h8
  have hptr : si.get_segment_ptr = GetSegmentStrategy.U64Sequential ∨
      si.get_segment_ptr = GetSegmentStrategy.U64Binary := by
    rw [hinit]
    simp only [SegmentIndex.Init, if_pos h8, Bool.false_eq_true, if_false]
    split
    · exact Or.inl rfl
    · exact Or.inr rfl
  rcases hptr with h | h
  · have : si.GetSegment key = si.GetSegmentU64Sequential key := by
      unfold SegmentIndex.GetSegment
      rw [h]
    exact ⟨this, this.trans heq⟩
  · have : si.GetSegment key = si.GetSegmentU64Binary key := by
      unfold SegmentIndex.GetSegment
      rw [h]
    exact ⟨this.trans heq.symm, this⟩

/-- Witness of C27: the sample index with the partitions `"p1"`, `"p2"`, `"p3"`, which
`Init` gives the linear scan, and the key `"p2abcY"`. -/
theorem GetSegmentU64Sequential_eq_Binary_witness :
    sampleSegmentIndex.GetSegmentU64Sequential [0x70, 0x32, 0x61, 0x62, 0x63, 0x59] =
      sampleSegmentIndex.GetSegmentU64Binary [0x70, 0x32, 0x61, 0x62, 0x63, 0x59] ∧
    sampleSegmentIndex.GetSegment [0x70, 0x32, 0x61, 0x62, 0x63, 0x59] =
      sampleSegmentIndex.GetSegmentU64Binary [0x70, 0x32, 0x61, 0x62, 0x63, 0x59] :=
  ⟨(GetSegmentU64Sequential_eq_Binary sampleSegmentIndex [0x70, 0x32, 0x61, 0x62, 0x63, 0x59]
      (by decide)).1,
    ((GetSegmentU64Sequential_eq_Binary sampleSegmentIndex
      [0x70, 0x32, 0x61, 0x62, 0x63, 0x59] (by decide)).2 samplePrefixes
      [sampleSegment, sampleSegment, sampleSegment] rfl (by decide)).2⟩

/-! ## Warming up a memory map -/

/-- The loop of `MmapWarmUpBytes` from the offset `4096 * k` on reads the addresses
`base + 4096 * t` for `k ≤ t < n`, when `size = 4096 * n` and nothing wraps. -/
theorem MmapWarmUpBytes_loop_eq (base n : Nat) (hfit : base + 4096 * n < 2 ^ 64) :
    ∀ (fuel k : Nat), k ≤ n → n - k ≤ fuel →
      MmapWarmUpBytes.loop base (4096 * n) fuel (4096 * k) =
        (List.range (n - k)).map (fun t => base + 4096 * (k + t)) := by
  intro fuel
  induction fuel with
  | zero =>
    intro k hk hf
    have : n - k = 0 := by omega
    rw [this]
    rfl
  | succ fuel ih =>
    intro k hk hf
    by_cases hlt : k < n
    · have h1 : 4096 * k < 4096 * n := by omega
      have h2 : (base + 4096 * k) % 2 ^ 64 = base + 4096 * k := Nat.mod_eq_of_lt (by omega)
      have h3 : (4096 * k + 4096) % 2 ^ 64 = 4096 * (k + 1) := by
        rw [Nat.mod_eq_of_lt (by omega)]
        omega
      simp only [MmapWarmUpBytes.loop, if_pos h1, h2, h3]
      rw [ih (k + 1) (by omega) (by omega)]
      obtain ⟨m, hm⟩ : ∃ m, n - k = m + 1 := ⟨n - k - 1, by omega⟩
      have hm1 : n - (k + 1) = m := by omega
      rw [hm, hm1, List.range_succ_eq_map, List.map_cons, List.map_map]
      refine congrArg₂ _ rfl ?_
      apply List.map_congr_left
      intro t _
      simp only [Function.comp]
      omega
    · have h1 : ¬ 4096 * k < 4096 * n := by omega
      have : n - k = 0 := by omega
      simp only [MmapWarmUpBytes.loop, if_neg h1, this]
      rfl

/-- The addresses that `MmapWarmUpBytes` reads, for a range that ends below the last page
of the address space: one per page, from the page of `addr` on. -/
theorem MmapWarmUpBytes_eq (addr len : Nat) (hfit : addr + len + 4095 < 2 ^ 64) :
    MmapWarmUpBytes addr len =
      (List.range ((addr % 4096 + len + 4095) / 4096)).map
        (fun t => addr / 4096 * 4096 + 4096 * t) := by
  have hsize : align_up ((addr % 4096 + len) % 2 ^ 64) 4096 =
      4096 * ((addr % 4096 + len + 4095) / 4096) := by
    unfold align_up
    have hm : addr % 4096 ≤ addr := Nat.mod_le _ _
    rw [Nat.mod_eq_of_lt (by omega), Nat.mod_eq_of_lt (by omega), Nat.mul_comm]
  unfold MmapWarmUpBytes
  simp only [hsize]
  have hdiv : 4096 * ((addr % 4096 + len + 4095) / 4096) / 4096 =
      (addr % 4096 + len + 4095) / 4096 := by omega
  rw [hdiv]
  have := MmapWarmUpBytes_loop_eq (addr / 4096 * 4096) ((addr % 4096 + len + 4095) / 4096)
    (by omega) ((addr % 4096 + len + 4095) / 4096) 0 (Nat.zero_le _) (by omega)
  simp only [Nat.mul_zero, Nat.sub_zero, Nat.zero_add] at this
  exact this

/-- C28: for every address `addr` and every length `len` of a range that ends below the
last page of the 64-bit address space, `MmapWarmUpBytes(addr, len)` reads one byte at
exactly the 4096-aligned addresses `p` with
`addr rounded down to a multiple of 4096 ≤ p < addr + len`, each of them once: for
`len > 0` every 4 KiB page that overlaps the range is touched once and no other page is
touched. -/
theorem MmapWarmUpBytes_touches_pages (addr len : Nat)
    (hfit : addr + len + 4095 < 2 ^ 64) :
    (∀ p, p ∈ MmapWarmUpBytes addr len ↔
      (p % 4096 = 0 ∧ addr / 4096 * 4096 ≤ p ∧ p < addr + len)) ∧
    (MmapWarmUpBytes addr len).Nodup := by
  rw [MmapWarmUpBytes_eq addr len hfit]
  constructor
  · intro p
    rw [List.mem_map]
    constructor
    · rintro ⟨t, ht, rfl⟩
      rw [List.mem_range] at ht
      omega
    · rintro ⟨h1, h2, h3⟩
      refine ⟨(p - addr / 4096 * 4096) / 4096, ?_, ?_⟩
      · rw [List.mem_range]
        omega
      · omega
  · refine List.Nodup.map ?_ (List.nodup_range _)
    intro a b hab
    simp only at hab
    omega

/-- Witness of C28: the range of 5000 bytes at address 8000 overlaps the pages at 4096,
8192 and 12288. -/
theorem MmapWarmUpBytes_touches_pages_witness :
    (∀ p, p ∈ MmapWarmUpBytes 8000 5000 ↔
      (p % 4096 = 0 ∧ 8000 / 4096 * 4096 ≤ p ∧ p < 8000 + 5000)) ∧
    (MmapWarmUpBytes 8000 5000).Nodup :=
  MmapWarmUpBytes_touches_pages 8000 5000 (by decide)

/-! ## Opening a table: the global sequence number -/

/-- With a version of at least 2 and a recorded sequence number of eight bytes or more,
`GetGlobalSequenceNumber` is the recorded little-endian word. -/
theorem GetGlobalSequenceNumber_recorded (props : TableProperties) (v s : Bytes)
    (hv : props.version = some v) (hlen : 4 ≤ v.length) (h2 : 2 ≤ DecodeFixed32 v)
    (hs : props.global_seqno = some s) (hslen : 8 ≤ s.length) :
    GetGlobalSequenceNumber props = some (DecodeFixed64 s) := by
  unfold GetGlobalSequenceNumber
  rw [hv]
  simp only [hs]
  rw [if_neg (by omega), if_neg (by omega), if_neg (by omega)]

/-- Without a version property `GetGlobalSequenceNumber` is the sentinel. -/
theorem GetGlobalSequenceNumber_no_version (props : TableProperties)
    (hv : props.version = none) :
    GetGlobalSequenceNumber props = some kDisableGlobalSequenceNumber := by
  unfold GetGlobalSequenceNumber
  rw [hv]

/-- With version 1 and no recorded sequence number `GetGlobalSequenceNumber` is the
sentinel. -/
theorem GetGlobalSequenceNumber_version1 (props : TableProperties) (v : Bytes)
    (hv : props.version = some v) (hlen : 4 ≤ v.length) (h1 : DecodeFixed32 v = 1)
    (hs : props.global_seqno = none) :
    GetGlobalSequenceNumber props = some kDisableGlobalSequenceNumber := by
  unfold GetGlobalSequenceNumber
  rw [hv]
  simp only [hs, h1]
  rw [if_neg (by omega)]
  rfl

/-- With a version below 2 and a recorded sequence number `GetGlobalSequenceNumber` is
the sentinel: the recorded number is not used. -/
theorem GetGlobalSequenceNumber_old_version (props : TableProperties) (v s : Bytes)
    (hv : props.version = some v) (hlen : 4 ≤ v.length) (h2 : DecodeFixed32 v < 2)
    (hs : props.global_seqno = some s) :
    GetGlobalSequenceNumber props = some kDisableGlobalSequenceNumber := by
  unfold GetGlobalSequenceNumber
  rw [hv]
  simp only [hs]
  rw [if_neg (by omega), if_pos h2]
  rfl

/-- With a version of at least 2 and no recorded sequence number
`GetGlobalSequenceNumber` reads through the end iterator. -/
theorem GetGlobalSequenceNumber_missing (props : TableProperties) (v : Bytes)
    (hv : props.version = some v) (hlen : 4 ≤ v.length) (h2 : 2 ≤ DecodeFixed32 v)
    (hs : props.global_seqno = none) :
    GetGlobalSequenceNumber props = none := by
  unfold GetGlobalSequenceNumber
  rw [hv]
  simp only [hs]
  rw [if_neg (by omega), if_neg (by omega)]

/-- An `Open` that gets past the license test and the index block leaves the result of
`GetGlobalSequenceNumber` in the reader, with the sentinel replaced by 0; an `Open`
that returns at the index block leaves the result as it is. -/
theorem Open_global_seqno (loaders : TableLoaders) (file : TableFile) (s : Status)
    (r : TerarkZipTableReader)
    (h : TerarkZipTableReader.Open loaders true file = some (s, r))
    (hp : file.properties.1 = Status.OK) (hd : file.fileData.1 = Status.OK)
    (hlic : TerarkZipTableReader.licenseExpired loaders file = false) :
    ∃ g, GetGlobalSequenceNumber file.properties.2 = some g ∧
      (file.indexBlock.1 = Status.OK →
        r.global_seqno_ = if g = kDisableGlobalSequenceNumber then 0 else g) ∧
      (file.indexBlock.1 ≠ Status.OK → r.global_seqno_ = g) := by
  unfold TerarkZipTableReader.Open at h
  simp only [hp, hd, ne_eq, not_true_eq_false, if_false, Bool.not_true, Bool.false_eq_true]
    at h
  cases hg : GetGlobalSequenceNumber file.properties.2 with
  | none => rw [hg] at h; exact absurd h (by simp)
  | some g =>
    refine ⟨g, rfl, ?_, ?_⟩
    · intro hi
      rw [hg] at h
      simp only [hlic, Bool.false_eq_true, hi, not_true_eq_false, if_false] at h
      cases hl : loaders.load_from_user_memory
          (file.fileData.2.take file.properties.2.data_size)
          (if file.valueDictBlock.1 = Status.OK then file.valueDictBlock.2 else []) with
      | none =>
        rw [hl] at h
        simp only [Option.some.injEq, Prod.mk.injEq] at h
        rw [← h.2]
      | some store =>
        rw [hl] at h
        cases hm : loaders.LoadMemory file.indexBlock.2 with
        | error e =>
          rw [hm] at h
          simp only [Option.some.injEq, Prod.mk.injEq] at h
          rw [← h.2]
        | ok index =>
          rw [hm] at h
          simp only [Option.some.injEq, Prod.mk.injEq] at h
          rw [← h.2]
    · intro hi
      rw [hg] at h
      simp only [hlic, Bool.false_eq_true, if_false, hi, not_false_eq_true, if_true,
        Option.some.injEq, Prod.mk.injEq] at h
      rw [← h.2]

/-- C25, evaluated on the code: a file whose properties carry version 2 and no global
sequence number. `GetGlobalSequenceNumber` does not yield the sentinel: it reads the
recorded value through the end iterator of the property map, which is undefined, and so
is `Open`. The same holds for version 0 without a sequence number. The cases that work:
with version 2 and the recorded number 7 the reader opens with 7; without a version
property, and with version 1 and no recorded number, `GetGlobalSequenceNumber` is the
sentinel and the reader opens with 0; a recorded number equal to the sentinel opens
with 0 as well. -/
theorem GetGlobalSequenceNumber_version2_without_seqno :
    GetGlobalSequenceNumber ⟨some [2, 0, 0, 0], none, 3⟩ = none ∧
    (TerarkZipTableReader.Open sampleLoaders true
      (sampleTableFile ⟨some [2, 0, 0, 0], none, 3⟩)).isNone = true ∧
    GetGlobalSequenceNumber ⟨some [0, 0, 0, 0], none, 3⟩ = none ∧
    GetGlobalSequenceNumber ⟨some [2, 0, 0, 0], some [7, 0, 0, 0, 0, 0, 0, 0], 3⟩ = some 7 ∧
    (TerarkZipTableReader.Open sampleLoaders true
      (sampleTableFile ⟨some [2, 0, 0, 0], some [7, 0, 0, 0, 0, 0, 0, 0], 3⟩)).map
        (fun p => (p.1, p.2.global_seqno_)) = some (Status.OK, 7) ∧
    GetGlobalSequenceNumber ⟨none, none, 3⟩ = some kDisableGlobalSequenceNumber ∧
    (TerarkZipTableReader.Open sampleLoaders true (sampleTableFile ⟨none, none, 3⟩)).map
        (fun p => (p.1, p.2.global_seqno_)) = some (Status.OK, 0) ∧
    GetGlobalSequenceNumber ⟨some [1, 0, 0, 0], none, 3⟩ = some kDisableGlobalSequenceNumber ∧
    (TerarkZipTableReader.Open sampleLoaders true
      (sampleTableFile ⟨some [1, 0, 0, 0], none, 3⟩)).map
        (fun p => (p.1, p.2.global_seqno_)) = some (Status.OK, 0) ∧
    (TerarkZipTableReader.Open sampleLoaders true
      (sampleTableFile ⟨some [2, 0, 0, 0],
        some [255, 255, 255, 255, 255, 255, 255, 255], 3⟩)).map
        (fun p => (p.1, p.2.global_seqno_)) = some (Status.OK, 0) := by
  refine ⟨by decide, by decide, by decide, by decide, by decide, by decide, by decide,
    by decide, by decide, by decide⟩

/-! ## Opening a table: the blocks that must be there -/

/-- C26, as stated, fails on the code: in a file whose value-dictionary block cannot be
read and whose other blocks can, `Open` returns `OK` and has loaded the blob store,
with an empty dictionary. The status of reading the value-dictionary block is
overwritten by the status of reading the index block. -/
theorem Open_without_value_dictionary :
    (TerarkZipTableReader.Open sampleLoaders true
      { sampleTableFile ⟨none, none, 3⟩ with valueDictBlock := (Status.Corruption, []) }).map
        (fun p => (p.1, p.2.steps, p.2.store_.isSome)) =
      some (Status.OK,
        [OpenStep.ReadValueDictBlock, OpenStep.ReadIndexBlock, OpenStep.LoadTombstone,
          OpenStep.ReadCommonPrefixBlock, OpenStep.LoadBlobStore [1, 2, 3] [],
          OpenStep.LoadIndex, OpenStep.ReadValueTypeBlock], true) := by
  decide

/-- The steps that `Open` has taken when it leaves the license test. -/
theorem Open_license_steps (loaders : TableLoaders) :
    (∀ data dict, OpenStep.LoadBlobStore data dict ∉
      (if loaders.licenseCheck.isSome then [OpenStep.ReadLicenseBlock] else [])) ∧
    OpenStep.LoadIndex ∉
      (if loaders.licenseCheck.isSome then [OpenStep.ReadLicenseBlock] else []) ∧
    OpenStep.ReadValueDictBlock ∉
      (if loaders.licenseCheck.isSome then [OpenStep.ReadLicenseBlock] else []) := by
  cases loaders.licenseCheck <;> simp

/-- C26, amended: when the index block cannot be read, `Open` returns an error and has
neither loaded the blob store nor the index; so it does when the license of a build with
`TerocksPrivateCode` fails its check, with the status `Corruption` and before the
value-dictionary block is read. When the properties and the file are read, the license
test passes and the index block is read, a value-dictionary block that cannot be read is
no error by itself: `Open` goes on to load the blob store from the data with an empty
dictionary. -/
theorem Open_fails_fast (loaders : TableLoaders) (use_mmap_reads : Bool) (file : TableFile)
    (s : Status) (r : TerarkZipTableReader)
    (h : TerarkZipTableReader.Open loaders use_mmap_reads file = some (s, r)) :
    (file.indexBlock.1 ≠ Status.OK →
      s ≠ Status.OK ∧ (∀ data dict, OpenStep.LoadBlobStore data dict ∉ r.steps) ∧
      OpenStep.LoadIndex ∉ r.steps ∧ r.store_.isNone = true ∧ r.index_.isNone = true) ∧
    (file.properties.1 = Status.OK → use_mmap_reads = true → file.fileData.1 = Status.OK →
      TerarkZipTableReader.licenseExpired loaders file = true →
      s = Status.Corruption ∧ OpenStep.ReadValueDictBlock ∉ r.steps ∧
      (∀ data dict, OpenStep.LoadBlobStore data dict ∉ r.steps) ∧
      OpenStep.LoadIndex ∉ r.steps ∧ r.store_.isNone = true ∧ r.index_.isNone = true) ∧
    (file.properties.1 = Status.OK → use_mmap_reads = true → file.fileData.1 = Status.OK →
      TerarkZipTableReader.licenseExpired loaders file = false →
      file.indexBlock.1 = Status.OK → file.valueDictBlock.1 ≠ Status.OK →
      OpenStep.LoadBlobStore (file.fileData.2.take file.properties.2.data_size) [] ∈ r.steps ∧
      (s = Status.OK → r.store_ =
        loaders.load_from_user_memory (file.fileData.2.take file.properties.2.data_size) [])) := by
  unfold TerarkZipTableReader.Open at h
  have hsteps := Open_license_steps loaders
  refine ⟨?_, ?_, ?_⟩
  · intro hi
    by_cases hp : file.properties.1 = Status.OK
    swap
    · rw [if_pos hp] at h
      simp only [Option.some.injEq, Prod.mk.injEq] at h
      rw [← h.1, ← h.2]
      exact ⟨hp, by simp [TerarkZipTableReader.new], by simp [TerarkZipTableReader.new],
        rfl, rfl⟩
    rw [if_neg (not_not.mpr hp)] at h
    cases hm : use_mmap_reads with
    | false =>
      rw [hm] at h
      simp only [Bool.not_false, if_true, Option.some.injEq, Prod.mk.injEq] at h
      rw [← h.1, ← h.2]
      exact ⟨by decide, by simp [TerarkZipTableReader.new], by simp [TerarkZipTableReader.new],
        rfl, rfl⟩
    | true =>
      rw [hm] at h
      simp only [Bool.not_true, Bool.false_eq_true, if_false] at h
      by_cases hd : file.fileData.1 = Status.OK
      swap
      · rw [if_pos hd] at h
        simp only [Option.some.injEq, Prod.mk.injEq] at h
        rw [← h.1, ← h.2]
        exact ⟨hd, by simp [TerarkZipTableReader.new], by simp [TerarkZipTableReader.new],
          rfl, rfl⟩
      rw [if_neg (not_not.mpr hd)] at h
      cases hg : GetGlobalSequenceNumber file.properties.2 with
      | none => rw [hg] at h; exact absurd h (by simp)
      | some g =>
        rw [hg] at h
        dsimp only at h
        cases hlic : TerarkZipTableReader.licenseExpired loaders file with
        | true =>
          rw [hlic, if_pos rfl] at h
          simp only [Option.some.injEq, Prod.mk.injEq] at h
          rw [← h.1, ← h.2]
          exact ⟨by decide, hsteps.1, hsteps.2.1, rfl, rfl⟩
        | false =>
          rw [hlic, if_neg (by decide), if_pos hi] at h
          simp only [Option.some.injEq, Prod.mk.injEq] at h
          rw [← h.1, ← h.2]
          refine ⟨hi, ?_, ?_, rfl, rfl⟩
          · intro data dict hc
            simp only [List.mem_append, List.mem_singleton, reduceCtorEq, or_false] at hc
            exact hsteps.1 data dict hc
          · intro hc
            simp only [List.mem_append, List.mem_singleton, reduceCtorEq, or_false] at hc
            exact hsteps.2.1 hc
  · intro hp hm hd hlic
    rw [if_neg (not_not.mpr hp), hm] at h
    simp only [Bool.not_true, Bool.false_eq_true, if_false] at h
    rw [if_neg (not_not.mpr hd)] at h
    cases hg : GetGlobalSequenceNumber file.properties.2 with
    | none => rw [hg] at h; exact absurd h (by simp)
    | some g =>
      rw [hg] at h
      dsimp only at h
      rw [hlic, if_pos rfl] at h
      simp only [Option.some.injEq, Prod.mk.injEq] at h
      rw [← h.1, ← h.2]
      exact ⟨rfl, hsteps.2.2, hsteps.1, hsteps.2.1, rfl, rfl⟩
  · intro hp hm hd hlic hi hv
    rw [if_neg (not_not.mpr hp), hm] at h
    simp only [Bool.not_true, Bool.false_eq_true, if_false] at h
    rw [if_neg (not_not.mpr hd)] at h
    cases hg : GetGlobalSequenceNumber file.properties.2 with
    | none => rw [hg] at h; exact absurd h (by simp)
    | some g =>
      rw [hg] at h
      dsimp only at h
      rw [hlic, if_neg (by decide), if_neg (not_not.mpr hi)] at h
      simp only [if_neg hv] at h
      cases hl : loaders.load_from_user_memory
          (file.fileData.2.take file.properties.2.data_size) [] with
      | none =>
        rw [hl] at h
        simp only [Option.some.injEq, Prod.mk.injEq] at h
        rw [← h.1, ← h.2]
        exact ⟨by simp, fun hc => absurd hc (by decide)⟩
      | some store =>
        rw [hl] at h
        cases hmem : loaders.LoadMemory file.indexBlock.2 with
        | error e =>
          rw [hmem] at h
          simp only [Option.some.injEq, Prod.mk.injEq] at h
          rw [← h.2]
          exact ⟨by simp, fun _ => rfl⟩
        | ok index =>
          rw [hmem] at h
          simp only [Option.some.injEq, Prod.mk.injEq] at h
          rw [← h.2]
          exact ⟨by simp, fun _ => rfl⟩

/-- The amended C26 on a file whose index block cannot be read, and on a readable file
opened with a license that fails its check. -/
theorem Open_fails_fast_witness :
    TerarkZipTableReader.Open sampleLoaders true
        { sampleTableFile ⟨none, none, 3⟩ with indexBlock := (Status.Corruption, []) } =
      some (Status.Corruption, { TerarkZipTableReader.new with
        steps := [OpenStep.ReadValueDictBlock, OpenStep.ReadIndexBlock] }) ∧
    Status.Corruption ≠ Status.OK ∧
    (∀ data dict, OpenStep.LoadBlobStore data dict ∉
      [OpenStep.ReadValueDictBlock, OpenStep.ReadIndexBlock]) ∧
    TerarkZipTableReader.Open expiredLicenseLoaders true (sampleTableFile ⟨none, none, 3⟩) =
      some (Status.Corruption, { TerarkZipTableReader.new with
        steps := [OpenStep.ReadLicenseBlock] }) ∧
    OpenStep.ReadValueDictBlock ∉ [OpenStep.ReadLicenseBlock] :=
  ⟨rfl,
    ((Open_fails_fast sampleLoaders true
      { sampleTableFile ⟨none, none, 3⟩ with indexBlock := (Status.Corruption, []) }
      Status.Corruption
      { TerarkZipTableReader.new with
        steps := [OpenStep.ReadValueDictBlock, OpenStep.ReadIndexBlock] } rfl).1
      (by decide)).1,
    ((Open_fails_fast sampleLoaders true
      { sampleTableFile ⟨none, none, 3⟩ with indexBlock := (Status.Corruption, []) }
      Status.Corruption
      { TerarkZipTableReader.new with
        steps := [OpenStep.ReadValueDictBlock, OpenStep.ReadIndexBlock] } rfl).1
      (by decide)).2.1,
    rfl,
    ((Open_fails_fast expiredLicenseLoaders true (sampleTableFile ⟨none, none, 3⟩)
      Status.Corruption
      { TerarkZipTableReader.new with steps := [OpenStep.ReadLicenseBlock] } rfl).2.1
      (by decide) rfl (by decide) (by decide)).2.1⟩

/-! ## Pinning: the buffer behind `key()` -/

/-- C23, evaluated on the code: an iterator with pinning enabled stands on version 0 of
the key `"abcZ"` of the sample segment, so that `key()` is a slice of `interKeyBuf_xx_`
holding `"abcZ" || packed8(70, PUT)`. `Next` moves to version 1 of the same record: it
stays valid, and `interKeyBuf_xx_` now holds `"abcZ" || packed8(40, PUT)`, while the
retained list is what it was and does not hold the former key: the buffer was
overwritten, not retained. `Prev` from version 1 overwrites the buffer in the same way.
A `Next` that moves to another record does retain the buffer: the keys of the three
records passed before are in the retained list. The bytes behind `value()` are not
touched by the step inside a record. -/
theorem Next_within_record_overwrites_key :
    ((IteratorClass.Single false sampleSegment).run anyType sampleMulti
      { TerarkZipTableIterator.new 100 with pinning := true }
      [IteratorOp.SeekToFirst, IteratorOp.Next, IteratorOp.Next, IteratorOp.Next]).toOption =
      some samplePinned ∧
    samplePinned.pinning = true ∧ samplePinned.Valid = true ∧
    samplePinned.key = abc ++ [0x5A] ++ packed8 70 1 ∧
    samplePinned.pinned_buffer_ =
      [[], [], abc ++ [0x57] ++ packed8 30 0, seq7 30 [], abc ++ [0x58] ++ packed8 50 1,
        seq7 50 [0x76, 0x35, 0x30], abc ++ [0x59] ++ packed8 100 1, [0x76, 0x5A]] ∧
    ((IteratorClass.Single false sampleSegment).Next sampleMulti samplePinned).toOption.map
      (fun it1 => (it1.Valid, it1.validx_, it1.interKeyBuf_xx_,
        decide (samplePinned.key ∈ it1.pinned_buffer_),
        decide (it1.pinned_buffer_ = samplePinned.pinned_buffer_),
        decide (it1.valueBuf_ = samplePinned.valueBuf_))) =
      some (true, 1, abc ++ [0x5A] ++ packed8 40 1, false, true, true) ∧
    ((IteratorClass.Single false sampleSegment).run anyType sampleMulti samplePinned
      [IteratorOp.Next, IteratorOp.Prev]).toOption.map
      (fun it1 => (it1.Valid, it1.validx_, it1.interKeyBuf_xx_,
        decide (abc ++ [0x5A] ++ packed8 40 1 ∈ it1.pinned_buffer_))) =
      some (true, 0, abc ++ [0x5A] ++ packed8 70 1, false) := by
  refine ⟨by decide, by decide, by decide, by decide, by decide, by decide, by decide⟩

/-! ## Every class of iterator: the steps of the state machine -/

/-- In every class, `DecodeCurrKeyValue` on an iterator that holds a record returns
exactly when the version under `validx_` decodes without a fault, and then the parsed
key, `key()` and `value()` are those of the version; the other fields stay. -/
theorem DecodeCurrKeyValue_step (cls : IteratorClass) (mv : ZipValueMultiValue)
    (seg : TerarkZipSegment) (it : TerarkZipTableIterator) (pos j : Nat)
    (hseg : cls.segment it = some seg) (hh : it.Holds mv seg it.global_seqno_ pos j) :
    (seg.versionOk mv it.global_seqno_ pos j = true →
      ∃ it1, cls.DecodeCurrKeyValue mv it = Except.ok it1) ∧
    ∀ it1, cls.DecodeCurrKeyValue mv it = Except.ok it1 →
      seg.versionOk mv it.global_seqno_ pos j = true ∧
      it1.segment_ = it.segment_ ∧ it1.global_seqno_ = it.global_seqno_ ∧
      it1.status_ = it.status_ ∧ it1.pinning = it.pinning ∧
      it1.Holds mv seg it.global_seqno_ pos j ∧
      it1.pInterKey_ = seg.parsedKeyAt mv it.global_seqno_ pos j ∧
      it1.key = cls.shownKey mv seg it.global_seqno_ pos j ∧
      it1.value = (seg.versionAt mv it.global_seqno_ pos j).2.2 := by
  obtain ⟨h1, h2, h3, h4, h5, h6, h7, h8⟩ := hh
  have hdec : decodeVersion mv it.global_seqno_ it.zValtype_ it.valueBuf_ it.validx_ =
      decodeVersion mv it.global_seqno_ (seg.typeAt pos) (seg.payloadAt pos) j := by
    rw [h5, h6, h2]
  have key : ∀ (f : Bytes → Bytes) (pfx : Bytes),
      (seg.versionOk mv it.global_seqno_ pos j = true →
        ∃ it1, (match it.DecodeCurrKeyValueInternal mv with
          | Except.error e => Except.error e
          | Except.ok it2 =>
            Except.ok { it2 with
              interKeyBuf_xx_ := f (AppendInternalKey pfx it2.pInterKey_) }) =
          Except.ok it1) ∧
      ∀ it1, (match it.DecodeCurrKeyValueInternal mv with
        | Except.error e => Except.error e
        | Except.ok it2 =>
          Except.ok { it2 with
            interKeyBuf_xx_ := f (AppendInternalKey pfx it2.pInterKey_) }) = Except.ok it1 →
        seg.versionOk mv it.global_seqno_ pos j = true ∧
        it1.segment_ = it.segment_ ∧ it1.global_seqno_ = it.global_seqno_ ∧
        it1.status_ = it.status_ ∧ it1.pinning = it.pinning ∧
        it1.Holds mv seg it.global_seqno_ pos j ∧
        it1.pInterKey_ = seg.parsedKeyAt mv it.global_seqno_ pos j ∧
        it1.key = f (AppendInternalKey pfx (seg.parsedKeyAt mv it.global_seqno_ pos j)) ∧
        it1.value = (seg.versionAt mv it.global_seqno_ pos j).2.2 := by
    intro f pfx
    constructor
    · intro hok
      have hd := (versionOk_iff mv seg it.global_seqno_ pos j).mp hok
      rw [DecodeCurrKeyValueInternal_eq, hdec, hd]
      exact ⟨_, rfl⟩
    · intro it1 hm
      cases hi : it.DecodeCurrKeyValueInternal mv with
      | error e => rw [hi] at hm; cases hm
      | ok it2 =>
        rw [hi] at hm
        obtain ⟨r, hr, rfl⟩ := DecodeCurrKeyValueInternal_ok mv it it2 hi
        have e1 := (Except.ok.inj hm).symm
        subst e1
        rw [hdec] at hr
        have hok : seg.versionOk mv it.global_seqno_ pos j = true := by
          unfold TerarkZipSegment.versionOk
          rw [hr]
        have hva : seg.versionAt mv it.global_seqno_ pos j = r := by
          unfold TerarkZipSegment.versionAt
          rw [hr]
        have hpk : ({ it.pInterKey_ with sequence := r.1, type := r.2.1 } : ParsedInternalKey) =
            seg.parsedKeyAt mv it.global_seqno_ pos j := by
          unfold TerarkZipSegment.parsedKeyAt
          rw [hva, ← h8]
        refine ⟨hok, rfl, rfl, rfl, rfl, ⟨h1, h2, rfl, h4, h5, h6, h7, h8⟩, hpk, ?_, ?_⟩
        · show f (AppendInternalKey pfx _) = _
          rw [hpk]
        · show r.2.2 = _
          rw [hva]
  cases cls with
  | Single reverse seg0 =>
    obtain rfl : seg0 = seg := Option.some.inj hseg
    exact key id ([] ++ seg0.commonPrefix_)
  | Uint64 seg0 =>
    obtain rfl : seg0 = seg := Option.some.inj hseg
    exact key (fun k => byte_swap (k.take 8) ++ k.drop 8) ([] ++ seg0.commonPrefix_)
  | Multi reverse si =>
    have := key id (seg.prefix_ ++ seg.commonPrefix_)
    simp only [IteratorClass.DecodeCurrKeyValue, hseg]
    exact this

/-- In every class, `DecodeCurrKeyValue` on an iterator that holds a record, on a
version of it that decodes without a fault, leaves the iterator on that version. -/
theorem DecodeCurrKeyValue_At (cls : IteratorClass) (mv : ZipValueMultiValue)
    (seg : TerarkZipSegment) (it : TerarkZipTableIterator) (pos j : Nat)
    (hseg : cls.segment it = some seg) (hh : it.Holds mv seg it.global_seqno_ pos j)
    (hj : j < seg.valnumAt mv pos) (hok : seg.versionOk mv it.global_seqno_ pos j = true) :
    ∃ it1, cls.DecodeCurrKeyValue mv it = Except.ok it1 ∧ cls.At mv it1 seg pos j ∧
      it1.segment_ = it.segment_ ∧ it1.global_seqno_ = it.global_seqno_ ∧
      it1.status_ = it.status_ ∧ it1.pinning = it.pinning := by
  obtain ⟨hex, hall⟩ := DecodeCurrKeyValue_step cls mv seg it pos j hseg hh
  obtain ⟨it1, h1⟩ := hex hok
  obtain ⟨_, a, b, c, d, e, f, g, h⟩ := hall it1 h1
  refine ⟨it1, h1, ⟨?_, ?_, hj, ?_, ?_, ?_, ?_⟩, a, b, c, d⟩
  · rw [segment_congr cls it1 it a]
    exact hseg
  · rw [b]; exact e
  · rw [b]; exact hok
  · rw [b]; exact f
  · rw [b]; exact g
  · rw [b]; exact h

/-- In every class, a `DecodeCurrKeyValue` that returns on an iterator that holds a
record, on one of its versions, leaves the iterator on that version. -/
theorem DecodeCurrKeyValue_At_of_ok (cls : IteratorClass) (mv : ZipValueMultiValue)
    (seg : TerarkZipSegment) (it it1 : TerarkZipTableIterator) (pos j : Nat)
    (hseg : cls.segment it = some seg) (hh : it.Holds mv seg it.global_seqno_ pos j)
    (hj : j < seg.valnumAt mv pos) (h : cls.DecodeCurrKeyValue mv it = Except.ok it1) :
    cls.At mv it1 seg pos j ∧
      it1.segment_ = it.segment_ ∧ it1.global_seqno_ = it.global_seqno_ ∧
      it1.status_ = it.status_ ∧ it1.pinning = it.pinning := by
  obtain ⟨hok, _⟩ := (DecodeCurrKeyValue_step cls mv seg it pos j hseg hh).2 it1 h
  obtain ⟨it2, h2, rest⟩ := DecodeCurrKeyValue_At cls mv seg it pos j hseg hh hj hok
  rw [h] at h2
  obtain rfl := Except.ok.inj h2
  exact rest

/-- A version that decodes without a fault is one of the versions of its record, when
it is version 0 or the record is tagged `Multi`. -/
theorem versionOk_lt (mv : ZipValueMultiValue) (seg : TerarkZipSegment) (g pos j : Nat)
    (hok : seg.versionOk mv g pos j = true) (hj : seg.typeAt pos ≠ kMulti → j = 0) :
    j < seg.valnumAt mv pos := by
  unfold TerarkZipSegment.valnumAt
  by_cases ht : seg.typeAt pos = kMulti
  · rw [if_pos ht]
    unfold TerarkZipSegment.versionOk decodeVersion at hok
    rw [ht] at hok
    simp only [kMulti, kZeroSeq, kValue, kDelete, OfNat.ofNat_ne_zero, if_false,
      Nat.reduceEqDiff, if_true] at hok
    cases hd : (mv.decode (seg.payloadAt pos))[j]? with
    | none => rw [hd] at hok; cases hok
    | some d => exact (List.getElem?_eq_some_iff.mp hd).1
  · rw [if_neg ht, hj ht]
    exact Nat.one_pos

/-- In every class, an `UnzipIterRecord(true)` that returns, with the cursor on position
`pos` of the current segment: it returns `true` exactly when the record can be fetched,
and then the iterator holds the record, on version 0; when it returns `false` the
iterator is invalid. -/
theorem UnzipIterRecord_of_ok (cls : IteratorClass) (mv : ZipValueMultiValue)
    (seg : TerarkZipSegment) (it u : TerarkZipTableIterator) (pos : Nat) (flag : Bool)
    (hseg : cls.segment it = some seg) (hcur : it.iter_ = some pos)
    (h : cls.UnzipIterRecord mv it true = Except.ok (u, flag)) :
    (flag = true → seg.fetchable pos = true ∧ u.Holds mv seg it.global_seqno_ pos 0 ∧
      u.segment_ = it.segment_ ∧ u.global_seqno_ = it.global_seqno_) ∧
    (flag = false → u.Valid = false ∧ seg.fetchable pos = false) := by
  by_cases hf : seg.fetchable pos = true
  · obtain ⟨it1, h1, h2, h3, h4⟩ := UnzipIterRecord_fetchable cls mv seg it pos hseg hcur hf
    rw [h1] at h
    obtain ⟨rfl, rfl⟩ := Prod.mk.inj (Except.ok.inj h)
    exact ⟨fun _ => ⟨hf, h2, h3, h4⟩, fun hc => absurd hc (by decide)⟩
  · have hres := UnzipIterRecord_result cls mv it u true flag h
    cases flag with
    | false =>
      exact ⟨fun hc => absurd hc (by decide), fun _ => ⟨hres.1 rfl, by simpa using hf⟩⟩
    | true =>
      exfalso
      apply hf
      cases hent : seg.index_.entries[pos]? with
      | none =>
        unfold IteratorClass.UnzipIterRecord at h
        simp only [if_true, hseg, hcur, Option.some_bind, hent] at h
        cases h
      | some entry =>
        have hlen : pos < seg.index_.entries.length := by
          by_contra hge
          rw [List.getElem?_eq_none (by omega)] at hent
          cases hent
        have hentry : seg.index_.entries.getD pos ([], 0) = entry := by
          rw [List.getD_eq_getElem?_getD, hent]
          rfl
        cases hz : seg.zvType entry.2 with
        | none =>
          unfold IteratorClass.UnzipIterRecord at h
          simp only [if_true, hseg, hcur, Option.some_bind, hent, hz] at h
          cases h
        | some z =>
          cases hst : seg.store_.get_record_append entry.2 with
          | none =>
            unfold IteratorClass.UnzipIterRecord at h
            simp only [if_true, hseg, hcur, Option.some_bind, hent, hz, hst] at h
            have := (Prod.mk.inj (Except.ok.inj h)).2
            cases this
          | some payload =>
            unfold TerarkZipSegment.fetchable TerarkZipSegment.recIdAt
            rw [hentry, hz, hst]
            simp [hlen]

/-- In every class, the tail of a positioning method on a record that can be fetched and
whose version aimed at decodes without a fault (version 0, or the last version when
`toLastVersion` is set): the iterator ends on that version. -/
theorem unzipAndDecode_At (cls : IteratorClass) (mv : ZipValueMultiValue)
    (seg : TerarkZipSegment) (it : TerarkZipTableIterator) (pos : Nat) (toLast : Bool)
    (hseg : cls.segment it = some seg) (hcur : it.iter_ = some pos)
    (hf : seg.fetchable pos = true)
    (hj : (if toLast = true then seg.valnumAt mv pos - 1 else 0) < seg.valnumAt mv pos)
    (hok : seg.versionOk mv it.global_seqno_ pos
      (if toLast = true then seg.valnumAt mv pos - 1 else 0) = true) :
    ∃ it1, cls.unzipAndDecode mv toLast (it, true) = Except.ok it1 ∧
      cls.At mv it1 seg pos (if toLast = true then seg.valnumAt mv pos - 1 else 0) ∧
      it1.segment_ = it.segment_ ∧ it1.global_seqno_ = it.global_seqno_ := by
  obtain ⟨u, hu, hh, hs, hg⟩ := UnzipIterRecord_fetchable cls mv seg it pos hseg hcur hf
  have hn : u.valnum_ = seg.valnumAt mv pos := hh.2.2.2.2.2.2.1
  have hsegu : cls.segment u = some seg := (segment_congr cls u it hs).trans hseg
  have hh' : u.Holds mv seg u.global_seqno_ pos 0 := by rw [hg]; exact hh
  unfold IteratorClass.unzipAndDecode
  simp only [hu, if_true]
  cases toLast with
  | false =>
    simp only [Bool.false_eq_true, if_false] at hj hok ⊢
    obtain ⟨it1, h1, h2, h3, h4, _⟩ := DecodeCurrKeyValue_At cls mv seg u pos 0 hsegu
      (by rw [hg]; exact hh) hj (by rw [hg]; exact hok)
    exact ⟨it1, h1, h2, h3.trans hs, h4.trans hg⟩
  | true =>
    simp only [if_true] at hj hok ⊢
    obtain ⟨it1, h1, h2, h3, h4, _⟩ := DecodeCurrKeyValue_At cls mv seg
      { u with validx_ := u.valnum_ - 1 } pos (seg.valnumAt mv pos - 1)
      ((segment_congr cls _ u rfl).trans hsegu)
      (by
        rw [← hn]
        exact Holds_set_validx mv seg _ u pos 0 _ hh') hj
      (by
        show seg.versionOk mv u.global_seqno_ pos _ = true
        rw [hg]; exact hok)
    exact ⟨it1, h1, h2, h3.trans hs, h4.trans hg⟩

/-- In every class, when the tail of a positioning method returns a valid iterator, the
record under the cursor can be fetched and the iterator is on the version aimed at. -/
theorem unzipAndDecode_At_of_ok (cls : IteratorClass) (mv : ZipValueMultiValue)
    (seg : TerarkZipSegment) (it it1 : TerarkZipTableIterator) (pos : Nat) (toLast : Bool)
    (hseg : cls.segment it = some seg) (hcur : it.iter_ = some pos)
    (h : cls.unzipAndDecode mv toLast (it, true) = Except.ok it1) (hv : it1.Valid = true) :
    seg.fetchable pos = true ∧
      cls.At mv it1 seg pos (if toLast = true then seg.valnumAt mv pos - 1 else 0) ∧
      it1.segment_ = it.segment_ ∧ it1.global_seqno_ = it.global_seqno_ := by
  have h0 := h
  unfold IteratorClass.unzipAndDecode at h
  cases hu : cls.UnzipIterRecord mv it true with
  | error e => simp only [hu] at h; cases h
  | ok r =>
    obtain ⟨u, flag⟩ := r
    simp only [hu] at h
    have hres := UnzipIterRecord_of_ok cls mv seg it u pos flag hseg hcur hu
    cases flag with
    | false =>
      simp only [Bool.false_eq_true, if_false] at h
      obtain rfl := Except.ok.inj h
      rw [(hres.2 rfl).1] at hv
      cases hv
    | true =>
      simp only [if_true] at h
      obtain ⟨hf, hh, hs, hg⟩ := hres.1 rfl
      have hn : u.valnum_ = seg.valnumAt mv pos := hh.2.2.2.2.2.2.1
      have hsegu : cls.segment u = some seg := (segment_congr cls u it hs).trans hseg
      have hh' : u.Holds mv seg u.global_seqno_ pos 0 := by rw [hg]; exact hh
      have hnm : seg.typeAt pos ≠ kMulti → seg.valnumAt mv pos = 1 := by
        intro hne
        unfold TerarkZipSegment.valnumAt
        rw [if_neg hne]
      have hok : seg.versionOk mv it.global_seqno_ pos
          (if toLast = true then seg.valnumAt mv pos - 1 else 0) = true := by
        cases toLast with
        | false =>
          simp only [Bool.false_eq_true, if_false] at h ⊢
          have := ((DecodeCurrKeyValue_step cls mv seg u pos 0 hsegu
            (by rw [hg]; exact hh)).2 it1 h).1
          rw [hg] at this
          exact this
        | true =>
          simp only [if_true] at h ⊢
          have := ((DecodeCurrKeyValue_step cls mv seg { u with validx_ := u.valnum_ - 1 } pos
            (seg.valnumAt mv pos - 1) ((segment_congr cls _ u rfl).trans hsegu)
            (by
              rw [← hn]
              exact Holds_set_validx mv seg _ u pos 0 _ hh')).2 it1 h).1
          have hgu : ({ u with validx_ := u.valnum_ - 1 } : TerarkZipTableIterator).global_seqno_ =
              it.global_seqno_ := hg
          rw [hgu] at this
          exact this
      have hj : (if toLast = true then seg.valnumAt mv pos - 1 else 0) < seg.valnumAt mv pos := by
        apply versionOk_lt mv seg it.global_seqno_ pos _ hok
        intro hne
        rw [hnm hne]
        cases toLast <;> rfl
      obtain ⟨it2, h2, rest⟩ := unzipAndDecode_At cls mv seg it pos toLast hseg hcur hf hj hok
      rw [h0] at h2
      obtain rfl := Except.ok.inj h2
      exact ⟨hf, rest⟩

/-- In every class, the tail of a positioning method without a record under the cursor
leaves the iterator invalid. -/
theorem unzipAndDecode_false (cls : IteratorClass) (mv : ZipValueMultiValue)
    (it : TerarkZipTableIterator) (toLast : Bool) :
    ∃ it1, cls.unzipAndDecode mv toLast (it, false) = Except.ok it1 ∧ it1.Valid = false := by
  unfold IteratorClass.unzipAndDecode IteratorClass.UnzipIterRecord
  simp only [Bool.false_eq_true, if_false]
  exact ⟨_, rfl, SetIterInvalid_Valid cls it⟩

/-- In every class, `Next` from a version that is not the last of its record: `Next`
returns exactly when the next version decodes without a fault, and then the iterator is
on the next version of the same record. -/
theorem Next_At_within (cls : IteratorClass) (mv : ZipValueMultiValue)
    (seg : TerarkZipSegment) (it : TerarkZipTableIterator) (pos j : Nat)
    (hat : cls.At mv it seg pos j) (hj : j + 1 < seg.valnumAt mv pos) :
    (seg.versionOk mv it.global_seqno_ pos (j + 1) = true →
      ∃ it1, cls.Next mv it = Except.ok it1) ∧
    ∀ it1, cls.Next mv it = Except.ok it1 →
      cls.At mv it1 seg pos (j + 1) ∧ it1.segment_ = it.segment_ ∧
      it1.global_seqno_ = it.global_seqno_ ∧ it1.iter_ = it.iter_ := by
  obtain ⟨hseg, hh, _, _, _, _, _⟩ := hat
  have hn : it.valnum_ = seg.valnumAt mv pos := hh.2.2.2.2.2.2.1
  have hi : it.validx_ = j := hh.2.1
  have hnext : cls.Next mv it = cls.DecodeCurrKeyValue mv { it with validx_ := it.validx_ + 1 } := by
    unfold IteratorClass.Next
    dsimp only
    rw [if_pos (by rw [hn, hi]; exact hj)]
  have hh1 : TerarkZipTableIterator.Holds mv seg
      ({ it with validx_ := it.validx_ + 1 } : TerarkZipTableIterator).global_seqno_
      { it with validx_ := it.validx_ + 1 } pos (j + 1) := by
    rw [← hi]
    exact Holds_set_validx mv seg _ it pos _ _ hh
  have hseg1 : cls.segment { it with validx_ := it.validx_ + 1 } = some seg :=
    (segment_congr cls _ it rfl).trans hseg
  rw [hnext]
  constructor
  · intro hok
    obtain ⟨it1, h1, _⟩ := DecodeCurrKeyValue_At cls mv seg _ pos (j + 1) hseg1 hh1 hj hok
    exact ⟨it1, h1⟩
  · intro it1 h1
    obtain ⟨a, b, c, _⟩ := DecodeCurrKeyValue_At_of_ok cls mv seg _ it1 pos (j + 1) hseg1 hh1 hj h1
    exact ⟨a, b, c, (a.2.1.1).trans hh.1.symm⟩

/-- In every class, `Prev` from a version that is not the first of its record: `Prev`
returns exactly when the version before decodes without a fault, and then the iterator
is on that version of the same record. -/
theorem Prev_At_within (cls : IteratorClass) (mv : ZipValueMultiValue)
    (seg : TerarkZipSegment) (it : TerarkZipTableIterator) (pos j : Nat)
    (hat : cls.At mv it seg pos j) (hj : 0 < j) :
    (seg.versionOk mv it.global_seqno_ pos (j - 1) = true →
      ∃ it1, cls.Prev mv it = Except.ok it1) ∧
    ∀ it1, cls.Prev mv it = Except.ok it1 →
      cls.At mv it1 seg pos (j - 1) ∧ it1.segment_ = it.segment_ ∧
      it1.global_seqno_ = it.global_seqno_ ∧ it1.iter_ = it.iter_ := by
  obtain ⟨hseg, hh, hjv, _, _, _, _⟩ := hat
  have hi : it.validx_ = j := hh.2.1
  have hprev : cls.Prev mv it = cls.DecodeCurrKeyValue mv { it with validx_ := it.validx_ - 1 } := by
    unfold IteratorClass.Prev
    rw [if_pos (by rw [hi]; exact hj)]
  have hh1 : TerarkZipTableIterator.Holds mv seg
      ({ it with validx_ := it.validx_ - 1 } : TerarkZipTableIterator).global_seqno_
      { it with validx_ := it.validx_ - 1 } pos (j - 1) := by
    rw [← hi]
    exact Holds_set_validx mv seg _ it pos _ _ hh
  have hseg1 : cls.segment { it with validx_ := it.validx_ - 1 } = some seg :=
    (segment_congr cls _ it rfl).trans hseg
  rw [hprev]
  constructor
  · intro hok
    obtain ⟨it1, h1, _⟩ := DecodeCurrKeyValue_At cls mv seg _ pos (j - 1) hseg1 hh1
      (by omega) hok
    exact ⟨it1, h1⟩
  · intro it1 h1
    obtain ⟨a, b, c, _⟩ := DecodeCurrKeyValue_At_of_ok cls mv seg _ it1 pos (j - 1) hseg1 hh1
      (by omega) h1
    exact ⟨a, b, c, (a.2.1.1).trans hh.1.symm⟩

/-! ## Every class of iterator: the cursor moves back the way it came -/

/-- A record that can be fetched lies under a position of the index. -/
theorem fetchable_lt (seg : TerarkZipSegment) (pos : Nat) (h : seg.fetchable pos = true) :
    pos < seg.index_.entries.length := by
  unfold TerarkZipSegment.fetchable at h
  simp only [Bool.and_eq_true, decide_eq_true_eq] at h
  exact h.1.1

/-- The index cursor: `Prev` undoes `Next`. -/
theorem Iterator_Prev_Next (index : TerarkIndex) (pos q : Nat)
    (h : TerarkIndex.Iterator.Next index pos = some q) :
    TerarkIndex.Iterator.Prev index q = some pos ∧ q < index.entries.length := by
  unfold TerarkIndex.Iterator.Next at h
  unfold TerarkIndex.Iterator.Prev
  split at h
  · obtain rfl := Option.some.inj h
    exact ⟨by simp, by assumption⟩
  · cases h

/-- The index cursor: `Next` undoes `Prev`. -/
theorem Iterator_Next_Prev (index : TerarkIndex) (pos q : Nat)
    (hpos : pos < index.entries.length)
    (h : TerarkIndex.Iterator.Prev index pos = some q) :
    TerarkIndex.Iterator.Next index q = some pos ∧ q < index.entries.length := by
  unfold TerarkIndex.Iterator.Prev at h
  unfold TerarkIndex.Iterator.Next
  split at h
  · obtain rfl := Option.some.inj h
    have e : pos - 1 + 1 = pos := by omega
    rw [e, if_pos hpos]
    exact ⟨rfl, by omega⟩
  · cases h

/-- The cursor step of the multi-segment iterator, from a position of a segment. -/
theorem Multi_step_eq (si : SegmentIndex) (up : Bool) (it : TerarkZipTableIterator)
    (seg : TerarkZipSegment) (i pos : Nat) (hi : it.segment_ = some i)
    (hseg : si.segments_[i]? = some seg) (hcur : it.iter_ = some pos) :
    TerarkZipTableMultiIterator.step si up it =
      if (if up = true then TerarkIndex.Iterator.Next seg.index_ pos
          else TerarkIndex.Iterator.Prev seg.index_ pos).isSome = true then
        Except.ok ({ it.TryPinInterKeyBuf with
          iter_ := if up = true then TerarkIndex.Iterator.Next seg.index_ pos
            else TerarkIndex.Iterator.Prev seg.index_ pos }, true)
      else if up = true then
        if seg.segmentIndex_ = si.partCount_ - 1 then
          Except.ok ({ it.TryPinInterKeyBuf with iter_ := none }, false)
        else
          TerarkZipTableMultiIterator.enterSegment si (seg.segmentIndex_ + 1) false
            { it.TryPinInterKeyBuf with iter_ := none }
      else
        if seg.segmentIndex_ = 0 then
          Except.ok ({ it.TryPinInterKeyBuf with iter_ := none }, false)
        else
          TerarkZipTableMultiIterator.enterSegment si (seg.segmentIndex_ - 1) true
            { it.TryPinInterKeyBuf with iter_ := none } := by
  have hs1 : (it.TryPinInterKeyBuf.segment_.bind fun i => si.segments_[i]?) = some seg := by
    rw [(TryPinInterKeyBuf_fields it).2.2.2.2.2.2.2.2.2.2, hi]
    exact hseg
  have hc1 : it.TryPinInterKeyBuf.iter_ = some pos := by
    rw [(TryPinInterKeyBuf_fields it).1, hcur]
  unfold TerarkZipTableMultiIterator.step
  simp only [hs1, hc1]

/-- The step of the multi-segment iterator onto a segment that is there. -/
theorem enterSegment_eq (si : SegmentIndex) (i : Nat) (toLast : Bool)
    (it : TerarkZipTableIterator) (seg : TerarkZipSegment)
    (hseg : si.segments_[i]? = some seg) :
    TerarkZipTableMultiIterator.enterSegment si i toLast it =
      Except.ok ({ it with
        segment_ := some i
        iter_ := if toLast = true then TerarkIndex.Iterator.SeekToLast seg.index_
          else TerarkIndex.Iterator.SeekToFirst seg.index_ },
        (if toLast = true then TerarkIndex.Iterator.SeekToLast seg.index_
          else TerarkIndex.Iterator.SeekToFirst seg.index_).isSome) := by
  unfold TerarkZipTableMultiIterator.enterSegment
  simp only [hseg]

/-- The cursor step of the multi-segment iterator that returns `true` is undone by the
step in the other direction, also across the edge of a segment. -/
theorem Multi_step_inverse (si : SegmentIndex) (up : Bool) (it r : TerarkZipTableIterator)
    (seg : TerarkZipSegment) (i pos : Nat) (hwi : si.WellIndexed)
    (hi : it.segment_ = some i) (hseg : si.segments_[i]? = some seg)
    (hcur : it.iter_ = some pos) (hpos : pos < seg.index_.entries.length)
    (h : TerarkZipTableMultiIterator.step si up it = Except.ok (r, true)) :
    r.global_seqno_ = it.global_seqno_ ∧
    (∃ i1 seg1 q, r.segment_ = some i1 ∧ si.segments_[i1]? = some seg1 ∧ r.iter_ = some q) ∧
    ∀ it1 : TerarkZipTableIterator, it1.segment_ = r.segment_ → it1.iter_ = r.iter_ →
      ∃ r1, TerarkZipTableMultiIterator.step si (!up) it1 = Except.ok (r1, true) ∧
        r1.segment_ = it.segment_ ∧ r1.iter_ = some pos ∧
        r1.global_seqno_ = it1.global_seqno_ := by
  have hidx : seg.segmentIndex_ = i := hwi.2 i seg hseg
  have hilt : i < si.segments_.length := (List.getElem?_eq_some_iff.mp hseg).1
  have hg := (TryPinInterKeyBuf_fields it).2.1
  have hsg := (TryPinInterKeyBuf_fields it).2.2.2.2.2.2.2.2.2.2
  rw [Multi_step_eq si up it seg i pos hi hseg hcur] at h
  cases up with
  | true =>
    simp only [if_true] at h
    cases hn : TerarkIndex.Iterator.Next seg.index_ pos with
    | some q =>
      rw [hn] at h
      simp only [Option.isSome_some, if_true] at h
      obtain ⟨rfl, _⟩ := Prod.mk.inj (Except.ok.inj h)
      obtain ⟨hp, hq⟩ := Iterator_Prev_Next seg.index_ pos q hn
      refine ⟨hg, ⟨i, seg, q, hsg.trans hi, hseg, rfl⟩, ?_⟩
      intro it1 hs1 hc1
      rw [Multi_step_eq si (!true) it1 seg i q (hs1.trans (hsg.trans hi)) hseg hc1]
      simp only [Bool.not_true, Bool.false_eq_true, if_false, hp, Option.isSome_some, if_true]
      exact ⟨_, rfl, ((TryPinInterKeyBuf_fields it1).2.2.2.2.2.2.2.2.2.2.trans hs1).trans hsg,
        rfl, (TryPinInterKeyBuf_fields it1).2.1⟩
    | none =>
      rw [hn] at h
      simp only [Option.isSome_none, Bool.false_eq_true, if_false] at h
      by_cases hend : seg.segmentIndex_ = si.partCount_ - 1
      · rw [if_pos hend] at h
        have := (Prod.mk.inj (Except.ok.inj h)).2
        cases this
      · rw [if_neg hend] at h
        cases hs2 : si.segments_[seg.segmentIndex_ + 1]? with
        | none =>
          unfold TerarkZipTableMultiIterator.enterSegment at h
          rw [hs2] at h
          cases h
        | some seg1 =>
          rw [enterSegment_eq si _ false _ seg1 hs2] at h
          simp only [Bool.false_eq_true, if_false] at h
          obtain ⟨rfl, hflag⟩ := Prod.mk.inj (Except.ok.inj h)
          have hne : seg1.index_.entries.length ≠ 0 := by
            intro hz
            unfold TerarkIndex.Iterator.SeekToFirst at hflag
            rw [if_pos hz] at hflag
            cases hflag
          have hfirst : TerarkIndex.Iterator.SeekToFirst seg1.index_ = some 0 := by
            unfold TerarkIndex.Iterator.SeekToFirst
            rw [if_neg hne]
          have hidx1 : seg1.segmentIndex_ = seg.segmentIndex_ + 1 := hwi.2 _ seg1 hs2
          have hlast : pos = seg.index_.entries.length - 1 := by
            unfold TerarkIndex.Iterator.Next at hn
            split at hn
            · cases hn
            · omega
          refine ⟨hg, ⟨seg.segmentIndex_ + 1, seg1, 0, rfl, hs2, hfirst⟩, ?_⟩
          intro it1 hs1 hc1
          rw [Multi_step_eq si (!true) it1 seg1 (seg.segmentIndex_ + 1) 0 hs1 hs2
            (hc1.trans hfirst)]
          have hp0 : TerarkIndex.Iterator.Prev seg1.index_ 0 = none := by
            unfold TerarkIndex.Iterator.Prev
            simp
          simp only [Bool.not_true, Bool.false_eq_true, if_false, hp0, Option.isSome_none]
          rw [if_neg (by omega)]
          have e : seg1.segmentIndex_ - 1 = i := by omega
          rw [e, enterSegment_eq si i true _ seg hseg]
          have hl : TerarkIndex.Iterator.SeekToLast seg.index_ = some pos := by
            unfold TerarkIndex.Iterator.SeekToLast
            rw [if_neg (by omega), hlast]
          simp only [if_true, hl, Option.isSome_some]
          exact ⟨_, rfl, hi.symm, rfl, (TryPinInterKeyBuf_fields it1).2.1⟩
  | false =>
    simp only [Bool.false_eq_true, if_false] at h
    cases hn : TerarkIndex.Iterator.Prev seg.index_ pos with
    | some q =>
      rw [hn] at h
      simp only [Option.isSome_some, if_true] at h
      obtain ⟨rfl, _⟩ := Prod.mk.inj (Except.ok.inj h)
      obtain ⟨hp, hq⟩ := Iterator_Next_Prev seg.index_ pos q hpos hn
      refine ⟨hg, ⟨i, seg, q, hsg.trans hi, hseg, rfl⟩, ?_⟩
      intro it1 hs1 hc1
      rw [Multi_step_eq si (!false) it1 seg i q (hs1.trans (hsg.trans hi)) hseg hc1]
      simp only [Bool.not_false, if_true, hp, Option.isSome_some]
      exact ⟨_, rfl, ((TryPinInterKeyBuf_fields it1).2.2.2.2.2.2.2.2.2.2.trans hs1).trans hsg,
        rfl, (TryPinInterKeyBuf_fields it1).2.1⟩
    | none =>
      rw [hn] at h
      simp only [Option.isSome_none, Bool.false_eq_true, if_false] at h
      by_cases hend : seg.segmentIndex_ = 0
      · rw [if_pos hend] at h
        have := (Prod.mk.inj (Except.ok.inj h)).2
        cases this
      · rw [if_neg hend] at h
        cases hs2 : si.segments_[seg.segmentIndex_ - 1]? with
        | none =>
          unfold TerarkZipTableMultiIterator.enterSegment at h
          rw [hs2] at h
          cases h
        | some seg1 =>
          rw [enterSegment_eq si _ true _ seg1 hs2] at h
          simp only [if_true] at h
          obtain ⟨rfl, hflag⟩ := Prod.mk.inj (Except.ok.inj h)
          have hne : seg1.index_.entries.length ≠ 0 := by
            intro hz
            unfold TerarkIndex.Iterator.SeekToLast at hflag
            rw [if_pos hz] at hflag
            cases hflag
          have hlast1 : TerarkIndex.Iterator.SeekToLast seg1.index_ =
              some (seg1.index_.entries.length - 1) := by
            unfold TerarkIndex.Iterator.SeekToLast
            rw [if_neg hne]
          have hidx1 : seg1.segmentIndex_ = seg.segmentIndex_ - 1 := hwi.2 _ seg1 hs2
          have hzero : pos = 0 := by
            unfold TerarkIndex.Iterator.Prev at hn
            split at hn
            · cases hn
            · omega
          refine ⟨hg, ⟨seg.segmentIndex_ - 1, seg1, _, rfl, hs2, hlast1⟩, ?_⟩
          intro it1 hs1 hc1
          rw [Multi_step_eq si (!false) it1 seg1 (seg.segmentIndex_ - 1)
            (seg1.index_.entries.length - 1) hs1 hs2 (hc1.trans hlast1)]
          have hp0 : TerarkIndex.Iterator.Next seg1.index_ (seg1.index_.entries.length - 1) =
              none := by
            unfold TerarkIndex.Iterator.Next
            rw [if_neg (by omega)]
          simp only [Bool.not_false, if_true, hp0, Option.isSome_none, Bool.false_eq_true,
            if_false]
          rw [if_neg (by rw [hwi.1]; omega)]
          have e : seg1.segmentIndex_ + 1 = i := by omega
          rw [e, enterSegment_eq si i false _ seg hseg]
          have hl : TerarkIndex.Iterator.SeekToFirst seg.index_ = some pos := by
            unfold TerarkIndex.Iterator.SeekToFirst
            rw [if_neg (by omega), hzero]
          simp only [Bool.false_eq_true, if_false, hl, Option.isSome_some]
          exact ⟨_, rfl, hi.symm, rfl, (TryPinInterKeyBuf_fields it1).2.1⟩

/-- In every class, an `IndexIterNext` that returns `true` leaves the cursor on a
position of a segment, and `IndexIterPrev` from there returns `true` and leaves the
cursor where it was. -/
theorem IndexIterNext_inverse (cls : IteratorClass) (it r : TerarkZipTableIterator)
    (seg : TerarkZipSegment) (pos : Nat) (hwi : cls.WellIndexed)
    (hseg : cls.segment it = some seg) (hcur : it.iter_ = some pos)
    (hpos : pos < seg.index_.entries.length)
    (h : cls.IndexIterNext it = Except.ok (r, true)) :
    r.global_seqno_ = it.global_seqno_ ∧
    (∃ seg1 q, cls.segment r = some seg1 ∧ r.iter_ = some q) ∧
    ∀ it1 : TerarkZipTableIterator, it1.segment_ = r.segment_ → it1.iter_ = r.iter_ →
      ∃ r1, cls.IndexIterPrev it1 = Except.ok (r1, true) ∧
        r1.segment_ = it.segment_ ∧ r1.iter_ = some pos ∧
        r1.global_seqno_ = it1.global_seqno_ := by
  have single : ∀ (reverse : Bool) (seg0 : TerarkZipSegment), seg0 = seg →
      TerarkZipTableIterator.IndexIterNext reverse seg0 it = Except.ok (r, true) →
      r.global_seqno_ = it.global_seqno_ ∧ (∃ q, r.iter_ = some q) ∧
      ∀ it1 : TerarkZipTableIterator, it1.segment_ = r.segment_ → it1.iter_ = r.iter_ →
        ∃ r1, TerarkZipTableIterator.IndexIterPrev reverse seg0 it1 = Except.ok (r1, true) ∧
          r1.segment_ = it.segment_ ∧ r1.iter_ = some pos ∧
          r1.global_seqno_ = it1.global_seqno_ := by
    intro reverse seg0 he h
    subst he
    unfold TerarkZipTableIterator.IndexIterNext at h
    rw [hcur] at h
    dsimp only at h
    obtain ⟨rfl, hflag⟩ := Prod.mk.inj (Except.ok.inj h)
    obtain ⟨q, hq⟩ := Option.isSome_iff_exists.mp hflag
    have hback : (if reverse = true then TerarkIndex.Iterator.Next seg0.index_ q
        else TerarkIndex.Iterator.Prev seg0.index_ q) = some pos := by
      cases reverse with
      | false =>
        simp only [Bool.false_eq_true, if_false] at hq ⊢
        exact (Iterator_Prev_Next _ _ _ hq).1
      | true =>
        simp only [if_true] at hq ⊢
        exact (Iterator_Next_Prev _ _ _ hpos hq).1
    refine ⟨(TryPinInterKeyBuf_fields it).2.1, ⟨q, hq⟩, ?_⟩
    intro it1 hs1 hc1
    unfold TerarkZipTableIterator.IndexIterPrev
    rw [hc1]
    dsimp only
    rw [hq]
    dsimp only
    rw [hback]
    exact ⟨_, rfl, ((TryPinInterKeyBuf_fields it1).2.2.2.2.2.2.2.2.2.2.trans hs1).trans
      (TryPinInterKeyBuf_fields it).2.2.2.2.2.2.2.2.2.2, rfl, (TryPinInterKeyBuf_fields it1).2.1⟩
  cases cls with
  | Single reverse seg0 =>
    obtain ⟨a, ⟨q, hq⟩, c⟩ := single reverse seg0 (Option.some.inj hseg) h
    exact ⟨a, ⟨seg0, q, rfl, hq⟩, c⟩
  | Uint64 seg0 =>
    obtain ⟨a, ⟨q, hq⟩, c⟩ := single false seg0 (Option.some.inj hseg) h
    exact ⟨a, ⟨seg0, q, rfl, hq⟩, c⟩
  | Multi reverse si =>
    cases hi : it.segment_ with
    | none =>
      simp only [IteratorClass.segment, hi, Option.none_bind] at hseg
      cases hseg
    | some i =>
      simp only [IteratorClass.segment, hi, Option.some_bind] at hseg
      obtain ⟨a, ⟨i1, seg1, q, b1, b2, b3⟩, c⟩ :=
        Multi_step_inverse si (!reverse) it r seg i pos hwi hi hseg hcur hpos h
      refine ⟨a, ⟨seg1, q, ?_, b3⟩, ?_⟩
      · simp only [IteratorClass.segment, b1, Option.some_bind]
        exact b2
      · intro it1 hs1 hc1
        obtain ⟨r1, h1, h2⟩ := c it1 hs1 hc1
        rw [Bool.not_not] at h1
        rw [hi] at h2
        exact ⟨r1, h1, h2⟩

/-- In every class, an `IndexIterPrev` that returns `true` leaves the cursor on a
position of a segment, and `IndexIterNext` from there returns `true` and leaves the
cursor where it was. -/
theorem IndexIterPrev_inverse (cls : IteratorClass) (it r : TerarkZipTableIterator)
    (seg : TerarkZipSegment) (pos : Nat) (hwi : cls.WellIndexed)
    (hseg : cls.segment it = some seg) (hcur : it.iter_ = some pos)
    (hpos : pos < seg.index_.entries.length)
    (h : cls.IndexIterPrev it = Except.ok (r, true)) :
    r.global_seqno_ = it.global_seqno_ ∧
    (∃ seg1 q, cls.segment r = some seg1 ∧ r.iter_ = some q) ∧
    ∀ it1 : TerarkZipTableIterator, it1.segment_ = r.segment_ → it1.iter_ = r.iter_ →
      ∃ r1, cls.IndexIterNext it1 = Except.ok (r1, true) ∧
        r1.segment_ = it.segment_ ∧ r1.iter_ = some pos ∧
        r1.global_seqno_ = it1.global_seqno_ := by
  have single : ∀ (reverse : Bool) (seg0 : TerarkZipSegment), seg0 = seg →
      TerarkZipTableIterator.IndexIterPrev reverse seg0 it = Except.ok (r, true) →
      r.global_seqno_ = it.global_seqno_ ∧ (∃ q, r.iter_ = some q) ∧
      ∀ it1 : TerarkZipTableIterator, it1.segment_ = r.segment_ → it1.iter_ = r.iter_ →
        ∃ r1, TerarkZipTableIterator.IndexIterNext reverse seg0 it1 = Except.ok (r1, true) ∧
          r1.segment_ = it.segment_ ∧ r1.iter_ = some pos ∧
          r1.global_seqno_ = it1.global_seqno_ := by
    intro reverse seg0 he h
    subst he
    unfold TerarkZipTableIterator.IndexIterPrev at h
    rw [hcur] at h
    dsimp only at h
    obtain ⟨rfl, hflag⟩ := Prod.mk.inj (Except.ok.inj h)
    obtain ⟨q, hq⟩ := Option.isSome_iff_exists.mp hflag
    have hback : (if reverse = true then TerarkIndex.Iterator.Prev seg0.index_ q
        else TerarkIndex.Iterator.Next seg0.index_ q) = some pos := by
      cases reverse with
      | false =>
        simp only [Bool.false_eq_true, if_false] at hq ⊢
        exact (Iterator_Next_Prev _ _ _ hpos hq).1
      | true =>
        simp only [if_true] at hq ⊢
        exact (Iterator_Prev_Next _ _ _ hq).1
    refine ⟨(TryPinInterKeyBuf_fields it).2.1, ⟨q, hq⟩, ?_⟩
    intro it1 hs1 hc1
    unfold TerarkZipTableIterator.IndexIterNext
    rw [hc1]
    dsimp only
    rw [hq]
    dsimp only
    rw [hback]
    exact ⟨_, rfl, ((TryPinInterKeyBuf_fields it1).2.2.2.2.2.2.2.2.2.2.trans hs1).trans
      (TryPinInterKeyBuf_fields it).2.2.2.2.2.2.2.2.2.2, rfl, (TryPinInterKeyBuf_fields it1).2.1⟩
  cases cls with
  | Single reverse seg0 =>
    obtain ⟨a, ⟨q, hq⟩, c⟩ := single reverse seg0 (Option.some.inj hseg) h
    exact ⟨a, ⟨seg0, q, rfl, hq⟩, c⟩
  | Uint64 seg0 =>
    obtain ⟨a, ⟨q, hq⟩, c⟩ := single false seg0 (Option.some.inj hseg) h
    exact ⟨a, ⟨seg0, q, rfl, hq⟩, c⟩
  | Multi reverse si =>
    cases hi : it.segment_ with
    | none =>
      simp only [IteratorClass.segment, hi, Option.none_bind] at hseg
      cases hseg
    | some i =>
      simp only [IteratorClass.segment, hi, Option.some_bind] at hseg
      obtain ⟨a, ⟨i1, seg1, q, b1, b2, b3⟩, c⟩ :=
        Multi_step_inverse si reverse it r seg i pos hwi hi hseg hcur hpos h
      refine ⟨a, ⟨seg1, q, ?_, b3⟩, ?_⟩
      · simp only [IteratorClass.segment, b1, Option.some_bind]
        exact b2
      · intro it1 hs1 hc1
        obtain ⟨r1, h1, h2⟩ := c it1 hs1 hc1
        rw [hi] at h2
        exact ⟨r1, h1, h2⟩

/-! ## `Next` and `Prev` undo each other -/

/-- Two iterators on the same version of the same record, with the same global sequence
number, show the same position, key and value. -/
theorem At_same (cls : IteratorClass) (mv : ZipValueMultiValue)
    (a b : TerarkZipTableIterator) (seg : TerarkZipSegment) (pos j : Nat)
    (ha : cls.At mv a seg pos j) (hb : cls.At mv b seg pos j)
    (hg : b.global_seqno_ = a.global_seqno_) :
    b.Valid = true ∧ b.iter_ = a.iter_ ∧ b.validx_ = a.validx_ ∧ b.key = a.key ∧
      b.value = a.value ∧ b.pInterKey_ = a.pInterKey_ := by
  obtain ⟨_, ha1, _, _, ha2, ha3, ha4⟩ := ha
  obtain ⟨_, hb1, _, _, hb2, hb3, hb4⟩ := hb
  refine ⟨?_, hb1.1.trans ha1.1.symm, hb1.2.1.trans ha1.2.1.symm, ?_, ?_, ?_⟩
  · unfold TerarkZipTableIterator.Valid
    rw [hb1.1]
    rfl
  · rw [hb3, ha3, hg]
  · rw [hb4, ha4, hg]
  · rw [hb2, ha2, hg]

/-- In every class, a `Next` that leaves the iterator valid is undone by `Prev`. -/
theorem Next_then_Prev (cls : IteratorClass) (mv : ZipValueMultiValue)
    (it it1 : TerarkZipTableIterator) (seg : TerarkZipSegment) (pos j : Nat)
    (hwi : cls.WellIndexed) (hat : cls.At mv it seg pos j)
    (hn : cls.Next mv it = Except.ok it1) (hv : it1.Valid = true) :
    ∃ it2, cls.Prev mv it1 = Except.ok it2 ∧ cls.At mv it2 seg pos j ∧
      it2.segment_ = it.segment_ ∧ it2.global_seqno_ = it.global_seqno_ := by
  have hat0 := hat
  obtain ⟨hseg, hh, hjv, hok, _, _, _⟩ := hat
  have hn' : it.valnum_ = seg.valnumAt mv pos := hh.2.2.2.2.2.2.1
  have hi : it.validx_ = j := hh.2.1
  have hpos := fetchable_lt seg pos hh.2.2.2.1
  by_cases hj : j + 1 < seg.valnumAt mv pos
  · obtain ⟨a, b, c, d⟩ := (Next_At_within cls mv seg it pos j hat0 hj).2 it1 hn
    obtain ⟨hex, hall⟩ := Prev_At_within cls mv seg it1 pos (j + 1) a (by omega)
    obtain ⟨it2, h2⟩ := hex (by rw [c]; exact hok)
    obtain ⟨a2, b2, c2, d2⟩ := hall it2 h2
    exact ⟨it2, h2, a2, b2.trans b, c2.trans c⟩
  · unfold IteratorClass.Next at hn
    dsimp only at hn
    rw [if_neg (by rw [hn', hi]; exact hj)] at hn
    cases hr : cls.IndexIterNext { it with validx_ := it.validx_ + 1 } with
    | error e => rw [hr] at hn; cases hn
    | ok r0 =>
      obtain ⟨r, flag⟩ := r0
      rw [hr] at hn
      dsimp only at hn
      cases flag with
      | false =>
        obtain ⟨x, hx, hxv⟩ := unzipAndDecode_false cls mv r false
        rw [hx] at hn
        obtain rfl := Except.ok.inj hn
        rw [hxv] at hv
        cases hv
      | true =>
        obtain ⟨hg, ⟨seg1, q, hs1, hq1⟩, hinv⟩ := IndexIterNext_inverse cls
          { it with validx_ := it.validx_ + 1 } r seg pos hwi
          ((segment_congr cls _ it rfl).trans hseg) hh.1 hpos hr
        obtain ⟨_, hat1, hseg1, hg1⟩ :=
          unzipAndDecode_At_of_ok cls mv seg1 r it1 q false hs1 hq1 hn hv
        simp only [Bool.false_eq_true, if_false] at hat1
        have hcur1 : it1.iter_ = r.iter_ := hat1.2.1.1.trans hq1.symm
        obtain ⟨r1, hp1, hp2, hp3, hp4⟩ := hinv it1 hseg1 hcur1
        have hprev : cls.Prev mv it1 = cls.unzipAndDecode mv true (r1, true) := by
          unfold IteratorClass.Prev
          rw [if_neg (by rw [hat1.2.1.2.1]; omega), hp1]
        have hsegr1 : cls.segment r1 = some seg :=
          (segment_congr cls r1 it hp2).trans hseg
        have hgr1 : r1.global_seqno_ = it.global_seqno_ := (hp4.trans hg1).trans hg
        have hjl : seg.valnumAt mv pos - 1 = j := by omega
        obtain ⟨it2, h2, a2, b2, c2⟩ := unzipAndDecode_At cls mv seg r1 pos true hsegr1 hp3
          hh.2.2.2.1 (by simp only [if_true]; omega)
          (by simp only [if_true]; rw [hjl, hgr1]; exact hok)
        simp only [if_true] at a2
        rw [hjl] at a2
        rw [hprev]
        exact ⟨it2, h2, a2, b2.trans hp2, c2.trans hgr1⟩

/-- In every class, a `Prev` that leaves the iterator valid is undone by `Next`. -/
theorem Prev_then_Next (cls : IteratorClass) (mv : ZipValueMultiValue)
    (it it1 : TerarkZipTableIterator) (seg : TerarkZipSegment) (pos j : Nat)
    (hwi : cls.WellIndexed) (hat : cls.At mv it seg pos j)
    (hn : cls.Prev mv it = Except.ok it1) (hv : it1.Valid = true) :
    ∃ it2, cls.Next mv it1 = Except.ok it2 ∧ cls.At mv it2 seg pos j ∧
      it2.segment_ = it.segment_ ∧ it2.global_seqno_ = it.global_seqno_ := by
  have hat0 := hat
  obtain ⟨hseg, hh, hjv, hok, _, _, _⟩ := hat
  have hi : it.validx_ = j := hh.2.1
  have hpos := fetchable_lt seg pos hh.2.2.2.1
  by_cases hj : 0 < j
  · obtain ⟨a, b, c, d⟩ := (Prev_At_within cls mv seg it pos j hat0 hj).2 it1 hn
    have e : j - 1 + 1 = j := by omega
    obtain ⟨hex, hall⟩ := Next_At_within cls mv seg it1 pos (j - 1) a (by omega)
    obtain ⟨it2, h2⟩ := hex (by rw [c, e]; exact hok)
    obtain ⟨a2, b2, c2, d2⟩ := hall it2 h2
    rw [e] at a2
    exact ⟨it2, h2, a2, b2.trans b, c2.trans c⟩
  · have hj0 : j = 0 := by omega
    subst hj0
    unfold IteratorClass.Prev at hn
    rw [if_neg (by rw [hi]; omega)] at hn
    cases hr : cls.IndexIterPrev it with
    | error e => rw [hr] at hn; cases hn
    | ok r0 =>
      obtain ⟨r, flag⟩ := r0
      rw [hr] at hn
      dsimp only at hn
      cases flag with
      | false =>
        obtain ⟨x, hx, hxv⟩ := unzipAndDecode_false cls mv r true
        rw [hx] at hn
        obtain rfl := Except.ok.inj hn
        rw [hxv] at hv
        cases hv
      | true =>
        obtain ⟨hg, ⟨seg1, q, hs1, hq1⟩, hinv⟩ := IndexIterPrev_inverse cls it r seg pos hwi
          hseg hh.1 hpos hr
        obtain ⟨_, hat1, hseg1, hg1⟩ :=
          unzipAndDecode_At_of_ok cls mv seg1 r it1 q true hs1 hq1 hn hv
        simp only [if_true] at hat1
        have hcur1 : it1.iter_ = r.iter_ := hat1.2.1.1.trans hq1.symm
        obtain ⟨r1, hp1, hp2, hp3, hp4⟩ := hinv { it1 with validx_ := it1.validx_ + 1 }
          hseg1 hcur1
        have hnum1 : it1.valnum_ = seg1.valnumAt mv q := hat1.2.1.2.2.2.2.2.2.1
        have hidx1 : it1.validx_ = seg1.valnumAt mv q - 1 := hat1.2.1.2.1
        have hlt1 : seg1.valnumAt mv q - 1 < seg1.valnumAt mv q := hat1.2.2.1
        have hnext : cls.Next mv it1 = cls.unzipAndDecode mv false (r1, true) := by
          unfold IteratorClass.Next
          dsimp only
          rw [if_neg (by rw [hnum1, hidx1]; omega), hp1]
        have hsegr1 : cls.segment r1 = some seg :=
          (segment_congr cls r1 it hp2).trans hseg
        have hgr1 : r1.global_seqno_ = it.global_seqno_ := (hp4.trans hg1).trans hg
        obtain ⟨it2, h2, a2, b2, c2⟩ := unzipAndDecode_At cls mv seg r1 pos false hsegr1 hp3
          hh.2.2.2.1 (by simp only [Bool.false_eq_true, if_false]; exact hjv)
          (by simp only [Bool.false_eq_true, if_false]; rw [hgr1]; exact hok)
        simp only [Bool.false_eq_true, if_false] at a2
        rw [hnext]
        exact ⟨it2, h2, a2, b2.trans hp2, c2.trans hgr1⟩


/-- C30: in every class of iterator (single-segment forward and reverse, u64, and
multi-segment over segments that carry their own index), from an iterator that stands
on version `j` of the record under position `pos` of its segment: when `Next` returns
and leaves the iterator valid, `Prev` after it returns and leaves the iterator valid on
the same segment and index position (hence the same record id), with the same version
index and the same `key()` and `value()`; and likewise `Next` after a `Prev` that
leaves the iterator valid. -/
theorem Next_Prev_restores (cls : IteratorClass) (mv : ZipValueMultiValue)
    (it it1 : TerarkZipTableIterator) (seg : TerarkZipSegment) (pos j : Nat)
    (hwi : cls.WellIndexed) (hat : cls.At mv it seg pos j) (hv : it1.Valid = true) :
    (cls.Next mv it = Except.ok it1 →
      ∃ it2, cls.Prev mv it1 = Except.ok it2 ∧ it2.Valid = true ∧
        it2.segment_ = it.segment_ ∧ it2.iter_ = it.iter_ ∧ it2.validx_ = it.validx_ ∧
        it2.key = it.key ∧ it2.value = it.value) ∧
    (cls.Prev mv it = Except.ok it1 →
      ∃ it2, cls.Next mv it1 = Except.ok it2 ∧ it2.Valid = true ∧
        it2.segment_ = it.segment_ ∧ it2.iter_ = it.iter_ ∧ it2.validx_ = it.validx_ ∧
        it2.key = it.key ∧ it2.value = it.value) := by
  constructor
  · intro hn
    obtain ⟨it2, h2, a, b, c⟩ := Next_then_Prev cls mv it it1 seg pos j hwi hat hn hv
    obtain ⟨s1, s2, s3, s4, s5, _⟩ := At_same cls mv it it2 seg pos j hat a c
    exact ⟨it2, h2, s1, b, s2, s3, s4, s5⟩
  · intro hn
    obtain ⟨it2, h2, a, b, c⟩ := Prev_then_Next cls mv it it1 seg pos j hwi hat hn hv
    obtain ⟨s1, s2, s3, s4, s5, _⟩ := At_same cls mv it it2 seg pos j hat a c
    exact ⟨it2, h2, s1, b, s2, s3, s4, s5⟩

/-- Witness of C30: the iterator on version 0 of the key `"abcZ"` of the sample segment;
`Next` moves to version 1 of the same record, and `Prev` after it restores version 0;
`Prev` moves to the record of the key `"abcY"`, and `Next` after it restores version 0
of `"abcZ"`. -/
theorem Next_Prev_restores_witness :
    (IteratorClass.Single false sampleSegment).At sampleMulti samplePinned sampleSegment 3 0 ∧
    (∃ it2, (IteratorClass.Single false sampleSegment).Prev sampleMulti
        (((IteratorClass.Single false sampleSegment).Next sampleMulti samplePinned).toOption.getD
          (TerarkZipTableIterator.new 100)) = Except.ok it2 ∧
      it2.Valid = true ∧ it2.segment_ = samplePinned.segment_ ∧
      it2.iter_ = samplePinned.iter_ ∧ it2.validx_ = samplePinned.validx_ ∧
      it2.key = samplePinned.key ∧ it2.value = samplePinned.value) ∧
    ∃ it2, (IteratorClass.Single false sampleSegment).Next sampleMulti
        (((IteratorClass.Single false sampleSegment).Prev sampleMulti samplePinned).toOption.getD
          (TerarkZipTableIterator.new 100)) = Except.ok it2 ∧
      it2.Valid = true ∧ it2.segment_ = samplePinned.segment_ ∧
      it2.iter_ = samplePinned.iter_ ∧ it2.validx_ = samplePinned.validx_ ∧
      it2.key = samplePinned.key ∧ it2.value = samplePinned.value :=
  have hat : (IteratorClass.Single false sampleSegment).At sampleMulti samplePinned
      sampleSegment 3 0 :=
    ⟨rfl, ⟨rfl, rfl, rfl, by decide, rfl, rfl, rfl, rfl⟩, by decide, by decide, rfl, rfl, rfl⟩
  ⟨hat, (Next_Prev_restores (IteratorClass.Single false sampleSegment) sampleMulti samplePinned
    (((IteratorClass.Single false sampleSegment).Next sampleMulti samplePinned).toOption.getD
      (TerarkZipTableIterator.new 100)) sampleSegment 3 0 trivial hat (by decide)).1 rfl,
    (Next_Prev_restores (IteratorClass.Single false sampleSegment) sampleMulti samplePinned
    (((IteratorClass.Single false sampleSegment).Prev sampleMulti samplePinned).toOption.getD
      (TerarkZipTableIterator.new 100)) sampleSegment 3 0 trivial hat (by decide)).2 rfl⟩

/-! ## The multi-segment iterator at the edge of a segment -/

/-- The segments that `Init` builds carry their own index, when there is a part for each
partition prefix. -/
theorem Init_WellIndexed (prefixLen : Nat) (pfx : List Bytes) (parts : List TerarkZipSegment)
    (reverse : Bool) (h : pfx.length ≤ parts.length) :
    (SegmentIndex.Init prefixLen pfx parts reverse).WellIndexed := by
  unfold SegmentIndex.WellIndexed SegmentIndex.Init
  dsimp only
  constructor
  · rw [List.length_zipWith, List.length_range]
    omega
  · intro i seg hs
    rw [List.getElem?_zipWith] at hs
    cases hr : (List.range pfx.length)[i]? with
    | none => rw [hr] at hs; cases hs
    | some k =>
      rw [hr] at hs
      cases hp : parts[i]? with
      | none => rw [hp] at hs; cases hs
      | some part =>
        rw [hp] at hs
        obtain rfl := Option.some.inj hs
        have := (List.getElem?_eq_some_iff.mp hr)
        obtain ⟨hlt, he⟩ := this
        rw [List.getElem_range] at he
        exact he.symm

/-- The current segment of a multi-segment iterator that has one. -/
theorem Multi_segment_some (reverse : Bool) (si : SegmentIndex) (it : TerarkZipTableIterator)
    (seg : TerarkZipSegment) (h : (IteratorClass.Multi reverse si).segment it = some seg) :
    ∃ i, it.segment_ = some i ∧ si.segments_[i]? = some seg := by
  cases hi : it.segment_ with
  | none =>
    simp only [IteratorClass.segment, hi, Option.none_bind] at h
    cases h
  | some i =>
    simp only [IteratorClass.segment, hi, Option.some_bind] at h
    exact ⟨i, rfl, h⟩

/-- The method `Next` of the forward multi-segment iterator from the last version of the
last key of the last segment: the iterator ends invalid. -/
theorem Multi_Next_end (si : SegmentIndex) (mv : ZipValueMultiValue)
    (it : TerarkZipTableIterator) (seg : TerarkZipSegment) (pos j : Nat)
    (hat : (IteratorClass.Multi false si).At mv it seg pos j)
    (hkey : pos + 1 = seg.index_.entries.length) (hver : j + 1 = seg.valnumAt mv pos)
    (hend : seg.segmentIndex_ + 1 = si.partCount_) :
    ∃ it1, (IteratorClass.Multi false si).Next mv it = Except.ok it1 ∧ it1.Valid = false := by
  obtain ⟨hseg, hh, _, _, _, _, _⟩ := hat
  obtain ⟨i, hi, hsi⟩ := Multi_segment_some false si it seg hseg
  have hn : it.valnum_ = seg.valnumAt mv pos := hh.2.2.2.2.2.2.1
  have hidx : it.validx_ = j := hh.2.1
  unfold IteratorClass.Next
  dsimp only
  rw [if_neg (by rw [hn, hidx]; omega)]
  simp only [IteratorClass.IndexIterNext, Bool.not_false]
  rw [Multi_step_eq si true { it with validx_ := it.validx_ + 1 } seg i pos hi hsi hh.1]
  have hnone : TerarkIndex.Iterator.Next seg.index_ pos = none := by
    unfold TerarkIndex.Iterator.Next
    rw [if_neg (by omega)]
  simp only [if_true, hnone, Option.isSome_none, Bool.false_eq_true, if_false]
  rw [if_pos (by omega)]
  exact unzipAndDecode_false _ mv _ false

/-- The method `Next` of the forward multi-segment iterator from the last version of the
last key of a segment that is followed by another one: the iterator ends on version 0
of the first key of the next segment, when the record under that key can be fetched and
its version 0 decodes without a fault. -/
theorem Multi_Next_cross (si : SegmentIndex) (mv : ZipValueMultiValue)
    (it : TerarkZipTableIterator) (seg seg1 : TerarkZipSegment) (pos j : Nat)
    (hwi : si.WellIndexed)
    (hat : (IteratorClass.Multi false si).At mv it seg pos j)
    (hkey : pos + 1 = seg.index_.entries.length) (hver : j + 1 = seg.valnumAt mv pos)
    (hnext : si.segments_[seg.segmentIndex_ + 1]? = some seg1)
    (hf : seg1.fetchable 0 = true) (hok : seg1.versionOk mv it.global_seqno_ 0 0 = true) :
    ∃ it1, (IteratorClass.Multi false si).Next mv it = Except.ok it1 ∧
      (IteratorClass.Multi false si).At mv it1 seg1 0 0 ∧
      it1.segment_ = some (seg.segmentIndex_ + 1) ∧
      it1.global_seqno_ = it.global_seqno_ := by
  obtain ⟨hseg, hh, _, _, _, _, _⟩ := hat
  obtain ⟨i, hi, hsi⟩ := Multi_segment_some false si it seg hseg
  have hn : it.valnum_ = seg.valnumAt mv pos := hh.2.2.2.2.2.2.1
  have hidx : it.validx_ = j := hh.2.1
  have hlt : seg.segmentIndex_ + 1 < si.segments_.length :=
    (List.getElem?_eq_some_iff.mp hnext).1
  unfold IteratorClass.Next
  dsimp only
  rw [if_neg (by rw [hn, hidx]; omega)]
  simp only [IteratorClass.IndexIterNext, Bool.not_false]
  rw [Multi_step_eq si true { it with validx_ := it.validx_ + 1 } seg i pos hi hsi hh.1]
  have hnone : TerarkIndex.Iterator.Next seg.index_ pos = none := by
    unfold TerarkIndex.Iterator.Next
    rw [if_neg (by omega)]
  simp only [if_true, hnone, Option.isSome_none, Bool.false_eq_true, if_false]
  rw [if_neg (by rw [hwi.1]; omega), enterSegment_eq si _ false _ seg1 hnext]
  have hfirst : TerarkIndex.Iterator.SeekToFirst seg1.index_ = some 0 := by
    unfold TerarkIndex.Iterator.SeekToFirst
    rw [if_neg (by have := fetchable_lt seg1 0 hf; omega)]
  simp only [Bool.false_eq_true, if_false, hfirst, Option.isSome_some]
  obtain ⟨it1, h1, h2, h3, h4⟩ := unzipAndDecode_At (IteratorClass.Multi false si) mv seg1
    { ({ ({ it with validx_ := it.validx_ + 1 } : TerarkZipTableIterator).TryPinInterKeyBuf with
      iter_ := none } : TerarkZipTableIterator) with
      segment_ := some (seg.segmentIndex_ + 1), iter_ := some 0 } 0 false
    (by simp only [IteratorClass.segment, Option.some_bind]; exact hnext) rfl hf
    (by
      simp only [Bool.false_eq_true, if_false]
      exact versionOk_lt mv seg1 it.global_seqno_ 0 0 hok (fun _ => rfl))
    (by
      simp only [Bool.false_eq_true, if_false]
      exact ((congrArg (fun g => seg1.versionOk mv g 0 0)
        (TryPinInterKeyBuf_fields { it with validx_ := it.validx_ + 1 }).2.1).trans hok))
  simp only [Bool.false_eq_true, if_false] at h2
  exact ⟨it1, h1, h2, h3, h4.trans (TryPinInterKeyBuf_fields _).2.1⟩

/-- The method `Prev` of the forward multi-segment iterator from version 0 of the first
key of a segment that follows another one: the iterator ends on the last version of the
last key of the segment before, when the record under that key can be fetched and its
last version decodes without a fault. -/
theorem Multi_Prev_cross (si : SegmentIndex) (mv : ZipValueMultiValue)
    (it : TerarkZipTableIterator) (seg seg1 : TerarkZipSegment)
    (hat : (IteratorClass.Multi false si).At mv it seg 0 0)
    (hpos : 0 < seg.segmentIndex_)
    (hprev : si.segments_[seg.segmentIndex_ - 1]? = some seg1)
    (hf : seg1.fetchable (seg1.index_.entries.length - 1) = true)
    (hok : seg1.versionOk mv it.global_seqno_ (seg1.index_.entries.length - 1)
      (seg1.valnumAt mv (seg1.index_.entries.length - 1) - 1) = true) :
    ∃ it1, (IteratorClass.Multi false si).Prev mv it = Except.ok it1 ∧
      (IteratorClass.Multi false si).At mv it1 seg1 (seg1.index_.entries.length - 1)
        (seg1.valnumAt mv (seg1.index_.entries.length - 1) - 1) ∧
      it1.segment_ = some (seg.segmentIndex_ - 1) ∧
      it1.global_seqno_ = it.global_seqno_ := by
  obtain ⟨hseg, hh, _, _, _, _, _⟩ := hat
  obtain ⟨i, hi, hsi⟩ := Multi_segment_some false si it seg hseg
  have hidx : it.validx_ = 0 := hh.2.1
  unfold IteratorClass.Prev
  rw [if_neg (by rw [hidx]; omega)]
  simp only [IteratorClass.IndexIterPrev]
  rw [Multi_step_eq si false it seg i 0 hi hsi hh.1]
  have hnone : TerarkIndex.Iterator.Prev seg.index_ 0 = none := by
    unfold TerarkIndex.Iterator.Prev
    simp
  simp only [Bool.false_eq_true, if_false, hnone, Option.isSome_none]
  rw [if_neg (by omega), enterSegment_eq si _ true _ seg1 hprev]
  have hlast : TerarkIndex.Iterator.SeekToLast seg1.index_ =
      some (seg1.index_.entries.length - 1) := by
    unfold TerarkIndex.Iterator.SeekToLast
    rw [if_neg (by have := fetchable_lt seg1 _ hf; omega)]
  simp only [if_true, hlast, Option.isSome_some]
  have hnm : seg1.typeAt (seg1.index_.entries.length - 1) ≠ kMulti →
      seg1.valnumAt mv (seg1.index_.entries.length - 1) - 1 = 0 := by
    intro hne
    unfold TerarkZipSegment.valnumAt
    rw [if_neg hne]
  obtain ⟨it1, h1, h2, h3, h4⟩ := unzipAndDecode_At (IteratorClass.Multi false si) mv seg1
    { ({ it.TryPinInterKeyBuf with iter_ := none } : TerarkZipTableIterator) with
      segment_ := some (seg.segmentIndex_ - 1),
      iter_ := some (seg1.index_.entries.length - 1) } (seg1.index_.entries.length - 1) true
    (by simp only [IteratorClass.segment, Option.some_bind]; exact hprev) rfl hf
    (by
      simp only [if_true]
      exact versionOk_lt mv seg1 it.global_seqno_ _ _ hok hnm)
    (by
      simp only [if_true]
      exact ((congrArg (fun g => seg1.versionOk mv g (seg1.index_.entries.length - 1)
          (seg1.valnumAt mv (seg1.index_.entries.length - 1) - 1))
        (TryPinInterKeyBuf_fields it).2.1).trans hok))
  simp only [if_true] at h2
  exact ⟨it1, h1, h2, h3, h4.trans (TryPinInterKeyBuf_fields _).2.1⟩

/-- C22: a forward multi-segment iterator over segments that carry their own index
stands on version `j` of the record under position `pos` of segment
`i = seg.segmentIndex_`. From the last version of the last key of the segment, `Next`
leaves the iterator invalid when the segment is the last one, and else leaves it on
version 0 of the first key of segment `i + 1`, provided that key is there and its
record can be fetched and decoded. From version 0 of the first key of a segment `i > 0`,
`Prev` leaves the iterator on the last version of the last key of segment `i - 1`,
under the same proviso. -/
theorem Multi_edge_steps (si : SegmentIndex) (mv : ZipValueMultiValue)
    (it : TerarkZipTableIterator) (seg : TerarkZipSegment) (pos j : Nat)
    (hwi : si.WellIndexed)
    (hat : (IteratorClass.Multi false si).At mv it seg pos j) :
    it.segment_ = some seg.segmentIndex_ ∧
    (pos + 1 = seg.index_.entries.length → j + 1 = seg.valnumAt mv pos →
      (seg.segmentIndex_ + 1 = si.partCount_ →
        ∃ it1, (IteratorClass.Multi false si).Next mv it = Except.ok it1 ∧
          it1.Valid = false) ∧
      (seg.segmentIndex_ + 1 < si.partCount_ →
        ∃ seg1, si.segments_[seg.segmentIndex_ + 1]? = some seg1 ∧
          (seg1.fetchable 0 = true → seg1.versionOk mv it.global_seqno_ 0 0 = true →
            ∃ it1, (IteratorClass.Multi false si).Next mv it = Except.ok it1 ∧
              (IteratorClass.Multi false si).At mv it1 seg1 0 0 ∧
              it1.segment_ = some (seg.segmentIndex_ + 1) ∧
              it1.global_seqno_ = it.global_seqno_))) ∧
    (pos = 0 → j = 0 → 0 < seg.segmentIndex_ →
      ∃ seg1, si.segments_[seg.segmentIndex_ - 1]? = some seg1 ∧
        (seg1.fetchable (seg1.index_.entries.length - 1) = true →
          seg1.versionOk mv it.global_seqno_ (seg1.index_.entries.length - 1)
            (seg1.valnumAt mv (seg1.index_.entries.length - 1) - 1) = true →
          ∃ it1, (IteratorClass.Multi false si).Prev mv it = Except.ok it1 ∧
            (IteratorClass.Multi false si).At mv it1 seg1 (seg1.index_.entries.length - 1)
              (seg1.valnumAt mv (seg1.index_.entries.length - 1) - 1) ∧
            it1.segment_ = some (seg.segmentIndex_ - 1) ∧
            it1.global_seqno_ = it.global_seqno_)) := by
  obtain ⟨i, hi, hsi⟩ := Multi_segment_some false si it seg hat.1
  have hidx : seg.segmentIndex_ = i := hwi.2 i seg hsi
  have hilt : i < si.segments_.length := (List.getElem?_eq_some_iff.mp hsi).1
  refine ⟨by rw [hidx]; exact hi, ?_, ?_⟩
  · intro hkey hver
    constructor
    · intro hend
      exact Multi_Next_end si mv it seg pos j hat hkey hver hend
    · intro hlt
      have hlt1 : seg.segmentIndex_ + 1 < si.segments_.length := by
        rw [← hwi.1]
        exact hlt
      refine ⟨si.segments_[seg.segmentIndex_ + 1], List.getElem?_eq_getElem hlt1, ?_⟩
      intro hf hok
      exact Multi_Next_cross si mv it seg _ pos j hwi hat hkey hver
        (List.getElem?_eq_getElem hlt1) hf hok
  · intro hp hj hpos
    subst hp
    subst hj
    have hlt1 : seg.segmentIndex_ - 1 < si.segments_.length := by omega
    refine ⟨si.segments_[seg.segmentIndex_ - 1], List.getElem?_eq_getElem hlt1, ?_⟩
    intro hf hok
    exact Multi_Prev_cross si mv it seg _ hat hpos
      (List.getElem?_eq_getElem hlt1) hf hok

/-- Witness of C22: the iterator over the healthy sample table on the last version of
the last key `"p1abcZm"` of partition `"p1"`; `Next` leaves it on version 0 of the
first key `"p2abcW"` of partition `"p2"`. -/
theorem Multi_edge_steps_witness :
    healthySegmentIndex.WellIndexed ∧
    (IteratorClass.Multi false healthySegmentIndex).At sampleMulti sampleMultiEdge
      (healthyPartition 0) 4 1 ∧
    ∃ it1, (IteratorClass.Multi false healthySegmentIndex).Next sampleMulti sampleMultiEdge =
        Except.ok it1 ∧
      it1.Valid = true ∧ it1.segment_ = some 1 ∧
      it1.key = [0x70, 0x32] ++ abc ++ [0x57] ++ packed8 30 0 := by
  have hwi : healthySegmentIndex.WellIndexed :=
    Init_WellIndexed 2 samplePrefixes [healthySegment, healthySegment, healthySegment] false
      (by decide)
  have hat : (IteratorClass.Multi false healthySegmentIndex).At sampleMulti sampleMultiEdge
      (healthyPartition 0) 4 1 :=
    ⟨rfl, ⟨rfl, rfl, rfl, by decide, rfl, rfl, rfl, rfl⟩, by decide, by decide, rfl, rfl, rfl⟩
  obtain ⟨seg1, hs1, h⟩ := ((Multi_edge_steps healthySegmentIndex sampleMulti sampleMultiEdge
    (healthyPartition 0) 4 1 hwi hat).2.1 (by decide) (by decide)).2 (by decide)
  obtain rfl : healthyPartition 1 = seg1 := Option.some.inj hs1
  obtain ⟨it1, h1, h2, h3, h4⟩ := h (by decide) (by decide)
  refine ⟨hwi, hat, it1, h1, ?_, h3, ?_⟩
  · unfold TerarkZipTableIterator.Valid
    rw [h2.2.1.1]
    rfl
  · rw [h2.2.2.2.2.2.1, h4]
    decide

/-! ## Every class of iterator: `Seek` on a key that is stored -/

/-- In every class, the version walk of `SeekInternal` stops on the first version from
`validx_` on whose sequence is at most the target sequence. -/
theorem seekVersion_At (cls : IteratorClass) (mv : ZipValueMultiValue)
    (seg : TerarkZipSegment) (g pos s j1 : Nat)
    (hok : ∀ i, i < seg.valnumAt mv pos → seg.versionOk mv g pos i = true)
    (hj1 : j1 < seg.valnumAt mv pos) (hs : (seg.versionAt mv g pos j1).1 ≤ s) :
    ∀ (k j fuel : Nat) (it : TerarkZipTableIterator), cls.segment it = some seg →
      it.global_seqno_ = g → it.Holds mv seg g pos j →
      j1 = j + k → k ≤ fuel → (∀ i, j ≤ i → i < j1 → s < (seg.versionAt mv g pos i).1) →
      ∃ it1, cls.seekVersion mv s fuel it = Except.ok (it1, true) ∧
        cls.At mv it1 seg pos j1 ∧ it1.global_seqno_ = g ∧ it1.segment_ = it.segment_ := by
  intro k
  induction k with
  | zero =>
    intro j fuel it hseg hg hh hj _ _
    obtain rfl : j1 = j := hj
    subst hg
    obtain ⟨it1, h1, h2, h3, h4, _⟩ :=
      DecodeCurrKeyValue_At cls mv seg it pos j1 hseg hh hj1 (hok _ hj1)
    have hseq : it1.pInterKey_.sequence ≤ s := by
      rw [h2.2.2.2.2.1, h4]
      exact hs
    unfold IteratorClass.seekVersion
    rw [h1]
    dsimp only
    rw [if_pos hseq]
    exact ⟨it1, rfl, h2, h4, h3⟩
  | succ k ih =>
    intro j fuel it hseg hg hh hj hfuel hnot
    obtain ⟨fuel, rfl⟩ : ∃ f, fuel = f + 1 := ⟨fuel - 1, by omega⟩
    subst hg
    obtain ⟨it1, h1, h2, h3, h4, _⟩ :=
      DecodeCurrKeyValue_At cls mv seg it pos j hseg hh (by omega) (hok _ (by omega))
    have hseq : ¬ it1.pInterKey_.sequence ≤ s := by
      rw [h2.2.2.2.2.1, h4]
      exact Nat.not_le.mpr (hnot j (Nat.le_refl _) (by omega))
    have hidx : it1.validx_ = j := h2.2.1.2.1
    have hnum : it1.valnum_ = seg.valnumAt mv pos := h2.2.1.2.2.2.2.2.2.1
    have hh1 : it1.Holds mv seg it.global_seqno_ pos j := by
      have := h2.2.1
      rw [h4] at this
      exact this
    obtain ⟨it2, h5, h6, h7, h8⟩ := ih (j + 1) fuel { it1 with validx_ := it1.validx_ + 1 }
      ((segment_congr cls _ it1 rfl).trans h2.1) h4
      (by rw [hidx]; exact Holds_set_validx mv seg _ it1 pos j _ hh1) (by omega) (by omega)
      (fun i hi hi1 => hnot i (by omega) hi1)
    unfold IteratorClass.seekVersion
    rw [h1]
    dsimp only
    rw [if_neg hseq, if_pos (by rw [hidx, hnum]; omega)]
    exact ⟨it2, h5, h6, h7, h8.trans h3⟩

/-- In every class, the branch of `SeekInternal` for a target that carries the whole
common prefix of the current segment. -/
theorem SeekInternal_aligned (cls : IteratorClass) (mv : ZipValueMultiValue)
    (seg : TerarkZipSegment) (it : TerarkZipTableIterator) (pikey : ParsedInternalKey)
    (found : Option Nat × Int) (hseg : cls.segment it = some seg)
    (h : seg.commonPrefix_.length = difference_offset pikey.user_key seg.commonPrefix_)
    (hfound : TerarkZipTableIterator.seekCursor cls.reverse seg.index_
      (pikey.user_key.drop seg.commonPrefix_.length) = found) :
    cls.SeekInternal mv it pikey =
      match cls.UnzipIterRecord mv
          { it.TryPinInterKeyBuf with iter_ := found.1 } found.1.isSome with
      | Except.error e => Except.error e
      | Except.ok u =>
        if u.2 then
          if found.2 = 0 then
            match cls.seekVersion mv pikey.sequence u.1.valnum_ u.1 with
            | Except.error e => Except.error e
            | Except.ok v => if v.2 then Except.ok v.1 else cls.Next mv v.1
          else cls.DecodeCurrKeyValue mv u.1
        else Except.ok u.1 := by
  subst hfound
  have hseg0 : cls.segment it.TryPinInterKeyBuf = some seg :=
    (segment_congr cls _ it (TryPinInterKeyBuf_fields it).2.2.2.2.2.2.2.2.2.2).trans hseg
  unfold IteratorClass.SeekInternal
  simp only [hseg0]
  rw [← h, if_neg (fun hne => hne rfl)]

/-- In every class, `SeekInternal` on a target that carries the whole common prefix and
is found exactly, on a well-formed record with a version whose sequence is at most the
target sequence: the iterator ends on the first such version. -/
theorem SeekInternal_exact_At (cls : IteratorClass) (mv : ZipValueMultiValue)
    (seg : TerarkZipSegment) (it : TerarkZipTableIterator)
    (pikey : ParsedInternalKey) (p j : Nat) (hseg : cls.segment it = some seg)
    (h : seg.commonPrefix_.length = difference_offset pikey.user_key seg.commonPrefix_)
    (hfound : TerarkZipTableIterator.seekCursor cls.reverse seg.index_
      (pikey.user_key.drop seg.commonPrefix_.length) = (some p, 0))
    (hok : seg.recordOk mv it.global_seqno_ p = true) (hj : j < seg.valnumAt mv p)
    (hs : (seg.versionAt mv it.global_seqno_ p j).1 ≤ pikey.sequence)
    (hnot : ∀ i, i < j → pikey.sequence < (seg.versionAt mv it.global_seqno_ p i).1) :
    ∃ it1, cls.SeekInternal mv it pikey = Except.ok it1 ∧ cls.At mv it1 seg p j ∧
      it1.global_seqno_ = it.global_seqno_ := by
  rw [SeekInternal_aligned cls mv seg it pikey _ hseg h hfound]
  obtain ⟨hf, hv, hall⟩ := (recordOk_iff mv seg _ p).mp hok
  have hg0 : ({ it.TryPinInterKeyBuf with iter_ := some p } :
      TerarkZipTableIterator).global_seqno_ = it.global_seqno_ :=
    (TryPinInterKeyBuf_fields it).2.1
  obtain ⟨u, hu, hh, hs1, hg1⟩ := UnzipIterRecord_fetchable cls mv seg
    { it.TryPinInterKeyBuf with iter_ := some p } p
    ((segment_congr cls _ it (TryPinInterKeyBuf_fields it).2.2.2.2.2.2.2.2.2.2).trans hseg)
    rfl hf
  rw [hg0] at hh hg1
  have hnum : u.valnum_ = seg.valnumAt mv p := hh.2.2.2.2.2.2.1
  have hsegu : cls.segment u = some seg :=
    (segment_congr cls u _ hs1).trans
      ((segment_congr cls _ it (TryPinInterKeyBuf_fields it).2.2.2.2.2.2.2.2.2.2).trans hseg)
  obtain ⟨v, hv1, hv2, hv3, _⟩ := seekVersion_At cls mv seg it.global_seqno_ p pikey.sequence
    j hall hj hs j 0 u.valnum_ u hsegu hg1 hh (by omega) (by omega) (fun i _ hi => hnot i hi)
  simp only [Option.isSome_some, hu, if_true, hv1]
  exact ⟨v, rfl, hv2, hv3⟩

/-! ## The u64 comparator: byte-swapping on the way in and on the way out -/

/-- A parsed internal key: the user key is the key without its last 8 bytes. -/
theorem ParseInternalKey_user_key (validType : Nat → Bool) (ikey : Bytes)
    (pikey : ParsedInternalKey) (h : ParseInternalKey validType ikey = some pikey) :
    8 ≤ ikey.length ∧ pikey.user_key = ikey.take (ikey.length - 8) := by
  unfold ParseInternalKey at h
  dsimp only at h
  split at h
  · cases h
  · split at h
    · obtain rfl := Option.some.inj h
      exact ⟨by omega, rfl⟩
    · cases h

/-- The `kMulti` loop hands the visitor the user key of the caller. -/
theorem GetMulti_calls_user_key {σ : Type} (gc : GetContext σ) (pikey : ParsedInternalKey) :
    ∀ (vs : List Bytes) (st : σ) (o : σ × List SaveCall),
      TerarkZipSegment.GetMulti gc pikey vs st = some o →
      ∀ c ∈ o.2, c.key.user_key = pikey.user_key := by
  intro vs
  induction vs with
  | nil =>
    intro st o h c hc
    simp [TerarkZipSegment.GetMulti] at h
    subst h
    simp at hc
  | cons val rest ih =>
    intro st o h c hc
    unfold TerarkZipSegment.GetMulti at h
    split at h
    · exact absurd h (by simp)
    · dsimp only at h
      split at h
      · split at h
        · simp only [Option.some.injEq] at h
          subst h
          simp only [List.mem_singleton] at hc
          subst hc
          rfl
        · simp only [Option.map_eq_some'] at h
          obtain ⟨o', ho', rfl⟩ := h
          simp only [List.mem_cons] at hc
          rcases hc with rfl | hc
          · rfl
          · exact ih _ _ ho' c hc
      · exact ih _ _ h c hc

/-- The switch of `Get` hands the visitor the user key of the caller. -/
theorem GetDecode_calls_user_key {σ : Type} (mv : ZipValueMultiValue) (g : Nat)
    (gc : GetContext σ) (pikey : ParsedInternalKey) (t : Nat) (buf : Bytes) (st : σ)
    (o : Status × σ × List SaveCall)
    (h : TerarkZipSegment.GetDecode mv g gc pikey t buf st = some o) :
    ∀ c ∈ o.2.2, c.key.user_key = pikey.user_key := by
  intro c hc
  unfold TerarkZipSegment.GetDecode at h
  split at h
  · simp only [Option.some.injEq] at h
    subst h
    simp only [List.mem_singleton] at hc
    subst hc
    rfl
  · split at h
    · split at h
      · exact absurd h (by simp)
      · dsimp only at h
        split at h
        · simp only [Option.some.injEq] at h
          subst h
          simp only [List.mem_singleton] at hc
          subst hc
          rfl
        · simp only [Option.some.injEq] at h
          subst h
          simp at hc
    · split at h
      · split at h
        · exact absurd h (by simp)
        · dsimp only at h
          split at h
          · simp only [Option.some.injEq] at h
            subst h
            simp only [List.mem_singleton] at hc
            subst hc
            rfl
          · simp only [Option.some.injEq] at h
            subst h
            simp at hc
      · split at h
        · simp only [Option.map_eq_some'] at h
          obtain ⟨o', ho', rfl⟩ := h
          exact GetMulti_calls_user_key gc pikey _ _ _ ho' c hc
        · simp only [Option.some.injEq] at h
          subst h
          simp at hc

/-- With or without the u64 flag, `Get` hands the visitor the user key parsed from the
key of the caller, as it is. -/
theorem Get_calls_user_key {σ : Type} (validType : Nat → Bool) (mv : ZipValueMultiValue)
    (seg : TerarkZipSegment) (g : Nat) (ikey : Bytes) (gc : GetContext σ) (st : σ)
    (flag : Bool) (pikey : ParsedInternalKey) (o : GetOutcome σ)
    (hparse : ParseInternalKey validType ikey = some pikey)
    (h : seg.Get validType mv g ikey gc st flag = some o) :
    ∀ c ∈ o.calls, c.key.user_key = pikey.user_key := by
  intro c hc
  unfold TerarkZipSegment.Get at h
  rw [hparse] at h
  dsimp only at h
  split at h
  · obtain rfl := Option.some.inj h
    simp at hc
  · split at h
    · cases h
    · split at h
      · obtain rfl := Option.some.inj h
        simp at hc
      · split at h
        · cases h
        · split at h
          · obtain rfl := Option.some.inj h
            simp at hc
          · simp only [Option.map_eq_some'] at h
            obtain ⟨o', ho', rfl⟩ := h
            exact GetDecode_calls_user_key mv g gc pikey _ _ st o' ho' c hc

/-- The method `Seek` of the u64 iterator on a target that parses. -/
theorem Uint64_Seek_eq (validType : Nat → Bool) (mv : ZipValueMultiValue)
    (seg : TerarkZipSegment) (it : TerarkZipTableIterator) (target : Bytes)
    (pikey : ParsedInternalKey) (hparse : ParseInternalKey validType target = some pikey) :
    (IteratorClass.Uint64 seg).Seek validType mv it target =
      (IteratorClass.Uint64 seg).SeekInternal mv it
        { pikey with user_key := byte_swap (target.take 8) } := by
  simp only [IteratorClass.Seek, hparse]

/-! ## `Get` with the u64 flag on a stored key -/

/-- The keys of a sorted index are pairwise different. -/
theorem Sorted_nodup (index : TerarkIndex) (hs : index.Sorted) :
    (index.entries.map Prod.fst).Nodup := by
  unfold TerarkIndex.Sorted at hs
  unfold List.Nodup
  rw [List.pairwise_map]
  refine hs.imp ?_
  intro a b hab heq
  rw [heq, fstring_lt_irrefl] at hab
  exact Bool.noConfusion hab

/-- The `kMulti` loop of `Get` over versions of 8 bytes or more returns, and its first
invocation of the visitor is for the first version whose sequence is at most the
caller sequence. -/
theorem GetMulti_first_visible {σ : Type} (gc : GetContext σ) (pikey : ParsedInternalKey) :
    ∀ (vs : List Bytes) (st : σ) (j : Nat), (∀ val ∈ vs, 8 ≤ val.length) →
      j < vs.length → versionSeq (vs.getD j []) ≤ pikey.sequence →
      (∀ i, i < j → pikey.sequence < versionSeq (vs.getD i [])) →
      ∃ o, TerarkZipSegment.GetMulti gc pikey vs st = some o ∧
        o.2.head? = some (versionCall pikey.user_key (vs.getD j [])) := by
  intro vs
  induction vs with
  | nil =>
    intro st j _ hj
    simp at hj
  | cons val rest ih =>
    intro st j hlen hj hvis hmin
    have hval : ¬ val.length < 8 := by
      have := hlen val (List.mem_cons_self _ _)
      omega
    have hrest : ∀ v ∈ rest, 8 ≤ v.length := fun v hv => hlen v (List.mem_cons_of_mem _ hv)
    unfold TerarkZipSegment.GetMulti
    rw [if_neg hval]
    dsimp only
    cases j with
    | zero =>
      have h0 : (UnPackSequenceAndType (DecodeFixed64 val)).1 ≤ pikey.sequence := hvis
      rw [if_pos h0]
      split
      · exact ⟨_, rfl, rfl⟩
      · rw [GetMulti_eq_visitUntilNoMore gc pikey rest _ hrest]
        exact ⟨_, rfl, rfl⟩
    | succ j1 =>
      have h0 : ¬ (UnPackSequenceAndType (DecodeFixed64 val)).1 ≤ pikey.sequence := by
        have := hmin 0 (by omega)
        have h1 : versionSeq ((val :: rest).getD 0 []) =
            (UnPackSequenceAndType (DecodeFixed64 val)).1 := rfl
        rw [h1] at this
        omega
      rw [if_neg h0]
      have hj1 : j1 < rest.length := by
        simp only [List.length_cons] at hj
        omega
      obtain ⟨o, ho1, ho2⟩ := ih st j1 hrest hj1
        (by simpa using hvis)
        (fun i hi => by simpa using hmin (i + 1) (by omega))
      refine ⟨o, ho1, ?_⟩
      rw [ho2]
      simp

/-- A version of a `Multi` record that decodes without a fault: the version record has 8
bytes or more, and the sequence, type and value are those of its `packed8` and its
rest. -/
theorem versionAt_multi_eq (mv : ZipValueMultiValue) (seg : TerarkZipSegment) (g pos j : Nat)
    (ht : seg.typeAt pos = kMulti) (hok : seg.versionOk mv g pos j = true) :
    ∃ d, (mv.decode (seg.payloadAt pos))[j]? = some d ∧ 8 ≤ d.length ∧
      seg.versionAt mv g pos j = ((UnPackSequenceAndType (DecodeFixed64 d)).1,
        (UnPackSequenceAndType (DecodeFixed64 d)).2, d.drop 8) := by
  have hdv := (versionOk_iff mv seg g pos j).mp hok
  unfold decodeVersion at hdv
  rw [ht] at hdv
  simp only [kMulti, kZeroSeq, kValue, kDelete, OfNat.ofNat_ne_zero, if_false,
    Nat.reduceEqDiff, if_true] at hdv
  cases hd : (mv.decode (seg.payloadAt pos))[j]? with
  | none => rw [hd] at hdv; cases hdv
  | some d =>
    rw [hd] at hdv
    dsimp only at hdv
    split at hdv
    · cases hdv
    · exact ⟨d, rfl, by omega, (Except.ok.inj hdv).symm⟩

/-- The method `Get` with the u64 flag, on a target `k@s` whose 8-byte user key `k` is
stored byte-swapped under position `pos` of a sorted index of a segment without
partition prefix, with a well-formed record whose first version of sequence at most `s`
is version `j`: `Get` looks up the byte-swapped key, fetches the record and returns
`OK`, and the first invocation of the visitor is for version `j`, with the user key `k`
as the caller wrote it. -/
theorem Get_stored_u64_key {σ : Type} (validType : Nat → Bool) (mv : ZipValueMultiValue)
    (seg : TerarkZipSegment) (g : Nat) (target : Bytes) (pikey : ParsedInternalKey)
    (pos j : Nat) (gc : GetContext σ) (st : σ)
    (hparse : ParseInternalKey validType target = some pikey)
    (hlen : pikey.user_key.length = 8)
    (hnopart : seg.prefix_ = [])
    (hsorted : seg.index_.Sorted)
    (hstored : byte_swap pikey.user_key = seg.commonPrefix_ ++ seg.keyAt pos)
    (hok : seg.recordOk mv g pos = true)
    (hj : j < seg.valnumAt mv pos)
    (hvis : (seg.versionAt mv g pos j).1 ≤ pikey.sequence)
    (hmin : ∀ i, i < j → pikey.sequence < (seg.versionAt mv g pos i).1) :
    ∃ o, seg.Get validType mv g target gc st true = some o ∧ o.status = Status.OK ∧
      o.calls.head? = some ⟨⟨pikey.user_key, (seg.versionAt mv g pos j).1,
        (seg.versionAt mv g pos j).2.1⟩, (seg.versionAt mv g pos j).2.2⟩ ∧
      o.finds = [seg.keyAt pos] ∧ o.fetches = [seg.recIdAt pos] := by
  obtain ⟨h8, huk⟩ := ParseInternalKey_user_key validType target pikey hparse
  have htake : target.take 8 = pikey.user_key := by
    have hl : target.length - 8 = 8 := by
      have := congrArg List.length huk
      rw [hlen, List.length_take] at this
      omega
    rw [huk, hl]
  have hu : TerarkZipSegment.GetUserKey true target pikey =
      seg.commonPrefix_ ++ seg.keyAt pos := by
    unfold TerarkZipSegment.GetUserKey
    rw [if_pos rfl, htake, hstored]
  obtain ⟨hfe, hpos1, hvers⟩ := (recordOk_iff mv seg g pos).mp hok
  obtain ⟨hent, hzv, hst⟩ := (fetchable_iff seg pos).mp hfe
  have hmem : (seg.keyAt pos, seg.recIdAt pos) ∈ seg.index_.entries := by
    obtain ⟨hi, he⟩ := List.getElem?_eq_some_iff.mp hent
    rw [← he]
    exact List.getElem_mem _
  have hloc : seg.Locates validType target true pikey (seg.recIdAt pos) := by
    refine ⟨hparse, ?_, ?_, ?_⟩
    · rw [hu, difference_offset_eq_length _ _ (List.prefix_append _ _)]
    · rw [hu, hnopart]
      simp
    · rw [hu, hnopart]
      simp only [List.length_nil, Nat.add_zero, List.drop_left]
      exact Find_of_mem seg.index_ _ _ (Sorted_nodup seg.index_ hsorted) hmem
  have hfk : seg.FindKey true target pikey = seg.keyAt pos := by
    unfold TerarkZipSegment.FindKey
    rw [hu, hnopart]
    simp
  rw [Get_of_Locates validType mv seg g target gc st true pikey (seg.recIdAt pos)
    (seg.typeAt pos) (seg.payloadAt pos) hloc hzv hst, hfk]
  have hdec : ∃ r, TerarkZipSegment.GetDecode mv g gc pikey (seg.typeAt pos)
      (seg.payloadAt pos) st = some r ∧ r.1 = Status.OK ∧
      r.2.2.head? = some ⟨⟨pikey.user_key, (seg.versionAt mv g pos j).1,
        (seg.versionAt mv g pos j).2.1⟩, (seg.versionAt mv g pos j).2.2⟩ := by
    have hdv := (versionOk_iff mv seg g pos j).mp (hvers j hj)
    unfold TerarkZipSegment.GetDecode
    by_cases h0 : seg.typeAt pos = kZeroSeq
    · unfold decodeVersion at hdv
      rw [if_pos h0] at hdv
      have e := Except.ok.inj hdv
      rw [if_pos h0]
      refine ⟨_, rfl, rfl, ?_⟩
      rw [← e]
      rfl
    · rw [if_neg h0]
      by_cases h2 : seg.typeAt pos = kValue
      · unfold decodeVersion at hdv
        rw [if_neg h0, if_pos h2] at hdv
        rw [if_pos h2]
        by_cases h7 : (seg.payloadAt pos).length < 7
        · rw [if_pos h7] at hdv
          cases hdv
        · rw [if_neg h7] at hdv
          have e := Except.ok.inj hdv
          rw [if_neg h7]
          dsimp only
          rw [← e] at hvis
          rw [if_pos hvis]
          refine ⟨_, rfl, rfl, ?_⟩
          rw [← e]
          rfl
      · rw [if_neg h2]
        by_cases h1 : seg.typeAt pos = kDelete
        · unfold decodeVersion at hdv
          rw [if_neg h0, if_neg h2, if_pos h1] at hdv
          rw [if_pos h1]
          by_cases h7 : (seg.payloadAt pos).length < 7
          · rw [if_pos h7] at hdv
            cases hdv
          · rw [if_neg h7] at hdv
            have e := Except.ok.inj hdv
            rw [if_neg h7]
            dsimp only
            rw [← e] at hvis
            rw [if_pos hvis]
            refine ⟨_, rfl, rfl, ?_⟩
            rw [← e]
            rfl
        · rw [if_neg h1]
          by_cases h3 : seg.typeAt pos = kMulti
          · rw [if_pos h3]
            have hnum : seg.valnumAt mv pos = (mv.decode (seg.payloadAt pos)).length := by
              unfold TerarkZipSegment.valnumAt
              rw [if_pos h3]
            have hat : ∀ i, i < seg.valnumAt mv pos →
                8 ≤ ((mv.decode (seg.payloadAt pos)).getD i []).length ∧
                seg.versionAt mv g pos i =
                  ((UnPackSequenceAndType (DecodeFixed64
                    ((mv.decode (seg.payloadAt pos)).getD i []))).1,
                  (UnPackSequenceAndType (DecodeFixed64
                    ((mv.decode (seg.payloadAt pos)).getD i []))).2,
                  ((mv.decode (seg.payloadAt pos)).getD i []).drop 8) := by
              intro i hi
              obtain ⟨d, hd1, hd2, hd3⟩ := versionAt_multi_eq mv seg g pos i h3 (hvers i hi)
              have hgd : (mv.decode (seg.payloadAt pos)).getD i [] = d := by
                rw [List.getD_eq_getElem?_getD, hd1]
                rfl
              rw [hgd]
              exact ⟨hd2, hd3⟩
            have hall : ∀ val ∈ mv.decode (seg.payloadAt pos), 8 ≤ val.length := by
              intro val hval
              obtain ⟨i, hi, rfl⟩ := List.getElem_of_mem hval
              have := (hat i (by rw [hnum]; exact hi)).1
              rw [List.getD_eq_getElem _ _ hi] at this
              exact this
            obtain ⟨o, ho1, ho2⟩ := GetMulti_first_visible gc pikey
              (mv.decode (seg.payloadAt pos)) st j hall (by rw [← hnum]; exact hj)
              (by
                have := (hat j hj).2
                unfold versionSeq
                rw [this] at hvis
                exact hvis)
              (by
                intro i hi
                have := (hat i (by omega)).2
                have hm := hmin i hi
                unfold versionSeq
                rw [this] at hm
                exact hm)
            rw [ho1]
            refine ⟨_, rfl, rfl, ?_⟩
            show o.2.head? = _
            rw [ho2, (hat j hj).2]
            rfl
          · unfold decodeVersion at hdv
            rw [if_neg h0, if_neg h2, if_neg h1, if_neg h3] at hdv
            cases hdv
  obtain ⟨r, hr, hr1, hr2⟩ := hdec
  rw [hr]
  exact ⟨_, rfl, hr1, hr2, rfl, rfl⟩

/-- C24: the u64 iterator and `Get` with the u64 flag, on a target `k@s` whose user key
`k` has 8 bytes and is stored, byte-swapped, under position `pos` of a sorted index
(`byte_swap k = common_prefix || index_key`), with a well-formed record that has a
version of sequence at most `s`. `Seek(k@s)` leaves the iterator valid on the first such
version, and the first 8 bytes of `key()` are `k`. `Get(k@s)` on the segment of a
single-segment table (no partition prefix) looks up the byte-swapped key, fetches the
record and returns `OK`; its first invocation of the visitor is for that same version
and carries the user key `k` of the caller, not the byte-swapped one, as does every
invocation that any `Get(k@s)` makes. Swapping twice gives `k` back. -/
theorem Uint64_Seek_Get_original_key (validType : Nat → Bool) (mv : ZipValueMultiValue)
    (seg : TerarkZipSegment) (it : TerarkZipTableIterator) (target : Bytes)
    (pikey : ParsedInternalKey) (pos : Nat)
    (hparse : ParseInternalKey validType target = some pikey)
    (hlen : pikey.user_key.length = 8)
    (hsorted : seg.index_.Sorted) (hpos : pos < seg.index_.entries.length)
    (hstored : byte_swap pikey.user_key = seg.commonPrefix_ ++ seg.keyAt pos)
    (hok : seg.recordOk mv it.global_seqno_ pos = true)
    (hvis : ∃ j, j < seg.valnumAt mv pos ∧
      (seg.versionAt mv it.global_seqno_ pos j).1 ≤ pikey.sequence) :
    (∃ it1 j, (IteratorClass.Uint64 seg).Seek validType mv it target = Except.ok it1 ∧
      it1.Valid = true ∧ it1.key.take 8 = pikey.user_key ∧
      (IteratorClass.Uint64 seg).At mv it1 seg pos j ∧
      (seg.versionAt mv it.global_seqno_ pos j).1 ≤ pikey.sequence ∧
      ∀ i, i < j → pikey.sequence < (seg.versionAt mv it.global_seqno_ pos i).1) ∧
    (seg.prefix_ = [] → ∀ (σ : Type) (gc : GetContext σ) (st : σ),
      ∃ o j, seg.Get validType mv it.global_seqno_ target gc st true = some o ∧
        o.status = Status.OK ∧ o.finds = [seg.keyAt pos] ∧ o.fetches = [seg.recIdAt pos] ∧
        j < seg.valnumAt mv pos ∧
        (seg.versionAt mv it.global_seqno_ pos j).1 ≤ pikey.sequence ∧
        (∀ i, i < j → pikey.sequence < (seg.versionAt mv it.global_seqno_ pos i).1) ∧
        o.calls.head? = some ⟨⟨pikey.user_key, (seg.versionAt mv it.global_seqno_ pos j).1,
            (seg.versionAt mv it.global_seqno_ pos j).2.1⟩,
          (seg.versionAt mv it.global_seqno_ pos j).2.2⟩ ∧
        ∀ c ∈ o.calls, c.key.user_key = pikey.user_key) ∧
    (∀ (σ : Type) (gc : GetContext σ) (st : σ) (o : GetOutcome σ),
      seg.Get validType mv it.global_seqno_ target gc st true = some o →
      ∀ c ∈ o.calls, c.key.user_key = pikey.user_key) ∧
    byte_swap (byte_swap pikey.user_key) = pikey.user_key := by
  have hswap : byte_swap (byte_swap pikey.user_key) = pikey.user_key := by
    unfold byte_swap
    exact List.reverse_reverse _
  classical
  let j0 := Nat.find hvis
  have hj0 : j0 < seg.valnumAt mv pos ∧
      (seg.versionAt mv it.global_seqno_ pos j0).1 ≤ pikey.sequence := Nat.find_spec hvis
  have hmin : ∀ i, i < j0 → pikey.sequence < (seg.versionAt mv it.global_seqno_ pos i).1 := by
    intro i hi
    have := Nat.find_min hvis hi
    exact Nat.lt_of_not_le (fun hle => this ⟨by omega, hle⟩)
  refine ⟨?_, ?_, ?_, hswap⟩
  · obtain ⟨h8, huk⟩ := ParseInternalKey_user_key validType target pikey hparse
    have htake : target.take 8 = pikey.user_key := by
      have hl : target.length - 8 = 8 := by
        have := congrArg List.length huk
        rw [hlen, List.length_take] at this
        omega
      rw [huk, hl]
    have halign : seg.commonPrefix_.length =
        difference_offset (byte_swap (target.take 8)) seg.commonPrefix_ := by
      rw [htake, hstored]
      exact (difference_offset_eq_length _ _ (List.prefix_append _ _)).symm
    have hfound : TerarkZipTableIterator.seekCursor (IteratorClass.Uint64 seg).reverse
        seg.index_ ((byte_swap (target.take 8)).drop seg.commonPrefix_.length) =
        (some pos, 0) := by
      rw [htake, hstored, List.drop_left]
      exact seekCursor_exact false seg hsorted pos hpos
    obtain ⟨it1, h1, h2, h3⟩ := SeekInternal_exact_At (IteratorClass.Uint64 seg) mv seg it
      { pikey with user_key := byte_swap (target.take 8) } pos j0 rfl halign hfound hok hj0.1
      hj0.2 hmin
    rw [Uint64_Seek_eq validType mv seg it target pikey hparse]
    refine ⟨it1, j0, h1, ?_, ?_, h2, hj0.2, hmin⟩
    · unfold TerarkZipTableIterator.Valid
      rw [h2.2.1.1]
      rfl
    · rw [h2.2.2.2.2.2.1]
      simp only [IteratorClass.shownKey, IteratorClass.keyTransform,
        IteratorClass.partitionPrefix, AppendInternalKey, TerarkZipSegment.parsedKeyAt,
        List.nil_append]
      rw [← hstored]
      have hl8 : (byte_swap pikey.user_key).length = 8 := by
        unfold byte_swap
        rw [List.length_reverse, hlen]
      rw [List.take_left' hl8, hswap, List.take_left' hlen]
  · intro hnopart σ gc st
    obtain ⟨o, ho, hs, hhead, hfinds, hfetch⟩ := Get_stored_u64_key validType mv seg
      it.global_seqno_ target pikey pos j0 gc st hparse hlen hnopart hsorted hstored hok
      hj0.1 hj0.2 hmin
    exact ⟨o, j0, ho, hs, hfinds, hfetch, hj0.1, hj0.2, hmin, hhead,
      Get_calls_user_key validType mv seg _ target gc st true pikey o hparse ho⟩
  · intro σ gc st o h
    exact Get_calls_user_key validType mv seg _ target gc st true pikey o hparse h

/-- Witness of C24: the u64 segment with the big-endian keys 1 and 256, and the target
`1@200` in host byte order, `01 00 00 00 00 00 00 00 || packed8(200, PUT)`. `Get` with
the u64 flag finds the record and hands the visitor the key as the caller wrote it. -/
theorem Uint64_Seek_Get_original_key_witness :
    ParseInternalKey anyType ([1, 0, 0, 0, 0, 0, 0, 0] ++ packed8 200 1) =
      some ⟨[1, 0, 0, 0, 0, 0, 0, 0], 200, 1⟩ ∧
    byte_swap [1, 0, 0, 0, 0, 0, 0, 0] = u64Segment.commonPrefix_ ++ u64Segment.keyAt 0 ∧
    (u64Segment.Get anyType sampleMulti 100 ([1, 0, 0, 0, 0, 0, 0, 0] ++ packed8 200 1)
      sampleContext [] true).map (fun o => o.calls) =
      some [⟨⟨[1, 0, 0, 0, 0, 0, 0, 0], 100, kTypeValue⟩, [0x76]⟩] ∧
    (∃ it1 j, (IteratorClass.Uint64 u64Segment).Seek anyType sampleMulti
        (TerarkZipTableIterator.new 100) ([1, 0, 0, 0, 0, 0, 0, 0] ++ packed8 200 1) =
        Except.ok it1 ∧
      it1.Valid = true ∧ it1.key.take 8 = [1, 0, 0, 0, 0, 0, 0, 0] ∧
      (IteratorClass.Uint64 u64Segment).At sampleMulti it1 u64Segment 0 j ∧
      (u64Segment.versionAt sampleMulti 100 0 j).1 ≤ 200 ∧
      ∀ i, i < j → 200 < (u64Segment.versionAt sampleMulti 100 0 i).1) ∧
    ∃ o j, u64Segment.Get anyType sampleMulti 100
          ([1, 0, 0, 0, 0, 0, 0, 0] ++ packed8 200 1) sampleContext [] true = some o ∧
        o.status = Status.OK ∧ o.finds = [u64Segment.keyAt 0] ∧
        o.fetches = [u64Segment.recIdAt 0] ∧
        j < u64Segment.valnumAt sampleMulti 0 ∧
        (u64Segment.versionAt sampleMulti 100 0 j).1 ≤ 200 ∧
        (∀ i, i < j → 200 < (u64Segment.versionAt sampleMulti 100 0 i).1) ∧
        o.calls.head? = some ⟨⟨[1, 0, 0, 0, 0, 0, 0, 0],
            (u64Segment.versionAt sampleMulti 100 0 j).1,
            (u64Segment.versionAt sampleMulti 100 0 j).2.1⟩,
          (u64Segment.versionAt sampleMulti 100 0 j).2.2⟩ ∧
        ∀ c ∈ o.calls, c.key.user_key = [1, 0, 0, 0, 0, 0, 0, 0] :=
  ⟨by decide, by decide, by decide,
    (Uint64_Seek_Get_original_key anyType sampleMulti u64Segment
      (TerarkZipTableIterator.new 100) ([1, 0, 0, 0, 0, 0, 0, 0] ++ packed8 200 1)
      ⟨[1, 0, 0, 0, 0, 0, 0, 0], 200, 1⟩ 0 (by decide) (by decide) (by decide) (by decide)
      (by decide) (by decide) ⟨0, by decide, by decide⟩).1,
    (Uint64_Seek_Get_original_key anyType sampleMulti u64Segment
      (TerarkZipTableIterator.new 100) ([1, 0, 0, 0, 0, 0, 0, 0] ++ packed8 200 1)
      ⟨[1, 0, 0, 0, 0, 0, 0, 0], 200, 1⟩ 0 (by decide) (by decide) (by decide) (by decide)
      (by decide) (by decide) ⟨0, by decide, by decide⟩).2.1 rfl (List Bytes)
      sampleContext []⟩

/-! ## `Seek` on one segment: where the cursor stops, in the order of the table -/

/-- What the index cursor's `Seek` returns: the first position whose key is not below
the target, or nothing when every key is below it. -/
theorem seekFrom_of_eq (key : Bytes) : ∀ (es : List (Bytes × Nat)) (i : Nat) (r : Option Nat),
    TerarkIndex.Iterator.seekFrom key es i = r →
    (r = none ∧ ∀ m, m < es.length → fstring_lt (es.getD m ([], 0)).1 key = true) ∨
    (∃ k, r = some (i + k) ∧ k < es.length ∧ fstring_lt (es.getD k ([], 0)).1 key = false ∧
      ∀ m, m < k → fstring_lt (es.getD m ([], 0)).1 key = true) := by
  intro es
  induction es with
  | nil =>
    intro i r h
    left
    exact ⟨h.symm, fun m hm => absurd hm (by simp)⟩
  | cons e rest ih =>
    intro i r h
    unfold TerarkIndex.Iterator.seekFrom at h
    by_cases he : fstring_lt e.1 key = true
    · rw [if_pos he] at h
      rcases ih (i + 1) r h with ⟨h1, h2⟩ | ⟨k, h1, h2, h3, h4⟩
      · left
        refine ⟨h1, ?_⟩
        intro m hm
        cases m with
        | zero => exact he
        | succ m =>
          simp only [List.getD_cons_succ]
          exact h2 m (by simpa using hm)
      · right
        refine ⟨k + 1, by rw [h1]; congr 1; omega, by simpa using h2, by simpa using h3, ?_⟩
        intro m hm
        cases m with
        | zero => exact he
        | succ m =>
          simp only [List.getD_cons_succ]
          exact h4 m (by omega)
    · rw [if_neg he] at h
      right
      refine ⟨0, h.symm, by simp, by simpa using he, fun m hm => absurd hm (by omega)⟩

/-- On a sorted index, where the cursor of `SeekInternal` stops for a target suffix `t`:
exactly on `t`; or inexactly on the first key after `t` in the order of the table, every
position before it holding a key before `t`; or nowhere, every key being before `t`. -/
theorem seekCursor_cases (reverse : Bool) (seg : TerarkZipSegment) (hs : seg.index_.Sorted)
    (t : Bytes) :
    (∃ k, k < seg.index_.entries.length ∧ seg.keyAt k = t ∧
      TerarkZipTableIterator.seekCursor reverse seg.index_ t = (some k, 0)) ∨
    (∃ q c, q < seg.index_.entries.length ∧ c ≠ 0 ∧
      TerarkZipTableIterator.seekCursor reverse seg.index_ t = (some q, c) ∧
      (if reverse = true then fstring_lt (seg.keyAt q) t else fstring_lt t (seg.keyAt q)) =
        true ∧
      ∀ p, p < seg.index_.entries.length → (if reverse = true then q < p else p < q) →
        (if reverse = true then fstring_lt t (seg.keyAt p) else fstring_lt (seg.keyAt p) t) =
          true) ∨
    (∃ c, TerarkZipTableIterator.seekCursor reverse seg.index_ t = (none, c) ∧
      ∀ p, p < seg.index_.entries.length →
        (if reverse = true then fstring_lt t (seg.keyAt p) else fstring_lt (seg.keyAt p) t) =
          true) := by
  have hkey : ∀ p, TerarkIndex.Iterator.key seg.index_ p = seg.keyAt p := fun _ => rfl
  have hk : ∀ p, (seg.index_.entries.getD p ([], 0)).1 = seg.keyAt p := fun _ => rfl
  unfold TerarkZipTableIterator.seekCursor
  rcases seekFrom_of_eq t seg.index_.entries 0 _ rfl with ⟨h1, h2⟩ | ⟨k, h1, h2, h3, h4⟩
  · have hseek : TerarkIndex.Iterator.Seek seg.index_ t = none := h1
    rw [hseek]
    dsimp only
    cases reverse with
    | false =>
      right; right
      refine ⟨0, by simp, fun p hp => ?_⟩
      simp only [Bool.false_eq_true, if_false]
      exact h2 p hp
    | true =>
      simp only [if_true]
      by_cases hlen : seg.index_.entries.length = 0
      · right; right
        refine ⟨-1, ?_, fun p hp => absurd hp (by omega)⟩
        unfold TerarkIndex.Iterator.SeekToLast
        rw [if_pos hlen]
      · right; left
        refine ⟨seg.index_.entries.length - 1, -1, by omega, by decide, ?_, ?_, ?_⟩
        · unfold TerarkIndex.Iterator.SeekToLast
          rw [if_neg hlen]
        · exact h2 _ (by omega)
        · intro p hp hq
          omega
  · have hseek : TerarkIndex.Iterator.Seek seg.index_ t = some k := by
      have := h1
      rw [Nat.zero_add] at this
      exact this
    rw [hseek]
    dsimp only
    rw [hkey]
    rw [hk] at h3
    by_cases hgt : fstring_lt t (seg.keyAt k) = true
    · have hcmp : Slice.compare (seg.keyAt k) t = 1 := by
        unfold Slice.compare
        rw [h3, hgt]
        simp
      rw [hcmp]
      have habove : ∀ p, p < seg.index_.entries.length → k ≤ p →
          fstring_lt t (seg.keyAt p) = true := by
        intro p hp hkp
        rcases Nat.eq_or_lt_of_le hkp with rfl | hlt
        · exact hgt
        · exact fstring_lt_trans _ _ _ hgt (Sorted_keyAt seg hs k p hlt hp)
      cases reverse with
      | false =>
        right; left
        refine ⟨k, 1, h2, by decide, by simp, by simpa using hgt, ?_⟩
        intro p _ hq
        simp only [Bool.false_eq_true, if_false] at hq ⊢
        exact h4 p hq
      | true =>
        simp only [Bool.true_and, if_true]
        by_cases hk0 : k = 0
        · right; right
          subst hk0
          refine ⟨1, by simp [TerarkIndex.Iterator.Prev], ?_⟩
          intro p hp
          exact habove p hp (by omega)
        · right; left
          refine ⟨k - 1, 1, by omega, by decide, ?_, ?_, ?_⟩
          · have : TerarkIndex.Iterator.Prev seg.index_ k = some (k - 1) := by
              unfold TerarkIndex.Iterator.Prev
              rw [if_pos (by omega)]
            simp [this]
          · exact h4 (k - 1) (by omega)
          · intro p hp hq
            exact habove p hp (by omega)
    · have hgt' : fstring_lt t (seg.keyAt k) = false := by simpa using hgt
      have heq : seg.keyAt k = t := fstring_lt_total _ _ h3 hgt'
      have hcmp : Slice.compare (seg.keyAt k) t = 0 := by
        unfold Slice.compare
        rw [h3, hgt']
        simp
      left
      refine ⟨k, h2, heq, ?_⟩
      rw [hcmp]
      cases reverse <;> simp

/-- A parsed internal key: the user key is what `ExtractUserKey` gives, and the sequence
and type are the two halves of the 64-bit word at the end of the key. -/
theorem ParseInternalKey_packed (validType : Nat → Bool) (target : Bytes)
    (pikey : ParsedInternalKey) (h : ParseInternalKey validType target = some pikey) :
    ExtractUserKey target = pikey.user_key ∧
    DecodeFixed64 (target.drop (target.length - 8)) < 2 ^ 64 ∧
    pikey.sequence = DecodeFixed64 (target.drop (target.length - 8)) / 256 ∧
    pikey.type = DecodeFixed64 (target.drop (target.length - 8)) % 256 := by
  have hlt : DecodeFixed64 (target.drop (target.length - 8)) < 2 ^ 64 := by
    unfold DecodeFixed64
    have := loadLE_lt 8 (target.drop (target.length - 8))
    have e : (256 : Nat) ^ 8 = 2 ^ 64 := by norm_num
    rw [e] at this
    exact this
  unfold ParseInternalKey at h
  dsimp only at h
  split at h
  · cases h
  · split at h
    · obtain rfl := Option.some.inj h
      exact ⟨rfl, hlt, rfl, rfl⟩
    · cases h

/-- The word `seq << 8 | type` of a 56-bit sequence and an 8-bit type. -/
theorem PackSequenceAndType_eq (seq type : Nat) (hs : seq < 2 ^ 56) (ht : type < 256) :
    PackSequenceAndType seq type = seq * 256 + type := by
  unfold PackSequenceAndType
  have h1 : seq <<< 8 ||| type = seq * 256 + type := by
    rw [Nat.shiftLeft_eq, Nat.mul_comm]
    have := Nat.mul_add_lt_is_or (show type < 2 ^ 8 by omega) seq
    rw [← this, Nat.mul_comm]
  rw [h1, Nat.mod_eq_of_lt (by omega)]

/-- A version that decodes without a fault has a 56-bit sequence and an 8-bit type, when
the global sequence number has 56 bits. -/
theorem versionAt_bounds (mv : ZipValueMultiValue) (seg : TerarkZipSegment) (g pos j : Nat)
    (hg : g < 2 ^ 56) (hok : seg.versionOk mv g pos j = true) :
    (seg.versionAt mv g pos j).1 < 2 ^ 56 ∧ (seg.versionAt mv g pos j).2.1 < 256 := by
  have hd := (versionOk_iff mv seg g pos j).mp hok
  have h7 : ∀ b : Bytes, DecodeFixed64 b &&& kMaxSequenceNumber < 2 ^ 56 := by
    intro b
    rw [DecodeFixed64_and_kMaxSequenceNumber]
    have := loadLE_lt 7 b
    have e : (256 : Nat) ^ 7 = 2 ^ 56 := by norm_num
    rw [e] at this
    exact this
  unfold decodeVersion at hd
  split at hd
  · rw [← Except.ok.inj hd]
    exact ⟨hg, show kTypeValue < 256 by decide⟩
  · split at hd
    · split at hd
      · cases hd
      · rw [← Except.ok.inj hd]
        exact ⟨h7 _, show kTypeValue < 256 by decide⟩
    · split at hd
      · split at hd
        · cases hd
        · rw [← Except.ok.inj hd]
          exact ⟨h7 _, show kTypeDeletion < 256 by decide⟩
      · split at hd
        · split at hd
          · cases hd
          · split at hd
            · cases hd
            · rw [← Except.ok.inj hd]
              rename_i d _ _
              have hlt : DecodeFixed64 d < 2 ^ 64 := by
                unfold DecodeFixed64
                have := loadLE_lt 8 d
                have e : (256 : Nat) ^ 8 = 2 ^ 64 := by norm_num
                rw [e] at this
                exact this
              simp only [UnPackSequenceAndType]
              constructor
              · omega
              · omega
        · cases hd

/-- An internal key whose user key comes before that of the target in the order of the
table compares less-than. -/
theorem Compare_before (reverse : Bool) (u1 : Bytes) (p1 : Nat) (target : Bytes)
    (h : (if reverse = true then fstring_lt (ExtractUserKey target) u1
      else fstring_lt u1 (ExtractUserKey target)) = true) :
    InternalKeyComparator.Compare reverse (u1 ++ storeLE 8 p1) target < 0 := by
  unfold InternalKeyComparator.Compare
  rw [ExtractUserKey_append]
  cases reverse
  · simp only [Bool.false_eq_true, if_false] at h
    simp [Slice.compare, h]
  · simp only [if_true] at h
    simp [Slice.compare, h]

/-- An internal key whose user key comes after that of the target in the order of the
table compares greater-than. -/
theorem Compare_after (reverse : Bool) (u1 : Bytes) (p1 : Nat) (target : Bytes)
    (h : (if reverse = true then fstring_lt u1 (ExtractUserKey target)
      else fstring_lt (ExtractUserKey target) u1) = true) :
    0 < InternalKeyComparator.Compare reverse (u1 ++ storeLE 8 p1) target := by
  unfold InternalKeyComparator.Compare
  rw [ExtractUserKey_append]
  cases reverse
  · simp only [Bool.false_eq_true, if_false] at h
    have h' := fstring_lt_asymm _ _ h
    simp [Slice.compare, h, h']
  · simp only [if_true] at h
    have h' := fstring_lt_asymm _ _ h
    simp [Slice.compare, h, h']

/-- An internal key with the user key of the target compares by `packed8`, the larger
word first. -/
theorem Compare_same (reverse : Bool) (u1 : Bytes) (p1 : Nat) (target : Bytes)
    (hp1 : p1 < 2 ^ 64) (h : ExtractUserKey target = u1) :
    InternalKeyComparator.Compare reverse (u1 ++ storeLE 8 p1) target =
      if p1 > DecodeFixed64 (target.drop (target.length - 8)) then -1
      else if p1 < DecodeFixed64 (target.drop (target.length - 8)) then 1 else 0 := by
  unfold InternalKeyComparator.Compare
  rw [ExtractUserKey_append, DecodeFixed64_packed8 u1 p1 hp1, h]
  simp [Slice.compare, fstring_lt_irrefl]

/-- On a sorted index, a position that comes before another in the order of the table
holds a key that comes before. -/
theorem key_order_of_precedes (seg : TerarkZipSegment) (hs : seg.index_.Sorted)
    (reverse : Bool) (k p : Nat) (hk : k < seg.index_.entries.length)
    (hp : p < seg.index_.entries.length) (h : if reverse = true then k < p else p < k) :
    (if reverse = true then fstring_lt (seg.keyAt k) (seg.keyAt p)
      else fstring_lt (seg.keyAt p) (seg.keyAt k)) = true := by
  cases reverse with
  | false =>
    simp only [Bool.false_eq_true, if_false] at h ⊢
    exact Sorted_keyAt seg hs p k h hk
  | true =>
    simp only [if_true] at h ⊢
    exact Sorted_keyAt seg hs k p h hp

/-- The position after `k` in the order of the table comes right after `k`. -/
theorem nextPos_some_order (seg : TerarkZipSegment) (reverse : Bool) (k q : Nat)
    (h : seg.nextPos reverse k = some q) :
    (if reverse = true then q < k else k < q) ∧
    ∀ p, (if reverse = true then q < p else p < q) →
      p = k ∨ (if reverse = true then k < p else p < k) := by
  unfold TerarkZipSegment.nextPos TerarkIndex.Iterator.Next TerarkIndex.Iterator.Prev at h
  cases reverse with
  | false =>
    simp only [Bool.false_eq_true, if_false] at h ⊢
    split at h
    · obtain rfl := Option.some.inj h
      exact ⟨by omega, fun p hp => by omega⟩
    · cases h
  | true =>
    simp only [if_true] at h ⊢
    split at h
    · obtain rfl := Option.some.inj h
      exact ⟨by omega, fun p hp => by omega⟩
    · cases h

/-- When no position comes after `k` in the order of the table, every other position
comes before `k`. -/
theorem nextPos_none_order (seg : TerarkZipSegment) (reverse : Bool) (k : Nat)
    (hk : k < seg.index_.entries.length) (h : seg.nextPos reverse k = none) :
    ∀ p, p < seg.index_.entries.length →
      p = k ∨ (if reverse = true then k < p else p < k) := by
  unfold TerarkZipSegment.nextPos TerarkIndex.Iterator.Next TerarkIndex.Iterator.Prev at h
  cases reverse with
  | false =>
    simp only [Bool.false_eq_true, if_false] at h ⊢
    split at h
    · cases h
    · intro p hp
      omega
  | true =>
    simp only [if_true] at h ⊢
    split at h
    · cases h
    · intro p hp
      omega

/-- An entry whose index key comes before the suffix of the target compares less-than
the target. -/
theorem entry_before (reverse : Bool) (mv : ZipValueMultiValue) (seg : TerarkZipSegment)
    (g : Nat) (target sfx : Bytes) (p j : Nat)
    (hu : ExtractUserKey target = seg.commonPrefix_ ++ sfx)
    (h : (if reverse = true then fstring_lt sfx (seg.keyAt p)
      else fstring_lt (seg.keyAt p) sfx) = true) :
    InternalKeyComparator.Compare reverse (seg.entryAt mv g p j).1 target < 0 := by
  rw [entryAt_key]
  apply Compare_before
  rw [hu, fstring_lt_append_left, fstring_lt_append_left]
  exact h

/-- An entry whose index key comes after the suffix of the target compares greater-than
the target. -/
theorem entry_after (reverse : Bool) (mv : ZipValueMultiValue) (seg : TerarkZipSegment)
    (g : Nat) (target sfx : Bytes) (p j : Nat)
    (hu : ExtractUserKey target = seg.commonPrefix_ ++ sfx)
    (h : (if reverse = true then fstring_lt (seg.keyAt p) sfx
      else fstring_lt sfx (seg.keyAt p)) = true) :
    0 < InternalKeyComparator.Compare reverse (seg.entryAt mv g p j).1 target := by
  rw [entryAt_key]
  apply Compare_after
  rw [hu, fstring_lt_append_left, fstring_lt_append_left]
  exact h

/-- An entry with the user key of the target and a sequence above the sequence of the
target compares less-than the target. -/
theorem entry_same_newer (reverse : Bool) (mv : ZipValueMultiValue) (seg : TerarkZipSegment)
    (g : Nat) (target : Bytes) (p j : Nat)
    (hu : ExtractUserKey target = seg.commonPrefix_ ++ seg.keyAt p)
    (hb : (seg.versionAt mv g p j).1 < 2 ^ 56 ∧ (seg.versionAt mv g p j).2.1 < 256)
    (hs : DecodeFixed64 (target.drop (target.length - 8)) / 256 <
      (seg.versionAt mv g p j).1) :
    InternalKeyComparator.Compare reverse (seg.entryAt mv g p j).1 target < 0 := by
  rw [entryAt_key, Compare_same reverse _ _ target (PackSequenceAndType_lt _ _) hu,
    PackSequenceAndType_eq _ _ hb.1 hb.2, if_pos (by omega)]
  decide

/-- An entry with the user key of the target, a sequence at most the sequence of the
target and, when the sequences are equal, a type at most the type of the target,
compares greater-than or equal to the target. -/
theorem entry_same_older (reverse : Bool) (mv : ZipValueMultiValue) (seg : TerarkZipSegment)
    (g : Nat) (target : Bytes) (p j : Nat)
    (hu : ExtractUserKey target = seg.commonPrefix_ ++ seg.keyAt p)
    (hb : (seg.versionAt mv g p j).1 < 2 ^ 56 ∧ (seg.versionAt mv g p j).2.1 < 256)
    (hs : (seg.versionAt mv g p j).1 ≤
      DecodeFixed64 (target.drop (target.length - 8)) / 256)
    (ht : (seg.versionAt mv g p j).1 = DecodeFixed64 (target.drop (target.length - 8)) / 256 →
      (seg.versionAt mv g p j).2.1 ≤ DecodeFixed64 (target.drop (target.length - 8)) % 256) :
    0 ≤ InternalKeyComparator.Compare reverse (seg.entryAt mv g p j).1 target := by
  rw [entryAt_key, Compare_same reverse _ _ target (PackSequenceAndType_lt _ _) hu,
    PackSequenceAndType_eq _ _ hb.1 hb.2]
  have hle : ¬ (seg.versionAt mv g p j).1 * 256 + (seg.versionAt mv g p j).2.1 >
      DecodeFixed64 (target.drop (target.length - 8)) := by
    rcases Nat.eq_or_lt_of_le hs with he | hlt
    · have := ht he
      omega
    · omega
  rw [if_neg hle]
  split <;> decide

/-- A positioned iterator is valid and shows the key of its entry. -/
theorem PositionedAt_valid_key (mv : ZipValueMultiValue) (seg : TerarkZipSegment) (g : Nat)
    (it : TerarkZipTableIterator) (pos j : Nat) (h : it.PositionedAt mv seg g pos j) :
    it.Valid = true ∧ it.key = (seg.entryAt mv g pos j).1 := by
  constructor
  · unfold TerarkZipTableIterator.Valid
    rw [h.1.1]
    rfl
  · exact congrArg Prod.fst h.2.2.2

/-! ## `Seek` on one segment: the first entry at or after the target -/

/-- C29, as stated, fails on the code: the version walk of `Seek` compares sequences
only. The key `"abcZm"` of the sample segment has the versions `(70, MERGE)` and
`(40, PUT)`. `Seek("abcZm"@70)` with the type `PUT` in the target stops on the version
`(70, MERGE)`, whose internal key is less than the target under the internal-key
comparator, because its `packed8` is larger. -/
theorem Seek_stops_below_target :
    ∃ it1, (IteratorClass.Single false healthySegment).Seek anyType sampleMulti
        (TerarkZipTableIterator.new 100) (abc ++ [0x5A, 0x6D] ++ packed8 70 1) =
        Except.ok it1 ∧
      it1.Valid = true ∧ it1.key = abc ++ [0x5A, 0x6D] ++ packed8 70 2 ∧
      InternalKeyComparator.Compare false it1.key (abc ++ [0x5A, 0x6D] ++ packed8 70 1) < 0 := by
  have hfound : TerarkZipTableIterator.seekCursor false healthySegment.index_
      ((⟨abc ++ [0x5A, 0x6D], 70, 1⟩ : ParsedInternalKey).user_key.drop
        healthySegment.commonPrefix_.length) = (some 4, 0) := by decide
  obtain ⟨it1, h1, h2, _⟩ := Single_SeekInternal_exact_found false sampleMulti healthySegment
    100 (TerarkZipTableIterator.new 100) ⟨abc ++ [0x5A, 0x6D], 70, 1⟩ 4 0 rfl (by decide)
    hfound (by decide) (by decide) (by decide) (fun i hi => absurd hi (by omega))
  have hk := (PositionedAt_valid_key sampleMulti healthySegment 100 it1 4 0 h2)
  refine ⟨it1, ?_, hk.1, ?_, ?_⟩
  · rw [Single_Seek_eq false anyType sampleMulti healthySegment _ _
      ⟨abc ++ [0x5A, 0x6D], 70, 1⟩ (by decide)]
    exact h1
  · rw [hk.2]
    decide
  · rw [hk.2]
    decide

/-- C29, amended: a single-segment iterator (forward or reverse) over a sorted,
well-formed segment, with a global sequence number of 56 bits, and a target `u@s` of
type `t` whose user key carries the whole common prefix, such that no version of `u`
with the sequence `s` has a type above `t` (as when `t` is the type used for seeking).
`Seek` returns. If the iterator is valid, it stands on an entry whose internal key is
greater than or equal to the target under the internal-key comparator, and every entry
before it in scan order (the records under the positions before, and the versions
before in the same record) is less than the target. If it is invalid, every entry of
the segment is less than the target. -/
theorem Seek_lower_bound (reverse : Bool) (validType : Nat → Bool) (mv : ZipValueMultiValue)
    (seg : TerarkZipSegment) (it : TerarkZipTableIterator) (target : Bytes)
    (pikey : ParsedInternalKey)
    (hparse : ParseInternalKey validType target = some pikey)
    (hsorted : seg.index_.Sorted)
    (hw : seg.wellFormed mv it.global_seqno_ = true)
    (hg : it.global_seqno_ < 2 ^ 56)
    (halign : seg.commonPrefix_.length = difference_offset pikey.user_key seg.commonPrefix_)
    (htype : ∀ pos, pos < seg.index_.entries.length → ∀ j, j < seg.valnumAt mv pos →
      seg.commonPrefix_ ++ seg.keyAt pos = pikey.user_key →
      (seg.versionAt mv it.global_seqno_ pos j).1 = pikey.sequence →
      (seg.versionAt mv it.global_seqno_ pos j).2.1 ≤ pikey.type) :
    ∃ it1, (IteratorClass.Single reverse seg).Seek validType mv it target = Except.ok it1 ∧
      (it1.Valid = true → ∃ pos j, it1.PositionedAt mv seg it.global_seqno_ pos j ∧
        0 ≤ InternalKeyComparator.Compare reverse it1.key target ∧
        ∀ p i, p < seg.index_.entries.length → i < seg.valnumAt mv p →
          ((if reverse = true then pos < p else p < pos) ∨ (p = pos ∧ i < j)) →
          InternalKeyComparator.Compare reverse (seg.entryAt mv it.global_seqno_ p i).1
            target < 0) ∧
      (it1.Valid = false → ∀ p i, p < seg.index_.entries.length → i < seg.valnumAt mv p →
        InternalKeyComparator.Compare reverse (seg.entryAt mv it.global_seqno_ p i).1
          target < 0) := by
  have hwf := (wellFormed_iff mv seg _).mp hw
  obtain ⟨hext, hnum, hseq, htyp⟩ := ParseInternalKey_packed validType target pikey hparse
  obtain ⟨sfx, hsfx⟩ := prefix_of_difference_offset pikey.user_key seg.commonPrefix_ halign
  have hdrop : pikey.user_key.drop seg.commonPrefix_.length = sfx := by
    rw [← hsfx, List.drop_left]
  have hu : ExtractUserKey target = seg.commonPrefix_ ++ sfx := by rw [hext, hsfx]
  have hbounds : ∀ p i, p < seg.index_.entries.length → i < seg.valnumAt mv p →
      (seg.versionAt mv it.global_seqno_ p i).1 < 2 ^ 56 ∧
      (seg.versionAt mv it.global_seqno_ p i).2.1 < 256 := by
    intro p i hp hi
    exact versionAt_bounds mv seg _ p i hg (((recordOk_iff mv seg _ p).mp (hwf p hp)).2.2 i hi)
  -- the two ways to end
  have valid : ∀ (it1 : TerarkZipTableIterator) (pos j : Nat),
      (IteratorClass.Single reverse seg).SeekInternal mv it pikey = Except.ok it1 →
      it1.PositionedAt mv seg it.global_seqno_ pos j →
      0 ≤ InternalKeyComparator.Compare reverse (seg.entryAt mv it.global_seqno_ pos j).1
        target →
      (∀ p i, p < seg.index_.entries.length → i < seg.valnumAt mv p →
        ((if reverse = true then pos < p else p < pos) ∨ (p = pos ∧ i < j)) →
        InternalKeyComparator.Compare reverse (seg.entryAt mv it.global_seqno_ p i).1
          target < 0) →
      ∃ it1, (IteratorClass.Single reverse seg).SeekInternal mv it pikey = Except.ok it1 ∧
        (it1.Valid = true → ∃ pos j, it1.PositionedAt mv seg it.global_seqno_ pos j ∧
          0 ≤ InternalKeyComparator.Compare reverse it1.key target ∧
          ∀ p i, p < seg.index_.entries.length → i < seg.valnumAt mv p →
            ((if reverse = true then pos < p else p < pos) ∨ (p = pos ∧ i < j)) →
            InternalKeyComparator.Compare reverse (seg.entryAt mv it.global_seqno_ p i).1
              target < 0) ∧
        (it1.Valid = false → ∀ p i, p < seg.index_.entries.length → i < seg.valnumAt mv p →
          InternalKeyComparator.Compare reverse (seg.entryAt mv it.global_seqno_ p i).1
            target < 0) := by
    intro it1 pos j h1 hpos hge hbefore
    obtain ⟨hv, hk⟩ := PositionedAt_valid_key mv seg _ it1 pos j hpos
    refine ⟨it1, h1, fun _ => ⟨pos, j, hpos, by rw [hk]; exact hge, hbefore⟩, ?_⟩
    intro hinv
    rw [hv] at hinv
    cases hinv
  have invalid : ∀ (it1 : TerarkZipTableIterator),
      (IteratorClass.Single reverse seg).SeekInternal mv it pikey = Except.ok it1 →
      it1.Valid = false →
      (∀ p i, p < seg.index_.entries.length → i < seg.valnumAt mv p →
        InternalKeyComparator.Compare reverse (seg.entryAt mv it.global_seqno_ p i).1
          target < 0) →
      ∃ it1, (IteratorClass.Single reverse seg).SeekInternal mv it pikey = Except.ok it1 ∧
        (it1.Valid = true → ∃ pos j, it1.PositionedAt mv seg it.global_seqno_ pos j ∧
          0 ≤ InternalKeyComparator.Compare reverse it1.key target ∧
          ∀ p i, p < seg.index_.entries.length → i < seg.valnumAt mv p →
            ((if reverse = true then pos < p else p < pos) ∨ (p = pos ∧ i < j)) →
            InternalKeyComparator.Compare reverse (seg.entryAt mv it.global_seqno_ p i).1
              target < 0) ∧
        (it1.Valid = false → ∀ p i, p < seg.index_.entries.length → i < seg.valnumAt mv p →
          InternalKeyComparator.Compare reverse (seg.entryAt mv it.global_seqno_ p i).1
            target < 0) := by
    intro it1 h1 hinv hall
    refine ⟨it1, h1, ?_, fun _ => hall⟩
    intro hv
    rw [hinv] at hv
    cases hv
  rw [Single_Seek_eq reverse validType mv seg it target pikey hparse]
  rcases seekCursor_cases reverse seg hsorted sfx with
    ⟨k, hk, hkey, hfound⟩ | ⟨q, c, hq, hc, hfound, hafter, hbefore⟩ | ⟨c, hfound, hbefore⟩
  · -- the index holds the user key of the target
    rw [← hdrop] at hfound
    have hok := hwf k hk
    have huk : ExtractUserKey target = seg.commonPrefix_ ++ seg.keyAt k := by rw [hu, hkey]
    have hprec : ∀ p i, p < seg.index_.entries.length →
        (if reverse = true then k < p else p < k) →
        InternalKeyComparator.Compare reverse (seg.entryAt mv it.global_seqno_ p i).1
          target < 0 := by
      intro p i hp hpk
      apply entry_before reverse mv seg _ target sfx p i hu
      rw [← hkey]
      exact key_order_of_precedes seg hsorted reverse k p hk hp hpk
    by_cases hall : ∀ i, i < seg.valnumAt mv k →
        pikey.sequence < (seg.versionAt mv it.global_seqno_ k i).1
    · have hnewer : ∀ i, i < seg.valnumAt mv k →
          InternalKeyComparator.Compare reverse (seg.entryAt mv it.global_seqno_ k i).1
            target < 0 := by
        intro i hi
        apply entry_same_newer reverse mv seg _ target k i huk (hbounds k i hk hi)
        rw [← hseq]
        exact hall i hi
      obtain ⟨v, hv1, hv2, _⟩ := Single_SeekInternal_exact_none reverse mv seg _ it pikey k rfl
        halign hfound hok hall
      have hvn := ((recordOk_iff mv seg _ k).mp hok).2.1
      rw [hv1]
      cases hnext : seg.nextPos reverse k with
      | none =>
        obtain ⟨it1, h1, h2, _⟩ := Single_Next_end reverse mv seg _ v k _ hv2.1 (by omega) hnext
        rw [← hv1] at h1 ⊢
        apply invalid it1 h1 h2
        intro p i hp hi
        rcases nextPos_none_order seg reverse k hk hnext p hp with rfl | hpk
        · exact hnewer i hi
        · exact hprec p i hp hpk
      | some q =>
        have hq := nextPos_lt seg reverse k q hk hnext
        obtain ⟨it1, h1, h2, _⟩ := Single_Next_record reverse mv seg _ v k _ q hv2.1
          (by omega) hnext (hwf q hq)
        obtain ⟨hkq, hbetween⟩ := nextPos_some_order seg reverse k q hnext
        rw [← hv1] at h1 ⊢
        apply valid it1 q 0 h1 h2
        · apply Int.le_of_lt
          apply entry_after reverse mv seg _ target sfx q 0 hu
          rw [← hkey]
          have := key_order_of_precedes seg hsorted reverse q k hq hk hkq
          exact this
        · intro p i hp hi hpq
          rcases hpq with hpq | ⟨_, hi0⟩
          · rcases hbetween p hpq with rfl | hpk
            · exact hnewer i hi
            · exact hprec p i hp hpk
          · omega
    · have hex : ∃ j, j < seg.valnumAt mv k ∧
          (seg.versionAt mv it.global_seqno_ k j).1 ≤ pikey.sequence := by
        by_contra hno
        exact hall (fun i hi => Nat.lt_of_not_le (fun hle => hno ⟨i, hi, hle⟩))
      classical
      let j0 := Nat.find hex
      have hj0 : j0 < seg.valnumAt mv k ∧
          (seg.versionAt mv it.global_seqno_ k j0).1 ≤ pikey.sequence := Nat.find_spec hex
      have hmin : ∀ i, i < j0 →
          pikey.sequence < (seg.versionAt mv it.global_seqno_ k i).1 := by
        intro i hi
        have := Nat.find_min hex hi
        exact Nat.lt_of_not_le (fun hle => this ⟨by omega, hle⟩)
      obtain ⟨it1, h1, h2, _⟩ := Single_SeekInternal_exact_found reverse mv seg _ it pikey k j0
        rfl halign hfound hok hj0.1 hj0.2 hmin
      apply valid it1 k j0 h1 h2
      · apply entry_same_older reverse mv seg _ target k j0 huk (hbounds k j0 hk hj0.1)
        · rw [← hseq]
          exact hj0.2
        · intro he
          rw [← htyp]
          apply htype k hk j0 hj0.1
          · rw [hkey, hsfx]
          · rw [he, hseq]
      · intro p i hp hi hpk
        rcases hpk with hpk | ⟨rfl, hi0⟩
        · exact hprec p i hp hpk
        · apply entry_same_newer reverse mv seg _ target p i huk (hbounds p i hk hi)
          rw [← hseq]
          exact hmin i hi0
  · -- the cursor stops on the first key after the target
    rw [← hdrop] at hfound
    obtain ⟨it1, h1, h2, _⟩ := Single_SeekInternal_inexact reverse mv seg _ it pikey q c rfl
      halign hfound hc (hwf q hq)
    apply valid it1 q 0 h1 h2
    · apply Int.le_of_lt
      exact entry_after reverse mv seg _ target sfx q 0 hu hafter
    · intro p i hp hi hpq
      rcases hpq with hpq | ⟨_, hi0⟩
      · exact entry_before reverse mv seg _ target sfx p i hu (hbefore p hp hpq)
      · omega
  · -- every key is before the target
    rw [← hdrop] at hfound
    obtain ⟨it1, h1, h2, _⟩ := Single_SeekInternal_miss reverse mv seg it pikey c halign hfound
    apply invalid it1 h1 h2
    intro p i hp _
    exact entry_before reverse mv seg _ target sfx p i hu (hbefore p hp)

/-- Witness of C29, amended: the forward iterator over the healthy sample segment and
the target `"abcZm"@70` with the type `MERGE`, the type of the version of sequence 70. -/
theorem Seek_lower_bound_witness :
    ∃ it1, (IteratorClass.Single false healthySegment).Seek anyType sampleMulti
        (TerarkZipTableIterator.new 100) (abc ++ [0x5A, 0x6D] ++ packed8 70 2) =
        Except.ok it1 ∧
      (it1.Valid = true → ∃ pos j, it1.PositionedAt sampleMulti healthySegment
          (TerarkZipTableIterator.new 100).global_seqno_ pos j ∧
        0 ≤ InternalKeyComparator.Compare false it1.key
          (abc ++ [0x5A, 0x6D] ++ packed8 70 2) ∧
        ∀ p i, p < healthySegment.index_.entries.length →
          i < healthySegment.valnumAt sampleMulti p →
          ((if false = true then pos < p else p < pos) ∨ (p = pos ∧ i < j)) →
          InternalKeyComparator.Compare false (healthySegment.entryAt sampleMulti
            (TerarkZipTableIterator.new 100).global_seqno_ p i).1
            (abc ++ [0x5A, 0x6D] ++ packed8 70 2) < 0) ∧
      (it1.Valid = false → ∀ p i, p < healthySegment.index_.entries.length →
        i < healthySegment.valnumAt sampleMulti p →
        InternalKeyComparator.Compare false (healthySegment.entryAt sampleMulti
          (TerarkZipTableIterator.new 100).global_seqno_ p i).1
          (abc ++ [0x5A, 0x6D] ++ packed8 70 2) < 0) :=
  Seek_lower_bound false anyType sampleMulti healthySegment (TerarkZipTableIterator.new 100)
    (abc ++ [0x5A, 0x6D] ++ packed8 70 2) ⟨abc ++ [0x5A, 0x6D], 70, 2⟩ (by decide) (by decide)
    (by decide) (by decide) (by decide) (by decide)

/-! ## The multi-segment iterator: `Seek` -/

/-- C21, evaluated on the code: the forward multi-segment iterator over the healthy
sample table with the partitions `"p1"`, `"p2"`, `"p3"`, each with the common prefix
`"abc"`. The target `"p2ab"@30` selects segment 1, and every entry of segment 1 is
greater than the target; `Seek` leaves the iterator valid in segment 0, on the first key
`"p1abcW"` of the whole table, which is less than the target: the stripped key `"ab"`
leaves the common prefix of the segment, and the `SeekToFirst()` that `SeekInternal`
calls for it is the one of the multi-segment iterator. The target `"p0z"@30` selects
segment 0, whose first key `"p1abcW"` is greater than the target; `Seek` strips two
bytes of it without comparing them with the partition prefix, finds `"z"` past the
common prefix, and leaves the iterator in segment 1 on `"p2abcW"`, past every entry of
segment 0. -/
theorem Multi_Seek_wrong_segment :
    healthySegmentIndex.GetSegment [0x70, 0x32, 0x61, 0x62] = some 1 ∧
    ((IteratorClass.Multi false healthySegmentIndex).Seek anyType sampleMulti
      (TerarkZipTableIterator.new 100) ([0x70, 0x32, 0x61, 0x62] ++ packed8 30 1)).toOption.map
      (fun it1 => (it1.Valid, it1.segment_, it1.key)) =
      some (true, some 0, [0x70, 0x31] ++ abc ++ [0x57] ++ packed8 30 0) ∧
    InternalKeyComparator.Compare false ([0x70, 0x31] ++ abc ++ [0x57] ++ packed8 30 0)
      ([0x70, 0x32, 0x61, 0x62] ++ packed8 30 1) < 0 ∧
    0 < InternalKeyComparator.Compare false ([0x70, 0x32] ++ abc ++ [0x57] ++ packed8 30 0)
      ([0x70, 0x32, 0x61, 0x62] ++ packed8 30 1) ∧
    healthySegmentIndex.GetSegment [0x70, 0x30, 0x7A] = some 0 ∧
    ((IteratorClass.Multi false healthySegmentIndex).Seek anyType sampleMulti
      (TerarkZipTableIterator.new 100) ([0x70, 0x30, 0x7A] ++ packed8 30 1)).toOption.map
      (fun it1 => (it1.Valid, it1.segment_, it1.key)) =
      some (true, some 1, [0x70, 0x32] ++ abc ++ [0x57] ++ packed8 30 0) ∧
    0 < InternalKeyComparator.Compare false ([0x70, 0x31] ++ abc ++ [0x57] ++ packed8 30 0)
      ([0x70, 0x30, 0x7A] ++ packed8 30 1) := by
  refine ⟨by decide, by decide, by decide, by decide, by decide, by decide, by decide⟩

/-! ## `GetSegment`: the integer strategies against the bytewise ones -/

/-- The greatest index with a property, `none` when there is none, is unique. -/
theorem IsGreatestIndex_unique (n : Nat) (p : Nat → Prop) (r1 r2 : Option Nat)
    (h1 : IsGreatestIndex n p r1) (h2 : IsGreatestIndex n p r2) : r1 = r2 := by
  cases r1 with
  | none =>
    cases r2 with
    | none => rfl
    | some j => exact absurd h2.2.1 (h1 j h2.1)
  | some i =>
    cases r2 with
    | none => exact absurd h1.2.1 (h2 i h1.1)
    | some j =>
      have hij : ¬ i < j := fun h => h1.2.2 j h h2.1 h2.2.1
      have hji : ¬ j < i := fun h => h2.2.2 i h h1.1 h1.2.1
      have : i = j := by omega
      rw [this]

/-- A string at least as long as a zero-padded key is below the padded key exactly when
it is below the key itself. -/
theorem fstring_lt_pad_right : ∀ (k P : Bytes) (z : Nat), k.length + z ≤ P.length →
    fstring_lt P (k ++ List.replicate z 0) = fstring_lt P k := by
  intro k
  induction k with
  | nil =>
    intro P z
    induction z generalizing P with
    | zero => intro _; simp
    | succ z ih =>
      intro h
      cases P with
      | nil => simp at h
      | cons y P1 =>
        have h1 : ([] : Bytes).length + z ≤ P1.length := by
          simp only [List.length_cons, List.length_nil] at h ⊢
          omega
        have := ih P1 h1
        simp only [List.nil_append] at this ⊢
        rw [List.replicate_succ]
        simp only [fstring_lt, this]
        have : ¬ y.toNat < (0 : UInt8).toNat := by
          show ¬ y.toNat < 0
          omega
        rw [if_neg this]
        cases P1 <;> simp [fstring_lt]
  | cons x k1 ih =>
    intro P z h
    cases P with
    | nil => simp at h
    | cons y P1 =>
      have h1 : k1.length + z ≤ P1.length := by
        simp only [List.length_cons] at h
        omega
      have := ih P1 z h1
      simp only [List.cons_append, fstring_lt]
      have h2 : k1.append (List.replicate z 0) = k1 ++ List.replicate z 0 := rfl
      rw [h2, this]

/-- A string of `z` bytes other than `z` zero bytes is above them. -/
theorem fstring_lt_zeros_left : ∀ (z : Nat) (P : Bytes), P.length = z →
    P ≠ List.replicate z 0 → fstring_lt (List.replicate z 0) P = true := by
  intro z
  induction z with
  | zero =>
    intro P h hne
    exact absurd (List.length_eq_zero.mp h) (by simpa using hne)
  | succ z ih =>
    intro P h hne
    cases P with
    | nil => simp at h
    | cons y P1 =>
      rw [List.replicate_succ]
      simp only [fstring_lt]
      by_cases hy : (0 : UInt8).toNat < y.toNat
      · rw [if_pos hy]
      · rw [if_neg hy]
        have hy0 : y.toNat = 0 := by
          have : (0 : UInt8).toNat = 0 := rfl
          omega
        have hy1 : y = 0 := UInt8.toNat.inj hy0
        have : ¬ y.toNat < (0 : UInt8).toNat := by
          rw [hy0]; exact Nat.lt_irrefl _
        rw [if_neg this]
        apply ih P1 (by simpa using h)
        intro hc
        apply hne
        rw [List.replicate_succ, hy1, hc]

/-- A zero-padded key is below a string of its length other than itself exactly when
the key is. -/
theorem fstring_lt_pad_left : ∀ (k P : Bytes) (z : Nat), P.length = k.length + z →
    P ≠ k ++ List.replicate z 0 →
    fstring_lt (k ++ List.replicate z 0) P = fstring_lt k P := by
  intro k
  induction k with
  | nil =>
    intro P z h hne
    simp only [List.nil_append] at hne ⊢
    rw [fstring_lt_zeros_left z P (by simpa using h) hne]
    cases P with
    | nil =>
      exfalso
      apply hne
      have : z = 0 := by simpa using h.symm
      rw [this]
      rfl
    | cons y P1 => rfl
  | cons x k1 ih =>
    intro P z h hne
    cases P with
    | nil => simp only [List.length_cons, List.length_nil] at h; omega
    | cons y P1 =>
      simp only [List.cons_append, fstring_lt]
      by_cases hxy : x.toNat < y.toNat
      · rw [if_pos hxy, if_pos hxy]
      · rw [if_neg hxy, if_neg hxy]
        by_cases hyx : y.toNat < x.toNat
        · rw [if_pos hyx, if_pos hyx]
        · rw [if_neg hyx, if_neg hyx]
          have hxy1 : x = y := UInt8.toNat.inj (by omega)
          apply ih P1 z (by simp only [List.length_cons] at h; omega)
          intro hc
          apply hne
          rw [List.cons_append, hxy1, hc]

/-- A zero-padded short key is above the key itself. -/
theorem fstring_lt_pad_self : ∀ (k : Bytes) (z : Nat), 0 < z →
    fstring_lt k (k ++ List.replicate z 0) = true := by
  intro k
  induction k with
  | nil =>
    intro z hz
    obtain ⟨m, hm⟩ : ∃ m, z = m + 1 := ⟨z - 1, by omega⟩
    rw [hm, List.nil_append, List.replicate_succ]
    rfl
  | cons x k1 ih =>
    intro z hz
    simp only [List.cons_append, fstring_lt, Nat.lt_irrefl, if_false]
    exact ih z hz

/-- The words that `Init` stores for ascending partition prefixes of at most 8 bytes
ascend. -/
theorem Init_u64At_mono (prefixLen : Nat) (pfx : List Bytes) (parts : List TerarkZipSegment)
    (reverse : Bool) (h8 : prefixLen ≤ 8) (hlen : ∀ p ∈ pfx, p.length = prefixLen)
    (hsorted : pfx.Pairwise (fun a b => fstring_lt a b = true)) :
    ∀ i j, i ≤ j → j < (SegmentIndex.Init prefixLen pfx parts reverse).partCount_ →
      (SegmentIndex.Init prefixLen pfx parts reverse).u64At i ≤
        (SegmentIndex.Init prefixLen pfx parts reverse).u64At j := by
  intro i j hij hj
  have hn : (SegmentIndex.Init prefixLen pfx parts reverse).partCount_ = pfx.length := rfl
  rw [hn] at hj
  rw [Init_u64At _ _ _ _ h8 i (by omega), Init_u64At _ _ _ _ h8 j hj]
  by_cases he : i = j
  · rw [he]
  · have hl : (pfx.getD i []).length = (pfx.getD j []).length := by
      rw [List.getD_eq_getElem _ _ hj, List.getD_eq_getElem _ _ (by omega),
        hlen _ (List.getElem_mem _), hlen _ (List.getElem_mem _)]
    exact Nat.le_of_lt ((ReadUint64_lt_iff _ _ hl).mpr
      (sorted_getD pfx hsorted i j (by omega) hj))

/-- Two strings of one length: the big-endian word of the first is at least that of the
second exactly when the first is not bytewise below the second. -/
theorem ReadUint64_ge_iff (a b : Bytes) (hl : a.length = b.length) :
    (ReadUint64 a ≥ ReadUint64 b ↔ fstring_lt a b = false) := by
  have := ReadUint64_lt_iff a b hl
  constructor
  · intro hge
    cases hf : fstring_lt a b with
    | false => rfl
    | true => have := this.mpr hf; omega
  · intro hf
    by_contra hc
    have := this.mp (by omega)
    rw [hf] at this
    exact Bool.noConfusion this

/-- On the index of `Init` for a prefix length of at most 8, `GetSegmentU64Binary`
returns the least index whose partition prefix is not bytewise below the zero-padded
key. -/
theorem Init_U64Binary_least (prefixLen : Nat) (pfx : List Bytes)
    (parts : List TerarkZipSegment) (reverse : Bool) (key : Bytes) (h8 : prefixLen ≤ 8)
    (hlen : ∀ p ∈ pfx, p.length = prefixLen)
    (hsorted : pfx.Pairwise (fun a b => fstring_lt a b = true)) :
    IsLeastIndex pfx.length
      (fun i => fstring_lt (pfx.getD i []) (SegmentIndex.targetKey prefixLen key) = false)
      ((SegmentIndex.Init prefixLen pfx parts reverse).GetSegmentU64Binary key) := by
  have h := GetSegmentU64Binary_spec (SegmentIndex.Init prefixLen pfx parts reverse) key
    (Init_u64At_mono prefixLen pfx parts reverse h8 hlen hsorted)
  refine IsLeastIndex_congr _ _ _ _ ?_ h
  intro i hi
  have hi1 : i < pfx.length := hi
  rw [Init_u64At _ _ _ _ h8 i hi1, Init_targetValue _ _ _ _ h8]
  exact ReadUint64_ge_iff _ _ (by
    rw [List.getD_eq_getElem _ _ hi1, hlen _ (List.getElem_mem _), targetKey_length _ _ h8])

/-- On the index of `Init` for a prefix length of at most 8, `GetSegmentU64BinaryReverse`
returns the greatest index whose partition prefix is not bytewise above the zero-padded
key. -/
theorem Init_U64BinaryReverse_greatest (prefixLen : Nat) (pfx : List Bytes)
    (parts : List TerarkZipSegment) (reverse : Bool) (key : Bytes) (h8 : prefixLen ≤ 8)
    (hlen : ∀ p ∈ pfx, p.length = prefixLen)
    (hsorted : pfx.Pairwise (fun a b => fstring_lt a b = true)) :
    IsGreatestIndex pfx.length
      (fun i => fstring_lt (SegmentIndex.targetKey prefixLen key) (pfx.getD i []) = false)
      ((SegmentIndex.Init prefixLen pfx parts reverse).GetSegmentU64BinaryReverse key) := by
  have h := GetSegmentU64BinaryReverse_spec (SegmentIndex.Init prefixLen pfx parts reverse)
    key (Init_u64At_mono prefixLen pfx parts reverse h8 hlen hsorted)
  refine IsGreatestIndex_congr _ _ _ _ ?_ h
  intro i hi
  have hi1 : i < pfx.length := hi
  rw [Init_u64At _ _ _ _ h8 i hi1, Init_targetValue _ _ _ _ h8]
  exact ReadUint64_ge_iff _ _ (by
    rw [List.getD_eq_getElem _ _ hi1, hlen _ (List.getElem_mem _), targetKey_length _ _ h8])

/-- Row `i` of the bytewise layout is the partition prefix `i`. -/
theorem bytewiseLayout_PartIndexOperator (prefixLen : Nat) (pfx : List Bytes)
    (parts : List TerarkZipSegment) (reverse : Bool)
    (hlen : ∀ p ∈ pfx, p.length = prefixLen) (i : Nat) (hi : i < pfx.length) :
    (SegmentIndex.bytewiseLayout prefixLen pfx parts reverse).PartIndexOperator i =
      pfx.getD i [] := by
  unfold SegmentIndex.PartIndexOperator SegmentIndex.bytewiseLayout SegmentIndex.Init
  simp only
  rw [List.getD_eq_getElem _ _ hi]
  exact List.take_of_length_le (by rw [hlen _ (List.getElem_mem _)])

/-- The rows of the bytewise layout ascend when the partition prefixes do. -/
theorem bytewiseLayout_mono (prefixLen : Nat) (pfx : List Bytes)
    (parts : List TerarkZipSegment) (reverse : Bool)
    (hlen : ∀ p ∈ pfx, p.length = prefixLen)
    (hsorted : pfx.Pairwise (fun a b => fstring_lt a b = true)) :
    ∀ i j, i < j → j < (SegmentIndex.bytewiseLayout prefixLen pfx parts reverse).partCount_ →
      fstring_lt ((SegmentIndex.bytewiseLayout prefixLen pfx parts reverse).PartIndexOperator i)
        ((SegmentIndex.bytewiseLayout prefixLen pfx parts reverse).PartIndexOperator j) =
        true := by
  intro i j hij hj
  have hj1 : j < pfx.length := hj
  rw [bytewiseLayout_PartIndexOperator _ _ _ _ hlen i (by omega),
    bytewiseLayout_PartIndexOperator _ _ _ _ hlen j hj1]
  exact sorted_getD pfx hsorted i j hij hj1

/-- On the bytewise layout `GetSegmentBytewise` returns the least index whose partition
prefix is not below the key cut to the prefix length. -/
theorem bytewiseLayout_Bytewise_least (prefixLen : Nat) (pfx : List Bytes)
    (parts : List TerarkZipSegment) (reverse : Bool) (key : Bytes)
    (hlen : ∀ p ∈ pfx, p.length = prefixLen)
    (hsorted : pfx.Pairwise (fun a b => fstring_lt a b = true)) :
    IsLeastIndex pfx.length
      (fun i => fstring_lt (pfx.getD i []) (key.take prefixLen) = false)
      ((SegmentIndex.bytewiseLayout prefixLen pfx parts reverse).GetSegmentBytewise key) := by
  have h := GetSegmentBytewise_spec (SegmentIndex.bytewiseLayout prefixLen pfx parts reverse)
    key (bytewiseLayout_mono prefixLen pfx parts reverse hlen hsorted)
  refine IsLeastIndex_congr _ _ _ _ ?_ h
  intro i hi
  have hi1 : i < pfx.length := hi
  rw [bytewiseLayout_PartIndexOperator _ _ _ _ hlen i hi1]
  exact Iff.rfl

/-- On the bytewise layout `GetSegmentBytewiseReverse` returns the greatest index whose
partition prefix is not above the key cut to the prefix length. -/
theorem bytewiseLayout_BytewiseReverse_greatest (prefixLen : Nat) (pfx : List Bytes)
    (parts : List TerarkZipSegment) (reverse : Bool) (key : Bytes)
    (hlen : ∀ p ∈ pfx, p.length = prefixLen)
    (hsorted : pfx.Pairwise (fun a b => fstring_lt a b = true)) :
    IsGreatestIndex pfx.length
      (fun i => fstring_lt (key.take prefixLen) (pfx.getD i []) = false)
      ((SegmentIndex.bytewiseLayout prefixLen pfx parts reverse).GetSegmentBytewiseReverse
        key) := by
  have h := GetSegmentBytewiseReverse_spec
    (SegmentIndex.bytewiseLayout prefixLen pfx parts reverse)
    key (bytewiseLayout_mono prefixLen pfx parts reverse hlen hsorted)
  refine IsGreatestIndex_congr _ _ _ _ ?_ h
  intro i hi
  have hi1 : i < pfx.length := hi
  rw [bytewiseLayout_PartIndexOperator _ _ _ _ hlen i hi1]
  exact Iff.rfl

/-- Counterexample to C33 as stated: with the two-byte partition prefixes `"p\0" < "q\0"`
and the one-byte key `"p"`, `GetSegmentU64BinaryReverse` pads the key to `"p\0"` and
returns partition 0, while `GetSegmentBytewiseReverse` on the same prefixes compares
`"p" < "p\0"` and returns null. -/
theorem U64BinaryReverse_differs_from_BytewiseReverse :
    2 ≤ 8 ∧ (∀ p ∈ zeroTailPrefixes, p.length = 2) ∧
    zeroTailPrefixes.Pairwise (fun a b => fstring_lt a b = true) ∧
    (SegmentIndex.Init 2 zeroTailPrefixes [] true).get_segment_ptr =
      GetSegmentStrategy.U64BinaryReverse ∧
    (SegmentIndex.Init 2 zeroTailPrefixes [] true).GetSegmentU64BinaryReverse [0x70] =
      some 0 ∧
    (SegmentIndex.bytewiseLayout 2 zeroTailPrefixes [] true).GetSegmentBytewiseReverse
      [0x70] = none := by
  decide

/-- C33, amended: for every prefix length `L ≤ 8`, every strictly ascending list of
`L`-byte partition prefixes and every key of any length, `GetSegmentU64Binary` returns
the same segment as `GetSegmentBytewise` would on the same prefixes; and
`GetSegmentU64BinaryReverse` returns the same segment as `GetSegmentBytewiseReverse`
unless the key is shorter than `L` and its zero-padding to `L` bytes is one of the
partition prefixes. In that case the integer strategy returns the partition of that
prefix and the bytewise strategy the partition before it, null when there is none. -/
theorem U64_strategies_agree_with_Bytewise (prefixLen : Nat) (pfx : List Bytes)
    (parts : List TerarkZipSegment) (key : Bytes)
    (h8 : prefixLen ≤ 8)
    (hlen : ∀ p ∈ pfx, p.length = prefixLen)
    (hsorted : pfx.Pairwise (fun a b => fstring_lt a b = true)) :
    (SegmentIndex.Init prefixLen pfx parts false).GetSegmentU64Binary key =
      (SegmentIndex.bytewiseLayout prefixLen pfx parts false).GetSegmentBytewise key ∧
    ((key.length < prefixLen →
        key ++ List.replicate (prefixLen - key.length) 0 ∉ pfx) →
      (SegmentIndex.Init prefixLen pfx parts true).GetSegmentU64BinaryReverse key =
        (SegmentIndex.bytewiseLayout prefixLen pfx parts true).GetSegmentBytewiseReverse
          key) ∧
    (∀ i, key.length < prefixLen →
      pfx[i]? = some (key ++ List.replicate (prefixLen - key.length) 0) →
      (SegmentIndex.Init prefixLen pfx parts true).GetSegmentU64BinaryReverse key =
        some i ∧
      (SegmentIndex.bytewiseLayout prefixLen pfx parts true).GetSegmentBytewiseReverse
        key = if i = 0 then none else some (i - 1)) := by
  have htk : SegmentIndex.targetKey prefixLen key =
      key.take prefixLen ++ List.replicate (prefixLen - key.length) 0 := by
    unfold SegmentIndex.targetKey
    rw [if_pos h8]
  have hpl : ∀ i, i < pfx.length → (pfx.getD i []).length = prefixLen := by
    intro i hi
    rw [List.getD_eq_getElem _ _ hi]
    exact hlen _ (List.getElem_mem _)
  have htl : (key.take prefixLen).length + (prefixLen - key.length) = prefixLen := by
    rw [List.length_take]
    omega
  refine ⟨?_, ?_, ?_⟩
  · refine IsLeastIndex_unique pfx.length _ _ _
      (Init_U64Binary_least prefixLen pfx parts false key h8 hlen hsorted) ?_
    refine IsLeastIndex_congr _ _ _ _ ?_
      (bytewiseLayout_Bytewise_least prefixLen pfx parts false key hlen hsorted)
    intro i hi
    rw [htk, fstring_lt_pad_right _ _ _ (by rw [htl, hpl i hi])]
  · intro hno
    refine IsGreatestIndex_unique pfx.length _ _ _
      (Init_U64BinaryReverse_greatest prefixLen pfx parts true key h8 hlen hsorted) ?_
    refine IsGreatestIndex_congr _ _ _ _ ?_
      (bytewiseLayout_BytewiseReverse_greatest prefixLen pfx parts true key hlen hsorted)
    intro i hi
    rw [htk]
    by_cases hk : key.length < prefixLen
    · have hne : pfx.getD i [] ≠
          key.take prefixLen ++ List.replicate (prefixLen - key.length) 0 := by
        intro hc
        apply hno hk
        rw [List.take_of_length_le (by omega)] at hc
        rw [← hc, List.getD_eq_getElem _ _ hi]
        exact List.getElem_mem _
      rw [fstring_lt_pad_left _ _ _ (by rw [htl, hpl i hi]) hne]
    · have : prefixLen - key.length = 0 := by omega
      rw [this, List.replicate_zero, List.append_nil]
  · intro i hk hi
    have hin : i < pfx.length := by
      rcases Nat.lt_or_ge i pfx.length with h | h
      · exact h
      · rw [List.getElem?_eq_none h] at hi
        exact Option.noConfusion hi
    have hkt : key.take prefixLen = key := List.take_of_length_le (by omega)
    have hpi : pfx.getD i [] = key ++ List.replicate (prefixLen - key.length) 0 := by
      rw [List.getD_eq_getElem?_getD, hi]
      rfl
    rw [hkt] at htk
    have hself : fstring_lt key (pfx.getD i []) = true := by
      rw [hpi]
      exact fstring_lt_pad_self key _ (by omega)
    have habove : ∀ j, i < j → j < pfx.length →
        fstring_lt (pfx.getD i []) (pfx.getD j []) = true :=
      fun j hij hj => sorted_getD pfx hsorted i j hij hj
    constructor
    · refine IsGreatestIndex_unique pfx.length _ _ _
        (Init_U64BinaryReverse_greatest prefixLen pfx parts true key h8 hlen hsorted) ?_
      refine ⟨hin, ?_, ?_⟩
      · show fstring_lt (SegmentIndex.targetKey prefixLen key) (pfx.getD i []) = false
        rw [htk, hpi]
        exact fstring_lt_irrefl _
      · intro j hij hj hc
        have hc1 : fstring_lt (SegmentIndex.targetKey prefixLen key) (pfx.getD j []) =
            false := hc
        rw [htk, ← hpi, habove j hij hj] at hc1
        exact Bool.noConfusion hc1
    · refine IsGreatestIndex_unique pfx.length _ _ _
        (bytewiseLayout_BytewiseReverse_greatest prefixLen pfx parts true key hlen hsorted)
        ?_
      rw [hkt]
      have hup : ∀ j, i ≤ j → j < pfx.length → ¬ fstring_lt key (pfx.getD j []) = false := by
        intro j hij hj hc
        by_cases he : i = j
        · rw [← he, hself] at hc
          exact Bool.noConfusion hc
        · rw [fstring_lt_trans _ _ _ hself (habove j (by omega) hj)] at hc
          exact Bool.noConfusion hc
      have hdown : ∀ j, j < i → fstring_lt key (pfx.getD j []) = false := by
        intro j hj
        have hlt : fstring_lt (pfx.getD j []) (pfx.getD i []) = true :=
          sorted_getD pfx hsorted j i hj hin
        have hne : pfx.getD j [] ≠ key ++ List.replicate (prefixLen - key.length) 0 := by
          intro hc
          rw [hpi, hc, fstring_lt_irrefl] at hlt
          exact Bool.noConfusion hlt
        rw [← fstring_lt_pad_left key (pfx.getD j []) (prefixLen - key.length)
          (by rw [hpl j (by omega)]; omega) hne, ← hpi]
        exact fstring_lt_asymm _ _ hlt
      by_cases h0 : i = 0
      · rw [if_pos h0]
        intro j hj
        exact hup j (by omega) hj
      · rw [if_neg h0]
        exact ⟨by omega, hdown (i - 1) (by omega), fun j hij hj => hup j (by omega) hj⟩

/-- Witness of C33: the partition prefixes `"p\0" < "q\0"`, with the short key `"p"` for
the forward agreement and for the difference in reverse mode, and with the key `"q\0x"`
for the reverse agreement. -/
theorem U64_strategies_agree_with_Bytewise_witness :
    ((SegmentIndex.Init 2 zeroTailPrefixes [] false).GetSegmentU64Binary [0x70] =
      (SegmentIndex.bytewiseLayout 2 zeroTailPrefixes [] false).GetSegmentBytewise [0x70]) ∧
    ((SegmentIndex.Init 2 zeroTailPrefixes [] true).GetSegmentU64BinaryReverse
        [0x71, 0x00, 0x78] =
      (SegmentIndex.bytewiseLayout 2 zeroTailPrefixes [] true).GetSegmentBytewiseReverse
        [0x71, 0x00, 0x78]) ∧
    ((SegmentIndex.Init 2 zeroTailPrefixes [] true).GetSegmentU64BinaryReverse [0x70] =
        some 0 ∧
      (SegmentIndex.bytewiseLayout 2 zeroTailPrefixes [] true).GetSegmentBytewiseReverse
        [0x70] = if 0 = 0 then none else some (0 - 1)) :=
  ⟨(U64_strategies_agree_with_Bytewise 2 zeroTailPrefixes [] [0x70] (by decide) (by decide)
      (by decide)).1,
    (U64_strategies_agree_with_Bytewise 2 zeroTailPrefixes [] [0x71, 0x00, 0x78] (by decide)
      (by decide) (by decide)).2.1 (by decide),
    (U64_strategies_agree_with_Bytewise 2 zeroTailPrefixes [] [0x70] (by decide) (by decide)
      (by decide)).2.2 0 (by decide) (by decide)⟩

/-! ## Every class of iterator: the state invariant -/

/-- The method `SetIterInvalid` of every class resets the version counters and the
parsed key. -/
theorem SetIterInvalid_reset (cls : IteratorClass) (it : TerarkZipTableIterator) :
    (cls.SetIterInvalid it).validx_ = 0 ∧ (cls.SetIterInvalid it).valnum_ = 0 ∧
    (cls.SetIterInvalid it).pInterKey_ = ⟨[], 2 ^ 64 - 1, kMaxValue⟩ := by
  cases cls <;> exact ⟨rfl, rfl, rfl⟩

/-- An iterator that was just set invalid satisfies the state invariant. -/
theorem SetIterInvalid_Consistent (cls : IteratorClass) (mv : ZipValueMultiValue)
    (it : TerarkZipTableIterator) : cls.Consistent mv (cls.SetIterInvalid it) := by
  constructor
  · intro hv
    rw [SetIterInvalid_Valid] at hv
    cases hv
  · intro _
    exact SetIterInvalid_reset cls it

/-- An iterator that holds a record and stands on one of its versions satisfies the
state invariant. -/
theorem Consistent_of_Holds (cls : IteratorClass) (mv : ZipValueMultiValue)
    (it : TerarkZipTableIterator) (seg : TerarkZipSegment) (pos : Nat)
    (hseg : cls.segment it = some seg)
    (hh : it.Holds mv seg it.global_seqno_ pos it.validx_)
    (hlt : it.validx_ < seg.valnumAt mv pos) : cls.Consistent mv it := by
  constructor
  · intro _
    exact ⟨seg, pos, hseg, hh, hlt⟩
  · intro hv
    unfold TerarkZipTableIterator.Valid at hv
    rw [hh.1] at hv
    cases hv

/-- A record whose tag is not `kMulti` has one version. -/
theorem valnumAt_single (mv : ZipValueMultiValue) (seg : TerarkZipSegment) (pos : Nat)
    (h : seg.typeAt pos ≠ kMulti) : seg.valnumAt mv pos = 1 := by
  unfold TerarkZipSegment.valnumAt
  rw [if_neg h]

/-- In every class, `UnzipIterRecord` returns `false` with the version counters and the
parsed key reset. -/
theorem UnzipIterRecord_false_reset (cls : IteratorClass) (mv : ZipValueMultiValue)
    (it u : TerarkZipTableIterator) (b : Bool)
    (h : cls.UnzipIterRecord mv it b = Except.ok (u, false)) :
    u.validx_ = 0 ∧ u.valnum_ = 0 ∧ u.pInterKey_ = ⟨[], 2 ^ 64 - 1, kMaxValue⟩ := by
  unfold IteratorClass.UnzipIterRecord at h
  split at h
  · split at h
    · cases h
    · split at h
      · cases h
      · dsimp only at h
        split at h
        · cases h
        · split at h
          · obtain ⟨rfl, _⟩ := Prod.mk.inj (Except.ok.inj h)
            exact SetIterInvalid_reset cls _
          · have := (Prod.mk.inj (Except.ok.inj h)).2
            cases this
  · obtain ⟨rfl, _⟩ := Prod.mk.inj (Except.ok.inj h)
    exact SetIterInvalid_reset cls it

/-- In every class, `DecodeCurrKeyValue` on an iterator that holds a record, on version
0 unless the record is a `Multi` one, leaves it within the state invariant. -/
theorem DecodeCurrKeyValue_Consistent (cls : IteratorClass) (mv : ZipValueMultiValue)
    (seg : TerarkZipSegment) (it it1 : TerarkZipTableIterator) (pos : Nat)
    (hseg : cls.segment it = some seg)
    (hh : it.Holds mv seg it.global_seqno_ pos it.validx_)
    (hj : seg.typeAt pos ≠ kMulti → it.validx_ = 0)
    (h : cls.DecodeCurrKeyValue mv it = Except.ok it1) :
    cls.Consistent mv it1 ∧ cls.segment it1 = some seg ∧
    it1.Holds mv seg it1.global_seqno_ pos it1.validx_ ∧
    it1.validx_ < seg.valnumAt mv pos := by
  obtain ⟨hok, hs, hg, _, _, hh1, _⟩ :=
    (DecodeCurrKeyValue_step cls mv seg it pos it.validx_ hseg hh).2 it1 h
  have hlt := versionOk_lt mv seg it.global_seqno_ pos it.validx_ hok hj
  have hidx : it1.validx_ = it.validx_ := hh1.2.1
  have hseg1 : cls.segment it1 = some seg := (segment_congr cls it1 it hs).trans hseg
  have hh2 : it1.Holds mv seg it1.global_seqno_ pos it1.validx_ := by
    rw [hg, hidx]
    exact hh1
  have hlt1 : it1.validx_ < seg.valnumAt mv pos := by
    rw [hidx]
    exact hlt
  exact ⟨Consistent_of_Holds cls mv it1 seg pos hseg1 hh2 hlt1, hseg1, hh2, hlt1⟩

/-- In every class, the tail of a positioning method leaves the iterator within the
state invariant. -/
theorem unzipAndDecode_Consistent (cls : IteratorClass) (mv : ZipValueMultiValue)
    (toLast : Bool) (r : TerarkZipTableIterator × Bool) (it1 : TerarkZipTableIterator)
    (h : cls.unzipAndDecode mv toLast r = Except.ok it1) : cls.Consistent mv it1 := by
  unfold IteratorClass.unzipAndDecode at h
  cases hu : cls.UnzipIterRecord mv r.1 r.2 with
  | error e => rw [hu] at h; cases h
  | ok u =>
    rw [hu] at h
    obtain ⟨u1, flag⟩ := u
    have hres := UnzipIterRecord_result cls mv r.1 u1 r.2 flag hu
    cases flag with
    | false =>
      simp only [Bool.false_eq_true, if_false] at h
      obtain rfl := Except.ok.inj h
      constructor
      · intro hv
        rw [hres.1 rfl] at hv
        cases hv
      · intro _
        exact UnzipIterRecord_false_reset cls mv r.1 u1 r.2 hu
    | true =>
      simp only [if_true] at h
      obtain ⟨seg, pos, hseg, hh, hidx⟩ := hres.2 rfl
      cases toLast with
      | false =>
        simp only [Bool.false_eq_true, if_false] at h
        exact (DecodeCurrKeyValue_Consistent cls mv seg u1 it1 pos hseg
          (by rw [hidx]; exact hh) (fun _ => hidx) h).1
      | true =>
        simp only [if_true] at h
        refine (DecodeCurrKeyValue_Consistent cls mv seg
          { u1 with validx_ := u1.valnum_ - 1 } it1 pos
          ((segment_congr cls _ u1 rfl).trans hseg)
          (Holds_set_validx mv seg _ u1 pos 0 (u1.valnum_ - 1) hh) ?_ h).1
        intro ht
        show u1.valnum_ - 1 = 0
        rw [hh.2.2.2.2.2.2.1, valnumAt_single mv seg pos ht]

/-- In every class, `SeekToFirst` leaves the iterator within the state invariant. -/
theorem SeekToFirst_Consistent (cls : IteratorClass) (mv : ZipValueMultiValue)
    (it it1 : TerarkZipTableIterator) (h : cls.SeekToFirst mv it = Except.ok it1) :
    cls.Consistent mv it1 := by
  unfold IteratorClass.SeekToFirst at h
  cases hr : cls.IndexIterSeekToFirst it with
  | error e => rw [hr] at h; cases h
  | ok r =>
    rw [hr] at h
    exact unzipAndDecode_Consistent cls mv false r it1 h

/-- In every class, `SeekToLast` leaves the iterator within the state invariant. -/
theorem SeekToLast_Consistent (cls : IteratorClass) (mv : ZipValueMultiValue)
    (it it1 : TerarkZipTableIterator) (h : cls.SeekToLast mv it = Except.ok it1) :
    cls.Consistent mv it1 := by
  unfold IteratorClass.SeekToLast at h
  cases hr : cls.IndexIterSeekToLast it with
  | error e => rw [hr] at h; cases h
  | ok r =>
    rw [hr] at h
    exact unzipAndDecode_Consistent cls mv true r it1 h

/-- In every class, `Next` keeps the state invariant. -/
theorem Next_Consistent (cls : IteratorClass) (mv : ZipValueMultiValue)
    (it it1 : TerarkZipTableIterator) (hinv : cls.Consistent mv it)
    (h : cls.Next mv it = Except.ok it1) : cls.Consistent mv it1 := by
  unfold IteratorClass.Next at h
  dsimp only at h
  by_cases hlt : it.validx_ + 1 < it.valnum_
  · rw [if_pos hlt] at h
    have hvalid : it.Valid = true := by
      cases hv : it.Valid with
      | true => rfl
      | false =>
        have := (hinv.2 hv).2.1
        omega
    obtain ⟨seg, pos, hseg, hh, _⟩ := hinv.1 hvalid
    refine (DecodeCurrKeyValue_Consistent cls mv seg
      { it with validx_ := it.validx_ + 1 } it1 pos
      ((segment_congr cls _ it rfl).trans hseg)
      (Holds_set_validx mv seg _ it pos _ (it.validx_ + 1) hh) ?_ h).1
    intro ht
    have h1 := valnumAt_single mv seg pos ht
    have h2 : it.valnum_ = seg.valnumAt mv pos := hh.2.2.2.2.2.2.1
    omega
  · rw [if_neg hlt] at h
    cases hr : cls.IndexIterNext { it with validx_ := it.validx_ + 1 } with
    | error e => rw [hr] at h; cases h
    | ok r =>
      rw [hr] at h
      exact unzipAndDecode_Consistent cls mv false r it1 h

/-- In every class, `Prev` keeps the state invariant. -/
theorem Prev_Consistent (cls : IteratorClass) (mv : ZipValueMultiValue)
    (it it1 : TerarkZipTableIterator) (hinv : cls.Consistent mv it)
    (h : cls.Prev mv it = Except.ok it1) : cls.Consistent mv it1 := by
  unfold IteratorClass.Prev at h
  by_cases hlt : it.validx_ > 0
  · rw [if_pos hlt] at h
    have hvalid : it.Valid = true := by
      cases hv : it.Valid with
      | true => rfl
      | false =>
        have := (hinv.2 hv).1
        omega
    obtain ⟨seg, pos, hseg, hh, hidx⟩ := hinv.1 hvalid
    refine (DecodeCurrKeyValue_Consistent cls mv seg
      { it with validx_ := it.validx_ - 1 } it1 pos
      ((segment_congr cls _ it rfl).trans hseg)
      (Holds_set_validx mv seg _ it pos _ (it.validx_ - 1) hh) ?_ h).1
    intro ht
    have h1 := valnumAt_single mv seg pos ht
    show it.validx_ - 1 = 0
    omega
  · rw [if_neg hlt] at h
    cases hr : cls.IndexIterPrev it with
    | error e => rw [hr] at h; cases h
    | ok r =>
      rw [hr] at h
      exact unzipAndDecode_Consistent cls mv true r it1 h

/-- In every class, the version walk of `SeekInternal` over a record that the iterator
holds ends on one of the versions of that record. -/
theorem seekVersion_Consistent (cls : IteratorClass) (mv : ZipValueMultiValue)
    (sequence : Nat) : ∀ (fuel : Nat) (it v : TerarkZipTableIterator) (b : Bool)
      (seg : TerarkZipSegment) (pos : Nat),
      cls.seekVersion mv sequence fuel it = Except.ok (v, b) →
      cls.segment it = some seg → it.Holds mv seg it.global_seqno_ pos it.validx_ →
      (seg.typeAt pos ≠ kMulti → it.validx_ = 0) →
      cls.Consistent mv v := by
  intro fuel
  induction fuel with
  | zero =>
    intro it v b seg pos h hseg hh hj
    unfold IteratorClass.seekVersion at h
    cases hd : cls.DecodeCurrKeyValue mv it with
    | error e => rw [hd] at h; cases h
    | ok it1 =>
      rw [hd] at h
      have hm := (DecodeCurrKeyValue_Consistent cls mv seg it it1 pos hseg hh hj hd).1
      dsimp only at h
      split at h
      · obtain ⟨rfl, _⟩ := Prod.mk.inj (Except.ok.inj h)
        exact hm
      · split at h
        · obtain ⟨rfl, _⟩ := Prod.mk.inj (Except.ok.inj h)
          exact hm
        · obtain ⟨rfl, _⟩ := Prod.mk.inj (Except.ok.inj h)
          exact hm
  | succ fuel ih =>
    intro it v b seg pos h hseg hh hj
    unfold IteratorClass.seekVersion at h
    cases hd : cls.DecodeCurrKeyValue mv it with
    | error e => rw [hd] at h; cases h
    | ok it1 =>
      rw [hd] at h
      obtain ⟨hm, hseg1, hh1, _⟩ :=
        DecodeCurrKeyValue_Consistent cls mv seg it it1 pos hseg hh hj hd
      dsimp only at h
      split at h
      · obtain ⟨rfl, _⟩ := Prod.mk.inj (Except.ok.inj h)
        exact hm
      · split at h
        · rename_i hmore
          refine ih { it1 with validx_ := it1.validx_ + 1 } v b seg pos h
            ((segment_congr cls _ it1 rfl).trans hseg1)
            (Holds_set_validx mv seg _ it1 pos _ _ hh1) ?_
          intro ht
          have h1 := valnumAt_single mv seg pos ht
          have h2 : it1.valnum_ = seg.valnumAt mv pos := hh1.2.2.2.2.2.2.1
          omega
        · obtain ⟨rfl, _⟩ := Prod.mk.inj (Except.ok.inj h)
          exact hm

/-- In every class, `SeekToLast(); Next();` leaves the iterator within the state
invariant. -/
theorem seekToEnd_Consistent (cls : IteratorClass) (mv : ZipValueMultiValue)
    (it it1 : TerarkZipTableIterator) (h : cls.seekToEnd mv it = Except.ok it1) :
    cls.Consistent mv it1 := by
  unfold IteratorClass.seekToEnd at h
  cases hl : cls.SeekToLast mv it with
  | error e => rw [hl] at h; cases h
  | ok l =>
    rw [hl] at h
    exact Next_Consistent cls mv l it1 (SeekToLast_Consistent cls mv it l hl) h

/-- In every class, `SeekInternal` leaves the iterator within the state invariant. -/
theorem SeekInternal_Consistent (cls : IteratorClass) (mv : ZipValueMultiValue)
    (it it1 : TerarkZipTableIterator) (pikey : ParsedInternalKey)
    (h : cls.SeekInternal mv it pikey = Except.ok it1) : cls.Consistent mv it1 := by
  unfold IteratorClass.SeekInternal at h
  dsimp only at h
  cases hseg : cls.segment it.TryPinInterKeyBuf with
  | none => rw [hseg] at h; cases h
  | some seg =>
    rw [hseg] at h
    dsimp only at h
    split at h
    · split at h
      · split at h
        · exact seekToEnd_Consistent cls mv _ it1 h
        · exact SeekToFirst_Consistent cls mv _ it1 h
      · split at h
        · exact SeekToFirst_Consistent cls mv _ it1 h
        · exact seekToEnd_Consistent cls mv _ it1 h
    · split at h
      · cases h
      · rename_i u hu
        obtain ⟨u1, flag⟩ := u
        have hres := UnzipIterRecord_result cls mv _ u1 _ flag hu
        cases flag with
        | false =>
          simp only [Bool.false_eq_true, if_false] at h
          obtain rfl := Except.ok.inj h
          constructor
          · intro hv
            rw [hres.1 rfl] at hv
            cases hv
          · intro _
            exact UnzipIterRecord_false_reset cls mv _ u1 _ hu
        | true =>
          simp only [if_true] at h
          obtain ⟨seg1, pos1, hseg1, hh1, hidx⟩ := hres.2 rfl
          split at h
          · split at h
            · cases h
            · rename_i v hsv
              obtain ⟨v1, vflag⟩ := v
              have hm := seekVersion_Consistent cls mv pikey.sequence _ u1 v1 vflag seg1 pos1
                hsv hseg1 (by rw [hidx]; exact hh1) (fun _ => hidx)
              cases vflag with
              | true =>
                simp only [if_true] at h
                obtain rfl := Except.ok.inj h
                exact hm
              | false =>
                simp only [Bool.false_eq_true, if_false] at h
                exact Next_Consistent cls mv v1 it1 hm h
          · exact (DecodeCurrKeyValue_Consistent cls mv seg1 u1 it1 pos1 hseg1
              (by rw [hidx]; exact hh1) (fun _ => hidx) h).1

/-- In every class, `Seek` leaves the iterator within the state invariant. -/
theorem Seek_Consistent (cls : IteratorClass) (validType : Nat → Bool)
    (mv : ZipValueMultiValue) (it it1 : TerarkZipTableIterator) (target : Bytes)
    (h : cls.Seek validType mv it target = Except.ok it1) : cls.Consistent mv it1 := by
  cases cls with
  | Single reverse seg =>
    simp only [IteratorClass.Seek] at h
    split at h
    · obtain rfl := Except.ok.inj h
      exact SetIterInvalid_Consistent _ mv _
    · exact SeekInternal_Consistent _ mv it it1 _ h
  | Uint64 seg =>
    simp only [IteratorClass.Seek] at h
    split at h
    · obtain rfl := Except.ok.inj h
      exact SetIterInvalid_Consistent _ mv _
    · exact SeekInternal_Consistent _ mv it it1 _ h
  | Multi reverse si =>
    simp only [IteratorClass.Seek, TerarkZipTableMultiIterator.Seek] at h
    split at h
    · obtain rfl := Except.ok.inj h
      exact SetIterInvalid_Consistent _ mv _
    · split at h
      · obtain rfl := Except.ok.inj h
        exact SetIterInvalid_Consistent _ mv _
      · split at h
        · cases h
        · split at h
          · cases h
          · rename_i it2 hsi
            have h2 := SeekInternal_Consistent _ mv _ it2 _ hsi
            by_cases hv2 : it2.Valid = true
            · rw [if_pos hv2] at h
              obtain rfl := Except.ok.inj h
              exact h2
            · rw [if_neg hv2] at h
              split at h
              · split at h
                · split at h
                  · cases h
                  · exact unzipAndDecode_Consistent _ mv true _ it1 h
                · obtain rfl := Except.ok.inj h
                  exact h2
              · split at h
                · split at h
                  · cases h
                  · exact unzipAndDecode_Consistent _ mv false _ it1 h
                · obtain rfl := Except.ok.inj h
                  exact h2

/-- In every class, every positioning operation keeps the state invariant. -/
theorem apply_Consistent (cls : IteratorClass) (validType : Nat → Bool)
    (mv : ZipValueMultiValue) (it it1 : TerarkZipTableIterator) (op : IteratorOp)
    (hinv : cls.Consistent mv it)
    (h : cls.apply validType mv it op = Except.ok it1) : cls.Consistent mv it1 := by
  cases op with
  | SeekToFirst => exact SeekToFirst_Consistent cls mv it it1 h
  | SeekToLast => exact SeekToLast_Consistent cls mv it it1 h
  | Seek target => exact Seek_Consistent cls validType mv it it1 target h
  | Next => exact Next_Consistent cls mv it it1 hinv h
  | Prev => exact Prev_Consistent cls mv it it1 hinv h

/-- In every class, a sequence of positioning operations keeps the state invariant. -/
theorem run_Consistent (cls : IteratorClass) (validType : Nat → Bool)
    (mv : ZipValueMultiValue) : ∀ (ops : List IteratorOp) (it it1 : TerarkZipTableIterator),
      cls.Consistent mv it → cls.run validType mv it ops = Except.ok it1 →
      cls.Consistent mv it1 := by
  intro ops
  induction ops with
  | nil =>
    intro it it1 hinv h
    obtain rfl := Except.ok.inj h
    exact hinv
  | cons op ops ih =>
    intro it it1 hinv h
    simp only [IteratorClass.run] at h
    split at h
    · cases h
    · rename_i it2 hop
      exact ih it2 it1 (apply_Consistent cls validType mv it it2 op hinv hop) h

/-- A freshly constructed iterator satisfies the state invariant. -/
theorem new_Consistent (cls : IteratorClass) (mv : ZipValueMultiValue) (g : Nat) :
    cls.Consistent mv (TerarkZipTableIterator.new g) := by
  constructor
  · intro hv
    cases hv
  · intro _
    exact ⟨rfl, rfl, rfl⟩

/-- Whether a version decodes without a fault does not depend on the global sequence
number. -/
theorem versionOk_seqno (mv : ZipValueMultiValue) (seg : TerarkZipSegment) (g g1 pos j : Nat) :
    seg.versionOk mv g pos j = seg.versionOk mv g1 pos j := by
  unfold TerarkZipSegment.versionOk decodeVersion
  by_cases h0 : seg.typeAt pos = kZeroSeq
  · simp only [if_pos h0]
  · simp only [if_neg h0]

/-- Whether a segment is well formed does not depend on the global sequence number. -/
theorem wellFormed_seqno (mv : ZipValueMultiValue) (seg : TerarkZipSegment) (g g1 : Nat) :
    seg.wellFormed mv g = seg.wellFormed mv g1 := by
  unfold TerarkZipSegment.wellFormed TerarkZipSegment.recordOk
  simp only [versionOk_seqno mv seg g g1]

/-- The position that `prevPos` yields is one of the index. -/
theorem prevPos_lt (seg : TerarkZipSegment) (reverse : Bool) (pos q : Nat)
    (hpos : pos < seg.index_.entries.length) (h : seg.prevPos reverse pos = some q) :
    q < seg.index_.entries.length := by
  have : seg.prevPos reverse pos = seg.nextPos (!reverse) pos := by
    cases reverse <;> rfl
  rw [this] at h
  exact nextPos_lt seg (!reverse) pos q hpos h

/-- The cursor that `seekCursor` yields is a position of the index. -/
theorem seekCursor_lt (reverse : Bool) (index : TerarkIndex) (t : Bytes) (q : Nat) (c : Int)
    (h : TerarkZipTableIterator.seekCursor reverse index t = (some q, c)) :
    q < index.entries.length := by
  unfold TerarkZipTableIterator.seekCursor at h
  cases hs : TerarkIndex.Iterator.Seek index t with
  | none =>
    rw [hs] at h
    dsimp only at h
    split at h
    · unfold TerarkIndex.Iterator.SeekToLast at h
      split at h
      · cases h
      · have := (Prod.mk.inj h).1
        cases this
        omega
    · cases h
  | some pos =>
    rw [hs] at h
    dsimp only at h
    have hpos : pos < index.entries.length := by
      unfold TerarkIndex.Iterator.Seek at hs
      rcases seekFrom_of_eq t index.entries 0 _ hs with ⟨hn, _⟩ | ⟨k, hk, hlt, _⟩
      · cases hn
      · cases hk
        omega
    split at h
    · unfold TerarkIndex.Iterator.Prev at h
      split at h
      · have := (Prod.mk.inj h).1
        cases this
        omega
      · cases h
    · have := (Prod.mk.inj h).1
      cases this
      exact hpos

/-- The method `Next` of a valid single-segment iterator over a well-formed segment
returns. -/
theorem Single_Next_returns (reverse : Bool) (mv : ZipValueMultiValue)
    (seg : TerarkZipSegment) (it : TerarkZipTableIterator)
    (hw : seg.wellFormed mv it.global_seqno_ = true)
    (hinv : (IteratorClass.Single reverse seg).Consistent mv it) (hv : it.Valid = true) :
    ∃ it1, (IteratorClass.Single reverse seg).Next mv it = Except.ok it1 := by
  obtain ⟨seg1, pos, hseg, hh, hlt⟩ := hinv.1 hv
  obtain rfl : seg = seg1 := Option.some.inj hseg
  have hpos := fetchable_lt seg pos hh.2.2.2.1
  have hall := (wellFormed_iff mv seg it.global_seqno_).mp hw
  have hrec := (recordOk_iff mv seg it.global_seqno_ pos).mp (hall pos hpos)
  by_cases hj : it.validx_ + 1 < seg.valnumAt mv pos
  · obtain ⟨it1, h1, _⟩ := Single_Next_within reverse mv seg it.global_seqno_ it pos
      it.validx_ hh hj (hrec.2.2 _ hj)
    exact ⟨it1, h1⟩
  · cases hq : seg.nextPos reverse pos with
    | none =>
      obtain ⟨it1, h1, _⟩ := Single_Next_end reverse mv seg it.global_seqno_ it pos
        it.validx_ hh hj hq
      exact ⟨it1, h1⟩
    | some q =>
      obtain ⟨it1, h1, _⟩ := Single_Next_record reverse mv seg it.global_seqno_ it pos
        it.validx_ q hh hj hq (hall q (nextPos_lt seg reverse pos q hpos hq))
      exact ⟨it1, h1⟩

/-- The method `Prev` of a valid single-segment iterator over a well-formed segment
returns. -/
theorem Single_Prev_returns (reverse : Bool) (mv : ZipValueMultiValue)
    (seg : TerarkZipSegment) (it : TerarkZipTableIterator)
    (hw : seg.wellFormed mv it.global_seqno_ = true)
    (hinv : (IteratorClass.Single reverse seg).Consistent mv it) (hv : it.Valid = true) :
    ∃ it1, (IteratorClass.Single reverse seg).Prev mv it = Except.ok it1 := by
  obtain ⟨seg1, pos, hseg, hh, hlt⟩ := hinv.1 hv
  obtain rfl : seg = seg1 := Option.some.inj hseg
  have hpos := fetchable_lt seg pos hh.2.2.2.1
  have hall := (wellFormed_iff mv seg it.global_seqno_).mp hw
  have hrec := (recordOk_iff mv seg it.global_seqno_ pos).mp (hall pos hpos)
  by_cases hj : 0 < it.validx_
  · obtain ⟨it1, h1, _⟩ := Single_Prev_within reverse mv seg it.global_seqno_ it pos
      it.validx_ hh hj hlt (hrec.2.2 _ (by omega))
    exact ⟨it1, h1⟩
  · have h0 : it.validx_ = 0 := by omega
    rw [h0] at hh
    cases hq : seg.prevPos reverse pos with
    | none =>
      obtain ⟨it1, h1, _⟩ := Single_Prev_end reverse mv seg it.global_seqno_ it pos hh hq
      exact ⟨it1, h1⟩
    | some q =>
      obtain ⟨it1, h1, _⟩ := Single_Prev_record reverse mv seg it.global_seqno_ it pos q
        hh hq (hall q (prevPos_lt seg reverse pos q hpos hq))
      exact ⟨it1, h1⟩

/-- The version walk of `Seek` over a record: either some version has a sequence at most
the target, and then there is a first such version, or every version is newer. -/
theorem first_visible_version (f : Nat → Nat) (s : Nat) : ∀ (n : Nat),
    (∃ j, j < n ∧ f j ≤ s ∧ ∀ i, i < j → s < f i) ∨ (∀ i, i < n → s < f i) := by
  intro n
  induction n with
  | zero => exact Or.inr (fun i hi => absurd hi (Nat.not_lt_zero i))
  | succ n ih =>
    rcases ih with ⟨j, hj, h1, h2⟩ | hall
    · exact Or.inl ⟨j, by omega, h1, h2⟩
    · by_cases hn : f n ≤ s
      · exact Or.inl ⟨n, by omega, hn, hall⟩
      · refine Or.inr (fun i hi => ?_)
        by_cases he : i = n
        · rw [he]; omega
        · exact hall i (by omega)

/-- The method `Seek` of a single-segment iterator over a well-formed segment that is not
empty returns. -/
theorem Single_Seek_returns (reverse : Bool) (validType : Nat → Bool)
    (mv : ZipValueMultiValue) (seg : TerarkZipSegment) (it : TerarkZipTableIterator)
    (target : Bytes)
    (hw : seg.wellFormed mv it.global_seqno_ = true)
    (hne : 0 < seg.index_.entries.length) :
    ∃ it1, (IteratorClass.Single reverse seg).Seek validType mv it target =
      Except.ok it1 := by
  have hall := (wellFormed_iff mv seg it.global_seqno_).mp hw
  cases hparse : ParseInternalKey validType target with
  | none =>
    simp only [IteratorClass.Seek, hparse]
    exact ⟨_, rfl⟩
  | some pikey =>
    rw [Single_Seek_eq reverse validType mv seg it target pikey hparse]
    have hg : it.TryPinInterKeyBuf.global_seqno_ = it.global_seqno_ :=
      (TryPinInterKeyBuf_fields it).2.1
    have hfirst : ∃ it1, (IteratorClass.Single reverse seg).SeekToFirst mv
        it.TryPinInterKeyBuf = Except.ok it1 := by
      obtain ⟨it1, h1, _⟩ := Single_SeekToFirst_some reverse mv seg it.global_seqno_
        it.TryPinInterKeyBuf _ hg (positions_head seg reverse hne) (hall _ (by
          cases reverse
          · simpa using hne
          · simp only [if_true]; omega))
      exact ⟨it1, h1⟩
    have hend : ∃ it1, (IteratorClass.Single reverse seg).seekToEnd mv
        it.TryPinInterKeyBuf = Except.ok it1 := by
      obtain ⟨it1, h1, _⟩ := Single_seekToEnd reverse mv seg it.global_seqno_
        it.TryPinInterKeyBuf _ hg (positions_getLast seg reverse hne) (hall _ (by
          cases reverse
          · simp only [Bool.false_eq_true, if_false]; omega
          · simpa using hne))
      exact ⟨it1, h1⟩
    rcases Nat.lt_or_ge (difference_offset pikey.user_key seg.commonPrefix_)
      seg.commonPrefix_.length with hd | hd
    · rw [Single_SeekInternal_diverging reverse mv seg it pikey hd]
      split <;> split <;> first | exact hfirst | exact hend
    · have hal : seg.commonPrefix_.length =
          difference_offset pikey.user_key seg.commonPrefix_ :=
        Nat.le_antisymm hd (difference_offset_le_right _ _)
      cases hf : TerarkZipTableIterator.seekCursor reverse seg.index_
        (pikey.user_key.drop seg.commonPrefix_.length) with
      | mk cur c =>
        cases cur with
        | none =>
          obtain ⟨it1, h1, _⟩ := Single_SeekInternal_miss reverse mv seg it pikey c hal hf
          exact ⟨it1, h1⟩
        | some q =>
          have hq := seekCursor_lt reverse seg.index_ _ q c hf
          by_cases hc : c = 0
          · rw [hc] at hf
            have hrec := (recordOk_iff mv seg it.global_seqno_ q).mp (hall q hq)
            rcases first_visible_version (fun j => (seg.versionAt mv it.global_seqno_ q j).1)
              pikey.sequence (seg.valnumAt mv q) with ⟨j, hj, h1, h2⟩ | hnone
            · obtain ⟨it1, h3, _⟩ := Single_SeekInternal_exact_found reverse mv seg
                it.global_seqno_ it pikey q j rfl hal hf (hall q hq) hj h1 h2
              exact ⟨it1, h3⟩
            · obtain ⟨v, h3, h4, _⟩ := Single_SeekInternal_exact_none reverse mv seg
                it.global_seqno_ it pikey q rfl hal hf (hall q hq) hnone
              rw [h3]
              have hvg : v.global_seqno_ = it.global_seqno_ := h4.1.2.2.1
              refine Single_Next_returns reverse mv seg v (by rw [hvg]; exact hw) ?_
                (PositionedAt_Valid mv seg _ v q _ h4)
              refine Consistent_of_Holds _ mv v seg q rfl ?_ ?_
              · rw [hvg, h4.1.2.1]
                exact h4.1
              · rw [h4.1.2.1]
                exact h4.2.1
          · obtain ⟨it1, h1, _⟩ := Single_SeekInternal_inexact reverse mv seg
              it.global_seqno_ it pikey q c rfl hal hf hc (hall q hq)
            exact ⟨it1, h1⟩

/-- Every positioning operation of a single-segment iterator over a well-formed segment
that is not empty returns, `Next` and `Prev` when the iterator is valid. -/
theorem Single_apply_returns (reverse : Bool) (validType : Nat → Bool)
    (mv : ZipValueMultiValue) (seg : TerarkZipSegment) (it : TerarkZipTableIterator)
    (op : IteratorOp)
    (hw : seg.wellFormed mv it.global_seqno_ = true)
    (hne : 0 < seg.index_.entries.length)
    (hinv : (IteratorClass.Single reverse seg).Consistent mv it)
    (hop : op = IteratorOp.Next ∨ op = IteratorOp.Prev → it.Valid = true) :
    ∃ it1, (IteratorClass.Single reverse seg).apply validType mv it op = Except.ok it1 := by
  have hall := (wellFormed_iff mv seg it.global_seqno_).mp hw
  cases op with
  | SeekToFirst =>
    obtain ⟨it1, h1, _⟩ := Single_SeekToFirst_some reverse mv seg it.global_seqno_
      it _ rfl (positions_head seg reverse hne) (hall _ (by
        cases reverse
        · simpa using hne
        · simp only [if_true]; omega))
    exact ⟨it1, h1⟩
  | SeekToLast =>
    obtain ⟨it1, h1, _⟩ := Single_SeekToLast_some reverse mv seg it.global_seqno_
      it _ rfl (positions_getLast seg reverse hne) (hall _ (by
        cases reverse
        · simp only [Bool.false_eq_true, if_false]; omega
        · simpa using hne))
    exact ⟨it1, h1⟩
  | Seek target => exact Single_Seek_returns reverse validType mv seg it target hw hne
  | Next => exact Single_Next_returns reverse mv seg it hw hinv (hop (Or.inl rfl))
  | Prev => exact Single_Prev_returns reverse mv seg it hw hinv (hop (Or.inr rfl))

/-- C31: the state invariant of the iterator, in every class (single-segment forward and
reverse, u64, multi-segment). A freshly constructed iterator is invalid. After every
sequence of the public operations `SeekToFirst`, `SeekToLast`, `Seek`, `Next`, `Prev`
that the iterator returns from, either it is valid, and then it stands on a position
`pos` of its segment with `zValtype_` the tag and `valnum_` the number of versions of
the record under `pos`, `valnum_ ≥ 1` and `validx_ < valnum_`, with `valnum_ = 1` when
the record is not a `Multi` one; or it is invalid with `validx_ = valnum_ = 0` and the
parsed key reset to the empty user key, the sequence `2^64 - 1` and the type
`kMaxValue`. The operations do return: over a well-formed segment that is not empty
(every record can be fetched and decodes to at least one version) each operation of the
single-segment iterator returns from the state reached, `Next` and `Prev` when the
iterator is valid. -/
theorem iterator_state_invariant (cls : IteratorClass) (validType : Nat → Bool)
    (mv : ZipValueMultiValue) (global_seqno : Nat) (ops : List IteratorOp)
    (it : TerarkZipTableIterator)
    (h : cls.run validType mv (TerarkZipTableIterator.new global_seqno) ops = Except.ok it) :
    (TerarkZipTableIterator.new global_seqno).Valid = false ∧
    (it.Valid = true → ∃ seg pos, cls.segment it = some seg ∧ it.iter_ = some pos ∧
      it.zValtype_ = seg.typeAt pos ∧ it.valnum_ = seg.valnumAt mv pos ∧
      1 ≤ it.valnum_ ∧ it.validx_ < it.valnum_ ∧
      (it.zValtype_ ≠ kMulti → it.valnum_ = 1)) ∧
    (it.Valid = false → it.validx_ = 0 ∧ it.valnum_ = 0 ∧
      it.pInterKey_ = ⟨[], 2 ^ 64 - 1, kMaxValue⟩) ∧
    (∀ reverse seg, cls = IteratorClass.Single reverse seg →
      seg.wellFormed mv global_seqno = true → 0 < seg.index_.entries.length →
      ∀ op, (op = IteratorOp.Next ∨ op = IteratorOp.Prev → it.Valid = true) →
        ∃ it1, cls.apply validType mv it op = Except.ok it1) := by
  have hinv := run_Consistent cls validType mv ops _ it
    (new_Consistent cls mv global_seqno) h
  refine ⟨rfl, ?_, hinv.2, ?_⟩
  · intro hv
    obtain ⟨seg, pos, hseg, hh, hlt⟩ := hinv.1 hv
    obtain ⟨h1, _, _, _, h5, _, h7, _⟩ := hh
    refine ⟨seg, pos, hseg, h1, h5, h7, ?_, ?_, ?_⟩
    · rw [h7]; omega
    · rw [h7]; exact hlt
    · intro hne
      rw [h7]
      exact valnumAt_single mv seg pos (by rw [← h5]; exact hne)
  · intro reverse seg hcls hw hne op hop
    subst hcls
    exact Single_apply_returns reverse validType mv seg it op
      (by rw [wellFormed_seqno mv seg it.global_seqno_ global_seqno]; exact hw) hne hinv hop

/-- Witness of C31: the single-segment iterator over the healthy sample segment after
`SeekToFirst` and four `Next` stands on version 1 of a `Multi` record of two versions,
and `Next` returns from there. -/
theorem iterator_state_invariant_witness :
    sampleSecondVersion.Valid = true ∧
    (∃ seg pos, (IteratorClass.Single false healthySegment).segment sampleSecondVersion =
        some seg ∧ sampleSecondVersion.iter_ = some pos ∧
      sampleSecondVersion.zValtype_ = seg.typeAt pos ∧
      sampleSecondVersion.valnum_ = seg.valnumAt sampleMulti pos ∧
      1 ≤ sampleSecondVersion.valnum_ ∧
      sampleSecondVersion.validx_ < sampleSecondVersion.valnum_ ∧
      (sampleSecondVersion.zValtype_ ≠ kMulti → sampleSecondVersion.valnum_ = 1)) ∧
    sampleSecondVersion.validx_ = 1 ∧ sampleSecondVersion.valnum_ = 2 ∧
    (∃ it1, (IteratorClass.Single false healthySegment).apply anyType sampleMulti
      sampleSecondVersion IteratorOp.Next = Except.ok it1) :=
  ⟨by decide,
    (iterator_state_invariant (IteratorClass.Single false healthySegment) anyType
      sampleMulti 100 [IteratorOp.SeekToFirst, IteratorOp.Next, IteratorOp.Next,
        IteratorOp.Next, IteratorOp.Next] sampleSecondVersion (by rfl)).2.1 (by decide),
    by decide, by decide,
    (iterator_state_invariant (IteratorClass.Single false healthySegment) anyType
      sampleMulti 100 [IteratorOp.SeekToFirst, IteratorOp.Next, IteratorOp.Next,
        IteratorOp.Next, IteratorOp.Next] sampleSecondVersion (by rfl)).2.2.2 false
      healthySegment rfl (by decide) (by decide) IteratorOp.Next (fun _ => by decide)⟩

/-! ## The branch of a bad tag is out of reach -/

/-- A tag read from a type vector of 2-bit tags is one of 0..3. -/
theorem zvType_lt (seg : TerarkZipSegment) (htags : ∀ t ∈ seg.type_, t < 4)
    (recId z : Nat) (h : seg.zvType recId = some z) : z < 4 := by
  unfold TerarkZipSegment.zvType at h
  split at h
  · obtain ⟨hi, he⟩ := List.getElem?_eq_some_iff.mp h
    rw [← he]
    exact htags _ (List.getElem_mem _)
  · cases h
    decide

/-- The switch of `Get` on a tag in 0..3 returns `OK` when it returns. -/
theorem GetDecode_status {σ : Type} (mv : ZipValueMultiValue) (g : Nat)
    (gc : GetContext σ) (pikey : ParsedInternalKey) (zvType : Nat) (buf : Bytes) (st : σ)
    (o : Status × σ × List SaveCall) (hz : zvType < 4)
    (h : TerarkZipSegment.GetDecode mv g gc pikey zvType buf st = some o) :
    o.1 = Status.OK := by
  unfold TerarkZipSegment.GetDecode at h
  split at h
  · cases h; rfl
  · split at h
    · split at h
      · cases h
      · dsimp only at h
        split at h <;> (cases h; rfl)
    · split at h
      · split at h
        · cases h
        · dsimp only at h
          split at h <;> (cases h; rfl)
      · split at h
        · cases hm : TerarkZipSegment.GetMulti gc pikey (mv.decode buf) st with
          | none => rw [hm] at h; cases h
          | some r => rw [hm] at h; cases h; rfl
        · rename_i h0 h2 h1 h3
          simp only [kZeroSeq, kValue, kDelete, kMulti] at h0 h1 h2 h3
          omega

/-- The statuses that `Get` returns over a type vector of 2-bit tags. -/
theorem Get_status {σ : Type} (validType : Nat → Bool) (mv : ZipValueMultiValue)
    (seg : TerarkZipSegment) (g : Nat) (ikey : Bytes) (gc : GetContext σ) (st : σ)
    (u64 : Bool) (htags : ∀ t ∈ seg.type_, t < 4) (o : GetOutcome σ)
    (h : seg.Get validType mv g ikey gc st u64 = some o) :
    o.status = Status.OK ∨ o.status = Status.InvalidArgument ∨
      o.status = Status.Corruption := by
  unfold TerarkZipSegment.Get at h
  split at h
  · cases h; exact Or.inr (Or.inl rfl)
  · dsimp only at h
    split at h
    · cases h; exact Or.inl rfl
    · split at h
      · cases h
      · split at h
        · cases h; exact Or.inl rfl
        · split at h
          · cases h
          · rename_i z hz
            split at h
            · cases h; exact Or.inr (Or.inr rfl)
            · rename_i buf _
              cases hd : TerarkZipSegment.GetDecode mv g gc _ z buf st with
              | none => rw [hd] at h; cases h
              | some r =>
                rw [hd] at h
                cases h
                exact Or.inl (GetDecode_status mv g gc _ z buf st r
                  (zvType_lt seg htags _ z hz) hd)

/-- A weaker property of the result keeps `NoAbort`. -/
theorem NoAbort_mono {α : Type} (P Q : α → Prop) (r : Except Fault α)
    (hpq : ∀ a, P a → Q a) (h : NoAbort P r) : NoAbort Q r := by
  cases r with
  | error e => exact h
  | ok a => exact hpq a h

/-- The method `DecodeCurrKeyValueInternal` on a tag in 0..3 does not reach `abort()`,
and keeps the tag and the version counters. -/
theorem DecodeCurrKeyValueInternal_NoAbort (mv : ZipValueMultiValue)
    (it : TerarkZipTableIterator) (ht : it.zValtype_ < 4) :
    NoAbort (fun it1 => it1.zValtype_ = it.zValtype_ ∧ it1.valnum_ = it.valnum_ ∧
      it1.validx_ = it.validx_ ∧ it1.segment_ = it.segment_)
      (it.DecodeCurrKeyValueInternal mv) := by
  unfold TerarkZipTableIterator.DecodeCurrKeyValueInternal
  split
  · exact ⟨rfl, rfl, rfl, rfl⟩
  · split
    · split
      · rfl
      · exact ⟨rfl, rfl, rfl, rfl⟩
    · split
      · split
        · rfl
        · exact ⟨rfl, rfl, rfl, rfl⟩
      · split
        · split
          · rfl
          · split
            · rfl
            · exact ⟨rfl, rfl, rfl, rfl⟩
        · rename_i h0 h2 h1 h3
          simp only [kZeroSeq, kValue, kDelete, kMulti] at h0 h1 h2 h3
          omega

/-- In every class, `DecodeCurrKeyValue` on a tag in 0..3 does not reach `abort()`, and
keeps the tag. -/
theorem DecodeCurrKeyValue_NoAbort (cls : IteratorClass) (mv : ZipValueMultiValue)
    (it : TerarkZipTableIterator) (ht : it.zValtype_ < 4) :
    NoAbort (fun it1 => it1.zValtype_ < 4) (cls.DecodeCurrKeyValue mv it) := by
  have h := DecodeCurrKeyValueInternal_NoAbort mv it ht
  have key : ∀ (f : TerarkZipTableIterator → TerarkZipTableIterator),
      (∀ a, (f a).zValtype_ = a.zValtype_) →
      NoAbort (fun it1 => it1.zValtype_ < 4)
        (match it.DecodeCurrKeyValueInternal mv with
          | Except.error e => Except.error e
          | Except.ok it1 => Except.ok (f it1)) := by
    intro f hf
    cases hr : it.DecodeCurrKeyValueInternal mv with
    | error e =>
      rw [hr] at h
      exact h
    | ok a =>
      rw [hr] at h
      show (f a).zValtype_ < 4
      rw [hf a, h.1]
      exact ht
  cases cls with
  | Single reverse seg =>
    exact key (fun it1 => { it1 with
      interKeyBuf_xx_ := AppendInternalKey seg.commonPrefix_ it1.pInterKey_ }) (fun _ => rfl)
  | Uint64 seg =>
    exact key (fun it1 => { it1 with
      interKeyBuf_xx_ := byte_swap ((AppendInternalKey seg.commonPrefix_ it1.pInterKey_).take 8)
        ++ (AppendInternalKey seg.commonPrefix_ it1.pInterKey_).drop 8 }) (fun _ => rfl)
  | Multi reverse si =>
    simp only [IteratorClass.DecodeCurrKeyValue]
    split
    · rfl
    · rename_i seg _
      exact key (fun it1 => { it1 with
        interKeyBuf_xx_ := AppendInternalKey (seg.prefix_ ++ seg.commonPrefix_)
          it1.pInterKey_ }) (fun _ => rfl)

/-- An iterator that was just set invalid has its version counters reset. -/
theorem SetIterInvalid_TagKnown (cls : IteratorClass) (it : TerarkZipTableIterator) :
    (cls.SetIterInvalid it).TagKnown :=
  Or.inl ⟨(SetIterInvalid_reset cls it).2.1, (SetIterInvalid_reset cls it).1⟩

/-- In every class over type vectors of 2-bit tags, `UnzipIterRecord` does not reach
`abort()`; when it returns `true` the tag is one of 0..3, and when it returns `false`
the version counters are reset. -/
theorem UnzipIterRecord_NoAbort (cls : IteratorClass) (mv : ZipValueMultiValue)
    (htags : ∀ (it : TerarkZipTableIterator) seg, cls.segment it = some seg →
      ∀ t ∈ seg.type_, t < 4)
    (it : TerarkZipTableIterator) (b : Bool) :
    NoAbort (fun u => u.1.TagKnown ∧ (u.2 = true → u.1.zValtype_ < 4))
      (cls.UnzipIterRecord mv it b) := by
  unfold IteratorClass.UnzipIterRecord
  split
  · split
    · rfl
    · rename_i seg hseg
      split
      · rfl
      · dsimp only
        split
        · rfl
        · rename_i z hz
          have hz4 := zvType_lt seg (htags it seg hseg) _ z hz
          split
          · refine ⟨?_, ?_⟩
            · exact Or.inl ⟨(SetIterInvalid_reset cls _).2.1, (SetIterInvalid_reset cls _).1⟩
            · intro hf
              cases hf
          · have : ({ it with zValtype_ := z } : TerarkZipTableIterator).TryPinValueBuf.zValtype_
                = z := (TryPinValueBuf_fields _).1
            refine ⟨Or.inr ?_, fun _ => ?_⟩
            · show TerarkZipTableIterator.zValtype_ _ < 4
              rw [this]
              exact hz4
            · show TerarkZipTableIterator.zValtype_ _ < 4
              rw [this]
              exact hz4
  · refine ⟨SetIterInvalid_TagKnown cls it, ?_⟩
    intro hf
    cases hf

/-- In every class over type vectors of 2-bit tags, the tail of a positioning method
does not reach `abort()`. -/
theorem unzipAndDecode_NoAbort (cls : IteratorClass) (mv : ZipValueMultiValue)
    (htags : ∀ (it : TerarkZipTableIterator) seg, cls.segment it = some seg →
      ∀ t ∈ seg.type_, t < 4)
    (toLast : Bool) (r : TerarkZipTableIterator × Bool) :
    NoAbort TerarkZipTableIterator.TagKnown (cls.unzipAndDecode mv toLast r) := by
  unfold IteratorClass.unzipAndDecode
  have hu := UnzipIterRecord_NoAbort cls mv htags r.1 r.2
  cases hr : cls.UnzipIterRecord mv r.1 r.2 with
  | error e =>
    rw [hr] at hu
    exact hu
  | ok u =>
    rw [hr] at hu
    dsimp only
    split
    · rename_i hflag
      refine NoAbort_mono _ _ _ (fun a ha => Or.inr ha) ?_
      apply DecodeCurrKeyValue_NoAbort
      split
      · exact hu.2 hflag
      · exact hu.2 hflag
    · exact hu.1

/-- The step of the multi-segment iterator onto a segment does not reach `abort()`. -/
theorem enterSegment_NoAbort (si : SegmentIndex) (i : Nat) (toLast : Bool)
    (it : TerarkZipTableIterator) :
    NoAbort (fun _ => True) (TerarkZipTableMultiIterator.enterSegment si i toLast it) := by
  unfold TerarkZipTableMultiIterator.enterSegment
  split
  · rfl
  · trivial

/-- The cursor step of the multi-segment iterator does not reach `abort()`. -/
theorem Multi_step_NoAbort (si : SegmentIndex) (up : Bool) (it : TerarkZipTableIterator) :
    NoAbort (fun _ => True) (TerarkZipTableMultiIterator.step si up it) := by
  unfold TerarkZipTableMultiIterator.step
  dsimp only
  split
  · cases up <;> simp only [Bool.false_eq_true, if_false, if_true] <;>
      (split
       · trivial
       · split
         · trivial
         · exact enterSegment_NoAbort _ _ _ _)
  · rfl

/-- In every class, the moves of the index cursor do not reach `abort()`. -/
theorem IndexIter_NoAbort (cls : IteratorClass) (it : TerarkZipTableIterator) :
    NoAbort (fun _ => True) (cls.IndexIterSeekToFirst it) ∧
    NoAbort (fun _ => True) (cls.IndexIterSeekToLast it) ∧
    NoAbort (fun _ => True) (cls.IndexIterNext it) ∧
    NoAbort (fun _ => True) (cls.IndexIterPrev it) := by
  have hs : ∀ (rev : Bool) (seg : TerarkZipSegment),
      NoAbort (fun _ => True) (TerarkZipTableIterator.IndexIterNext rev seg it) ∧
      NoAbort (fun _ => True) (TerarkZipTableIterator.IndexIterPrev rev seg it) := by
    intro rev seg
    unfold TerarkZipTableIterator.IndexIterNext TerarkZipTableIterator.IndexIterPrev
    constructor
    · split
      · rfl
      · trivial
    · split
      · rfl
      · trivial
  cases cls with
  | Single reverse seg => exact ⟨trivial, trivial, (hs reverse seg).1, (hs reverse seg).2⟩
  | Uint64 seg => exact ⟨trivial, trivial, (hs false seg).1, (hs false seg).2⟩
  | Multi reverse si =>
    refine ⟨?_, ?_, Multi_step_NoAbort si _ it, Multi_step_NoAbort si _ it⟩
    · simp only [IteratorClass.IndexIterSeekToFirst,
        TerarkZipTableMultiIterator.IndexIterSeekToFirst]
      split <;> exact enterSegment_NoAbort _ _ _ _
    · simp only [IteratorClass.IndexIterSeekToLast,
        TerarkZipTableMultiIterator.IndexIterSeekToLast]
      split <;> exact enterSegment_NoAbort _ _ _ _

/-- An operation that does not reach `abort()` and stops stops at a read out of
bounds. -/
theorem NoAbort_of_eq_error {α : Type} (P : α → Prop) (r : Except Fault α) (e : Fault)
    (h : NoAbort P r) (he : r = Except.error e) : e = Fault.OutOfBounds := by
  rw [he] at h
  exact h

/-- An operation that does not reach `abort()` and returns returns a result with the
property. -/
theorem NoAbort_of_eq_ok {α : Type} (P : α → Prop) (r : Except Fault α) (a : α)
    (h : NoAbort P r) (he : r = Except.ok a) : P a := by
  rw [he] at h
  exact h

/-- In every class over type vectors of 2-bit tags, `SeekToFirst` does not reach
`abort()`. -/
theorem SeekToFirst_NoAbort (cls : IteratorClass) (mv : ZipValueMultiValue)
    (htags : ∀ (it : TerarkZipTableIterator) seg, cls.segment it = some seg →
      ∀ t ∈ seg.type_, t < 4)
    (it : TerarkZipTableIterator) :
    NoAbort TerarkZipTableIterator.TagKnown (cls.SeekToFirst mv it) := by
  unfold IteratorClass.SeekToFirst
  have hi := (IndexIter_NoAbort cls it).1
  cases hr : cls.IndexIterSeekToFirst it with
  | error e =>
    rw [hr] at hi
    exact hi
  | ok r => exact unzipAndDecode_NoAbort cls mv htags false r

/-- In every class over type vectors of 2-bit tags, `SeekToLast` does not reach
`abort()`. -/
theorem SeekToLast_NoAbort (cls : IteratorClass) (mv : ZipValueMultiValue)
    (htags : ∀ (it : TerarkZipTableIterator) seg, cls.segment it = some seg →
      ∀ t ∈ seg.type_, t < 4)
    (it : TerarkZipTableIterator) :
    NoAbort TerarkZipTableIterator.TagKnown (cls.SeekToLast mv it) := by
  unfold IteratorClass.SeekToLast
  have hi := (IndexIter_NoAbort cls it).2.1
  cases hr : cls.IndexIterSeekToLast it with
  | error e =>
    rw [hr] at hi
    exact hi
  | ok r => exact unzipAndDecode_NoAbort cls mv htags true r

/-- In every class over type vectors of 2-bit tags, `Next` does not reach `abort()`. -/
theorem Next_NoAbort (cls : IteratorClass) (mv : ZipValueMultiValue)
    (htags : ∀ (it : TerarkZipTableIterator) seg, cls.segment it = some seg →
      ∀ t ∈ seg.type_, t < 4)
    (it : TerarkZipTableIterator) (hk : it.TagKnown) :
    NoAbort TerarkZipTableIterator.TagKnown (cls.Next mv it) := by
  unfold IteratorClass.Next
  dsimp only
  by_cases hlt : it.validx_ + 1 < it.valnum_
  · rw [if_pos hlt]
    refine NoAbort_mono _ _ _ (fun a ha => Or.inr ha) ?_
    apply DecodeCurrKeyValue_NoAbort
    rcases hk with ⟨h0, _⟩ | h4
    · omega
    · exact h4
  · rw [if_neg hlt]
    have hi := (IndexIter_NoAbort cls { it with validx_ := it.validx_ + 1 }).2.2.1
    cases hr : cls.IndexIterNext { it with validx_ := it.validx_ + 1 } with
    | error e =>
      rw [hr] at hi
      exact hi
    | ok r => exact unzipAndDecode_NoAbort cls mv htags false r

/-- In every class over type vectors of 2-bit tags, `Prev` does not reach `abort()`. -/
theorem Prev_NoAbort (cls : IteratorClass) (mv : ZipValueMultiValue)
    (htags : ∀ (it : TerarkZipTableIterator) seg, cls.segment it = some seg →
      ∀ t ∈ seg.type_, t < 4)
    (it : TerarkZipTableIterator) (hk : it.TagKnown) :
    NoAbort TerarkZipTableIterator.TagKnown (cls.Prev mv it) := by
  unfold IteratorClass.Prev
  by_cases hlt : it.validx_ > 0
  · rw [if_pos hlt]
    refine NoAbort_mono _ _ _ (fun a ha => Or.inr ha) ?_
    apply DecodeCurrKeyValue_NoAbort
    rcases hk with ⟨_, h0⟩ | h4
    · omega
    · exact h4
  · rw [if_neg hlt]
    have hi := (IndexIter_NoAbort cls it).2.2.2
    cases hr : cls.IndexIterPrev it with
    | error e =>
      rw [hr] at hi
      exact hi
    | ok r => exact unzipAndDecode_NoAbort cls mv htags true r

/-- In every class, the version walk of `SeekInternal` on a tag in 0..3 does not reach
`abort()`, and keeps the tag. -/
theorem seekVersion_NoAbort (cls : IteratorClass) (mv : ZipValueMultiValue)
    (sequence : Nat) : ∀ (fuel : Nat) (it : TerarkZipTableIterator), it.zValtype_ < 4 →
      NoAbort (fun v => v.1.zValtype_ < 4) (cls.seekVersion mv sequence fuel it) := by
  intro fuel
  induction fuel with
  | zero =>
    intro it ht
    unfold IteratorClass.seekVersion
    have hd := DecodeCurrKeyValue_NoAbort cls mv it ht
    cases hr : cls.DecodeCurrKeyValue mv it with
    | error e =>
      rw [hr] at hd
      exact hd
    | ok it1 =>
      rw [hr] at hd
      dsimp only
      split
      · exact hd
      · split <;> exact hd
  | succ fuel ih =>
    intro it ht
    unfold IteratorClass.seekVersion
    have hd := DecodeCurrKeyValue_NoAbort cls mv it ht
    cases hr : cls.DecodeCurrKeyValue mv it with
    | error e =>
      rw [hr] at hd
      exact hd
    | ok it1 =>
      rw [hr] at hd
      dsimp only
      split
      · exact hd
      · split
        · exact ih { it1 with validx_ := it1.validx_ + 1 } hd
        · exact hd

/-- In every class over type vectors of 2-bit tags, `SeekToLast(); Next();` does not
reach `abort()`. -/
theorem seekToEnd_NoAbort (cls : IteratorClass) (mv : ZipValueMultiValue)
    (htags : ∀ (it : TerarkZipTableIterator) seg, cls.segment it = some seg →
      ∀ t ∈ seg.type_, t < 4)
    (it : TerarkZipTableIterator) :
    NoAbort TerarkZipTableIterator.TagKnown (cls.seekToEnd mv it) := by
  unfold IteratorClass.seekToEnd
  have hl := SeekToLast_NoAbort cls mv htags it
  cases hr : cls.SeekToLast mv it with
  | error e =>
    rw [hr] at hl
    exact hl
  | ok l =>
    rw [hr] at hl
    exact Next_NoAbort cls mv htags l hl

/-- In every class over type vectors of 2-bit tags, `SeekInternal` does not reach
`abort()`. -/
theorem SeekInternal_NoAbort (cls : IteratorClass) (mv : ZipValueMultiValue)
    (htags : ∀ (it : TerarkZipTableIterator) seg, cls.segment it = some seg →
      ∀ t ∈ seg.type_, t < 4)
    (it : TerarkZipTableIterator) (pikey : ParsedInternalKey) :
    NoAbort TerarkZipTableIterator.TagKnown (cls.SeekInternal mv it pikey) := by
  unfold IteratorClass.SeekInternal
  dsimp only
  cases hseg : cls.segment it.TryPinInterKeyBuf with
  | none => rfl
  | some seg =>
    dsimp only
    split
    · split
      · split
        · exact seekToEnd_NoAbort cls mv htags _
        · exact SeekToFirst_NoAbort cls mv htags _
      · split
        · exact SeekToFirst_NoAbort cls mv htags _
        · exact seekToEnd_NoAbort cls mv htags _
    · have hu := UnzipIterRecord_NoAbort cls mv htags
        { it.TryPinInterKeyBuf with iter_ := (TerarkZipTableIterator.seekCursor cls.reverse
          seg.index_ (pikey.user_key.drop
            (difference_offset pikey.user_key seg.commonPrefix_))).1 }
        (TerarkZipTableIterator.seekCursor cls.reverse seg.index_ (pikey.user_key.drop
            (difference_offset pikey.user_key seg.commonPrefix_))).1.isSome
      split
      · rename_i e he
        rw [he] at hu
        exact hu
      · rename_i u he
        rw [he] at hu
        split
        · rename_i hflag
          split
          · have hv := seekVersion_NoAbort cls mv pikey.sequence u.1.valnum_ u.1 (hu.2 hflag)
            split
            · rename_i e1 he1
              rw [he1] at hv
              exact hv
            · rename_i v hev
              rw [hev] at hv
              split
              · exact Or.inr hv
              · exact Next_NoAbort cls mv htags v.1 (Or.inr hv)
          · exact NoAbort_mono _ _ _ (fun a ha => Or.inr ha)
              (DecodeCurrKeyValue_NoAbort cls mv u.1 (hu.2 hflag))
        · exact hu.1

/-- In every class over type vectors of 2-bit tags, `Seek` does not reach `abort()`. -/
theorem Seek_NoAbort (cls : IteratorClass) (validType : Nat → Bool)
    (mv : ZipValueMultiValue)
    (htags : ∀ (it : TerarkZipTableIterator) seg, cls.segment it = some seg →
      ∀ t ∈ seg.type_, t < 4)
    (it : TerarkZipTableIterator) (target : Bytes) :
    NoAbort TerarkZipTableIterator.TagKnown (cls.Seek validType mv it target) := by
  cases cls with
  | Single reverse seg =>
    simp only [IteratorClass.Seek]
    split
    · exact SetIterInvalid_TagKnown _ _
    · exact SeekInternal_NoAbort _ mv htags it _
  | Uint64 seg =>
    simp only [IteratorClass.Seek]
    split
    · exact SetIterInvalid_TagKnown _ _
    · exact SeekInternal_NoAbort _ mv htags it _
  | Multi reverse si =>
    simp only [IteratorClass.Seek, TerarkZipTableMultiIterator.Seek]
    split
    · exact SetIterInvalid_TagKnown _ _
    · split
      · exact SetIterInvalid_TagKnown _ _
      · split
        · rfl
        · split
          · rename_i e he
            exact NoAbort_of_eq_error _ _ e (SeekInternal_NoAbort _ mv htags _ _) he
          · rename_i it2 he
            have hs : it2.TagKnown :=
              NoAbort_of_eq_ok _ _ it2 (SeekInternal_NoAbort _ mv htags _ _) he
            split
            · exact hs
            · split
              · split
                · split
                  · rename_i e1 he1
                    exact NoAbort_of_eq_error _ _ e1 (enterSegment_NoAbort _ _ _ _) he1
                  · exact unzipAndDecode_NoAbort _ mv htags true _
                · exact hs
              · split
                · split
                  · rename_i e1 he1
                    exact NoAbort_of_eq_error _ _ e1 (enterSegment_NoAbort _ _ _ _) he1
                  · exact unzipAndDecode_NoAbort _ mv htags false _
                · exact hs

/-- In every class over type vectors of 2-bit tags, no positioning operation reaches
`abort()`. -/
theorem apply_NoAbort (cls : IteratorClass) (validType : Nat → Bool)
    (mv : ZipValueMultiValue)
    (htags : ∀ (it : TerarkZipTableIterator) seg, cls.segment it = some seg →
      ∀ t ∈ seg.type_, t < 4)
    (it : TerarkZipTableIterator) (op : IteratorOp) (hk : it.TagKnown) :
    NoAbort TerarkZipTableIterator.TagKnown (cls.apply validType mv it op) := by
  cases op with
  | SeekToFirst => exact SeekToFirst_NoAbort cls mv htags it
  | SeekToLast => exact SeekToLast_NoAbort cls mv htags it
  | Seek target => exact Seek_NoAbort cls validType mv htags it target
  | Next => exact Next_NoAbort cls mv htags it hk
  | Prev => exact Prev_NoAbort cls mv htags it hk

/-- In every class over type vectors of 2-bit tags, no sequence of positioning
operations reaches `abort()`. -/
theorem run_NoAbort (cls : IteratorClass) (validType : Nat → Bool)
    (mv : ZipValueMultiValue)
    (htags : ∀ (it : TerarkZipTableIterator) seg, cls.segment it = some seg →
      ∀ t ∈ seg.type_, t < 4) :
    ∀ (ops : List IteratorOp) (it : TerarkZipTableIterator), it.TagKnown →
      NoAbort TerarkZipTableIterator.TagKnown (cls.run validType mv it ops) := by
  intro ops
  induction ops with
  | nil =>
    intro it hk
    exact hk
  | cons op ops ih =>
    intro it hk
    simp only [IteratorClass.run]
    have ha := apply_NoAbort cls validType mv htags it op hk
    split
    · rename_i e he
      rw [he] at ha
      exact ha
    · rename_i it1 he
      rw [he] at ha
      exact ih it1 ha

/-- The branch of a bad tag is in the model: over a type vector that holds the tag 4,
`Get` of the key `"abcX"` returns `Aborted`, and `SeekToFirst; Next` of the iterator
ends in `abort()`. -/
theorem bad_tag_Aborted :
    (badTagSegment.Get anyType sampleMulti 100 (abc ++ [0x58] ++ packed8 60 1)
      sampleContext [] false).map (fun o => o.status) = some Status.Aborted ∧
    (IteratorClass.Single false badTagSegment).run anyType sampleMulti
      (TerarkZipTableIterator.new 100) [IteratorOp.SeekToFirst, IteratorOp.Next] =
        Except.error Fault.Abort :=
  ⟨by decide, rfl⟩

/-- C32: for every segment whose type vector holds 2-bit tags (values 0..3) and every
internal key, `TerarkZipSegment::Get` never returns `Aborted`: when it returns, its
status is `OK`, `InvalidArgument` or `Corruption`. The `abort()` branch of the iterator
is out of reach as well: `DecodeCurrKeyValueInternal` on a tag in 0..3 does not take it,
and in every class of iterator whose segments hold 2-bit tags no sequence of positioning
operations on a freshly constructed iterator ends in `abort()`, whatever the
uninitialised field `zValtype_` holds at construction. -/
theorem Get_never_Aborted {σ : Type} (validType : Nat → Bool) (mv : ZipValueMultiValue)
    (seg : TerarkZipSegment) (global_seqno : Nat) (ikey : Bytes)
    (get_context : GetContext σ) (st : σ) (uint64Comparator : Bool)
    (htags : ∀ t ∈ seg.type_, t < 4) :
    (∀ o, seg.Get validType mv global_seqno ikey get_context st uint64Comparator = some o →
      o.status ≠ Status.Aborted ∧
      (o.status = Status.OK ∨ o.status = Status.InvalidArgument ∨
        o.status = Status.Corruption)) ∧
    (∀ it : TerarkZipTableIterator, it.zValtype_ < 4 →
      it.DecodeCurrKeyValueInternal mv ≠ Except.error Fault.Abort) ∧
    (∀ (reverse : Bool) (z : Nat) (ops : List IteratorOp),
      (IteratorClass.Single reverse seg).run validType mv
          { TerarkZipTableIterator.new global_seqno with zValtype_ := z } ops ≠
        Except.error Fault.Abort ∧
      (IteratorClass.Uint64 seg).run validType mv
          { TerarkZipTableIterator.new global_seqno with zValtype_ := z } ops ≠
        Except.error Fault.Abort) ∧
    (∀ cls : IteratorClass,
      (∀ (it : TerarkZipTableIterator) s, cls.segment it = some s → ∀ t ∈ s.type_, t < 4) →
      ∀ (z : Nat) (ops : List IteratorOp),
        cls.run validType mv { TerarkZipTableIterator.new global_seqno with zValtype_ := z }
          ops ≠ Except.error Fault.Abort) := by
  have hrun : ∀ cls : IteratorClass,
      (∀ (it : TerarkZipTableIterator) s, cls.segment it = some s → ∀ t ∈ s.type_, t < 4) →
      ∀ (z : Nat) (ops : List IteratorOp),
        cls.run validType mv { TerarkZipTableIterator.new global_seqno with zValtype_ := z }
          ops ≠ Except.error Fault.Abort := by
    intro cls hcls z ops hc
    have h := run_NoAbort cls validType mv hcls ops
      { TerarkZipTableIterator.new global_seqno with zValtype_ := z } (Or.inl ⟨rfl, rfl⟩)
    have := NoAbort_of_eq_error _ _ _ h hc
    cases this
  refine ⟨?_, ?_, ?_, hrun⟩
  · intro o ho
    have h := Get_status validType mv seg global_seqno ikey get_context st uint64Comparator
      htags o ho
    refine ⟨?_, h⟩
    intro hc
    rw [hc] at h
    rcases h with h | h | h <;> cases h
  · intro it ht hc
    have := NoAbort_of_eq_error _ _ _ (DecodeCurrKeyValueInternal_NoAbort mv it ht) hc
    cases this
  · intro reverse z ops
    constructor
    · apply hrun (IteratorClass.Single reverse seg)
      intro it s hs
      obtain rfl : seg = s := Option.some.inj hs
      exact htags
    · apply hrun (IteratorClass.Uint64 seg)
      intro it s hs
      obtain rfl : seg = s := Option.some.inj hs
      exact htags

/-- Witness of C32: the sample segment, whose tags are `Value`, `ZeroSeq`, `Multi`,
`Multi`, `Delete`, `Value`; `Get` of the key `"abcX"` returns `OK`, and the scan that
runs into the record that fails its checksum does not end in `abort()`. -/
theorem Get_never_Aborted_witness :
    sampleSegment.Get anyType sampleMulti 100 (abc ++ [0x58] ++ packed8 60 1)
        sampleContext [] false =
      some ⟨Status.OK, [[0x76, 0x35, 0x30]],
        [⟨⟨abc ++ [0x58], 50, kTypeValue⟩, [0x76, 0x35, 0x30]⟩], [[0x58]], [0]⟩ ∧
    Status.OK ≠ Status.Aborted ∧
    (IteratorClass.Single false sampleSegment).run anyType sampleMulti
        { TerarkZipTableIterator.new 100 with zValtype_ := 7 }
        [IteratorOp.SeekToLast, IteratorOp.SeekToFirst, IteratorOp.Next] ≠
      Except.error Fault.Abort :=
  ⟨by decide,
    ((Get_never_Aborted anyType sampleMulti sampleSegment 100
      (abc ++ [0x58] ++ packed8 60 1) sampleContext [] false (by decide)).1
      ⟨Status.OK, [[0x76, 0x35, 0x30]],
        [⟨⟨abc ++ [0x58], 50, kTypeValue⟩, [0x76, 0x35, 0x30]⟩], [[0x58]], [0]⟩
      (by decide)).1,
    ((Get_never_Aborted anyType sampleMulti sampleSegment 100
      (abc ++ [0x58] ++ packed8 60 1) sampleContext [] false (by decide)).2.2.1 false 7
      [IteratorOp.SeekToLast, IteratorOp.SeekToFirst, IteratorOp.Next]).1⟩

/-! ## `Seek` past a common prefix with a byte of 0x80 or more -/

/-- C17, evaluated on the code: the segment with the common prefix `cp = C3 A9` and the
stored keys `"é1"`, `"é2"`, and the target `"A"@30`. The user key `u = "A"` leaves the
common prefix at `clen = 0 < |cp|` with `|u| ≠ clen`, and `u[0] = 0x41 < cp[0] = 0xC3`
as unsigned bytes, so the claim puts a forward iterator on the first entry and leaves a
reverse iterator invalid. The code compares `byte_t(u[0])` with the `char` `cp[0]`,
which reads as `-61`: the comparison fails, the forward iterator runs
`SeekToLast(); Next()` and ends invalid, and the reverse iterator runs `SeekToFirst()`
and ends valid on `"é2"`. `SeekToFirst` of the forward iterator shows the first entry
that the claim expects. -/
theorem Seek_diverging_signed_char :
    difference_offset [0x41] highPrefixSegment.commonPrefix_ = 0 ∧
    decide (([0x41] : Bytes).length = 0) = false ∧
    decide ((([0x41] : Bytes).getD 0 0).toNat <
      (highPrefixSegment.commonPrefix_.getD 0 0).toNat) = true ∧
    decide (Int.ofNat (([0x41] : Bytes).getD 0 0).toNat <
      charValue (highPrefixSegment.commonPrefix_.getD 0 0)) = false ∧
    charValue (highPrefixSegment.commonPrefix_.getD 0 0) = -61 ∧
    ((IteratorClass.Single false highPrefixSegment).Seek anyType sampleMulti
      (TerarkZipTableIterator.new 100) ([0x41] ++ packed8 30 1)).toOption.map
      (fun it1 => (it1.Valid, it1.iter_, it1.status_)) = some (false, none, Status.OK) ∧
    ((IteratorClass.Single false highPrefixSegment).SeekToFirst sampleMulti
      (TerarkZipTableIterator.new 100)).toOption.map
      (fun it1 => (it1.Valid, it1.iter_, it1.key)) =
      some (true, some 0, [0xC3, 0xA9, 0x31] ++ packed8 100 1) ∧
    ((IteratorClass.Single true highPrefixSegment).Seek anyType sampleMulti
      (TerarkZipTableIterator.new 100) ([0x41] ++ packed8 30 1)).toOption.map
      (fun it1 => (it1.Valid, it1.iter_, it1.key)) =
      some (true, some 1, [0xC3, 0xA9, 0x32] ++ packed8 100 1) := by
  refine ⟨by decide, by decide, by decide, by decide, by decide, by decide, by decide,
    by decide⟩

/-- C18, evaluated on the code: the segment with the common prefix `C3 A9` and the stored
keys `"é1"`, `"é2"`, and the target `C3 41` (the byte `C3` followed by `"A"`) at sequence
30. The user key is bytewise strictly before every stored key, so the claim leaves a
forward iterator on the first entry `"é1"` and a reverse-comparator iterator invalid.
The forward `Seek` ends invalid and the reverse `Seek` ends valid on `"é2"`: the key
leaves the common prefix at offset 1, where `SeekInternal` compares `0x41` with the
`char` `0xA9`, a negative number. -/
theorem Seek_before_all_keys_signed_char :
    (∀ pos, pos < highPrefixSegment.index_.entries.length →
      fstring_lt [0xC3, 0x41]
        (highPrefixSegment.commonPrefix_ ++ highPrefixSegment.keyAt pos) = true) ∧
    0 < highPrefixSegment.index_.entries.length ∧
    highPrefixSegment.wellFormed sampleMulti 100 = true ∧
    ((IteratorClass.Single false highPrefixSegment).Seek anyType sampleMulti
      (TerarkZipTableIterator.new 100) ([0xC3, 0x41] ++ packed8 30 1)).toOption.map
      (fun it1 => (it1.Valid, it1.iter_, it1.status_)) = some (false, none, Status.OK) ∧
    ((IteratorClass.Single true highPrefixSegment).Seek anyType sampleMulti
      (TerarkZipTableIterator.new 100) ([0xC3, 0x41] ++ packed8 30 1)).toOption.map
      (fun it1 => (it1.Valid, it1.iter_, it1.key)) =
      some (true, some 1, [0xC3, 0xA9, 0x32] ++ packed8 100 1) := by
  refine ⟨by decide, by decide, by decide, by decide, by decide⟩

/-! ## The multi-segment iterator: corruption -/

/-- C19, evaluated on the code: the forward multi-segment iterator over the sample table
with the partitions `"p1"`, `"p2"`, `"p3"`, in each of which the record of the last key
`"abcZz"` fails its checksum. `Seek("p1abcZz"@60)` positions on that record of
partition `"p1"`: the fetch raises, `UnzipIterRecord` sets the iterator invalid with the
status `Corruption`, and `Seek`, which finds the iterator invalid, goes on to the first
key of partition `"p2"`. The operation ends with `Valid() = true` on `"p2abcW"` and
`status() = Corruption`. The same `Seek` in the single-segment iterator ends invalid with
the status `Corruption`. -/
theorem Multi_Seek_corruption_stays_valid :
    sampleSegmentIndex.GetSegment ([0x70, 0x31] ++ abc ++ [0x5A, 0x7A]) = some 0 ∧
    TerarkZipTableIterator.seekCursor false sampleSegment.index_ [0x5A, 0x7A] =
      (some 5, 0) ∧
    sampleSegment.corruptAt 5 = true ∧
    ((IteratorClass.Multi false sampleSegmentIndex).Seek anyType sampleMulti
      (TerarkZipTableIterator.new 100)
      ([0x70, 0x31] ++ abc ++ [0x5A, 0x7A] ++ packed8 60 1)).toOption.map
      (fun it1 => (it1.Valid, it1.status, it1.segment_, it1.key)) =
      some (true, Status.Corruption, some 1, [0x70, 0x32] ++ abc ++ [0x57] ++ packed8 30 0) ∧
    ((IteratorClass.Single false sampleSegment).Seek anyType sampleMulti
      (TerarkZipTableIterator.new 100) (abc ++ [0x5A, 0x7A] ++ packed8 60 1)).toOption.map
      (fun it1 => (it1.Valid, it1.status)) = some (false, Status.Corruption) := by
  refine ⟨by decide, by decide, by decide, by decide, by decide⟩

/-! ## `GetSegment` against the key cut to the prefix length -/

/-- A partition prefix is below the target of `GetSegment` exactly when it is below the
key cut to the prefix length: the zero bytes that pad a short key do not count. -/
theorem targetKey_above (prefixLen : Nat) (key P : Bytes) (hP : P.length = prefixLen) :
    fstring_lt P (SegmentIndex.targetKey prefixLen key) =
      fstring_lt P (key.take prefixLen) := by
  unfold SegmentIndex.targetKey
  split
  · apply fstring_lt_pad_right
    rw [List.length_take, hP]
    omega
  · rfl

/-- The target of `GetSegment` is not below a partition prefix exactly when the key cut
to the prefix length is not below it, or the key is short, the prefix length at most 8,
and the prefix is the key padded with zero bytes. -/
theorem targetKey_below (prefixLen : Nat) (key P : Bytes) (hP : P.length = prefixLen) :
    fstring_lt (SegmentIndex.targetKey prefixLen key) P = false ↔
      (fstring_lt (key.take prefixLen) P = false ∨
        (key.length < prefixLen ∧ prefixLen ≤ 8 ∧
          P = key ++ List.replicate (prefixLen - key.length) 0)) := by
  unfold SegmentIndex.targetKey
  by_cases h8 : prefixLen ≤ 8
  · rw [if_pos h8]
    by_cases hk : key.length < prefixLen
    · have hkt : key.take prefixLen = key := List.take_of_length_le (by omega)
      rw [hkt]
      by_cases he : P = key ++ List.replicate (prefixLen - key.length) 0
      · constructor
        · intro _
          exact Or.inr ⟨hk, h8, he⟩
        · intro _
          rw [← he]
          exact fstring_lt_irrefl _
      · rw [fstring_lt_pad_left key P _ (by rw [hP]; omega) he]
        constructor
        · intro h
          exact Or.inl h
        · intro h
          rcases h with h | ⟨-, -, h⟩
          · exact h
          · exact absurd h he
    · have : prefixLen - key.length = 0 := by omega
      rw [this, List.replicate_zero, List.append_nil]
      constructor
      · intro h
        exact Or.inl h
      · intro h
        rcases h with h | ⟨h, -, -⟩
        · exact h
        · exact absurd h hk
  · rw [if_neg h8]
    constructor
    · intro h
      exact Or.inl h
    · intro h
      rcases h with h | ⟨-, h, -⟩
      · exact h
      · exact absurd h h8

/-- Counterexample to C11 as stated: with the two-byte partition prefixes
`"p\0" < "q\0"` and the one-byte key `"p"`, the key truncated to 2 bytes is `"p"`, which
is below every partition prefix, so that no index has `prefix_i ≤` the truncated key;
in reverse mode `GetSegment` returns partition 0, not null. -/
theorem GetSegment_reverse_short_key :
    0 < 2 ∧ (∀ p ∈ zeroTailPrefixes, p.length = 2) ∧
    zeroTailPrefixes.Pairwise (fun a b => fstring_lt a b = true) ∧
    List.take 2 ([0x70] : Bytes) = [0x70] ∧
    (∀ p ∈ zeroTailPrefixes, fstring_lt (List.take 2 [0x70]) p = true) ∧
    (SegmentIndex.Init 2 zeroTailPrefixes [] true).GetSegment [0x70] = some 0 ∧
    ¬ IsGreatestIndex zeroTailPrefixes.length
      (fun i => fstring_lt (List.take 2 [0x70]) (zeroTailPrefixes.getD i []) = false)
      ((SegmentIndex.Init 2 zeroTailPrefixes [] true).GetSegment [0x70]) := by
  have hres : (SegmentIndex.Init 2 zeroTailPrefixes [] true).GetSegment [0x70] = some 0 := by
    decide
  refine ⟨by decide, by decide, by decide, by decide, by decide, hres, ?_⟩
  rw [hres]
  intro h
  exact absurd h.2.1 (by decide)

/-- C11, amended. For every `SegmentIndex` built by `Init` from partition prefixes of
length `L > 0` in strictly ascending order and every key, `GetSegment(key)` in forward
mode returns the least index `i` such that `prefix_i ≥` the key truncated to `L` bytes.
In reverse mode it returns the greatest index `i` such that `prefix_i ≤` the truncated
key or, when `L ≤ 8` and the key is shorter than `L` bytes, `prefix_i` is the key padded
with zero bytes to `L` bytes; when no partition prefix is such a padded key, that is the
greatest index with `prefix_i ≤` the truncated key. It returns null exactly when no such
index exists. The comparison is bytewise. The statement covers each of the five
strategies, which `Init` picks from `L`, the number of partitions and the mode as the
last two equations say. -/
theorem GetSegment_least_greatest (prefixLen : Nat) (pfx : List Bytes)
    (parts : List TerarkZipSegment) (key : Bytes)
    (hpos : 0 < prefixLen)
    (hlen : ∀ p ∈ pfx, p.length = prefixLen)
    (hsorted : pfx.Pairwise (fun a b => fstring_lt a b = true)) :
    IsLeastIndex pfx.length
      (fun i => fstring_lt (pfx.getD i []) (key.take prefixLen) = false)
      ((SegmentIndex.Init prefixLen pfx parts false).GetSegment key) ∧
    IsGreatestIndex pfx.length
      (fun i => fstring_lt (key.take prefixLen) (pfx.getD i []) = false ∨
        (key.length < prefixLen ∧ prefixLen ≤ 8 ∧
          pfx.getD i [] = key ++ List.replicate (prefixLen - key.length) 0))
      ((SegmentIndex.Init prefixLen pfx parts true).GetSegment key) ∧
    ((key.length < prefixLen → prefixLen ≤ 8 →
        key ++ List.replicate (prefixLen - key.length) 0 ∉ pfx) →
      IsGreatestIndex pfx.length
        (fun i => fstring_lt (key.take prefixLen) (pfx.getD i []) = false)
        ((SegmentIndex.Init prefixLen pfx parts true).GetSegment key)) ∧
    (SegmentIndex.Init prefixLen pfx parts false).get_segment_ptr =
      (if prefixLen ≤ 8 then
        if pfx.length < 32 then GetSegmentStrategy.U64Sequential
        else GetSegmentStrategy.U64Binary
      else GetSegmentStrategy.Bytewise) ∧
    (SegmentIndex.Init prefixLen pfx parts true).get_segment_ptr =
      (if prefixLen ≤ 8 then GetSegmentStrategy.U64BinaryReverse
      else GetSegmentStrategy.BytewiseReverse) := by
  have _ := hpos
  have hpl : ∀ i, i < pfx.length → (pfx.getD i []).length = prefixLen := by
    intro i hi
    rw [List.getD_eq_getElem _ _ hi]
    exact hlen _ (List.getElem_mem _)
  have hrev := Init_GetSegment_reverse prefixLen pfx parts key hlen hsorted
  refine ⟨?_, ?_, ?_, ?_, ?_⟩
  · refine IsLeastIndex_congr _ _ _ _ ?_
      (Init_GetSegment_forward prefixLen pfx parts key hlen hsorted)
    intro i hi
    rw [targetKey_above prefixLen key _ (hpl i hi)]
  · refine IsGreatestIndex_congr _ _ _ _ ?_ hrev
    intro i hi
    exact targetKey_below prefixLen key _ (hpl i hi)
  · intro hno
    refine IsGreatestIndex_congr _ _ _ _ ?_ hrev
    intro i hi
    rw [targetKey_below prefixLen key _ (hpl i hi)]
    constructor
    · intro h
      rcases h with h | ⟨hk, h8, he⟩
      · exact h
      · exfalso
        apply hno hk h8
        rw [← he, List.getD_eq_getElem _ _ hi]
        exact List.getElem_mem _
    · intro h
      exact Or.inl h
  · simp only [SegmentIndex.Init]
    split <;> simp
  · simp only [SegmentIndex.Init]
    split <;> simp

/-- Witness of C11, amended: the partitions `"p\0"`, `"q\0"` and the one-byte key
`"p"`. -/
theorem GetSegment_least_greatest_witness :
    IsLeastIndex zeroTailPrefixes.length
      (fun i => fstring_lt (zeroTailPrefixes.getD i []) (List.take 2 [0x70]) = false)
      ((SegmentIndex.Init 2 zeroTailPrefixes [] false).GetSegment [0x70]) ∧
    IsGreatestIndex zeroTailPrefixes.length
      (fun i => fstring_lt (List.take 2 [0x70]) (zeroTailPrefixes.getD i []) = false ∨
        (([0x70] : Bytes).length < 2 ∧ 2 ≤ 8 ∧
          zeroTailPrefixes.getD i [] =
            [0x70] ++ List.replicate (2 - ([0x70] : Bytes).length) 0))
      ((SegmentIndex.Init 2 zeroTailPrefixes [] true).GetSegment [0x70]) ∧
    ((([0x70] : Bytes).length < 2 → 2 ≤ 8 →
        [0x70] ++ List.replicate (2 - ([0x70] : Bytes).length) 0 ∉ zeroTailPrefixes) →
      IsGreatestIndex zeroTailPrefixes.length
        (fun i => fstring_lt (List.take 2 [0x70]) (zeroTailPrefixes.getD i []) = false)
        ((SegmentIndex.Init 2 zeroTailPrefixes [] true).GetSegment [0x70])) ∧
    (SegmentIndex.Init 2 zeroTailPrefixes [] false).get_segment_ptr =
      (if 2 ≤ 8 then
        if zeroTailPrefixes.length < 32 then GetSegmentStrategy.U64Sequential
        else GetSegmentStrategy.U64Binary
      else GetSegmentStrategy.Bytewise) ∧
    (SegmentIndex.Init 2 zeroTailPrefixes [] true).get_segment_ptr =
      (if 2 ≤ 8 then GetSegmentStrategy.U64BinaryReverse
      else GetSegmentStrategy.BytewiseReverse) :=
  GetSegment_least_greatest 2 zeroTailPrefixes [] [0x70] (by decide) (by decide) (by decide)

/-- Counterexample to C12 as stated. The key `"abcX"` is before (less than) every
partition prefix of the sample table, and in forward mode `GetSegment` returns segment
0, not null; the key `"q2_k"` is after (greater than) every partition prefix, and in
reverse mode `GetSegment` returns segment 2, not null. -/
theorem GetSegment_covers_key_before_all :
    (∀ p ∈ samplePrefixes, fstring_lt (List.take 2 [0x61, 0x62, 0x63, 0x58]) p = true) ∧
    sampleSegmentIndex.GetSegment [0x61, 0x62, 0x63, 0x58] = some 0 ∧
    (∀ p ∈ samplePrefixes, fstring_lt p (List.take 2 [0x71, 0x32, 0x5F, 0x6B]) = true) ∧
    sampleSegmentIndexReverse.GetSegment [0x71, 0x32, 0x5F, 0x6B] = some 2 := by
  decide

/-- C12, amended. `GetSegment(key)` returns null exactly when no partition covers the
key, namely: in forward mode when the key's `L`-byte prefix is after (greater than)
every partition prefix; in reverse mode when the key's `L`-byte prefix is before (less
than) every partition prefix and, for `L ≤ 8` and a key shorter than `L` bytes, the key
padded with zero bytes to `L` bytes is not a partition prefix. -/
theorem GetSegment_null_iff (prefixLen : Nat) (pfx : List Bytes)
    (parts : List TerarkZipSegment) (key : Bytes)
    (hpos : 0 < prefixLen)
    (hlen : ∀ p ∈ pfx, p.length = prefixLen)
    (hsorted : pfx.Pairwise (fun a b => fstring_lt a b = true)) :
    ((SegmentIndex.Init prefixLen pfx parts false).GetSegment key = none ↔
      ∀ p ∈ pfx, fstring_lt p (key.take prefixLen) = true) ∧
    ((SegmentIndex.Init prefixLen pfx parts true).GetSegment key = none ↔
      (∀ p ∈ pfx, fstring_lt (key.take prefixLen) p = true) ∧
      ¬ (key.length < prefixLen ∧ prefixLen ≤ 8 ∧
        key ++ List.replicate (prefixLen - key.length) 0 ∈ pfx)) := by
  have _ := hpos
  have hf := Init_GetSegment_forward prefixLen pfx parts key hlen hsorted
  have hr := Init_GetSegment_reverse prefixLen pfx parts key hlen hsorted
  constructor
  · constructor
    · intro hnone p hp
      rw [hnone] at hf
      obtain ⟨i, hi, rfl⟩ := List.getElem_of_mem hp
      have := hf i hi
      dsimp only at this
      rw [List.getD_eq_getElem _ _ hi, targetKey_above prefixLen key _ (hlen _ hp)] at this
      simpa using this
    · intro hall
      cases hres : (SegmentIndex.Init prefixLen pfx parts false).GetSegment key with
      | none => rfl
      | some i =>
        rw [hres] at hf
        obtain ⟨hi, hp, -⟩ := hf
        rw [List.getD_eq_getElem _ _ hi,
          targetKey_above prefixLen key _ (hlen _ (List.getElem_mem _)),
          hall _ (List.getElem_mem _)] at hp
        exact absurd hp (by simp)
  · constructor
    · intro hnone
      rw [hnone] at hr
      have hall : ∀ p ∈ pfx, ¬ (fstring_lt (key.take prefixLen) p = false ∨
          (key.length < prefixLen ∧ prefixLen ≤ 8 ∧
            p = key ++ List.replicate (prefixLen - key.length) 0)) := by
        intro p hp
        obtain ⟨i, hi, rfl⟩ := List.getElem_of_mem hp
        have := hr i hi
        dsimp only at this
        rw [List.getD_eq_getElem _ _ hi, targetKey_below prefixLen key _ (hlen _ hp)] at this
        exact this
      constructor
      · intro p hp
        cases h : fstring_lt (key.take prefixLen) p with
        | true => rfl
        | false => exact absurd (Or.inl h) (hall p hp)
      · intro hc
        exact hall _ hc.2.2 (Or.inr ⟨hc.1, hc.2.1, rfl⟩)
    · intro hall
      cases hres : (SegmentIndex.Init prefixLen pfx parts true).GetSegment key with
      | none => rfl
      | some i =>
        rw [hres] at hr
        obtain ⟨hi, hp, -⟩ := hr
        rw [List.getD_eq_getElem _ _ hi,
          targetKey_below prefixLen key _ (hlen _ (List.getElem_mem _))] at hp
        rcases hp with hp | ⟨hk, h8, he⟩
        · rw [hall.1 _ (List.getElem_mem _)] at hp
          exact absurd hp (by simp)
        · exfalso
          apply hall.2
          refine ⟨hk, h8, ?_⟩
          rw [← he]
          exact List.getElem_mem _

/-- Witness of C12, amended: the partitions `"p\0"`, `"q\0"` and the one-byte key
`"p"`. -/
theorem GetSegment_null_iff_witness :
    ((SegmentIndex.Init 2 zeroTailPrefixes [] false).GetSegment [0x70] = none ↔
      ∀ p ∈ zeroTailPrefixes, fstring_lt p (List.take 2 [0x70]) = true) ∧
    ((SegmentIndex.Init 2 zeroTailPrefixes [] true).GetSegment [0x70] = none ↔
      (∀ p ∈ zeroTailPrefixes, fstring_lt (List.take 2 [0x70]) p = true) ∧
      ¬ (([0x70] : Bytes).length < 2 ∧ 2 ≤ 8 ∧
        [0x70] ++ List.replicate (2 - ([0x70] : Bytes).length) 0 ∈ zeroTailPrefixes)) :=
  GetSegment_null_iff 2 zeroTailPrefixes [] [0x70] (by decide) (by decide) (by decide)

end TerarkZip
